import Mathlib

/-!
# alsa-lib configuration engine: a shallow embedding of `src/conf.c`

The configuration tree, the lexer and parser, the printer, the path resolver,
the tree walker (copy policy) and the argument binder of `src/conf.c` are
translated function by function.  Conventions of the embedding:

* a C string is the list of its bytes before the terminating NUL (`Str`);
* a function returning a negative errno value returns `Except.error` of that
  (negative) value, or a record holding the status next to the state it leaves;
* the tree is a value: the `father` back pointer of a node is the position of the
  node inside its parent, and a function that mutates a node returns the new node;
* allocation never fails (no `-ENOMEM` path);
* loops without a bound known in advance take a `fuel` argument and return
  `none` when it runs out;
* a call for which C defines no result (a failed assertion, a NULL identifier
  handed to `strcmp` or `strdup`) is `none` as well.
-/

set_option autoImplicit false

namespace Conf

/-! ## Data model -/

/-- C string: the bytes before the terminating NUL. -/
abbrev Str := List Nat

/-- The bytes of a Lean string literal, used to write C string literals. -/
def cstr (s : String) : Str := s.toList.map Char.toNat

def EOF : Int := -1
def ENOENT : Int := 2
def ENXIO : Int := 6
def ENOMEM : Int := 12
def EEXIST : Int := 17
def EINVAL : Int := 22
def ERANGE : Int := 34

/-- Largest value of the C type `long` (LP64). -/
def LONG_MAX : Int := 9223372036854775807
/-- Smallest value of the C type `long` (LP64). -/
def LONG_MIN : Int := -9223372036854775808

/-- The C type `double`, kept abstract: a value is named by its binary64 bit
pattern, and the libc functions that produce or print one are parameters. -/
structure double where
  bits : Nat
deriving DecidableEq, Repr

/-- Node type tag (`snd_config_type_t`). -/
inductive snd_config_type_t where
  | INTEGER
  | REAL
  | STRING
  | COMPOUND
deriving DecidableEq, Repr

/-- Configuration node (`struct _snd_config`): `id`, the type tag with the
matching member of the union `u`; a compound holds its `join` flag and the list
`fields` of its children in insertion order. -/
inductive snd_config_t where
  | integer (id : Option Str) (v : Int)
  | real (id : Option Str) (v : double)
  | string (id : Option Str) (v : Str)
  | compound (id : Option Str) (join : Bool) (fields : List snd_config_t)

mutual
def snd_config_t.beq : snd_config_t → snd_config_t → Bool
  | .integer i v, .integer j w => decide (i = j) && decide (v = w)
  | .real i v, .real j w => decide (i = j) && decide (v = w)
  | .string i v, .string j w => decide (i = j) && decide (v = w)
  | .compound i a fs, .compound j b gs =>
      decide (i = j) && decide (a = b) && snd_config_t.beqList fs gs
  | _, _ => false
def snd_config_t.beqList : List snd_config_t → List snd_config_t → Bool
  | [], [] => true
  | f :: fs, g :: gs => snd_config_t.beq f g && snd_config_t.beqList fs gs
  | _, _ => false
end

mutual
theorem snd_config_t.beq_iff : ∀ a b : snd_config_t, snd_config_t.beq a b = true ↔ a = b
  | .integer i v, .integer j w => by simp [snd_config_t.beq]
  | .real i v, .real j w => by simp [snd_config_t.beq]
  | .string i v, .string j w => by simp [snd_config_t.beq]
  | .compound i a fs, .compound j b gs => by
      simp [snd_config_t.beq, snd_config_t.beqList_iff fs gs, and_assoc]
  | .integer _ _, .real _ _ => by simp [snd_config_t.beq]
  | .integer _ _, .string _ _ => by simp [snd_config_t.beq]
  | .integer _ _, .compound _ _ _ => by simp [snd_config_t.beq]
  | .real _ _, .integer _ _ => by simp [snd_config_t.beq]
  | .real _ _, .string _ _ => by simp [snd_config_t.beq]
  | .real _ _, .compound _ _ _ => by simp [snd_config_t.beq]
  | .string _ _, .integer _ _ => by simp [snd_config_t.beq]
  | .string _ _, .real _ _ => by simp [snd_config_t.beq]
  | .string _ _, .compound _ _ _ => by simp [snd_config_t.beq]
  | .compound _ _ _, .integer _ _ => by simp [snd_config_t.beq]
  | .compound _ _ _, .real _ _ => by simp [snd_config_t.beq]
  | .compound _ _ _, .string _ _ => by simp [snd_config_t.beq]
theorem snd_config_t.beqList_iff :
    ∀ a b : List snd_config_t, snd_config_t.beqList a b = true ↔ a = b
  | [], [] => by simp [snd_config_t.beqList]
  | f :: fs, g :: gs => by
      simp [snd_config_t.beqList, snd_config_t.beq_iff f g, snd_config_t.beqList_iff fs gs]
  | [], _ :: _ => by simp [snd_config_t.beqList]
  | _ :: _, [] => by simp [snd_config_t.beqList]
end

instance : DecidableEq snd_config_t := fun a b =>
  decidable_of_iff _ (snd_config_t.beq_iff a b)

deriving instance DecidableEq for Except

/-- Source `snd_config_get_type`. -/
def snd_config_get_type : snd_config_t → snd_config_type_t
  | .integer _ _ => .INTEGER
  | .real _ _ => .REAL
  | .string _ _ => .STRING
  | .compound _ _ _ => .COMPOUND

/-- Source `snd_config_get_id`. -/
def snd_config_get_id : snd_config_t → Option Str
  | .integer i _ => i
  | .real i _ => i
  | .string i _ => i
  | .compound i _ _ => i

/-- The child list `u.compound.fields` that `snd_config_for_each` iterates.  Every
caller in the source iterates a compound; a leaf has no list and gives `[]`. -/
def fields : snd_config_t → List snd_config_t
  | .compound _ _ fs => fs
  | _ => []

/-- Source `snd_config_set_id`: the node with its identifier replaced. -/
def snd_config_set_id (config : snd_config_t) (id : Str) : snd_config_t :=
  match config with
  | .integer _ v => .integer (some id) v
  | .real _ v => .real (some id) v
  | .string _ v => .string (some id) v
  | .compound _ j fs => .compound (some id) j fs

/-- Source `snd_config_get_string`: the string of a String node, `-EINVAL` otherwise. -/
def snd_config_get_string : snd_config_t → Except Int Str
  | .string _ s => .ok s
  | _ => .error (-EINVAL)

/-! ## Path resolver -/

/-- The test of the loop of `_snd_config_search`: with `len < 0` it is
`strcmp(n->id, id) == 0`, otherwise `strlen(n->id) == len` and
`memcmp(n->id, id, len) == 0`.  A node without identifier matches nothing. -/
def id_matches (id : Str) (len : Int) (n : snd_config_t) : Bool :=
  match snd_config_get_id n with
  | none => false
  | some nid =>
    if len < 0 then decide (nid = id)
    else decide (nid.length = len.toNat) && decide (nid = id.take len.toNat)

/-- Source `_snd_config_search`: the first child whose identifier is `id` (its first
`len` bytes when `len ≥ 0`), or `-ENOENT`. -/
def _snd_config_search (config : snd_config_t) (id : Str) (len : Int) :
    Except Int snd_config_t :=
  match (fields config).find? (id_matches id len) with
  | some n => .ok n
  | none => .error (-ENOENT)

/-- Libc `strchr(s, c)` as the offset of the first `c` in `s`, `none` for NULL. -/
def strchr : Str → Nat → Option Nat
  | [], _ => none
  | x :: xs, c => if x = c then some 0 else (strchr xs c).map (· + 1)

/-- The loop of `snd_config_search`; one unit of fuel per segment of the key. -/
def snd_config_search_loop : Nat → snd_config_t → Str → Except Int snd_config_t
  | 0, _, _ => .error (-ENOENT)
  | fuel + 1, config, key =>
    if snd_config_get_type config ≠ .COMPOUND then .error (-ENOENT)
    else
      match strchr key 46 with
      | some p =>
        match _snd_config_search config key p with
        | .error err => .error err
        | .ok n => snd_config_search_loop fuel n (key.drop (p + 1))
      | none => _snd_config_search config key (-1)

/-- Source `snd_config_search`: the loop run with more fuel than the key has segments. -/
def snd_config_search (config : snd_config_t) (key : Str) : Except Int snd_config_t :=
  snd_config_search_loop (key.length + 1) config key

/-- Source `snd_config_searchv` applied to the keys `k, ks...` (the variadic list before
its terminating NULL). -/
def snd_config_searchv (config : snd_config_t) (k : Str) (ks : List Str) :
    Except Int snd_config_t :=
  match snd_config_search config k with
  | .error err => .error err
  | .ok n =>
    match ks with
    | [] => .ok n
    | k1 :: ks1 => snd_config_searchv n k1 ks1

/-- The `do ... while` loop of `snd_config_search_alias`, from the state
`(key, res)`: the result is the pair `(err, res)` the loop ends with, `none` when
the loop is still running after `fuel` rounds (an alias cycle). -/
def snd_config_search_alias_loop (config : snd_config_t) (base : Option Str) :
    Nat → Str → Option snd_config_t → Option (Int × Option snd_config_t)
  | 0, _, _ => none
  | fuel + 1, key, res =>
    let next : Except Int snd_config_t :=
      match snd_config_search config key with
      | .ok n => .ok n
      | .error err =>
        match base with
        | none => .error err
        | some b => snd_config_searchv config b [key]
    match next with
    | .error err => some (err, res)
    | .ok n =>
      match snd_config_get_string n with
      | .ok key1 => snd_config_search_alias_loop config base fuel key1 (some n)
      | .error _ => some (0, some n)

/-- Source `snd_config_search_alias`: `none` when the alias chase does not end within
`fuel` rounds. -/
def snd_config_search_alias (fuel : Nat) (config : snd_config_t) (base : Option Str)
    (key : Str) : Option (Except Int snd_config_t) :=
  match snd_config_search_alias_loop config base fuel key none with
  | none => none
  | some (err, none) => some (.error err)
  | some (_, some res) => some (.ok res)

/-! ## Specification vocabulary for the path resolver -/

/-- The node `c` is the first child of `p` identified `k`. -/
def FirstChild (p : snd_config_t) (k : Str) (c : snd_config_t) : Prop :=
  ∃ pre post, fields p = pre ++ c :: post ∧ snd_config_get_id c = some k ∧
    ∀ n ∈ pre, snd_config_get_id n ≠ some k

/-- Relation `Chain start ks r`: descending from `start` through the first child
identified by each key of `ks` in turn ends at `r`, and every node descended
through is a Compound. -/
inductive Chain : snd_config_t → List Str → snd_config_t → Prop where
  | last (start : snd_config_t) (k : Str) (c : snd_config_t) :
      snd_config_get_type start = .COMPOUND → FirstChild start k c → Chain start [k] c
  | step (start : snd_config_t) (k : Str) (c : snd_config_t) (ks : List Str)
      (r : snd_config_t) :
      snd_config_get_type start = .COMPOUND → FirstChild start k c → ks ≠ [] →
      Chain c ks r → Chain start (k :: ks) r

/-- The dotted key `k1.k2.....kn` of the segments `ks`. -/
def dotted : List Str → Str
  | [] => []
  | [k] => k
  | k :: ks => k ++ 46 :: dotted ks

/-- Relation `AliasChain config ks N`: each key of `ks` but the last names (by
`snd_config_search` from `config`) a String node whose value is the next key, and
the last key names the node `N`, which is not a String. -/
inductive AliasChain (config : snd_config_t) : List Str → snd_config_t → Prop where
  | last (k : Str) (N : snd_config_t) :
      snd_config_search config k = .ok N → snd_config_get_type N ≠ .STRING →
      AliasChain config [k] N
  | step (k : Str) (id : Option Str) (k' : Str) (ks : List Str) (N : snd_config_t) :
      snd_config_search config k = .ok (.string id k') → AliasChain config (k' :: ks) N →
      AliasChain config (k :: k' :: ks) N

/-- The segments of a key: the maximal runs of bytes between its dots. -/
def segments : Str → List Str
  | [] => [[]]
  | c :: cs =>
    if c = 46 then [] :: segments cs
    else
      match segments cs with
      | [] => [[c]]
      | s :: ss => (c :: s) :: ss

/-- The tree `x = "y"`, `y = "z"`, `z = 42` of the alias example. -/
def alias_example : snd_config_t :=
  .compound none false
    [.string (some (cstr "x")) (cstr "y"),
     .string (some (cstr "y")) (cstr "z"),
     .integer (some (cstr "z")) 42]

/-! ## libc: integer conversion and printing -/

/-- Libc `isspace` in the C locale. -/
def isspace (c : Nat) : Bool := c = 32 || (9 ≤ c && c ≤ 13)

/-- The value of the byte `c` read as a digit (`0-9`, `a-z`, `A-Z`), 36 when it
is none. -/
def digit_value (c : Nat) : Nat :=
  if 48 ≤ c ∧ c ≤ 57 then c - 48
  else if 97 ≤ c ∧ c ≤ 122 then c - 87
  else if 65 ≤ c ∧ c ≤ 90 then c - 55
  else 36

/-- The longest run of digits of `base` at the head of the text, accumulated on
`acc`, with the text left after it. -/
def strtol_digits (base : Nat) : Str → Nat → Nat × Str
  | [], acc => (acc, [])
  | c :: cs, acc =>
    if digit_value c < base then strtol_digits base cs (acc * base + digit_value c)
    else (acc, c :: cs)

/-- The base that `strtol(str, &end, 0)` reads off the text after the sign, with
the text its digits start at: 16 after `0x` or `0X` when a hexadecimal digit
follows, 8 when the text starts with `0`, else 10. -/
def strtol_body (s2 : Str) : Nat × Str :=
  match s2 with
  | 48 :: x :: d :: r =>
    if (x = 120 || x = 88) && decide (digit_value d < 16) then (16, d :: r) else (8, s2)
  | 48 :: _ => (8, s2)
  | _ => (10, s2)

/-- The conversion `strtol` makes of the digits `b` in `base`, once white space,
sign and base prefix are read; `neg` tells a minus sign.  Without digits nothing
is converted and `end` is `str`; a value out of range is clamped and sets
`ERANGE`. -/
def strtol_convert (str : Str) (neg : Bool) (base : Nat) (b : Str) : Int × Str × Int :=
  match b with
  | [] => (0, str, 0)
  | c :: _ =>
    if digit_value c < base then
      let r := strtol_digits base b 0
      if neg then
        if (r.1 : Int) ≤ -LONG_MIN then (-(r.1 : Int), r.2, 0) else (LONG_MIN, r.2, ERANGE)
      else
        if (r.1 : Int) ≤ LONG_MAX then ((r.1 : Int), r.2, 0) else (LONG_MAX, r.2, ERANGE)
    else (0, str, 0)

/-- The conversion `strtol` makes once white space and sign are read: `s2` is the
text after the sign. -/
def strtol_after_sign (str : Str) (neg : Bool) (s2 : Str) : Int × Str × Int :=
  strtol_convert str neg (strtol_body s2).1 (strtol_body s2).2

/-- Libc `strtol(str, &end, 0)` after ISO C 7.22.1.4, for LP64 `long`: the
result is `(value, end, errno)` with `end` the text left unconverted.  White
space is skipped, then an optional sign, then `0x`/`0X` and hexadecimal digits, or
`0` and octal digits, or decimal digits. -/
def strtol (str : Str) : Int × Str × Int :=
  match str.dropWhile isspace with
  | 45 :: r => strtol_after_sign str true r
  | 43 :: r => strtol_after_sign str false r
  | s1 => strtol_after_sign str false s1

/-- Source `safe_strtol`. -/
def safe_strtol (str : Str) : Except Int Int :=
  if str = [] then .error (-EINVAL)
  else
    let r := strtol str
    if r.2.2 ≠ 0 then .error (-r.2.2)
    else if r.2.1 ≠ [] then .error (-EINVAL)
    else .ok r.1

/-- The libc functions on `double` that the source calls, as parameters:
`strtod str` gives `(value, end, errno)` like `strtol` (`errno` is 0 or an error
number, which is positive), and `printf_g v` is the
text `printf("%-16g", v)` writes. -/
structure libc_double where
  strtod : Str → double × Str × Nat
  printf_g : double → Str

/-- Source `safe_strtod`. -/
def safe_strtod (L : libc_double) (str : Str) : Except Int double :=
  if str = [] then .error (-EINVAL)
  else
    let r := L.strtod str
    if r.2.2 ≠ 0 then .error (-(r.2.2 : Int))
    else if r.2.1 ≠ [] then .error (-EINVAL)
    else .ok r.1

/-- The decimal digits of `n` in front of `acc`; `fuel` bounds the number of
digits. -/
def dec_digits : Nat → Nat → Str → Str
  | 0, _, acc => acc
  | fuel + 1, n, acc =>
    if n < 10 then (48 + n) :: acc else dec_digits fuel (n / 10) ((48 + n % 10) :: acc)

/-- The text `printf("%u", n)` writes. -/
def dec_nat (n : Nat) : Str := dec_digits (n + 1) n []

/-- The text `printf("%ld", v)` writes. -/
def dec_int (v : Int) : Str :=
  if v < 0 then 45 :: dec_nat v.natAbs else dec_nat v.toNat


/-! ## Lexer -/

def UNTERMINATED_STRING : Int := -1
def UNTERMINATED_QUOTE : Int := -2
def UNEXPECTED_CHAR : Int := -3
def UNEXPECTED_EOF : Int := -4
def BAD_ENV_DEFAULT : Int := -5

/-- Parser input (`input_t`): `current` holds the bytes not yet read from the
open stream, `unget`/`ch` the pushed back character, `error` the lexer error.
The stream is an in-memory buffer, and the line and column counters, which only
serve diagnostics, are left out. -/
structure input_t where
  current : List Nat
  unget : Bool
  ch : Int
  error : Int
deriving DecidableEq, Repr

/-- Source `get_char`: a pushed back character first, then the next byte of the
stream, `EOF` at its end. -/
def get_char (input : input_t) : Int × input_t :=
  if input.unget then (input.ch, { input with unget := false })
  else
    match input.current with
    | [] => (EOF, input)
    | c :: cs => ((c : Int), { input with current := cs })

/-- Source `unget_char`. -/
def unget_char (c : Int) (input : input_t) : input_t :=
  { input with ch := c, unget := true }

/-- The byte stored by `buf[idx++] = c` for an `int c`. -/
def to_char (c : Int) : Nat := (c % 256).toNat

/-- The C string held by a buffer to which a NUL is appended: its bytes before
the first NUL. -/
def c_string (buf : List Nat) : Str := buf.takeWhile (· ≠ 0)

/-- The octal loop of `get_quotedchar`: at most `k` more digits on `num`. -/
def get_quotedchar_octal : Nat → Int → input_t → Int × input_t
  | 0, num, input => (num, input)
  | k + 1, num, input =>
    let r := get_char input
    if r.1 < 48 ∨ r.1 > 55 then (num, unget_char r.1 r.2)
    else get_quotedchar_octal k (num * 8 + r.1 - 48) r.2

/-- Source `get_quotedchar`: the character after a backslash. -/
def get_quotedchar (input : input_t) : Int × input_t :=
  let r := get_char input
  let c := r.1
  if c = 110 then (10, r.2)
  else if c = 116 then (9, r.2)
  else if c = 118 then (11, r.2)
  else if c = 98 then (8, r.2)
  else if c = 114 then (13, r.2)
  else if c = 102 then (12, r.2)
  else if 48 ≤ c ∧ c ≤ 55 then get_quotedchar_octal 2 (c - 48) r.2
  else (c, r.2)

/-- The characters that end a free-form string in `get_freestring`; `.` only
when an identifier is read. -/
def freestring_end (id : Bool) (c : Int) : Bool :=
  (c = 46 && id) || c = 32 || c = 12 || c = 9 || c = 10 || c = 13 || c = EOF ||
  c = 61 || c = 44 || c = 59 || c = 123 || c = 125 || c = 91 || c = 93 ||
  c = 39 || c = 34 || c = 92 || c = 35

/-- The loop of `get_freestring` with the buffer filled so far. -/
def get_freestring_loop : Nat → Bool → input_t → List Nat → Str × input_t
  | 0, _, input, buf => (c_string buf, input)
  | fuel + 1, id, input, buf =>
    let r := get_char input
    if freestring_end id r.1 then (c_string buf, unget_char r.1 r.2)
    else get_freestring_loop fuel id r.2 (buf ++ [to_char r.1])

/-- Source `get_freestring` (it returns 0): the string and the input left.  Every
round reads a character, so the fuel given outlasts the stream. -/
def get_freestring (id : Bool) (input : input_t) : Str × input_t :=
  get_freestring_loop (input.current.length + 2) id input []

/-- Result of a lexer function with a status and a string. -/
structure string_result where
  err : Int
  string : Str
  input : input_t
deriving DecidableEq, Repr

/-- The loop of `get_delimstring` with the buffer filled so far. -/
def get_delimstring_loop : Nat → Int → input_t → List Nat → string_result
  | 0, _, input, _ => ⟨-EINVAL, [], input⟩
  | fuel + 1, delim, input, buf =>
    let r := get_char input
    if r.1 = EOF then ⟨-EINVAL, [], { r.2 with error := UNTERMINATED_STRING }⟩
    else if r.1 = 92 then
      let q := get_quotedchar r.2
      if q.1 < 0 then ⟨-EINVAL, [], { q.2 with error := UNTERMINATED_QUOTE }⟩
      else get_delimstring_loop fuel delim q.2 (buf ++ [to_char q.1])
    else if r.1 = delim then ⟨0, c_string buf, r.2⟩
    else get_delimstring_loop fuel delim r.2 (buf ++ [to_char r.1])

/-- Source `get_delimstring`. -/
def get_delimstring (delim : Int) (input : input_t) : string_result :=
  get_delimstring_loop (input.current.length + 2) delim input []

/-- The inner loop of `get_char_skip_comments`: the rest of a comment line;
`true` when the end of input is reached first. -/
def skip_comment : Nat → input_t → Bool × input_t
  | 0, input => (true, input)
  | fuel + 1, input =>
    let r := get_char input
    if r.1 = EOF then (true, r.2)
    else if r.1 = 10 then (false, r.2)
    else skip_comment fuel r.2

/-- The loop of `get_char_skip_comments`.  The file system is outside the
model: after `<name>` the call of `snd_input_stdio_open` fails with `-ENOENT`,
which the function returns. -/
def get_char_skip_comments_loop : Nat → input_t → Int × input_t
  | 0, input => (EOF, input)
  | fuel + 1, input =>
    let r := get_char input
    if r.1 = 60 then
      let s := get_delimstring 62 r.2
      if s.err < 0 then (s.err, s.input) else (-ENOENT, s.input)
    else if r.1 ≠ 35 then r
    else
      let k := skip_comment (r.2.current.length + 1) r.2
      if k.1 then (EOF, k.2) else get_char_skip_comments_loop fuel k.2

/-- Source `get_char_skip_comments`. -/
def get_char_skip_comments (input : input_t) : Int × input_t :=
  get_char_skip_comments_loop (input.current.length + 2) input

/-- The loop of `get_nonwhite`. -/
def get_nonwhite_loop : Nat → input_t → Int × input_t
  | 0, input => (EOF, input)
  | fuel + 1, input =>
    let r := get_char_skip_comments input
    if r.1 = 32 ∨ r.1 = 12 ∨ r.1 = 9 ∨ r.1 = 10 ∨ r.1 = 13 then get_nonwhite_loop fuel r.2
    else r

/-- Source `get_nonwhite`. -/
def get_nonwhite (input : input_t) : Int × input_t :=
  get_nonwhite_loop (input.current.length + 2) input

/-- Source `get_string`: status 0 for a free string, 1 for a delimited one. -/
def get_string (id : Bool) (input : input_t) : string_result :=
  let r := get_nonwhite input
  let c := r.1
  if c = EOF then ⟨-EINVAL, [], { r.2 with error := UNEXPECTED_EOF }⟩
  else if c = 61 ∨ c = 44 ∨ c = 59 ∨ c = 46 ∨ c = 123 ∨ c = 125 ∨ c = 91 ∨ c = 93 then
    ⟨-EINVAL, [], { r.2 with error := UNEXPECTED_CHAR }⟩
  else if c = 39 ∨ c = 34 then
    let s := get_delimstring c r.2
    if s.err < 0 then s else ⟨1, s.string, s.input⟩
  else
    let f := get_freestring id (unget_char c r.2)
    ⟨0, f.1, f.2⟩

/-- The input opened on an in-memory text, as `snd_config_load` sets it up. -/
def mk_input (text : List Nat) : input_t := ⟨text, false, 0, 0⟩


/-! ## Parser -/

/-- The position in the child list of the node `_snd_config_search(father, id, -1, &n)`
finds: the first child identified `id`. -/
def search_index (father : snd_config_t) (id : Str) : Option Nat :=
  (fields father).findIdx? (id_matches id (-1))

/-- The compound with its child list replaced (a leaf has none and is unchanged). -/
def set_fields (father : snd_config_t) (fs : List snd_config_t) : snd_config_t :=
  match father with
  | .compound id join _ => .compound id join fs
  | n => n

/-- The father after `list_add_tail(&n->list, &father->u.compound.fields)`. -/
def add_field (father : snd_config_t) (n : snd_config_t) : snd_config_t :=
  set_fields father (fields father ++ [n])

/-- The father after its child at position `k` was changed in place to `n`. -/
def set_field (father : snd_config_t) (k : Nat) (n : snd_config_t) : snd_config_t :=
  set_fields father ((fields father).set k n)

/-- The father after `snd_config_delete` of its child at position `k`: the child
and its descendants are gone, the other children keep their order. -/
def delete_field (father : snd_config_t) (k : Nat) : snd_config_t :=
  set_fields father ((fields father).eraseIdx k)

/-- The compound with `u.compound.join = 1`. -/
def set_join (n : snd_config_t) : snd_config_t :=
  match n with
  | .compound id _ fs => .compound id true fs
  | n => n

/-- State left by a parser function: its status, the father node as it is after
the call, and the input. -/
structure parse_result where
  err : Int
  father : snd_config_t
  input : input_t
deriving DecidableEq

/-- Source `parse_value`.  The node `*_n` is given by its position `n` among the
children of `father` (`none` for NULL); a new node is added to `father` under `id`. -/
def parse_value (L : libc_double) (n : Option Nat) (father : snd_config_t) (input : input_t)
    (id : Str) : parse_result :=
  let g := get_string false input
  if g.err < 0 then ⟨g.err, father, g.input⟩
  else
    let s := g.string
    let asString : parse_result :=
      match n with
      | some k =>
        match (fields father)[k]? with
        | some (.string i _) => ⟨0, set_field father k (.string i s), g.input⟩
        | _ => ⟨-EINVAL, father, g.input⟩
      | none => ⟨0, add_field father (.string (some id) s), g.input⟩
    match s with
    | c :: _ =>
      if (48 ≤ c ∧ c ≤ 57) ∨ c = 45 then
        match safe_strtol s with
        | .ok i =>
          match n with
          | some k =>
            match (fields father)[k]? with
            | some (.integer j _) => ⟨0, set_field father k (.integer j i), g.input⟩
            | _ => ⟨-EINVAL, father, g.input⟩
          | none => ⟨0, add_field father (.integer (some id) i), g.input⟩
        | .error _ =>
          match safe_strtod L s with
          | .ok r =>
            match n with
            | some k =>
              match (fields father)[k]? with
              | some (.real j _) => ⟨0, set_field father k (.real j r), g.input⟩
              | _ => ⟨-EINVAL, father, g.input⟩
            | none => ⟨0, add_field father (.real (some id) r), g.input⟩
          | .error _ => asString
      else asString
    | [] => asString

/-- The end of `parse_def` after the value: a `;` or `,` is consumed, any other
character is pushed back; the status is the one reached so far. -/
def parse_def_end (err : Int) (father : snd_config_t) (input : input_t) : parse_result :=
  let r := get_nonwhite input
  if r.1 = 59 ∨ r.1 = 44 then ⟨err, father, r.2⟩
  else ⟨err, father, unget_char r.1 r.2⟩

mutual
/-- Source `parse_array_def`: the element `idx` of an array.  The local `n` is
NULL, so a new node is always added. -/
def parse_array_def (L : libc_double) :
    Nat → snd_config_t → input_t → Nat → Option parse_result
  | 0, _, _, _ => none
  | fuel + 1, father, input, idx =>
    let id := dec_nat idx
    let r := get_nonwhite input
    let c := r.1
    if c = 123 ∨ c = 91 then
      let k := (fields father).length
      let father1 := add_field father (.compound (some id) false [])
      let body :=
        if c = 123 then parse_defs L fuel (.compound (some id) false []) r.2
        else parse_array_defs L fuel (.compound (some id) false []) r.2
      match body with
      | none => none
      | some b =>
        let e := get_nonwhite b.input
        let endchr : Int := if c = 123 then 125 else 93
        if e.1 ≠ endchr then
          some ⟨-EINVAL, delete_field father1 k,
            { e.2 with error := if e.1 = EOF then UNEXPECTED_EOF else UNEXPECTED_CHAR }⟩
        else some ⟨0, set_field father1 k b.father, e.2⟩
    else
      let v := parse_value L none father (unget_char c r.2) id
      if v.err < 0 then some v else some ⟨0, v.father, v.input⟩

/-- Source `parse_array_defs`, from the element index `idx`. -/
def parse_array_defs_from (L : libc_double) :
    Nat → snd_config_t → input_t → Nat → Option parse_result
  | 0, _, _, _ => none
  | fuel + 1, father, input, idx =>
    let r := get_nonwhite input
    if r.1 = EOF then some ⟨0, father, r.2⟩
    else
      let i1 := unget_char r.1 r.2
      if r.1 = 93 then some ⟨0, father, i1⟩
      else
        match parse_array_def L fuel father i1 idx with
        | none => none
        | some d =>
          if d.err < 0 then some d
          else parse_array_defs_from L fuel d.father d.input (idx + 1)

/-- Source `parse_array_defs`. -/
def parse_array_defs (L : libc_double) :
    Nat → snd_config_t → input_t → Option parse_result
  | 0, _, _ => none
  | fuel + 1, father, input => parse_array_defs_from L fuel father input 0

/-- Source `parse_def` (`mode` is always `MERGE`: the other modes are compiled
out).  Each turn of its `while (1)` loop that meets a `.` continues with the
compound found or created as the new father: the recursive call. -/
def parse_def (L : libc_double) : Nat → snd_config_t → input_t → Option parse_result
  | 0, _, _ => none
  | fuel + 1, father, input =>
    let r0 := get_nonwhite input
    let g := get_string true (unget_char r0.1 r0.2)
    if g.err < 0 then some ⟨g.err, father, g.input⟩
    else
      let id := g.string
      let r1 := get_nonwhite g.input
      if r1.1 = 46 then
        match search_index father id with
        | some k =>
          match (fields father)[k]? with
          | some (.compound i _ fs) =>
            match parse_def L fuel (.compound i true fs) r1.2 with
            | none => none
            | some d => some ⟨d.err, set_field father k d.father, d.input⟩
          | _ => some ⟨-EINVAL, father, r1.2⟩
        | none =>
          match parse_def L fuel (.compound (some id) true []) r1.2 with
          | none => none
          | some d => some ⟨d.err, add_field father d.father, d.input⟩
      else
        let r2 := if r1.1 = 61 then get_nonwhite r1.2 else r1
        let c := r2.1
        let n := search_index father id
        if c = 123 ∨ c = 91 then
          let target : Option (Nat × snd_config_t × snd_config_t) :=
            match n with
            | some k =>
              match (fields father)[k]? with
              | some (.compound i j fs) => some (k, .compound i j fs, father)
              | _ => none
            | none =>
              some ((fields father).length, .compound (some id) false [],
                add_field father (.compound (some id) false []))
          match target with
          | none => some ⟨-EINVAL, father, r2.2⟩
          | some (k, node, father1) =>
            let body :=
              if c = 123 then parse_defs L fuel node r2.2
              else parse_array_defs L fuel node r2.2
            match body with
            | none => none
            | some b =>
              let e := get_nonwhite b.input
              let endchr : Int := if c = 123 then 125 else 93
              if e.1 ≠ endchr then
                some ⟨-EINVAL, delete_field father1 k,
                  { e.2 with error := if e.1 = EOF then UNEXPECTED_EOF else UNEXPECTED_CHAR }⟩
              else some (parse_def_end b.err (set_field father1 k b.father) e.2)
        else
          let v := parse_value L n father (unget_char c r2.2) id
          if v.err < 0 then some v else some (parse_def_end v.err v.father v.input)

/-- Source `parse_defs`. -/
def parse_defs (L : libc_double) : Nat → snd_config_t → input_t → Option parse_result
  | 0, _, _ => none
  | fuel + 1, father, input =>
    let r := get_nonwhite input
    if r.1 = EOF then some ⟨0, father, r.2⟩
    else
      let i1 := unget_char r.1 r.2
      if r.1 = 125 then some ⟨0, father, i1⟩
      else
        match parse_def L fuel father i1 with
        | none => none
        | some d =>
          if d.err < 0 then some d
          else parse_defs L fuel d.father d.input
end

/-- Source `snd_config_top`: an empty compound without identifier. -/
def snd_config_top : snd_config_t := .compound none false []

/-- Source `snd_config_load` on the in-memory text `text`: the status and the
node `config` as the call leaves it; `none` when `fuel` does not suffice. -/
def snd_config_load (L : libc_double) (fuel : Nat) (config : snd_config_t) (text : List Nat) :
    Option (Int × snd_config_t) :=
  match parse_defs L fuel config ⟨text, false, 0, 0⟩ with
  | none => none
  | some r =>
    if r.err < 0 then some (r.err, r.father)
    else if (get_char r.input).1 ≠ EOF then some (-EINVAL, r.father)
    else some (r.err, r.father)

/-! ## Printer -/

/-- The characters that make `string_print` quote a string (the `loop:` switch). -/
def print_needs_quote (c : Nat) : Bool :=
  (1 ≤ c && c ≤ 31) || (127 ≤ c && c ≤ 255) || c = 32 || c = 61 || c = 59 || c = 44 ||
  c = 46 || c = 123 || c = 125 || c = 39 || c = 34

/-- The text `printf("\\%04o", c)` writes for a byte `c`. -/
def print_octal (c : Nat) : Str :=
  [92, 48 + c / 512 % 8, 48 + c / 64 % 8, 48 + c / 8 % 8, 48 + c % 8]

/-- What the `quoted:` loop of `string_print` writes for one character. -/
def print_quoted_char (c : Nat) : Str :=
  if c = 10 then [92, 110]
  else if c = 9 then [92, 116]
  else if c = 11 then [92, 118]
  else if c = 8 then [92, 98]
  else if c = 13 then [92, 114]
  else if c = 12 then [92, 102]
  else if c = 39 then [92, 39]
  else if 32 ≤ c ∧ c ≤ 126 then [c]
  else print_octal c

/-- Source `string_print`: the text written for `str`, as an identifier
(`id = true`) or as a value; `none` when `assert(0)` is reached (an empty string
printed as a value). -/
def string_print (str : Str) (id : Bool) : Option Str :=
  let quoted : Str := 39 :: (str.flatMap print_quoted_char ++ [39])
  match str with
  | [] => if id then some [39, 39] else none
  | c :: _ =>
    if !id && ((48 ≤ c && c ≤ 57) || c = 45) then some quoted
    else if str.any print_needs_quote then some quoted
    else some str

/-- Source `id_print`: the identifiers of the `joins` join compounds above the
node, outermost first, each followed by a dot, then the identifier of the node.
`path` lists the identifiers that `id_print` reaches through `father`; a node
without identifier cannot be printed. -/
def id_print (path : List (Option Str)) (id : Option Str) : Option Str :=
  match path with
  | [] =>
    match id with
    | some i => string_print i true
    | none => none
  | p :: ps =>
    match p with
    | none => none
    | some i =>
      match string_print i true, id_print ps id with
      | some a, some b => some (a ++ 46 :: b)
      | _, _ => none

mutual
/-- Source `_snd_config_save_leaf`: the text written for the value of `n`. -/
def _snd_config_save_leaf (L : libc_double) : snd_config_t → Nat → Option Str
  | .integer _ v, _ => some (dec_int v)
  | .real _ v, _ => some (L.printf_g v)
  | .string _ s, _ => string_print s false
  | .compound _ _ fs, level =>
    match _snd_config_save_leaves L fs (level + 1) [] with
    | none => none
    | some body => some (123 :: 10 :: body ++ List.replicate level 9 ++ [125])

/-- Source `_snd_config_save_leaves` over the child list of `config`; `path`
holds the identifiers of the `joins` join compounds entered above it. -/
def _snd_config_save_leaves (L : libc_double) :
    List snd_config_t → Nat → List (Option Str) → Option Str
  | [], _, _ => some []
  | n :: rest, level, path =>
    let line : Option Str :=
      match n with
      | .compound id true fs => _snd_config_save_leaves L fs level (path ++ [id])
      | n =>
        match id_print path (snd_config_get_id n), _snd_config_save_leaf L n level with
        | some i, some v => some (List.replicate level 9 ++ i ++ 32 :: v ++ [10])
        | _, _ => none
    match line, _snd_config_save_leaves L rest level path with
    | some a, some b => some (a ++ b)
    | _, _ => none
end

/-- Source `snd_config_save`: the text written for the tree, `none` when an
assertion fails on the way. -/
def snd_config_save (L : libc_double) (config : snd_config_t) : Option Str :=
  _snd_config_save_leaves L (fields config) 0 []

/-! ## Tree mutators and the tree walker -/

/-- Source `snd_config_get_type_ascii`. -/
def snd_config_get_type_ascii (ascii : Str) : Except Int snd_config_type_t :=
  if ascii = cstr "integer" then .ok .INTEGER
  else if ascii = cstr "real" then .ok .REAL
  else if ascii = cstr "string" then .ok .STRING
  else if ascii = cstr "compound" then .ok .COMPOUND
  else .error (-EINVAL)

/-- The test `strcmp(leaf->id, n->id) == 0` of `snd_config_add`; a node without
identifier compares equal to nothing. -/
def same_id (leaf n : snd_config_t) : Bool :=
  match snd_config_get_id leaf, snd_config_get_id n with
  | some a, some b => decide (a = b)
  | _, _ => false

/-- Source `snd_config_add`: the father with `leaf` as its last child, or
`-EEXIST` when a child already has the identifier of `leaf`. -/
def snd_config_add (father leaf : snd_config_t) : Except Int snd_config_t :=
  if (fields father).any (same_id leaf) then .error (-EEXIST)
  else .ok (add_field father leaf)

/-- The tree left by `snd_config_search(config, key, &n)` followed by
`snd_config_delete(n)`: the node the search finds is removed from its parent;
`none` when the search fails. -/
def delete_found_loop : Nat → snd_config_t → Str → Option snd_config_t
  | 0, _, _ => none
  | fuel + 1, config, key =>
    if snd_config_get_type config ≠ .COMPOUND then none
    else
      match strchr key 46 with
      | some p =>
        match (fields config).findIdx? (id_matches key p) with
        | none => none
        | some k =>
          match (fields config)[k]? with
          | none => none
          | some n =>
            match delete_found_loop fuel n (key.drop (p + 1)) with
            | none => none
            | some n1 => some (set_field config k n1)
      | none =>
        match (fields config).findIdx? (id_matches key (-1)) with
        | none => none
        | some k => some (delete_field config k)

/-- The tree after `if (snd_config_search(config, key, &n) >= 0) snd_config_delete(n)`. -/
def delete_found (config : snd_config_t) (key : Str) : snd_config_t :=
  match delete_found_loop (key.length + 1) config key with
  | some c => c
  | none => config

/-- Pass of the walker (`snd_config_walk_pass_t`). -/
inductive snd_config_walk_pass_t where
  | PRE
  | POST
  | LEAF
deriving DecidableEq, Repr

/-- Status of a walk with the node `*dst` it leaves (`none`: NULL or deleted). -/
structure walk_result where
  err : Int
  dst : Option snd_config_t
deriving DecidableEq

/-- Walker callback (`snd_config_walk_callback_t`) for the walks that build a
destination: from `src`, `root`, the value of `*dst`, the pass and the private data
to the status and the new value of `*dst`.  The result is `none` where the callback
hands a NULL identifier to `strcmp` or `strdup`, for which C defines no result. -/
abbrev snd_config_walk_callback_t (π : Type) :=
  snd_config_t → Option snd_config_t → Option snd_config_t → snd_config_walk_pass_t → π →
    Option walk_result

mutual
/-- Source `snd_config_walk` with a non-NULL `dst`, as `snd_config_copy` and the
expansion call it; `none` when a callback has no defined result. -/
def snd_config_walk {π : Type} (callback : snd_config_walk_callback_t π) (private_data : π)
    (root : Option snd_config_t) : snd_config_t → Option walk_result
  | .compound id join fs =>
    match callback (.compound id join fs) root none .PRE private_data with
    | none => none
    | some pre =>
      if pre.err ≤ 0 then some pre
      else
        match snd_config_walk_fields callback private_data root fs pre.dst with
        | none => none
        | some ch =>
          if ch.err < 0 then some ⟨ch.err, none⟩
          else
            match callback (.compound id join fs) root ch.dst .POST private_data with
            | none => none
            | some post => if post.err ≤ 0 then some ⟨post.err, none⟩ else some post
  | .integer id v => callback (.integer id v) root none .LEAF private_data
  | .real id v => callback (.real id v) root none .LEAF private_data
  | .string id v => callback (.string id v) root none .LEAF private_data

/-- The `snd_config_for_each` loop of `snd_config_walk` over the children `fs`
of `src`, with the destination compound `*dst` built so far.  A child is walked
with a destination only when `*dst` is set.  The status is negative when the walk
of a child or `snd_config_add` fails, otherwise non-negative. -/
def snd_config_walk_fields {π : Type} (callback : snd_config_walk_callback_t π)
    (private_data : π) (root : Option snd_config_t) :
    List snd_config_t → Option snd_config_t → Option walk_result
  | [], dst => some ⟨1, dst⟩
  | s :: rest, dst =>
    match dst with
    | none => some ⟨1, none⟩
    | some d0 =>
      match snd_config_walk callback private_data root s with
      | none => none
      | some w =>
        if w.err < 0 then some ⟨w.err, some d0⟩
        else
          match (if w.err ≠ 0 then w.dst else none) with
          | some d =>
            match snd_config_add d0 d with
            | .error e => some ⟨e, some d0⟩
            | .ok d1 => snd_config_walk_fields callback private_data root rest (some d1)
          | none => snd_config_walk_fields callback private_data root rest (some d0)
end

/-- Source `_snd_config_copy`, the callback of `snd_config_copy`
(`snd_config_make` takes a NULL identifier as it is). -/
def _snd_config_copy : snd_config_walk_callback_t Unit :=
  fun src _root dst pass _ =>
    match pass with
    | .PRE =>
      match src with
      | .compound id join _ => some ⟨1, some (.compound id join [])⟩
      | _ => some ⟨1, dst⟩
    | .LEAF =>
      match src with
      | .integer id v => some ⟨1, some (.integer id v)⟩
      | .real id v => some ⟨1, some (.real id v)⟩
      | .string id v => some ⟨1, some (.string id v)⟩
      | .compound _ _ _ => some ⟨1, dst⟩
    | .POST => some ⟨1, dst⟩

/-- Source `snd_config_copy`. -/
def snd_config_copy (src : snd_config_t) : Option walk_result :=
  snd_config_walk _snd_config_copy () none src

/-! ## Argument binder -/

/-- The loop over the fields of one parameter declaration in `load_defaults`;
`none` where a NULL identifier reaches `strcmp` (a field without identifier) or
`strdup` in `snd_config_set_id` (a declaration without identifier). -/
def load_defaults_fields (subs : snd_config_t) (def_id : Option Str) :
    List snd_config_t → Option (Int × snd_config_t)
  | [] => some (0, subs)
  | fld :: rest =>
    match snd_config_get_id fld with
    | none => none
    | some id =>
      if id = cstr "type" then load_defaults_fields subs def_id rest
      else if id = cstr "default" then
        match snd_config_copy fld with
        | none => none
        | some c =>
          if c.err < 0 then some (c.err, subs)
          else
            match c.dst, def_id with
            | some deflt, some i =>
              match snd_config_add subs (snd_config_set_id deflt i) with
              | .error e => some (e, subs)
              | .ok subs1 => load_defaults_fields subs1 def_id rest
            | _, _ => none
      else some (-EINVAL, subs)

/-- The loop over the parameter declarations in `load_defaults`. -/
def load_defaults_defs (subs : snd_config_t) :
    List snd_config_t → Option (Int × snd_config_t)
  | [] => some (0, subs)
  | d :: rest =>
    if snd_config_get_type d ≠ .COMPOUND then load_defaults_defs subs rest
    else
      match load_defaults_fields subs (snd_config_get_id d) (fields d) with
      | none => none
      | some r => if r.1 < 0 then some r else load_defaults_defs r.2 rest

/-- Source `load_defaults`: the status and the substitution tree as left; `none`
for a `defs` that is no compound, where `snd_config_iterator_first` asserts, and
where one of the loops has no defined result. -/
def load_defaults (subs defs : snd_config_t) : Option (Int × snd_config_t) :=
  match defs with
  | .compound _ _ ds => load_defaults_defs subs ds
  | _ => none

/-- The blank characters of `skip_blank`. -/
def is_blank (c : Nat) : Bool := c = 32 || c = 12 || c = 9 || c = 10 || c = 13

/-- Source `skip_blank`: the text from the first non-blank character. -/
def skip_blank (ptr : Str) : Str := ptr.dropWhile is_blank

/-- The `int` value of a `char` (signed, as on the x86 ABIs). -/
def char_to_int (c : Nat) : Int := if c < 128 then (c : Int) else (c : Int) - 256

/-- The octal loop of `parse_char`: at most `k` more digits on `num`. -/
def parse_char_octal : Nat → Int → Str → Int × Str
  | 0, num, ptr => (num, ptr)
  | k + 1, num, ptr =>
    match ptr with
    | [] => (num, ptr)
    | c :: cs =>
      if c < 48 ∨ c > 55 then (num, ptr)
      else parse_char_octal k (num * 8 + (c : Int) - 48) cs

/-- Source `parse_char`, `ptr` pointing at a backslash: the character denoted and
the text after the escape.  The byte after the end of the text reads as NUL. -/
def parse_char (ptr : Str) : Int × Str :=
  match ptr.drop 1 with
  | [] => (0, [])
  | c :: cs =>
    if c = 110 then (10, cs)
    else if c = 116 then (9, cs)
    else if c = 118 then (11, cs)
    else if c = 98 then (8, cs)
    else if c = 114 then (13, cs)
    else if c = 102 then (12, cs)
    else if 48 ≤ c ∧ c ≤ 55 then parse_char_octal 2 ((c : Int) - 48) cs
    else (char_to_int c, cs)

/-- Source `parse_id`: the status and the text from the first of `\f \t \n \r , =`
or the end. -/
def parse_id (ptr : Str) : Int × Str :=
  match ptr with
  | [] => (-EINVAL, [])
  | _ => (0, ptr.dropWhile (fun c => !(c = 12 || c = 9 || c = 10 || c = 13 || c = 44 || c = 61)))

/-- Result of `parse_string`: status, `*val`, and `*ptr`. -/
structure pstring_result where
  err : Int
  val : Str
  ptr : Str
deriving DecidableEq, Repr

/-- The loop of `parse_string` after the opening delimiter. -/
def parse_string_loop : Nat → Nat → Str → List Nat → pstring_result
  | 0, _, ptr, _ => ⟨-EINVAL, [], ptr⟩
  | fuel + 1, delim, ptr, buf =>
    match ptr with
    | [] => ⟨-EINVAL, [], ptr⟩
    | c :: cs =>
      if c = 92 then
        let q := parse_char ptr
        if q.1 < 0 then ⟨q.1, [], q.2⟩
        else parse_string_loop fuel delim q.2 (buf ++ [to_char q.1])
      else if c = delim then ⟨0, c_string buf, cs⟩
      else parse_string_loop fuel delim cs (buf ++ [c])

/-- Source `parse_string`, `ptr` pointing at the opening delimiter. -/
def parse_string (ptr : Str) : pstring_result :=
  match ptr with
  | [] => ⟨-EINVAL, [], []⟩
  | delim :: cs => parse_string_loop (cs.length + 1) delim cs []

/-- Result of `parse_arg`: status, `*varlen`, `*val`, and `*ptr`. -/
structure arg_result where
  err : Int
  varlen : Nat
  val : Str
  ptr : Str
deriving DecidableEq, Repr

/-- Source `parse_arg`: one argument `var=val` or `val`. -/
def parse_arg (ptr : Str) : arg_result :=
  let str := skip_blank ptr
  if str.head? = some 34 ∨ str.head? = some 39 then
    let s := parse_string str
    if s.err < 0 then ⟨s.err, 0, [], s.ptr⟩ else ⟨0, 0, s.val, s.ptr⟩
  else
    let i := parse_id str
    if i.1 < 0 then ⟨i.1, 0, [], i.2⟩
    else
      let vallen := str.length - i.2.length
      let p1 := skip_blank i.2
      if p1.head? ≠ some 61 then ⟨0, 0, str.take vallen, p1⟩
      else
        let str2 := skip_blank (p1.drop 1)
        if str2.head? = some 34 ∨ str2.head? = some 39 then
          let s := parse_string str2
          if s.err < 0 then ⟨s.err, vallen, [], s.ptr⟩ else ⟨0, vallen, s.val, s.ptr⟩
        else
          let j := parse_id str2
          if j.1 < 0 then ⟨j.1, vallen, [], j.2⟩
          else ⟨0, vallen, str2.take (str2.length - j.2.length), j.2⟩

/-- The node built in `parse_args` for the value text `val` of a parameter
identified `var` whose declared type is `tmp`: the conversion of lines 2449-2485. -/
def parse_args_convert (L : libc_double) (tmp : Str) (var : Str) (val : Str) :
    Except Int snd_config_t :=
  if tmp = cstr "integer" then
    match safe_strtol val with
    | .error e => .error e
    | .ok v => .ok (.integer (some var) v)
  else if tmp = cstr "real" then
    match safe_strtod L val with
    | .error e => .error e
    | .ok v => .ok (.real (some var) v)
  else if tmp = cstr "string" then .ok (.string (some var) val)
  else .error (-EINVAL)

/-- The body of the `while (1)` loop of `parse_args` after `parse_arg`, lines
2419-2494: the parameter named `str[0..varlen)` (or by the argument index `arg`)
is resolved in `defs`, its entry in `subs` is deleted, and a node converted from
`val` is added.  The result is the status and `subs` as left; `none` when the call
does not return (the assertion on `varlen`, or an alias cycle in `defs`). -/
def parse_args_bind (L : libc_double) (fuel : Nat) (subs : snd_config_t) (str : Str)
    (varlen : Nat) (val : Str) (arg : Nat) (defs : snd_config_t) :
    Option (Int × snd_config_t) :=
  if 256 ≤ varlen then none
  else
    let var0 := if 0 < varlen then str.take varlen else dec_nat arg
    match snd_config_search_alias fuel defs none var0 with
    | none => none
    | some (.error e) => some (e, subs)
    | some (.ok d) =>
      if snd_config_get_type d ≠ .COMPOUND then some (-EINVAL, subs)
      else
        match snd_config_get_id d with
        | none => none
        | some var =>
          let subs1 := delete_found subs var
          match snd_config_search d (cstr "type") with
          | .error e => some (e, subs1)
          | .ok typ =>
            match snd_config_get_string typ with
            | .error e => some (e, subs1)
            | .ok tmp =>
              match parse_args_convert L tmp var val with
              | .error e => some (e, subs1)
              | .ok sub =>
                match snd_config_add subs1 sub with
                | .error e => some (e, subs1)
                | .ok subs2 => some (0, subs2)

/-- The `while (1)` loop of `parse_args` over the comma separated arguments. -/
def parse_args_loop (L : libc_double) (fuel : Nat) (defs : snd_config_t) :
    Nat → snd_config_t → Str → Nat → Option (Int × snd_config_t)
  | 0, _, _, _ => none
  | n + 1, subs, str, arg =>
    let a := parse_arg str
    if a.err < 0 then some (a.err, subs)
    else
      match parse_args_bind L fuel subs str a.varlen a.val arg defs with
      | none => none
      | some (err, subs1) =>
        if err < 0 then some (err, subs1)
        else
          match a.ptr with
          | [] => some (0, subs1)
          | c :: rest =>
            if c ≠ 44 then some (-EINVAL, subs1)
            else parse_args_loop L fuel defs n subs1 rest (arg + 1)

/-- The text without its trailing blanks. -/
def strip_trailing_blanks (str : Str) : Str := (str.reverse.dropWhile is_blank).reverse

/-- Source `parse_args`: the status and the substitution tree as left (`none`
for the tree once `snd_config_delete(subs)` was called); `none` when the call does
not return within `fuel` (parser recursion, alias chase) or aborts. -/
def parse_args (L : libc_double) (fuel : Nat) (subs : snd_config_t) (str : Option Str)
    (defs : snd_config_t) : Option (Int × Option snd_config_t) :=
  match str with
  | none => some (0, some subs)
  | some str0 =>
    let str := skip_blank str0
    match str with
    | [] => some (0, some subs)
    | c :: _ =>
      if c = 123 then
        let t := strip_trailing_blanks str
        if t.getLast? ≠ some 125 then some (-EINVAL, some subs)
        else
          match snd_config_load L fuel subs (t.drop 1).dropLast with
          | none => none
          | some (err, subs1) =>
            if err < 0 then some (err, none)
            else
              match (fields subs1).find?
                  (fun n => match snd_config_get_id n with
                    | some i => decide ((snd_config_search defs i).toOption = none)
                    | none => true) with
              | some n =>
                match snd_config_get_id n with
                | some i =>
                  match snd_config_search defs i with
                  | .error e => some (e, some subs1)
                  | .ok _ => some (0, some subs1)
                | none => none
              | none => some (0, some subs1)
      else
        (parse_args_loop L fuel defs (str.length + 1) subs str 0).map
          (fun r => (r.1, some r.2))

/-! ## Specification vocabulary for integer literals -/

/-- The value of a non-empty text made only of digits of `base`. -/
def digits_value (base : Nat) (s : Str) : Option Nat :=
  match s with
  | [] => none
  | _ =>
    if s.all (fun c => decide (digit_value c < base)) then
      some (s.foldl (fun acc c => acc * base + digit_value c) 0)
    else none

/-- The value of an unsigned integer literal: `0x` or `0X` and hexadecimal digits,
`0` and octal digits, or decimal digits. -/
def unsigned_literal (s : Str) : Option Nat :=
  match s with
  | 48 :: x :: h :: r =>
    if x = 120 ∨ x = 88 then digits_value 16 (h :: r) else digits_value 8 s
  | 48 :: _ => digits_value 8 s
  | _ => digits_value 10 s

/-- The value of an integer literal: an optional sign and an unsigned literal. -/
def integer_literal (s : Str) : Option Int :=
  match s with
  | 45 :: r => (unsigned_literal r).map (fun (m : Nat) => -(m : Int))
  | 43 :: r => (unsigned_literal r).map (fun (m : Nat) => (m : Int))
  | _ => (unsigned_literal s).map (fun (m : Nat) => (m : Int))

/-- The value of a complete integer literal: the whole text is white space
followed by an integer literal. -/
def complete_integer_literal (s : Str) : Option Int :=
  integer_literal (s.dropWhile isspace)

/-- A libc for the closed examples, none of which holds a real number: its
`strtod` converts nothing and leaves `end` at the start of the text. -/
def libc_no_real : libc_double := ⟨fun str => (⟨0⟩, str, 0), fun _ => []⟩

/-! ## Specification vocabulary for the argument binder -/

/-- An argument word: a non-empty text without blank, comma or equals sign that
starts with neither a quote nor an opening brace. -/
def arg_word (w : Str) : Prop :=
  w ≠ [] ∧ (∀ c ∈ w, is_blank c = false ∧ c ≠ 44 ∧ c ≠ 61) ∧
    w.head? ≠ some 34 ∧ w.head? ≠ some 39 ∧ w.head? ≠ some 123

/-- The parameter that `parse_args` resolves for an argument: the name given
(`str[0..varlen)`) or else the decimal argument index. -/
def arg_key (str : Str) (varlen arg : Nat) : Str :=
  if 0 < varlen then str.take varlen else dec_nat arg

/-- The substitution tree once the parameter `name` is bound to `leaf`: the other
entries in their order and `leaf` last. -/
def bind_entry (subs : snd_config_t) (name : Str) (leaf : snd_config_t) : snd_config_t :=
  set_fields subs
    ((fields subs).filter (fun n => decide (snd_config_get_id n ≠ some name)) ++ [leaf])

/-- The parameter block `count { type integer default 1 }` of the binding
examples. -/
def args_count : snd_config_t :=
  .compound (some (cstr "@args")) false
    [.compound (some (cstr "count")) false
      [.string (some (cstr "type")) (cstr "integer"), .integer (some (cstr "default")) 1]]

/-- The parameter block written `@args [ count ]` and
`@args.count { type integer default 1 }`: the index entry `0` names `count`. -/
def args_index_count : snd_config_t :=
  .compound (some (cstr "@args")) true
    [.string (some (cstr "0")) (cstr "count"),
     .compound (some (cstr "count")) false
      [.string (some (cstr "type")) (cstr "integer"), .integer (some (cstr "default")) 1]]

/-- The parameter block `p { type string default { a 1 } }`, whose default is a
compound. -/
def args_compound_default : snd_config_t :=
  .compound (some (cstr "@args")) false
    [.compound (some (cstr "p")) false
      [.string (some (cstr "type")) (cstr "string"),
       .compound (some (cstr "default")) false [.integer (some (cstr "a")) 1]]]

/-! ## Specification vocabulary: printed text and its reading -/

/-- A plain character: printable, not a blank, and none of the characters that
the lexer or the printer treats specially (`" # ' , . ; < = [ \ ] { }`). -/
def plain_char (c : Nat) : Bool :=
  decide (33 ≤ c) && decide (c ≤ 126) && !(c = 34 || c = 35 || c = 39 || c = 44 || c = 46 ||
    c = 59 || c = 60 || c = 61 || c = 91 || c = 92 || c = 93 || c = 123 || c = 125)

/-- A plain word: a non-empty text of plain characters. -/
def plain_word (w : Str) : Bool := !w.isEmpty && w.all plain_char

/-- The input delivers the text `T` and then the end of input: it has nothing
pushed back and `T` is unread, or the first character of `T` is pushed back, or
the end of input is pushed back and nothing is unread. -/
def Feeds (inp : input_t) (T : List Nat) : Prop :=
  (inp.unget = false ∧ inp.current = T) ∨
  (inp.unget = true ∧ ∃ c : Nat, inp.ch = (c : Int) ∧ T = c :: inp.current) ∨
  (inp.unget = true ∧ inp.ch = EOF ∧ inp.current = [] ∧ T = [])

/-- The input has nothing pushed back and `T` is unread. -/
def Clean (inp : input_t) (T : List Nat) : Prop := inp.unget = false ∧ inp.current = T

/-- The text without its leading blanks. -/
def lstrip (T : List Nat) : List Nat := T.dropWhile is_blank

/-- The input feeds a text that agrees with `Y` after the leading blanks. -/
def FeedsW (inp : input_t) (Y : List Nat) : Prop := ∃ X, Feeds inp X ∧ lstrip X = lstrip Y

/-- The text after its leading blanks is empty or starts with a character that
`get_nonwhite` returns as it is and that the end of `parse_def` pushes back. -/
def GoodTail (T : List Nat) : Prop :=
  ∀ c Y, lstrip T = c :: Y → c ≠ 60 ∧ c ≠ 35 ∧ c ≠ 59 ∧ c ≠ 44

/-- A value word: a plain word that starts with neither a digit nor a minus
sign, so that the parser reads it as a String. -/
def value_word (w : Str) : Bool :=
  plain_word w &&
    match w with
    | [] => false
    | c :: _ => !((decide (48 ≤ c) && decide (c ≤ 57)) || c = 45)

/-- The parser function `g`, given enough fuel, returns status 0 with the father
`F'` and an input that feeds `T'`. -/
def Yields (g : Nat → Option parse_result) (F' : snd_config_t) (T' : List Nat) : Prop :=
  ∃ inp', Feeds inp' T' ∧ ∃ f0, ∀ f, f0 ≤ f → g f = some ⟨0, F', inp'⟩

/-- The father with the new child `n`, when the father is a compound that has no
child identified `i` yet. -/
def add_new (i : Str) (n : snd_config_t) (X : snd_config_t) : Option snd_config_t :=
  match X with
  | .compound _ _ _ => if search_index X i = none then some (add_field X n) else none
  | _ => none

/-- The tree after the parser followed the dotted identifiers `path` from the
father, entering the compound found under each (its join flag set) or creating a
join compound for it, and changed the compound it reached with `g`. -/
def at_path (g : snd_config_t → Option snd_config_t) :
    snd_config_t → List Str → Option snd_config_t
  | F, [] => g F
  | F, p :: ps =>
    match F with
    | .compound _ _ _ =>
      match search_index F p with
      | some k =>
        match (fields F)[k]? with
        | some (.compound i _ gs) => (at_path g (.compound i true gs) ps).map (set_field F k)
        | _ => none
      | none => (at_path g (.compound (some p) true []) ps).map (add_field F)
    | _ => none

mutual
/-- The tree after the parser read the lines printed for the node `n`, which
the printer reached through the join compounds `path`. -/
def ins_node (F : snd_config_t) (path : List Str) : snd_config_t → Option snd_config_t
  | .compound (some i) true kids => ins_all F (path ++ [i]) kids
  | .compound (some i) false kids =>
    match ins_all (.compound (some i) false []) [] kids with
    | some n => at_path (add_new i n) F path
    | none => none
  | .integer (some i) v => at_path (add_new i (.integer (some i) v)) F path
  | .string (some i) s => at_path (add_new i (.string (some i) s)) F path
  | _ => none

/-- The tree after the parser read the lines printed for the nodes of a list. -/
def ins_all (F : snd_config_t) (path : List Str) : List snd_config_t → Option snd_config_t
  | [] => some F
  | n :: rest =>
    match ins_node F path n with
    | some F1 => ins_all F1 path rest
    | none => none
end

mutual
/-- A node that the printed text gives back: Integers within `long`, Strings
whose value is a value word, compounds whose children have pairwise-distinct
identifiers and are such nodes, a join compound not empty; every identifier a
plain word. -/
def round_trip_node : snd_config_t → Bool
  | .integer (some i) v => plain_word i && decide (LONG_MIN ≤ v) && decide (v ≤ LONG_MAX)
  | .string (some i) s => plain_word i && value_word s
  | .compound (some i) join kids =>
    plain_word i && (!join || !kids.isEmpty) &&
      decide ((kids.map snd_config_get_id).Nodup) && round_trip_list kids
  | _ => false

/-- Every node of the list is a `round_trip_node`. -/
def round_trip_list : List snd_config_t → Bool
  | [] => true
  | n :: rest => round_trip_node n && round_trip_list rest
end

/-- The node `F1` is the compound `F` with another child list. -/
def Keeps (F F1 : snd_config_t) : Prop :=
  ∃ I J fs gs, F = .compound I J fs ∧ F1 = .compound I J gs

/-- The text of the dotted identifiers in front of the identifier of a node. -/
def dotted_path (P : List Str) : Str := P.flatMap (fun p => p ++ [46])

/-- The text, after the blanks in front of it, starts with a plain character,
whatever follows it. -/
def Starts (text : Str) : Prop :=
  ∃ c Y, plain_char c = true ∧ ∀ T, lstrip (text ++ T) = c :: (Y ++ T)

/-- The parser reads `text` as the change `ins` of the father: on an input with
`text` in front, `parse_defs` goes on as it does on what follows `text` with the
changed father. -/
def Reads (L : libc_double) (text : Str) (ins : snd_config_t → Option snd_config_t) : Prop :=
  ∀ (F F1 : snd_config_t) (inp : input_t) (T : List Nat) (Ff : snd_config_t) (Tf : List Nat),
    ins F = some F1 → FeedsW inp (text ++ T) → GoodTail T →
    (∀ inp1, FeedsW inp1 T → Yields (fun f => parse_defs L f F1 inp1) Ff Tf) →
    Yields (fun f => parse_defs L f F inp) Ff Tf

/-- A printed line: the tabs, the dotted path and the identifier, a space, the
value text `V` and a newline. -/
def line_text (level : Nat) (P : List Str) (i : Str) (V : Str) : Str :=
  List.replicate level 9 ++ (dotted_path P ++ i) ++ 32 :: V ++ [10]

/-- A tree whose printed text is read back: the children of the top node are
round-trip nodes with pairwise-distinct identifiers. -/
def round_trip_tree (fs : List snd_config_t) : Bool :=
  round_trip_list fs && decide ((fs.map snd_config_get_id).Nodup)

/-- A tree of the round-trip class: an Integer, a join compound `pcm` holding a
compound and a String. -/
def round_trip_example : List snd_config_t :=
  [.integer (some (cstr "rate")) 44100,
   .compound (some (cstr "pcm")) true
     [.compound (some (cstr "front")) false
        [.string (some (cstr "type")) (cstr "hw"), .integer (some (cstr "card")) (-1)],
      .string (some (cstr "default")) (cstr "front")]]

/-! ## Specification vocabulary: sibling identifiers -/

mutual
/-- The children of every compound of the tree have pairwise-distinct
identifiers. -/
def siblings_distinct : snd_config_t → Bool
  | .compound _ _ fs => decide ((fs.map snd_config_get_id).Nodup) && siblings_distinct_list fs
  | _ => true

/-- Every node of the list satisfies `siblings_distinct`. -/
def siblings_distinct_list : List snd_config_t → Bool
  | [] => true
  | n :: rest => siblings_distinct n && siblings_distinct_list rest
end

/-! ## Expansion callback and specification vocabulary: seeding, expansion, scalars, arrays -/

/-- A field of a parameter declaration that is neither `type` nor `default`. -/
def unknown_field (fld : snd_config_t) : Bool :=
  decide (snd_config_get_id fld ≠ some (cstr "type")) &&
    decide (snd_config_get_id fld ≠ some (cstr "default"))

/-- A Compound parameter declaration with a field other than `type` and
`default`. -/
def bad_declaration (d : snd_config_t) : Bool :=
  decide (snd_config_get_type d = .COMPOUND) && (fields d).any unknown_field

/-- The `default` field of a declaration, if it has one. -/
def default_field (d : snd_config_t) : Option snd_config_t :=
  (fields d).find? (fun f => decide (snd_config_get_id f = some (cstr "default")))

/-- The entry the substitution tree receives for a parameter declaration: the
default value of a Compound declaration, identified by the name of the
parameter; none for a declaration without `default` field and for an entry of
`@args` that is not a Compound. -/
def default_entry (d : snd_config_t) : Option snd_config_t :=
  if snd_config_get_type d = .COMPOUND then
    match snd_config_get_id d, default_field d with
    | some name, some f => some (snd_config_set_id f name)
    | _, _ => none
  else none

/-- The entries for the declarations of an `@args` block, in declaration order. -/
def default_entries (defs : snd_config_t) : List snd_config_t :=
  (fields defs).filterMap default_entry

/-- The Compound declarations of an `@args` block are well formed: each has a
name, each of its fields has an identifier, and the identifiers are pairwise
distinct among the children of each of its compounds. -/
def declarations_well_formed (ds : List snd_config_t) : Bool :=
  ds.all (fun d => decide (snd_config_get_type d ≠ .COMPOUND) ||
    ((snd_config_get_id d).isSome &&
      (fields d).all (fun f => (snd_config_get_id f).isSome) && siblings_distinct d))

/-- The `@args` block that the parser makes of
`@args.p.default [ 1 ] @args.p.default [ 2 ]`: the default of `p` holds two
children identified `0`. -/
def args_default_twice : snd_config_t :=
  .compound (some (cstr "@args")) true
    [.compound (some (cstr "p")) true
      [.compound (some (cstr "default")) false
        [.integer (some (cstr "0")) 1, .integer (some (cstr "0")) 2]]]

/-- The `@args` block of `@args.count.type integer`: the parameter `count` has
no default. -/
def args_count_no_default : snd_config_t :=
  .compound (some (cstr "@args")) true
    [.compound (some (cstr "count")) true [.string (some (cstr "type")) (cstr "integer")]]

/-- The test `strncmp(s, "$(", 2) == 0 && s[strlen(s) - 1] == ')'` of
`_snd_config_expand`. -/
def is_variable (s : Str) : Bool :=
  decide (s.take 2 = cstr "$(") && decide (s.getLast? = some 41)

/-- The name copied out of `$(name)`: `len = strlen(s) - 3` bytes from `s + 2`. -/
def variable_name (s : Str) : Str := (s.drop 2).take (s.length - 3)

/-- Source `_snd_config_expand`, the callback of the expansion walk; the private
data is the substitution tree `vars`.  The result is `none` where the source has
no defined one: a compound without identifier, whose NULL identifier goes to
`strcmp`, and a resolved variable without identifier, whose NULL identifier goes
to `strdup` in `snd_config_set_id`. -/
def _snd_config_expand : snd_config_walk_callback_t snd_config_t :=
  fun src _root dst pass vars =>
    match pass with
    | .PRE =>
      match src with
      | .compound id join _ =>
        match id with
        | none => none
        | some i =>
          if i = cstr "@args" then some ⟨0, dst⟩
          else some ⟨1, some (.compound (some i) join [])⟩
      | _ => some ⟨1, dst⟩
    | .LEAF =>
      match src with
      | .integer id v => some ⟨1, some (.integer id v)⟩
      | .real id v => some ⟨1, some (.real id v)⟩
      | .string id s =>
        if is_variable s then
          match snd_config_search vars (variable_name s) with
          | .error _ => some ⟨0, dst⟩
          | .ok val =>
            match snd_config_copy val with
            | none => none
            | some c =>
              if c.err < 0 then some ⟨c.err, none⟩
              else
                match c.dst, id with
                | some d, some i => some ⟨1, some (snd_config_set_id d i)⟩
                | _, _ => none
        else some ⟨1, some (.string id s)⟩
      | .compound _ _ _ => some ⟨1, dst⟩
    | .POST => some ⟨1, dst⟩

mutual
/-- What the expansion makes of a node of the template: an Integer, a Real and
a String that is no variable stay as they are; a String `$(name)` becomes the
entry `name` of the substitution tree under the identifier of the String, and
nothing when there is no such entry; a compound `@args` becomes nothing; any
other compound keeps identifier and join flag and holds what its children
become, in their order. -/
def expand_node (vars : snd_config_t) : snd_config_t → Option snd_config_t
  | .integer id v => some (.integer id v)
  | .real id v => some (.real id v)
  | .string id s =>
    if is_variable s then
      match snd_config_search vars (variable_name s), id with
      | .ok val, some i => some (snd_config_set_id val i)
      | _, _ => none
    else some (.string id s)
  | .compound id join fs =>
    if id = some (cstr "@args") then none
    else some (.compound id join (expand_list vars fs))

/-- What the expansion makes of the nodes of a list, in their order. -/
def expand_list (vars : snd_config_t) : List snd_config_t → List snd_config_t
  | [] => []
  | n :: rest =>
    match expand_node vars n with
    | some m => m :: expand_list vars rest
    | none => expand_list vars rest
end

/-- The nodes that the expansion leaves out: a compound `@args` and a String
`$(name)` whose name has no entry in the substitution tree. -/
def expand_drops (vars : snd_config_t) : snd_config_t → Bool
  | .compound id _ _ => decide (id = some (cstr "@args"))
  | .string _ s =>
    is_variable s &&
      match snd_config_search vars (variable_name s) with
      | .ok _ => false
      | .error _ => true
  | _ => false

mutual
/-- Every node below has an identifier. -/
def named : snd_config_t → Bool
  | .compound id _ fs => id.isSome && named_list fs
  | n => (snd_config_get_id n).isSome

/-- Every node of the list and below has an identifier. -/
def named_list : List snd_config_t → Bool
  | [] => true
  | n :: rest => named n && named_list rest
end

/-- The result of the walk of a node that the expansion turns into `r`. -/
def expand_result (r : Option snd_config_t) : walk_result :=
  match r with
  | some m => ⟨1, some m⟩
  | none => ⟨0, none⟩

/-- A template with a parameter block, two variables and two plain leaves. -/
def expand_template : List snd_config_t :=
  [.compound (some (cstr "@args")) false
     [.compound (some (cstr "x")) false [.string (some (cstr "type")) (cstr "string")]],
   .string (some (cstr "card")) (cstr "$(x)"),
   .integer (some (cstr "rate")) 44100,
   .string (some (cstr "dev")) (cstr "$(y)"),
   .string (some (cstr "name")) (cstr "hw")]

/-- A substitution tree with the single entry `x = 0`. -/
def expand_vars : snd_config_t :=
  .compound none false [.integer (some (cstr "x")) 0]

/-- The token starts with a digit or a minus sign. -/
def starts_numeric (s : Str) : Bool :=
  match s with
  | c :: _ => (decide (48 ≤ c) && decide (c ≤ 57)) || decide (c = 45)
  | [] => false

/-- The node a scalar token stands for: an Integer when the token starts with a
digit or `-` and is a complete integer literal whose value fits `long`; else a
Real when it starts so and `safe_strtod` converts it whole; else a String with
the token as its value. -/
def scalar_node (L : libc_double) (id : Str) (s : Str) : snd_config_t :=
  let other : snd_config_t :=
    match safe_strtod L s with
    | .ok r => .real (some id) r
    | .error _ => .string (some id) s
  if starts_numeric s then
    match complete_integer_literal s with
    | some v => if LONG_MIN ≤ v ∧ v ≤ LONG_MAX then .integer (some id) v else other
    | none => other
  else .string (some id) s

/-- The text of an array body up to and with the closing bracket: each token is
followed by its blanks. -/
def array_text : List (Str × Str) → Str
  | [] => [93]
  | (w, sep) :: rest => w ++ sep ++ array_text rest

/-- The tokens of an array body are plain words, each followed by blanks only,
at least one of them between two tokens. -/
def array_items_ok : List (Str × Str) → Bool
  | [] => true
  | (w, sep) :: rest =>
    plain_word w && sep.all is_blank && (!sep.isEmpty || rest.isEmpty) && array_items_ok rest

/-- The nodes of the array elements from the index `idx` on: the element `k`
is the node of the `k`-th token, identified by the decimal text of `k`. -/
def array_nodes (L : libc_double) : Nat → List (Str × Str) → List snd_config_t
  | _, [] => []
  | idx, (w, _) :: rest => scalar_node L (dec_nat idx) w :: array_nodes L (idx + 1) rest

/-- The text between the identifier of a definition and its value: blanks, or
an equals sign with blanks around it; not empty. -/
def assign_sep (A : Str) : Bool :=
  !A.isEmpty &&
    match A.dropWhile is_blank with
    | [] => true
    | x :: rest => decide (x = 61) && rest.all is_blank

/-- The chain of join compounds `p1 { p2 { ... n } }` that a dotted path
creates around a node. -/
def join_nest : List Str → snd_config_t → snd_config_t
  | [], n => n
  | p :: ps, n => .compound (some p) true [join_nest ps n]

/-- The end of `snd_config_get_ascii` for a Real: the blanks at the end of the
buffer are cut off. -/
def trim_spaces (res : Str) : Str :=
  (res.reverse.dropWhile (· = 32)).reverse

/-- Source `snd_config_get_ascii`.  `snprintf` returns the length of the whole
text and leaves in `res` what fits, `sizeof(res) - 1` bytes; a length equal to
the size of the buffer reaches `assert(0)` and `-ENOMEM`. -/
def snd_config_get_ascii (L : libc_double) : snd_config_t → Except Int Str
  | .integer _ v =>
    if (dec_int v).length = 12 then .error (-ENOMEM)
    else .ok ((dec_int v).take 11)
  | .real _ v =>
    if (L.printf_g v).length = 32 then .error (-ENOMEM)
    else .ok (trim_spaces ((L.printf_g v).take 31))
  | .string _ s => .ok s
  | .compound _ _ _ => .error (-EINVAL)

/-- An octal digit. -/
def is_octal (c : Nat) : Bool := decide (48 ≤ c) && decide (c ≤ 55)

/-- The base-8 value of a text of octal digits. -/
def octal_value (ds : List Nat) : Int :=
  ds.foldl (fun (a : Int) (d : Nat) => a * 8 + ((d : Int) - 48)) 0

/-- What the text after a backslash stands for, and the text left after it:
the control characters for `n t v b r f`; the value of at most three octal
digits; any other character itself; the end of input when nothing follows. -/
def escape_value (X : List Nat) : Int × List Nat :=
  match X with
  | [] => (EOF, [])
  | c :: R =>
    if c = 110 then (10, R)
    else if c = 116 then (9, R)
    else if c = 118 then (11, R)
    else if c = 98 then (8, R)
    else if c = 114 then (13, R)
    else if c = 102 then (12, R)
    else if is_octal c then
      let ds := ((c :: R).takeWhile is_octal).take 3
      (octal_value ds, (c :: R).drop ds.length)
    else ((c : Int), R)

/-- The terminators of a free-form token as the format lists them: the end of
input, the blanks, `= , ; { } [ ] ' " \ #`, and `.` for an identifier. -/
def token_terminator (id : Bool) (c : Int) : Prop :=
  c = EOF ∨ c = 32 ∨ c = 12 ∨ c = 9 ∨ c = 10 ∨ c = 13 ∨ c = 61 ∨ c = 44 ∨ c = 59 ∨
  c = 123 ∨ c = 125 ∨ c = 91 ∨ c = 93 ∨ c = 39 ∨ c = 34 ∨ c = 92 ∨ c = 35 ∨
  (id = true ∧ c = 46)

/-- A byte of a free-form token: no NUL, at most 255, and no terminator. -/
def token_byte (id : Bool) (c : Nat) : Bool :=
  decide (1 ≤ c) && decide (c ≤ 255) && !freestring_end id (c : Int)

/-- What lies outside the model at a node with a `@func` child: the lookup of
the function named by the string, `dlopen`, `dlsym` and the call.  From the
name, the root and the node to the status (negative for a missing library or
symbol and for a failing function) and the node `eval` the function returns. -/
abbrev func_call := Str → snd_config_t → snd_config_t → Int × Option snd_config_t

/-- Source `_snd_config_evaluate` with `snd_config_substitute`: the status and
the node `src` as the call leaves it. -/
def _snd_config_evaluate (call : func_call) (root : snd_config_t) (src : snd_config_t)
    (pass : snd_config_walk_pass_t) : Int × snd_config_t :=
  match pass with
  | .PRE =>
    match snd_config_search src (cstr "@func") with
    | .error _ => (1, src)
    | .ok c =>
      match snd_config_get_string c with
      | .error e => (e, src)
      | .ok str =>
        let r := call str root src
        if r.1 < 0 then (r.1, src)
        else
          match r.2 with
          | some eval => (0, eval)
          | none => (0, src)
  | _ => (1, src)

mutual
/-- Source `snd_config_walk` with `dst == NULL`, as `snd_config_evaluate` calls
it: the callback works on the nodes in place; the status and the node as left.
A callback that returns a positive status for the pass PRE has left the
children of the node as they were. -/
def snd_config_walk_in_place (callback : snd_config_t → snd_config_walk_pass_t → Int × snd_config_t) :
    snd_config_t → Int × snd_config_t
  | .compound id join fs =>
    let pre := callback (.compound id join fs) .PRE
    if pre.1 ≤ 0 then pre
    else
      let ch := snd_config_walk_in_place_fields callback fs
      if ch.1 < 0 then (ch.1, .compound id join ch.2)
      else callback (.compound id join ch.2) .POST
  | .integer id v => callback (.integer id v) .LEAF
  | .real id v => callback (.real id v) .LEAF
  | .string id v => callback (.string id v) .LEAF

/-- The `snd_config_for_each` loop of the walk in place: negative status of the
first child whose walk fails, else 0, and the children as left. -/
def snd_config_walk_in_place_fields
    (callback : snd_config_t → snd_config_walk_pass_t → Int × snd_config_t) :
    List snd_config_t → Int × List snd_config_t
  | [] => (0, [])
  | s :: rest =>
    let w := snd_config_walk_in_place callback s
    if w.1 < 0 then (w.1, w.2 :: rest)
    else
      let r := snd_config_walk_in_place_fields callback rest
      (r.1, w.2 :: r.2)
end

/-- Source `snd_config_evaluate` (its `result` is NULL). -/
def snd_config_evaluate (call : func_call) (config root : snd_config_t) : Int × snd_config_t :=
  snd_config_walk_in_place (_snd_config_evaluate call root) config

/-- The end of `snd_config_expand`: the evaluation of the expanded node and the
status 1. -/
def snd_config_expand_end (call : func_call) (root res : snd_config_t) :
    Int × Option snd_config_t :=
  let ev := snd_config_evaluate call res root
  if ev.1 < 0 then (ev.1, none) else (1, some ev.2)

/-- Source `snd_config_expand`: the status and `*result`; `none` when
`parse_args` does not return within `fuel`, where the source goes on with an
unset `res` (the walk of a node that is itself identified `@args`), and where
`load_defaults` or the walk has no defined result. -/
def snd_config_expand (L : libc_double) (call : func_call) (fuel : Nat)
    (config root : snd_config_t) (args : Option Str) : Option (Int × Option snd_config_t) :=
  match snd_config_search config (cstr "@args") with
  | .error _ =>
    match snd_config_copy config with
    | none => none
    | some c =>
      if c.err < 0 then some (c.err, none)
      else
        match c.dst with
        | none => none
        | some res => some (snd_config_expand_end call root res)
  | .ok defs =>
    match load_defaults snd_config_top defs with
    | none => none
    | some d =>
      if d.1 < 0 then some (d.1, none)
      else
        match parse_args L fuel d.2 args defs with
        | none => none
        | some (e, subs) =>
          if e < 0 then some (e, none)
          else
            match subs with
            | none => none
            | some subs1 =>
              let ev := snd_config_evaluate call subs1 root
              if ev.1 < 0 then some (ev.1, none)
              else
                match snd_config_walk _snd_config_expand ev.2 (some root) config with
                | none => none
                | some w =>
                  if w.err < 0 then some (w.err, none)
                  else
                    match w.dst with
                    | none => none
                    | some res => some (snd_config_expand_end call root res)

/-- Source `snd_config_search_definition`: the name is split at its first `:`
into the key and the arguments. -/
def snd_config_search_definition (L : libc_double) (call : func_call) (fuel : Nat)
    (config : snd_config_t) (base : Option Str) (name : Str) :
    Option (Int × Option snd_config_t) :=
  let key := match strchr name 58 with
    | some p => name.take p
    | none => name
  let args := match strchr name 58 with
    | some p => some (name.drop (p + 1))
    | none => none
  match snd_config_search_alias fuel config base key with
  | none => none
  | some (.error e) => some (e, none)
  | some (.ok conf) => snd_config_expand L call fuel conf config args

/-- A function environment without functions: every call fails with `-ENOENT`,
as when the library is missing. -/
def no_functions : func_call := fun _ _ _ => (-ENOENT, none)

/-- A tree with the one definition `pcm.front { type hw }`. -/
def definition_tree : snd_config_t :=
  .compound none false
    [.compound (some (cstr "pcm")) true
      [.compound (some (cstr "front")) false [.string (some (cstr "type")) (cstr "hw")]]]

/-- One `struct finfo`; `name` is `none` for a null pointer. -/
structure finfo where
  name : Option Str
  dev : Nat
  ino : Nat
  mtime : Int
deriving DecidableEq, Repr

/-- What `snd_config_update` and `snd_config_preload` take from outside conf.c:
the value of the environment variable `ALSA_CONFIG_PATH`, the default path
`ALSA_CONFIG_PATH_DEFAULT` (built from `DATADIR`), the constant `WRDE_NOSPACE`,
`wordexp` (its status and the words `we_wordv`), `stat` (device, inode and
modification time, `none` when it fails) and `snd_input_stdio_open` (the text of
the file or the negative status).  `stat` and `snd_input_stdio_open` take the
pointer they are given, `none` for a null pointer. -/
structure world where
  getenv : Option Str
  ALSA_CONFIG_PATH_DEFAULT : Str
  WRDE_NOSPACE : Int
  wordexp : Str → Int × List Str
  stat : Option Str → Option (Nat × Nat × Int)
  snd_input_stdio_open : Option Str → Except Int (List Nat)

/-- The lines of both functions from `wordexp` to the copy of the word: the
`switch` on its status and `strdup(we.we_wordv[0])`. -/
def expand_word (W : world) (name : Str) : Except Int Str :=
  let we := W.wordexp name
  if we.1 = W.WRDE_NOSPACE then .error (-ENOMEM)
  else if we.1 = 0 then
    match we.2 with
    | [w] => .ok w
    | _ => .error (-EINVAL)
  else .error (-EINVAL)

/-- The body of `if (i == idx)` in `snd_config_preload` up to `stat`: the entry
written to `fi[fi_idx]`, `none` when `stat` fails, or the error status. -/
def preload_file (L : libc_double) (W : world) (n : snd_config_t) : Except Int (Option finfo) :=
  match snd_config_get_ascii L n with
  | .error e => .error e
  | .ok name =>
    match expand_word W name with
    | .error e => .error e
    | .ok w =>
      match W.stat (some w) with
      | none => .ok none
      | some st => .ok (some ⟨some w, st.1, st.2.1, st.2.2⟩)

/-- The variables of the selection loop of `snd_config_preload`: `fi` holds
the entries `fi[0 .. fi_idx)`, the other slots of the array are as `calloc`
left them. -/
structure preload_sel where
  idx : Nat
  fi : List finfo
  fi_count : Nat
  hit : Bool
deriving DecidableEq

/-- One pass `snd_config_for_each` of the selection loop over the children;
`none` for a child without identifier, which the source does not expect. -/
def preload_pass (L : libc_double) (W : world) :
    List snd_config_t → preload_sel → Option (Except Int preload_sel)
  | [], s => some (.ok s)
  | n :: rest, s =>
    match snd_config_get_id n with
    | none => none
    | some id =>
      match safe_strtol id with
      | .error _ => some (.error (-EINVAL))
      | .ok i =>
        if i = (s.idx : Int) then
          match preload_file L W n with
          | .error e => some (.error e)
          | .ok none => preload_pass L W rest ⟨s.idx + 1, s.fi, s.fi_count - 1, true⟩
          | .ok (some e) => preload_pass L W rest ⟨s.idx + 1, s.fi ++ [e], s.fi_count, true⟩
        else preload_pass L W rest s

/-- The loop `do ... while (hit)` of `snd_config_preload`, at most `fuel`
passes. -/
def preload_select (L : libc_double) (W : world) (cs : List snd_config_t) :
    Nat → preload_sel → Option (Except Int preload_sel)
  | 0, _ => none
  | fuel + 1, s =>
    match preload_pass L W cs ⟨s.idx, s.fi, s.fi_count, false⟩ with
    | none => none
    | some (.error e) => some (.error e)
    | some (.ok s1) => if s1.hit then preload_select L W cs fuel s1 else some (.ok s1)

/-- The array `fi[0 .. fi_count)` after the selection loop. -/
def fi_slots (s : preload_sel) : List finfo :=
  s.fi ++ List.replicate (s.fi_count - s.fi.length) ⟨none, 0, 0, 0⟩

/-- The first loop of `snd_config_preload` over the children: the number of
children, or the status of the first one that is not a String. -/
def preload_count : List snd_config_t → Except Int Nat
  | [] => .ok 0
  | c :: rest =>
    match snd_config_get_string c with
    | .error e => .error e
    | .ok _ =>
      match preload_count rest with
      | .error e => .error e
      | .ok k => .ok (k + 1)

/-- The loop that loads the files `fi[0 .. fi_count)` into `snd_config`, the
same in `snd_config_preload` and `snd_config_update`: a file that cannot be
opened is passed over, the first load that fails ends the loop. -/
def load_files (L : libc_double) (W : world) (fuel : Nat) :
    List finfo → snd_config_t → Option (Int × snd_config_t)
  | [], cfg => some (0, cfg)
  | f :: rest, cfg =>
    match W.snd_input_stdio_open f.name with
    | .error _ => load_files L W fuel rest cfg
    | .ok text =>
      match snd_config_load L fuel cfg text with
      | none => none
      | some (e, cfg1) => if e < 0 then some (e, cfg1) else load_files L W fuel rest cfg1

/-- Source `snd_config_preload(root)` with `root == snd_config`, as
`snd_config_update` calls it: the status, the tree as left and the array the
call stores in `preloaded_files_info` (`none` when it stores nothing).  Memory
allocation succeeds.  `none` when `fuel` does not suffice. -/
def snd_config_preload (L : libc_double) (call : func_call) (W : world) (fuel : Nat)
    (root : snd_config_t) : Option (Int × snd_config_t × Option (List finfo)) :=
  match snd_config_search root (cstr "preload") with
  | .error _ => some (0, root, none)
  | .ok p =>
    match snd_config_search p (cstr "filenames") with
    | .error _ => some (-EINVAL, root, none)
    | .ok f =>
      match snd_config_expand L call fuel f root none with
      | none => none
      | some (e, r) =>
        if e < 0 then some (e, root, none)
        else
          match r with
          | none => none
          | some n =>
            if snd_config_get_type n ≠ .COMPOUND then some (e, root, none)
            else
              match preload_count (fields n) with
              | .error e1 => some (e1, root, none)
              | .ok fi_count =>
                match preload_select L W (fields n) fuel ⟨0, [], fi_count, false⟩ with
                | none => none
                | some (.error e2) => some (e2, root, none)
                | some (.ok s) =>
                  match load_files L W fuel (fi_slots s) root with
                  | none => none
                  | some (e3, cfg) =>
                    if e3 < 0 then some (e3, cfg, none)
                    else some (0, cfg, some (fi_slots s))

/-- Source `strcspn(c, ": ")`. -/
def strcspn_path (c : Str) : Nat :=
  (c.takeWhile (fun x => x ≠ 58 ∧ x ≠ 32)).length

/-- The loop of `snd_config_update` over the path list: the names between the
separators, up to the first empty one.  Each round takes at least one byte, so
`fuel` above the length of `c` is never used up. -/
def path_names : Nat → Str → List Str
  | 0, _ => []
  | fuel + 1, c =>
    let l := strcspn_path c
    if l = 0 then []
    else
      match c.drop l with
      | [] => [c.take l]
      | _ :: rest => c.take l :: path_names fuel rest

/-- The second loop over the path list: the expanded name of each file, or the
status of the first `wordexp` that fails. -/
def expand_names (W : world) : List Str → Except Int (List Str)
  | [] => .ok []
  | name :: rest =>
    match expand_word W name with
    | .error e => .error e
    | .ok w =>
      match expand_names W rest with
      | .error e => .error e
      | .ok ws => .ok (w :: ws)

/-- The `stat` loop of `snd_config_update`: the entries of the files that
exist, in their order; the entry of a missing file is moved out with
`memmove`. -/
def stat_names (W : world) : List Str → List finfo
  | [] => []
  | w :: rest =>
    match W.stat (some w) with
    | some st => ⟨some w, st.1, st.2.1, st.2.2⟩ :: stat_names W rest
    | none => stat_names W rest

/-- The comparison loop of `fi` with `files_info`: true when an entry differs. -/
def files_differ : List finfo → List finfo → Bool
  | a :: as, b :: bs =>
    if a.name ≠ b.name ∨ a.dev ≠ b.dev ∨ a.ino ≠ b.ino ∨ a.mtime ≠ b.mtime then true
    else files_differ as bs
  | _, _ => false

/-- The loop over `preloaded_files_info`: true when a file that `stat` finds
has another device, inode or modification time than recorded. -/
def preloaded_changed (W : world) : List finfo → Bool
  | [] => false
  | p :: rest =>
    match W.stat p.name with
    | some st =>
      if p.dev ≠ st.1 ∨ p.ino ≠ st.2.1 ∨ p.mtime ≠ st.2.2 then true
      else preloaded_changed W rest
    | none => preloaded_changed W rest

/-- The global variables of the update cache: `snd_config`, `files_info` and
`preloaded_files_info` (`none` for a null pointer; the counts are the lengths
of the lists). -/
structure update_state where
  snd_config : Option snd_config_t
  files_info : Option (List finfo)
  preloaded_files_info : Option (List finfo)
deriving DecidableEq

/-- The label `_reread` of `snd_config_update` with the array `fi` (`none` for
the null pointer of an empty path list). -/
def snd_config_update_reread (L : libc_double) (call : func_call) (W : world) (fuel : Nat)
    (fi : Option (List finfo)) : Option (Int × update_state) :=
  match load_files L W fuel (fi.getD []) snd_config_top with
  | none => none
  | some (e, cfg) =>
    if e < 0 then some (e, ⟨none, none, none⟩)
    else
      match snd_config_preload L call W fuel cfg with
      | none => none
      | some (e1, cfg1, pre) =>
        if e1 < 0 then some (e1, ⟨none, none, none⟩)
        else some (1, ⟨some cfg1, fi, pre⟩)

/-- Source `snd_config_update` as a step on the global variables: the status
and the variables after the call.  Memory allocation succeeds.  `none` when
`fuel` does not suffice for a load. -/
def snd_config_update (L : libc_double) (call : func_call) (W : world) (fuel : Nat)
    (s : update_state) : Option (Int × update_state) :=
  let configs := W.getenv.getD W.ALSA_CONFIG_PATH_DEFAULT
  let names := path_names (configs.length + 1) configs
  if names.length = 0 then snd_config_update_reread L call W fuel none
  else
    match expand_names W names with
    | .error e => some (e, ⟨none, s.files_info, s.preloaded_files_info⟩)
    | .ok ws =>
      let fi := stat_names W ws
      match s.files_info with
      | none => snd_config_update_reread L call W fuel (some fi)
      | some files_info =>
        if fi.length ≠ files_info.length then snd_config_update_reread L call W fuel (some fi)
        else if files_differ fi files_info then snd_config_update_reread L call W fuel (some fi)
        else if preloaded_changed W (s.preloaded_files_info.getD []) then
          snd_config_update_reread L call W fuel (some fi)
        else some (0, s)

/-- The pass of the selection loop over children given by their indices `ix`
and their file entries `es`. -/
def pass_entries : List Int → List finfo → preload_sel → preload_sel
  | i :: ix, e :: es, s =>
    if i = (s.idx : Int) then pass_entries ix es ⟨s.idx + 1, s.fi ++ [e], s.fi_count, true⟩
    else pass_entries ix es s
  | _, _, s => s

/-- The files of the indices `0 .. m - 1` in this order, for children with the
indices `ix` and the file entries `es`. -/
def files_below (ix : List Int) (es : List finfo) (m : Nat) : List finfo :=
  (List.range m).filterMap (fun (j : Nat) => (ix.zip es).lookup (j : Int))

/-- The files of the examples: name, inode and text of each. -/
def example_disk : List (Str × Nat × List Nat) :=
  [(cstr "a", 11, cstr "x 1\n"), (cstr "b", 12, cstr "y 2\n"), (cstr "c", 13, cstr "z 3\n")]

/-- A world for the examples: the files of `example_disk` on device 1 with
modification time 100, `wordexp` that fails for the word `$(x)` and gives
every other word as it is, and the path list `path`. -/
def example_world (path : Option Str) : world where
  getenv := path
  ALSA_CONFIG_PATH_DEFAULT := cstr "/usr/share/alsa/alsa.conf"
  WRDE_NOSPACE := 1
  wordexp := fun s => if s = cstr "$(x)" then (4, []) else (0, [s])
  stat := fun n =>
    match n with
    | none => none
    | some s =>
      match example_disk.lookup s with
      | none => none
      | some f => some (1, f.1, 100)
  snd_input_stdio_open := fun n =>
    match n with
    | none => .error (-ENOENT)
    | some s =>
      match example_disk.lookup s with
      | none => .error (-ENOENT)
      | some f => .ok f.2

/-- A tree with the block `preload.filenames` of the children `ids` and their
file names. -/
def preload_tree (cs : List (Str × Str)) : snd_config_t :=
  .compound none false
    [.compound (some (cstr "preload")) false
      [.compound (some (cstr "filenames")) false
        (cs.map (fun c => .string (some c.1) c.2))]]

/-- An entry of `preloaded_files_info` agrees with the world: it is an empty
slot, or `stat` gives for its name what it records. -/
def recorded (W : world) (e : finfo) : Prop :=
  e = ⟨none, 0, 0, 0⟩ ∨ ∃ w st, W.stat (some w) = some st ∧ e = ⟨some w, st.1, st.2.1, st.2.2⟩

/-- The update cache before the first call. -/
def update_initial : update_state := ⟨none, none, none⟩

/-- The update cache after the file `a` of the examples was loaded. -/
def update_built : update_state :=
  ⟨some (.compound none false [.integer (some (cstr "x")) 1]),
   some [⟨some (cstr "a"), 1, 11, 100⟩], none⟩

/-- The constant `UINT_MAX` of limits.h for a 32-bit `unsigned int`. -/
def UINT_MAX : Nat := 4294967295

/-- Modelled from the spec: the type `interval_t` of interval.h, which is not
among the sources.  Its fields are those that interval.c reads and writes: the
bounds `min` and `max` (`unsigned int`) and the flags `openmin`, `openmax`,
`integer` and `empty`. -/
structure interval_t where
  min : Nat
  max : Nat
  openmin : Bool
  openmax : Bool
  integer : Bool
  empty : Bool
deriving DecidableEq, Repr

/-- Modelled from the spec: `interval_empty` of interval.h, the test of the
empty flag. -/
def interval_empty (i : interval_t) : Bool := i.empty

/-- Modelled from the spec: `interval_checkempty` of interval.h, true when
`min > max` or `min == max` with an open side. -/
def interval_checkempty (i : interval_t) : Bool :=
  decide (i.min > i.max) || (decide (i.min = i.max) && (i.openmin || i.openmax))

/-- Modelled from the spec: `interval_none` of interval.h, which makes the
interval the empty one by setting its empty flag. -/
def interval_none (i : interval_t) : interval_t := { i with empty := true }

/-- Source `div64_32`: the quotient and the remainder. -/
def div64_32 (n div : Nat) : Nat × Nat := (n / div, n % div)

/-- Source `add`: the sum, saturated at `UINT_MAX`. -/
def add (a b : Nat) : Nat :=
  if a ≥ UINT_MAX - b then UINT_MAX else a + b

/-- Source `sub`: the difference, 0 when it would be negative. -/
def sub (a b : Nat) : Nat :=
  if a > b then a - b else 0

/-- Source `muldiv32`: the result and the remainder `*r`; `none` when the
assertion `n > 0` fails.  The product of two 32-bit values fits 64 bits. -/
def muldiv32 (a b c : Nat) : Option (Nat × Nat) :=
  let n := (a * b) % 2 ^ 64
  if c = 0 then
    if n > 0 then some (UINT_MAX, 0) else none
  else
    let d := div64_32 n c
    if d.1 ≥ UINT_MAX then some (UINT_MAX, 0)
    else some (d.1, d.2)

/-- The lines of `interval_refine_min` and `interval_refine` that take the
lower bound `(min, openmin)`: the interval afterwards and whether `changed`
was set. -/
def refine_min_bound (i : interval_t) (min : Nat) (openmin : Bool) : interval_t × Bool :=
  if i.min < min then ({ i with min := min, openmin := openmin }, true)
  else if i.min = min ∧ i.openmin = false ∧ openmin = true then
    ({ i with openmin := true }, true)
  else (i, false)

/-- The lines of `interval_refine_max` and `interval_refine` that take the
upper bound `(max, openmax)`. -/
def refine_max_bound (i : interval_t) (max : Nat) (openmax : Bool) : interval_t × Bool :=
  if i.max > max then ({ i with max := max, openmax := openmax }, true)
  else if i.max = max ∧ i.openmax = false ∧ openmax = true then
    ({ i with openmax := true }, true)
  else (i, false)

/-- The lines `if (i->openmin) { i->min++; i->openmin = 0; }`, with the
increment of an `unsigned int`. -/
def integer_min (i : interval_t) : interval_t :=
  if i.openmin then { i with min := (i.min + 1) % 2 ^ 32, openmin := false } else i

/-- The lines `if (i->openmax) { i->max--; i->openmax = 0; }`, with the
decrement of an `unsigned int`. -/
def integer_max (i : interval_t) : interval_t :=
  if i.openmax then { i with max := (i.max + 2 ^ 32 - 1) % 2 ^ 32, openmax := false } else i

/-- The end of the three refine functions: an interval that
`interval_checkempty` finds empty is made the empty one and `-EINVAL` is
returned, else `changed`. -/
def refine_end (i : interval_t) (changed : Bool) : Int × interval_t :=
  if interval_checkempty i then (-EINVAL, interval_none i)
  else (if changed then 1 else 0, i)

/-- Source `interval_refine_min`: the status and the interval afterwards;
`none` when the assertion `!interval_empty(i)` fails. -/
def interval_refine_min (i : interval_t) (min : Nat) (openmin : Bool) :
    Option (Int × interval_t) :=
  if interval_empty i then none
  else
    let a := refine_min_bound i min openmin
    let b := if a.1.integer then integer_min a.1 else a.1
    some (refine_end b a.2)

/-- Source `interval_refine_max`. -/
def interval_refine_max (i : interval_t) (max : Nat) (openmax : Bool) :
    Option (Int × interval_t) :=
  if interval_empty i then none
  else
    let a := refine_max_bound i max openmax
    let b := if a.1.integer then integer_max a.1 else a.1
    some (refine_end b a.2)

/-- The lines of `interval_refine` that take the integer flag of `v`. -/
def refine_integer (i : interval_t) (integer : Bool) : interval_t × Bool :=
  if i.integer = false ∧ integer = true then ({ i with integer := true }, true)
  else (i, false)

/-- The lines of `interval_refine` from `if (i->integer)` to the test of
emptiness: an integer interval gets closed bounds, and an interval of one
point becomes an integer interval. -/
def refine_close (i : interval_t) : interval_t :=
  if i.integer then integer_max (integer_min i)
  else if i.openmin = false ∧ i.openmax = false ∧ i.min = i.max then
    { i with integer := true }
  else i

/-- Source `interval_refine`: the status and the interval `i` afterwards; `none`
when the assertion `!interval_empty(i)` fails. -/
def interval_refine (i v : interval_t) : Option (Int × interval_t) :=
  if interval_empty i then none
  else
    let a := refine_min_bound i v.min v.openmin
    let b := refine_max_bound a.1 v.max v.openmax
    let c := refine_integer b.1 v.integer
    some (refine_end (refine_close c.1) (a.2 || b.2 || c.2))

/-- Source `interval_sub`: the interval `c` afterwards. -/
def interval_sub (a b c : interval_t) : interval_t :=
  if a.empty ∨ b.empty then interval_none c
  else
    { empty := false
      min := sub a.min b.max
      openmin := a.openmin || b.openmax
      max := add a.max b.min
      openmax := a.openmax || b.openmin
      integer := a.integer && b.integer }

/-- Source `interval_muldiv`: the interval `d` afterwards; `none` when an
assertion of `muldiv32` fails. -/
def interval_muldiv (a b c d : interval_t) : Option interval_t :=
  if a.empty ∨ b.empty ∨ c.empty then some (interval_none d)
  else
    match muldiv32 a.min b.min c.max with
    | none => none
    | some (dmin, r) =>
      let openmin := decide (r ≠ 0) || a.openmin || b.openmin || c.openmax
      match muldiv32 a.max b.max c.min with
      | none => none
      | some (dmax, r1) =>
        if r1 ≠ 0 then
          some { empty := false, min := dmin, openmin := openmin,
                 max := (dmax + 1) % 2 ^ 32, openmax := true, integer := false }
        else
          some { empty := false, min := dmin, openmin := openmin,
                 max := dmax, openmax := a.openmax || b.openmax || c.openmin,
                 integer := false }

/-- An interval in the sense of the format of `interval_t`: its bounds are
values of an `unsigned int`. -/
def interval_ok (i : interval_t) : Prop := i.min ≤ UINT_MAX ∧ i.max ≤ UINT_MAX

/-- An interval is called empty when its empty flag is set, or `min > max`, or
`min == max` and a side is open. -/
def interval_is_empty (i : interval_t) : Bool := i.empty || interval_checkempty i

/-- The lower side of an interval as a condition on a rational. -/
def lower (m : Nat) (o : Bool) (x : ℚ) : Prop := if o then (m : ℚ) < x else (m : ℚ) ≤ x

/-- The upper side of an interval as a condition on a rational. -/
def upper (m : Nat) (o : Bool) (x : ℚ) : Prop := if o then x < (m : ℚ) else x ≤ (m : ℚ)

/-- The set an interval stands for: the rationals between `min` and `max`,
strictly on an open side, the integers among them only when the integer flag
is set, and nothing when the empty flag is set. -/
def interval_mem (i : interval_t) (x : ℚ) : Prop :=
  i.empty = false ∧ lower i.min i.openmin x ∧ upper i.max i.openmax x ∧
    (i.integer = true → ∃ n : ℤ, x = (n : ℚ))

mutual
/-- No compound of the tree has a child identified `@func`. -/
def no_func : snd_config_t → Bool
  | .compound _ _ fs =>
    fs.all (fun c => decide (snd_config_get_id c ≠ some (cstr "@func"))) && no_func_list fs
  | _ => true

/-- No compound of the trees of the list has a child identified `@func`. -/
def no_func_list : List snd_config_t → Bool
  | [] => true
  | n :: rest => no_func n && no_func_list rest
end

/-- A definition without parameter block and without functions, with a
variable among its leaves. -/
def plain_definition : snd_config_t :=
  .compound (some (cstr "front")) false
    [.string (some (cstr "type")) (cstr "hw"),
     .string (some (cstr "card")) (cstr "$(CARD)"),
     .compound (some (cstr "slave")) false [.integer (some (cstr "rate")) 44100]]

/-- One lookup of `snd_config_search_alias`: the key itself, and when it is not
found and a base is given, the key below the base. -/
def alias_lookup (config : snd_config_t) (base : Option Str) (key : Str) :
    Except Int snd_config_t :=
  match snd_config_search config key with
  | .ok n => .ok n
  | .error err =>
    match base with
    | none => .error err
    | some b => snd_config_searchv config b [key]

/-- The alias chase from `key` ends at the node `N`: the lookups lead from
`key` through String nodes, each looked up by its value, to `N`, and `N` is
no String or a String whose value is not found. -/
inductive AliasEnd (config : snd_config_t) (base : Option Str) : Str → snd_config_t → Prop where
  | last (key : Str) (n : snd_config_t) :
      alias_lookup config base key = .ok n →
      (∀ v, snd_config_get_string n = .ok v → ∃ e, alias_lookup config base v = .error e) →
      AliasEnd config base key n
  | step (key : Str) (n : snd_config_t) (v : Str) (N : snd_config_t) :
      alias_lookup config base key = .ok n → snd_config_get_string n = .ok v →
      AliasEnd config base v N → AliasEnd config base key N

/-- A tree with the alias `x = y`, the String `y = nowhere` and a node under a
base. -/
def alias_tree : snd_config_t :=
  .compound none false
    [.string (some (cstr "x")) (cstr "y"),
     .string (some (cstr "y")) (cstr "nowhere"),
     .compound (some (cstr "pcm")) false [.integer (some (cstr "z")) 7]]

/-- The text of a compound body of scalar definitions: each line is an
identifier, a separator, a token and a newline. -/
def body_text : List (Str × Str × Str) → Str
  | [] => []
  | l :: rest => l.1 ++ (l.2.1 ++ (l.2.2 ++ 10 :: body_text rest))

/-- The lines of a body are well formed: plain words as identifier and token,
blanks or an equals sign between them. -/
def body_ok : List (Str × Str × Str) → Bool
  | [] => true
  | l :: rest => plain_word l.1 && assign_sep l.2.1 && plain_word l.2.2 && body_ok rest

/-- The nodes that the lines of a body define, in their order. -/
def body_nodes (L : libc_double) (lines : List (Str × Str × Str)) : List snd_config_t :=
  lines.map (fun l => scalar_node L l.1 l.2.2)

/-- A tree with the Integer `a` and the compound `c`. -/
def redefine_tree : snd_config_t :=
  .compound none false
    [.integer (some (cstr "a")) 1,
     .compound (some (cstr "c")) false [.integer (some (cstr "b")) 1],
     .string (some (cstr "z")) (cstr "end")]

/-! ## Specification vocabulary: a text followed by an unmatched brace -/

/-- What the lexer still has to read: a pushed back character and the unread
bytes. -/
def vlen (a : input_t) : Nat := a.current.length + (if a.unget then 1 else 0)

/-- The lexer state `b` on a text followed by `}` and `S` that goes with the
state `a` on the text alone, while `a` has not met the end of the text: the
same pushed back character, and the unread bytes of `a` followed by `}` and
`S`.  The text has no `<`, and what `a` still has to read is empty or ends with
a newline. -/
def Sim (S : Str) (a b : input_t) : Prop :=
  b.unget = a.unget ∧ b.current = a.current ++ 125 :: S ∧ 60 ∉ a.current ∧
  (a.current.getLast? = some 10 ∨ (a.current = [] ∧ (a.unget = true → a.ch = 10))) ∧
  (a.unget = true → b.ch = a.ch ∧ 0 ≤ a.ch ∧ a.ch ≠ 60)

/-- The states that go together once `a` has pushed back the end of the text,
where `b` has pushed back the `}`. -/
def Pending (S : Str) (a b : input_t) : Prop :=
  a.unget = true ∧ a.ch = EOF ∧ a.current = [] ∧
  b.unget = true ∧ b.ch = 125 ∧ b.current = S

/-- The states that go together once `a` has read the end of the text, where
`b` has read the `}`. -/
def Past (S : Str) (a b : input_t) : Prop :=
  a.unget = false ∧ a.current = [] ∧ b.unget = false ∧ b.current = S

/-- The states that go together when `parse_defs` has returned at the end of the
text, where on the longer text it has pushed back the `}`. -/
def Done (S : Str) (a b : input_t) : Prop :=
  a.unget = false ∧ a.current = [] ∧ b.unget = true ∧ b.ch = 125 ∧ b.current = S

/-- The lexer has met the end of the text: nothing is unread, and what is pushed
back, if anything, is the end of the text. -/
def AtEnd (a : input_t) : Prop := a.current = [] ∧ (a.unget = true → a.ch = EOF)

/-- The results of a function that returns a character: the same character,
with states that go together once it is pushed back, or the end of the text
against the `}`. -/
def CharSim (S : Str) (r r' : Int × input_t) : Prop :=
  (0 ≤ r.1 ∧ r.1 ≠ 60 ∧ r'.1 = r.1 ∧ r.2.unget = false ∧ r'.2.unget = false ∧
    Sim S (unget_char r.1 r.2) (unget_char r.1 r'.2)) ∨
  (r.1 = EOF ∧ r'.1 = 125 ∧ Past S r.2 r'.2)

/-- The results of a parser function on the text and on the text followed by
`}` and `S`: the same status and the same father, with states that go
together. -/
def ParseSim (S : Str) (r r' : parse_result) : Prop :=
  r'.err = r.err ∧ r'.father = r.father ∧
    (Sim S r.input r'.input ∨ Pending S r.input r'.input)

/-- With the fuel `n`, a definition is read by `parse_def` from the text
followed by `}` and `S` as from the text alone, unless the text ends at it. -/
def ParseDefSim (L : libc_double) (S : Str) (n : Nat) : Prop :=
  ∀ (father : snd_config_t) (a b : input_t) (r : parse_result),
    (Sim S a b ∨ Pending S a b) → parse_def L n father a = some r →
    (∃ r', parse_def L n father b = some r' ∧ ParseSim S r r') ∨
      (r.err < 0 ∧ AtEnd r.input)

/-- With the fuel `n`, the definitions are read by `parse_defs` from the text
followed by `}` and `S` as from the text alone, with the `}` pushed back where
the text ends, unless the text ends at a definition. -/
def ParseDefsSim (L : libc_double) (S : Str) (n : Nat) : Prop :=
  ∀ (father : snd_config_t) (a b : input_t) (r : parse_result),
    (Sim S a b ∨ Pending S a b) → parse_defs L n father a = some r →
    (∃ r', parse_defs L n father b = some r' ∧ r'.err = r.err ∧ r'.father = r.father ∧
      ((Sim S r.input r'.input ∨ Pending S r.input r'.input) ∨ Done S r.input r'.input)) ∨
      (r.err < 0 ∧ AtEnd r.input)

/-- With the fuel `n`, an array element is read alike, unless the text ends at
it. -/
def ParseArrayDefSim (L : libc_double) (S : Str) (n : Nat) : Prop :=
  ∀ (father : snd_config_t) (a b : input_t) (idx : Nat) (r : parse_result),
    (Sim S a b ∨ Pending S a b) → parse_array_def L n father a idx = some r →
    (∃ r', parse_array_def L n father b idx = some r' ∧ ParseSim S r r') ∨
      (r.err < 0 ∧ AtEnd r.input)

/-- With the fuel `n`, the array elements are read alike, unless the text ends
inside the array. -/
def ParseArrayDefsFromSim (L : libc_double) (S : Str) (n : Nat) : Prop :=
  ∀ (father : snd_config_t) (a b : input_t) (idx : Nat) (r : parse_result),
    (Sim S a b ∨ Pending S a b) → parse_array_defs_from L n father a idx = some r →
    (∃ r', parse_array_defs_from L n father b idx = some r' ∧ ParseSim S r r') ∨
      AtEnd r.input

/-- With the fuel `n`, an array is read alike, unless the text ends inside it. -/
def ParseArrayDefsSim (L : libc_double) (S : Str) (n : Nat) : Prop :=
  ∀ (father : snd_config_t) (a b : input_t) (r : parse_result),
    (Sim S a b ∨ Pending S a b) → parse_array_defs L n father a = some r →
    (∃ r', parse_array_defs L n father b = some r' ∧ ParseSim S r r') ∨
      AtEnd r.input

/-! # Theorems -/

/-! ### Path resolver lemmas -/

theorem strchr_append_of_not_mem (seg rest : Str) (c : Nat) (h : c ∉ seg) :
    strchr (seg ++ c :: rest) c = some seg.length := by
  induction seg with
  | nil => simp [strchr]
  | cons x xs ih =>
    have hx : x ≠ c := fun e => h (by simp [e])
    have hxs : c ∉ xs := fun e => h (by simp [e])
    simp [strchr, hx, ih hxs]

theorem strchr_none_of_not_mem (s : Str) (c : Nat) (h : c ∉ s) : strchr s c = none := by
  induction s with
  | nil => simp [strchr]
  | cons x xs ih =>
    have hx : x ≠ c := fun e => h (by simp [e])
    have hxs : c ∉ xs := fun e => h (by simp [e])
    simp [strchr, hx, ih hxs]

theorem id_matches_neg (k : Str) (n : snd_config_t) :
    id_matches k (-1) n = decide (snd_config_get_id n = some k) := by
  unfold id_matches
  cases h : snd_config_get_id n with
  | none => simp
  | some nid => simp

theorem id_matches_take (seg rest : Str) (n : snd_config_t) :
    id_matches (seg ++ rest) (seg.length : Int) n
      = decide (snd_config_get_id n = some seg) := by
  unfold id_matches
  cases h : snd_config_get_id n with
  | none => simp
  | some nid =>
    have h0 : ¬ ((seg.length : Int) < 0) := by omega
    simp only [h0, if_false, Int.toNat_ofNat, List.take_left']
    by_cases e : nid = seg
    · subst e; simp
    · simp [e]

theorem find_first_child (p : snd_config_t) (k : Str) (c : snd_config_t) :
    (fields p).find? (fun n => decide (snd_config_get_id n = some k)) = some c
      ↔ FirstChild p k c := by
  rw [List.find?_eq_some]
  unfold FirstChild
  constructor
  · rintro ⟨hc, pre, post, hsplit, hpre⟩
    refine ⟨pre, post, hsplit, by simpa using hc, ?_⟩
    intro n hn
    simpa using hpre n hn
  · rintro ⟨pre, post, hsplit, hc, hpre⟩
    refine ⟨by simpa using hc, pre, post, hsplit, ?_⟩
    intro n hn
    simpa using hpre n hn

theorem search_last_iff (p : snd_config_t) (k : Str) (c : snd_config_t) :
    _snd_config_search p k (-1) = .ok c ↔ FirstChild p k c := by
  unfold _snd_config_search
  have : id_matches k (-1) = fun n => decide (snd_config_get_id n = some k) :=
    funext (id_matches_neg k)
  rw [this, ← find_first_child]
  cases (fields p).find? (fun n => decide (snd_config_get_id n = some k)) <;> simp

theorem search_prefix_iff (p : snd_config_t) (seg rest : Str) (c : snd_config_t) :
    _snd_config_search p (seg ++ rest) (seg.length : Int) = .ok c ↔ FirstChild p seg c := by
  unfold _snd_config_search
  have : id_matches (seg ++ rest) (seg.length : Int)
      = fun n => decide (snd_config_get_id n = some seg) :=
    funext (id_matches_take seg rest)
  rw [this, ← find_first_child]
  cases (fields p).find? (fun n => decide (snd_config_get_id n = some seg)) <;> simp

theorem search_error_code (p : snd_config_t) (k : Str) (len : Int) (e : Int) :
    _snd_config_search p k len = .error e → e = -ENOENT := by
  unfold _snd_config_search
  cases (fields p).find? (id_matches k len) <;> simp
  exact fun h => h.symm

theorem search_prefix_eq (p : snd_config_t) (seg rest : Str) :
    _snd_config_search p (seg ++ rest) (seg.length : Int) = _snd_config_search p seg (-1) := by
  unfold _snd_config_search
  have h1 : id_matches (seg ++ rest) (seg.length : Int)
      = fun n => decide (snd_config_get_id n = some seg) :=
    funext (id_matches_take seg rest)
  have h2 : id_matches seg (-1) = fun n => decide (snd_config_get_id n = some seg) :=
    funext (id_matches_neg seg)
  rw [h1, h2]

theorem dotted_cons_cons (k k' : Str) (ks : List Str) :
    dotted (k :: k' :: ks) = k ++ 46 :: dotted (k' :: ks) := rfl

theorem chain_single_iff (start : snd_config_t) (k : Str) (r : snd_config_t) :
    Chain start [k] r ↔ snd_config_get_type start = .COMPOUND ∧ FirstChild start k r := by
  constructor
  · intro h
    cases h with
    | last _ _ _ h1 h2 => exact ⟨h1, h2⟩
    | step _ _ c _ _ h1 h2 h3 h4 => exact absurd rfl h3
  · rintro ⟨h1, h2⟩
    exact Chain.last _ _ _ h1 h2

theorem chain_cons_iff (start : snd_config_t) (k k' : Str) (ks : List Str) (r : snd_config_t) :
    Chain start (k :: k' :: ks) r ↔
      snd_config_get_type start = .COMPOUND ∧ ∃ c, FirstChild start k c ∧ Chain c (k' :: ks) r := by
  constructor
  · intro h
    cases h with
    | step _ _ c _ _ h1 h2 h3 h4 => exact ⟨h1, c, h2, h4⟩
  · rintro ⟨h1, c, h2, h4⟩
    exact Chain.step _ _ c _ _ h1 h2 (by simp) h4

theorem search_loop_spec (ks : List Str) (hne : ks ≠ []) (hseg : ∀ k ∈ ks, 46 ∉ k) :
    ∀ (fuel : Nat), ks.length ≤ fuel → ∀ start : snd_config_t,
      (∀ r, snd_config_search_loop fuel start (dotted ks) = .ok r ↔ Chain start ks r) ∧
      (∀ e, snd_config_search_loop fuel start (dotted ks) = .error e → e = -ENOENT) := by
  induction ks with
  | nil => exact absurd rfl hne
  | cons k ks ih =>
    intro fuel hfuel start
    have hk : 46 ∉ k := hseg k (by simp)
    cases fuel with
    | zero => simp at hfuel
    | succ fuel =>
      cases ks with
      | nil =>
        simp only [dotted, snd_config_search_loop]
        by_cases ht : snd_config_get_type start = .COMPOUND
        · simp only [ht, ne_eq, not_true_eq_false, if_false, strchr_none_of_not_mem k 46 hk]
          refine ⟨fun r => ?_, fun e he => search_error_code _ _ _ _ he⟩
          rw [search_last_iff, chain_single_iff]
          simp [ht]
        · simp only [ne_eq, ht, not_false_eq_true, if_true]
          refine ⟨fun r => ?_, fun e he => by simpa using he.symm⟩
          rw [chain_single_iff]
          simp [ht]
      | cons k' ks' =>
        have ih' := ih (by simp) (fun x hx => hseg x (by simp [hx])) fuel
          (by simp at hfuel ⊢; omega)
        rw [dotted_cons_cons]
        simp only [snd_config_search_loop]
        by_cases ht : snd_config_get_type start = .COMPOUND
        · simp only [ht, ne_eq, not_true_eq_false, if_false,
            strchr_append_of_not_mem k (dotted (k' :: ks')) 46 hk]
          have hdrop : (k ++ 46 :: dotted (k' :: ks')).drop (k.length + 1) = dotted (k' :: ks') := by
            rw [show k ++ 46 :: dotted (k' :: ks') = (k ++ [46]) ++ dotted (k' :: ks') by simp]
            rw [List.drop_left']
            simp
          rw [hdrop]
          have hs := search_prefix_iff start k (46 :: dotted (k' :: ks'))
          cases hsr : _snd_config_search start (k ++ 46 :: dotted (k' :: ks')) (k.length : Int) with
          | error e =>
            simp only
            refine ⟨fun r => ?_, fun e' he => ?_⟩
            · rw [chain_cons_iff]
              constructor
              · intro h; cases h
              · rintro ⟨_, c, hc, _⟩
                rw [← hs c, hsr] at hc
                cases hc
            · cases he
              exact search_error_code _ _ _ _ hsr
          | ok n =>
            simp only
            have hn : FirstChild start k n := (hs n).1 hsr
            refine ⟨fun r => ?_, fun e he => (ih' n).2 e he⟩
            rw [(ih' n).1 r, chain_cons_iff]
            constructor
            · intro h; exact ⟨ht, n, hn, h⟩
            · rintro ⟨_, c, hc, hch⟩
              have : c = n := by
                have := (hs c).2 hc
                rw [hsr] at this
                cases this; rfl
              subst this; exact hch
        · simp only [ne_eq, ht, not_false_eq_true, if_true]
          refine ⟨fun r => ?_, fun e he => by simpa using he.symm⟩
          rw [chain_cons_iff]
          simp [ht]

theorem dotted_length (ks : List Str) : ks.length ≤ (dotted ks).length + 1 := by
  induction ks with
  | nil => simp
  | cons k ks ih =>
    cases ks with
    | nil => simp [dotted]
    | cons k' ks' =>
      rw [dotted_cons_cons]
      simp at ih ⊢
      omega

theorem segments_ne_nil (key : Str) : segments key ≠ [] := by
  induction key with
  | nil => simp [segments]
  | cons c cs ih =>
    unfold segments
    split
    · simp
    · split <;> simp

theorem segments_no_dot (key : Str) : ∀ k ∈ segments key, 46 ∉ k := by
  induction key with
  | nil => simp [segments]
  | cons c cs ih =>
    unfold segments
    split
    · intro k hk
      simp at hk
      rcases hk with rfl | hk
      · simp
      · exact ih k hk
    · rename_i hc
      split
      · intro k hk; simp at hk; subst hk; simp; exact fun h => hc h.symm
      · rename_i s ss heq
        intro k hk
        simp at hk
        rcases hk with rfl | hk
        · have := ih s (by simp [heq])
          simp; exact ⟨fun h => hc h.symm, this⟩
        · exact ih k (by simp [heq, hk])

theorem dotted_segments (key : Str) : dotted (segments key) = key := by
  induction key with
  | nil => simp [segments, dotted]
  | cons c cs ih =>
    unfold segments
    split
    · rename_i hc
      cases hs : segments cs with
      | nil => exact absurd hs (segments_ne_nil cs)
      | cons s ss =>
        rw [hs] at ih
        rw [dotted_cons_cons, ih, hc]; simp
    · split
      · rename_i heq; exact absurd heq (segments_ne_nil cs)
      · rename_i s ss heq
        rw [heq] at ih
        cases ss with
        | nil => simp [dotted] at ih ⊢; exact ih
        | cons s' ss' =>
          rw [dotted_cons_cons] at ih ⊢
          simp [ih]

/-- Claim C4 (path search).  For every tree `start` and key, `snd_config_search`
succeeds with `r` exactly when there is a chain of nodes from `start` along the
segments of the key, each the first child of the previous one identified by the
segment (the whole segment against the whole identifier) and every node descended
through a Compound, ending at `r`; when there is no such chain it fails with
`-ENOENT`. -/
theorem snd_config_search_chain (start : snd_config_t) (key : Str) :
    (∀ r, snd_config_search start key = .ok r ↔ Chain start (segments key) r) ∧
    ((¬ ∃ r, Chain start (segments key) r) → snd_config_search start key = .error (-ENOENT)) := by
  have h := search_loop_spec (segments key) (segments_ne_nil key) (segments_no_dot key)
    (key.length + 1) (by have := dotted_length (segments key); rw [dotted_segments] at this; exact this)
    start
  rw [dotted_segments] at h
  refine ⟨h.1, fun hno => ?_⟩
  unfold snd_config_search
  cases hr : snd_config_search_loop (key.length + 1) start key with
  | ok r => exact absurd ⟨r, (h.1 r).1 hr⟩ hno
  | error e => rw [h.2 e hr]

theorem strchr_lt (s : Str) (c p : Nat) (h : strchr s c = some p) : p < s.length := by
  induction s generalizing p with
  | nil => simp [strchr] at h
  | cons x xs ih =>
    unfold strchr at h
    split at h
    · cases h; simp
    · cases hx : strchr xs c with
      | none => simp [hx] at h
      | some q =>
        simp [hx] at h
        subst h
        have := ih q hx
        simp; omega

theorem search_loop_fuel (fuel : Nat) :
    ∀ (config : snd_config_t) (key : Str), key.length < fuel → ∀ fuel2, key.length < fuel2 →
      snd_config_search_loop fuel config key = snd_config_search_loop fuel2 config key := by
  induction fuel with
  | zero => intro _ _ h; simp at h
  | succ fuel ih =>
    intro config key h fuel2 h2
    cases fuel2 with
    | zero => simp at h2
    | succ fuel2 =>
      simp only [snd_config_search_loop]
      split
      · rfl
      · cases hp : strchr key 46 with
        | none => rfl
        | some p =>
          simp only
          cases _snd_config_search config key p with
          | error e => rfl
          | ok n =>
            simp only
            have hlt := strchr_lt key 46 p hp
            apply ih
            · simp; omega
            · simp; omega

theorem search_loop_eq_search (fuel : Nat) (config : snd_config_t) (key : Str)
    (h : key.length < fuel) :
    snd_config_search_loop fuel config key = snd_config_search config key :=
  search_loop_fuel fuel config key h _ (by simp)

theorem searchv_two (config : snd_config_t) (base key : Str) :
    snd_config_searchv config base [key] =
      (match snd_config_search config base with
       | .error e => .error e
       | .ok n => snd_config_search n key) := by
  simp only [snd_config_searchv]
  cases snd_config_search config base with
  | error e => rfl
  | ok n =>
    simp only
    cases snd_config_search n key <;> rfl

theorem search_loop_succ (fuel : Nat) (config : snd_config_t) (key : Str) :
    snd_config_search_loop (fuel + 1) config key =
      if snd_config_get_type config ≠ .COMPOUND then .error (-ENOENT)
      else
        match strchr key 46 with
        | some p =>
          match _snd_config_search config key p with
          | .error err => .error err
          | .ok n => snd_config_search_loop fuel n (key.drop (p + 1))
        | none => _snd_config_search config key (-1) := rfl

theorem search_unfold (config : snd_config_t) (key : Str) :
    snd_config_search config key =
      if snd_config_get_type config ≠ .COMPOUND then .error (-ENOENT)
      else
        match strchr key 46 with
        | some p =>
          match _snd_config_search config key p with
          | .error err => .error err
          | .ok n => snd_config_search_loop key.length n (key.drop (p + 1))
        | none => _snd_config_search config key (-1) := rfl

theorem drop_after_dot (seg rest : Str) :
    (seg ++ 46 :: rest).drop (seg.length + 1) = rest := by
  rw [show seg ++ 46 :: rest = (seg ++ [46]) ++ rest by simp]
  rw [List.drop_left']; simp

theorem search_concat (key : Str) (m : Nat) :
    ∀ (base : Str), base.length ≤ m → ∀ (config : snd_config_t),
      snd_config_search config (base ++ 46 :: key) =
        (match snd_config_search config base with
         | .error e => .error e
         | .ok n => snd_config_search n key) := by
  induction m with
  | zero =>
    intro base hb config
    have : base = [] := by cases base <;> simp_all
    subst this
    rw [search_unfold config ([] ++ 46 :: key), search_unfold config []]
    by_cases ht : snd_config_get_type config = .COMPOUND
    · simp only [ht, ne_eq, not_true_eq_false, if_false]
      rw [strchr_append_of_not_mem [] key 46 (by simp), strchr_none_of_not_mem [] 46 (by simp)]
      simp only
      rw [search_prefix_eq config [] (46 :: key), drop_after_dot]
      cases _snd_config_search config [] (-1) with
      | error e => rfl
      | ok n => exact search_loop_eq_search _ _ _ (by simp)
    · simp [ht]
  | succ m ih =>
    intro base hb config
    by_cases hdot : 46 ∈ base
    · obtain ⟨seg, rest, hsplit, hseg⟩ := List.eq_append_cons_of_mem hdot
      subst hsplit
      have hrest : rest.length ≤ m := by simp at hb; omega
      have e1 : (seg ++ 46 :: rest) ++ 46 :: key = seg ++ 46 :: (rest ++ 46 :: key) := by simp
      rw [e1, search_unfold config (seg ++ 46 :: (rest ++ 46 :: key)),
        search_unfold config (seg ++ 46 :: rest)]
      by_cases ht : snd_config_get_type config = .COMPOUND
      · simp only [ht, ne_eq, not_true_eq_false, if_false]
        rw [strchr_append_of_not_mem seg _ 46 hseg, strchr_append_of_not_mem seg _ 46 hseg]
        simp only
        rw [search_prefix_eq, search_prefix_eq, drop_after_dot, drop_after_dot]
        cases _snd_config_search config seg (-1) with
        | error e => rfl
        | ok n =>
          simp only
          rw [search_loop_eq_search _ n (rest ++ 46 :: key) (by simp; omega)]
          rw [search_loop_eq_search _ n rest (by simp; omega)]
          exact ih rest hrest n
      · simp [ht]
    · rw [search_unfold config (base ++ 46 :: key), search_unfold config base]
      by_cases ht : snd_config_get_type config = .COMPOUND
      · simp only [ht, ne_eq, not_true_eq_false, if_false]
        rw [strchr_append_of_not_mem base _ 46 hdot, strchr_none_of_not_mem base 46 hdot]
        simp only
        rw [search_prefix_eq, drop_after_dot]
        cases _snd_config_search config base (-1) with
        | error e => rfl
        | ok n =>
          simp only
          exact search_loop_eq_search _ _ _ (by simp; omega)
      · simp [ht]

/-- Claim C5 (alias fallback).  For every tree, base and key, the lookup
`snd_config_searchv(tree, base, key)` that `snd_config_search_alias` makes after
`snd_config_search(tree, key)` failed has the outcome of
`snd_config_search(tree, base + "." + key)`: the same node or the same error. -/
theorem snd_config_searchv_eq_search_dotted (config : snd_config_t) (base key : Str) :
    snd_config_searchv config base [key] = snd_config_search config (base ++ 46 :: key) := by
  rw [searchv_two, search_concat key base.length base (le_refl _) config]


theorem get_string_of_not_string (N : snd_config_t) (h : snd_config_get_type N ≠ .STRING) :
    snd_config_get_string N = .error (-EINVAL) := by
  cases N <;> simp_all [snd_config_get_type, snd_config_get_string]

theorem alias_loop_chain (config : snd_config_t) (base : Option Str) (ks : List Str)
    (N : snd_config_t) (h : AliasChain config ks N) :
    ∀ (fuel : Nat), ks.length ≤ fuel → ∀ res,
      snd_config_search_alias_loop config base fuel (ks.headD []) res = some (0, some N) := by
  induction h with
  | last k N hs ht =>
    intro fuel hf res
    cases fuel with
    | zero => simp at hf
    | succ fuel =>
      simp only [List.headD_cons, snd_config_search_alias_loop, hs,
        get_string_of_not_string N ht]
  | step k id k' ks N hs _ ih =>
    intro fuel hf res
    cases fuel with
    | zero => simp at hf
    | succ fuel =>
      have := ih fuel (by simp at hf ⊢; omega) (some (.string id k'))
      simp only [List.headD_cons] at this
      simp only [List.headD_cons, snd_config_search_alias_loop, hs, snd_config_get_string, this]

/-- Claim C3 (alias chase).  When `k1` names a String node with value `k2`, `k2`
a String node with value `k3`, and so on up to a last key that names a node `N`
which is not a String, `snd_config_search_alias(tree, NULL, k1)` returns `N`, given
fuel for one round per key. -/
theorem snd_config_search_alias_chain (config : snd_config_t) (k1 : Str) (ks : List Str) (N : snd_config_t)
    (h : AliasChain config (k1 :: ks) N) (fuel : Nat) (hfuel : ks.length < fuel) :
    snd_config_search_alias fuel config none k1 = some (.ok N) := by
  have := alias_loop_chain config none (k1 :: ks) N h fuel (by simp; omega) none
  simp only [List.headD_cons] at this
  simp only [snd_config_search_alias, this]

/-- Witness of C3: with `x = "y"`, `y = "z"`, `z = 42` the key `x` resolves to
the Integer node 42. -/
theorem snd_config_search_alias_chain_example :
    AliasChain alias_example [cstr "x", cstr "y", cstr "z"] (.integer (some (cstr "z")) 42) ∧
    snd_config_search_alias 3 alias_example none (cstr "x")
      = some (.ok (.integer (some (cstr "z")) 42)) :=
  have hc : AliasChain alias_example [cstr "x", cstr "y", cstr "z"]
      (.integer (some (cstr "z")) 42) :=
    AliasChain.step _ (some (cstr "x")) _ _ _ (by decide)
      (AliasChain.step _ (some (cstr "y")) _ _ _ (by decide)
        (AliasChain.last _ _ (by decide) (by decide)))
  ⟨hc, snd_config_search_alias_chain alias_example (cstr "x") [cstr "y", cstr "z"] _ hc 3 (by decide)⟩

/-! ### Integer conversion -/

theorem strtol_digits_spec (base : Nat) (cs : Str) (acc : Nat) :
    strtol_digits base cs acc =
      ((cs.takeWhile (fun c => decide (digit_value c < base))).foldl
          (fun a c => a * base + digit_value c) acc,
        cs.dropWhile (fun c => decide (digit_value c < base))) := by
  induction cs generalizing acc with
  | nil => simp [strtol_digits]
  | cons c cs ih =>
    by_cases h : digit_value c < base
    · simp [strtol_digits, h, ih, List.takeWhile_cons, List.dropWhile_cons]
    · simp [strtol_digits, h, List.takeWhile_cons, List.dropWhile_cons]

theorem dropWhile_eq_nil_iff_all (p : Nat → Bool) (cs : Str) :
    cs.dropWhile p = [] ↔ cs.all p = true := by
  induction cs with
  | nil => simp
  | cons c cs ih =>
    by_cases h : p c
    · simp [List.dropWhile_cons, h, ih]
    · simp [List.dropWhile_cons, h]

theorem takeWhile_of_all (p : Nat → Bool) (cs : Str) (h : cs.all p = true) :
    cs.takeWhile p = cs := by
  induction cs with
  | nil => simp
  | cons c cs ih =>
    simp only [List.all_cons, Bool.and_eq_true] at h
    simp [List.takeWhile_cons, h.1, ih h.2]

theorem unsigned_literal_eq_body (s2 : Str) :
    unsigned_literal s2 = digits_value (strtol_body s2).1 (strtol_body s2).2 := by
  unfold unsigned_literal strtol_body
  split
  · rename_i x h r
    by_cases hx : x = 120 ∨ x = 88
    · by_cases hd : digit_value h < 16
      · have : ((x = 120 || x = 88) && decide (digit_value h < 16)) = true := by
          rcases hx with hx | hx <;> simp [hx, hd]
        simp [hx, this]
      · have : ((x = 120 || x = 88) && decide (digit_value h < 16)) = false := by
          simp [hd]
        simp only [hx, if_true, this]
        have h1 : digits_value 16 (h :: r) = none := by
          simp [digits_value, hd]
        have h2 : digits_value 8 (48 :: x :: h :: r) = none := by
          have : ¬ digit_value x < 8 := by
            rcases hx with hx | hx <;> subst hx <;> decide
          simp [digits_value, this]
        simp [h1, h2]
    · have : ((x = 120 || x = 88) && decide (digit_value h < 16)) = false := by
        have h1 : x ≠ 120 := fun e => hx (Or.inl e)
        have h2 : x ≠ 88 := fun e => hx (Or.inr e)
        simp [h1, h2]
      simp [hx, this]
  · rfl
  · rfl

/-- The outcome of `strtol_convert` in terms of `digits_value`. -/
theorem strtol_convert_spec (str : Str) (neg : Bool) (base : Nat) (b : Str) :
    (∀ m, digits_value base b = some m →
      strtol_convert str neg base b =
        (if neg then
          (if (m : Int) ≤ -LONG_MIN then (-(m : Int), [], 0) else (LONG_MIN, [], ERANGE))
         else
          (if (m : Int) ≤ LONG_MAX then ((m : Int), [], 0) else (LONG_MAX, [], ERANGE)))) ∧
    (digits_value base b = none →
      (strtol_convert str neg base b).2.1 ≠ [] ∨ str = []) := by
  unfold strtol_convert
  cases b with
  | nil =>
    constructor
    · intro m hm
      simp [digits_value] at hm
    · intro _
      by_cases h : str = []
      · exact Or.inr h
      · exact Or.inl h
  | cons c cs =>
    simp only
    by_cases hc : digit_value c < base
    · simp only [hc, if_true, strtol_digits_spec]
      by_cases hall : (c :: cs).all (fun c => decide (digit_value c < base)) = true
      · have hd := (dropWhile_eq_nil_iff_all _ _).2 hall
        have ht := takeWhile_of_all _ _ hall
        constructor
        · intro m hm
          simp only [digits_value, hall, if_true, Option.some.injEq] at hm
          rw [hd, ht, hm]
        · intro hm
          simp [digits_value, hall] at hm
      · constructor
        · intro m hm
          simp only [digits_value, hall] at hm
          cases hm
        · intro _
          left
          have hd : (c :: cs).dropWhile (fun c => decide (digit_value c < base)) ≠ [] := by
            intro h; exact hall ((dropWhile_eq_nil_iff_all _ _).1 h)
          cases neg <;> simp only [Bool.false_eq_true, if_false, if_true] <;> split <;> exact hd
    · simp only [hc, if_false]
      constructor
      · intro m hm
        have : ¬ ((c :: cs).all (fun c => decide (digit_value c < base)) = true) := by
          simp [hc]
        simp only [digits_value, this] at hm
        cases hm
      · intro _
        by_cases h : str = []
        · exact Or.inr h
        · exact Or.inl h

theorem after_sign_ok (str : Str) (neg : Bool) (s2 : Str) (v : Int) (hstr : str ≠ []) :
    ((strtol_after_sign str neg s2).2.2 = 0 ∧ (strtol_after_sign str neg s2).2.1 = [] ∧
        (strtol_after_sign str neg s2).1 = v) ↔
      ∃ m : Nat, unsigned_literal s2 = some m ∧ v = (if neg then -(m : Int) else (m : Int)) ∧
        LONG_MIN ≤ v ∧ v ≤ LONG_MAX := by
  rw [unsigned_literal_eq_body]
  unfold strtol_after_sign
  have hs := strtol_convert_spec str neg (strtol_body s2).1 (strtol_body s2).2
  cases hd : digits_value (strtol_body s2).1 (strtol_body s2).2 with
  | none =>
    have := hs.2 hd
    constructor
    · rintro ⟨_, h2, _⟩
      rcases this with h | h
      · exact absurd h2 h
      · exact absurd h hstr
    · rintro ⟨m, hm, _⟩
      cases hm
  | some m =>
    rw [hs.1 m hd]
    cases neg
    · simp only [Bool.false_eq_true, if_false]
      by_cases hr : (m : Int) ≤ LONG_MAX
      · simp only [hr, if_true]
        constructor
        · rintro ⟨_, _, h3⟩
          refine ⟨m, rfl, h3.symm, ?_, ?_⟩
          · rw [← h3]; simp [LONG_MIN]; omega
          · rw [← h3]; exact hr
        · rintro ⟨m', hm', hv, _, _⟩
          cases hm'
          exact ⟨trivial, trivial, hv.symm⟩
      · simp only [hr, if_false]
        constructor
        · rintro ⟨h1, _, _⟩
          simp [ERANGE] at h1
        · rintro ⟨m', hm', hv, _, h4⟩
          cases hm'
          rw [hv] at h4
          exact absurd h4 hr
    · simp only [if_true]
      by_cases hr : (m : Int) ≤ -LONG_MIN
      · simp only [hr, if_true]
        constructor
        · rintro ⟨_, _, h3⟩
          refine ⟨m, rfl, h3.symm, ?_, ?_⟩
          · rw [← h3]; omega
          · rw [← h3]; simp [LONG_MAX]; omega
        · rintro ⟨m', hm', hv, _, _⟩
          cases hm'
          exact ⟨trivial, trivial, hv.symm⟩
      · simp only [hr, if_false]
        constructor
        · rintro ⟨h1, _, _⟩
          simp [ERANGE] at h1
        · rintro ⟨m', hm', hv, h3, _⟩
          cases hm'
          rw [hv] at h3
          exact absurd (by omega) hr

theorem safe_strtol_ok_iff_aux (v : Int) (r : Int × Str × Int) :
    (if r.2.2 ≠ 0 then (Except.error (-r.2.2) : Except Int Int)
      else if r.2.1 ≠ [] then .error (-EINVAL) else .ok r.1) = .ok v ↔
      (r.2.2 = 0 ∧ r.2.1 = [] ∧ r.1 = v) := by
  by_cases h1 : r.2.2 = 0
  · by_cases h2 : r.2.1 = []
    · simp [h1, h2]
    · simp [h1, h2]
  · simp [h1]

/-- The sign read by `strtol`: whether the text starts with a minus. -/
theorem strtol_sign_cases (s1 : Str) :
    ∃ (neg : Bool) (s2 : Str),
      (∀ str, str.dropWhile isspace = s1 → strtol str = strtol_after_sign str neg s2) ∧
      integer_literal s1 =
        (unsigned_literal s2).map (fun (m : Nat) => if neg then -(m : Int) else (m : Int)) := by
  cases s1 with
  | nil =>
    refine ⟨false, [], fun str h => ?_, by simp [integer_literal]⟩
    unfold strtol; rw [h]
  | cons c r =>
    by_cases h1 : c = 45
    · subst h1
      refine ⟨true, r, fun str h => ?_, by simp [integer_literal]⟩
      unfold strtol; rw [h]
    · by_cases h2 : c = 43
      · subst h2
        refine ⟨false, r, fun str h => ?_, by simp [integer_literal]⟩
        unfold strtol; rw [h]
      · refine ⟨false, c :: r, fun str h => ?_, ?_⟩
        · unfold strtol; rw [h]
          split
          · rename_i heq; cases heq; exact absurd rfl h1
          · rename_i heq; cases heq; exact absurd rfl h2
          · rfl
        · unfold integer_literal
          split
          · rename_i heq; cases heq; exact absurd rfl h1
          · rename_i heq; cases heq; exact absurd rfl h2
          · simp

/-- What `safe_strtol` accepts: exactly the complete integer literals whose
value is in the range of `long`, and it returns that value. -/
theorem safe_strtol_ok_iff (str : Str) (v : Int) :
    safe_strtol str = .ok v ↔
      complete_integer_literal str = some v ∧ LONG_MIN ≤ v ∧ v ≤ LONG_MAX := by
  by_cases hstr : str = []
  · subst hstr
    simp [safe_strtol, complete_integer_literal, integer_literal, unsigned_literal, digits_value]
  · unfold safe_strtol complete_integer_literal
    simp only [hstr, if_false]
    rw [safe_strtol_ok_iff_aux v _]
    obtain ⟨neg, s2, hs, hl⟩ := strtol_sign_cases (str.dropWhile isspace)
    rw [hs str rfl, hl, after_sign_ok str neg s2 v hstr]
    constructor
    · rintro ⟨m, hm, hv, h1, h2⟩
      exact ⟨by simp [hm, hv], h1, h2⟩
    · rintro ⟨hm, h1, h2⟩
      cases hu : unsigned_literal s2 with
      | none => simp [hu] at hm
      | some m => simp [hu] at hm; exact ⟨m, rfl, hm.symm, h1, h2⟩

theorem strtol_convert_errno (str : Str) (neg : Bool) (base : Nat) (b : Str) :
    (strtol_convert str neg base b).2.2 = 0 ∨ (strtol_convert str neg base b).2.2 = ERANGE := by
  unfold strtol_convert
  split
  · simp
  · split
    · cases neg <;> simp only [Bool.false_eq_true, if_false, if_true] <;> split <;> simp
    · simp

theorem strtol_errno (str : Str) : (strtol str).2.2 = 0 ∨ (strtol str).2.2 = ERANGE := by
  unfold strtol strtol_after_sign
  split <;> exact strtol_convert_errno _ _ _ _

/-- The errors of `safe_strtol`: `-EINVAL` and `-ERANGE` only. -/
theorem safe_strtol_error (str : Str) (e : Int) (h : safe_strtol str = .error e) :
    e = -EINVAL ∨ e = -ERANGE := by
  unfold safe_strtol at h
  split at h
  · cases h; exact Or.inl rfl
  · simp only at h
    split at h
    · rename_i h1
      cases h
      rcases strtol_errno str with h0 | h0
      · exact absurd h0 h1
      · rw [h0]; exact Or.inr rfl
    · split at h
      · cases h; exact Or.inl rfl
      · cases h

theorem skip_blank_word (w rest : Str) (h : arg_word w) : skip_blank (w ++ rest) = w ++ rest := by
  obtain ⟨hne, hall, _⟩ := h
  cases w with
  | nil => exact absurd rfl hne
  | cons c cs =>
    have := (hall c (by simp)).1
    simp [skip_blank, List.dropWhile_cons, this]

theorem skip_blank_nil : skip_blank [] = [] := rfl

theorem skip_blank_eq (rest : Str) : skip_blank (61 :: rest) = 61 :: rest := by
  simp [skip_blank, List.dropWhile_cons, is_blank]

theorem dropWhile_word (p : Nat → Bool) (w rest : Str) (h : ∀ c ∈ w, p c = true) :
    (w ++ rest).dropWhile p = rest.dropWhile p := by
  induction w with
  | nil => rfl
  | cons c cs ih =>
    have hc := h c (by simp)
    simp only [List.cons_append, List.dropWhile_cons, hc, if_true]
    exact ih (fun x hx => h x (by simp [hx]))

theorem word_not_terminator (w : Str) (h : arg_word w) :
    ∀ c ∈ w, (!(c = 12 || c = 9 || c = 10 || c = 13 || c = 44 || c = 61)) = true := by
  intro c hc
  obtain ⟨hb, h44, h61⟩ := h.2.1 c hc
  simp only [is_blank, Bool.or_eq_false_iff, decide_eq_false_iff_not] at hb
  obtain ⟨⟨⟨⟨_, h12⟩, h9⟩, h10⟩, h13⟩ := hb
  simp [h12, h9, h10, h13, h44, h61]

theorem parse_id_word_eq (w rest : Str) (h : arg_word w) :
    parse_id (w ++ 61 :: rest) = (0, 61 :: rest) := by
  unfold parse_id
  have hne : w ++ 61 :: rest ≠ [] := by simp
  split
  · rename_i heq; exact absurd heq hne
  · rw [dropWhile_word _ w _ (word_not_terminator w h)]
    simp [List.dropWhile_cons]

theorem parse_id_word (w : Str) (h : arg_word w) : parse_id w = (0, []) := by
  have := dropWhile_word (fun c => !(c = 12 || c = 9 || c = 10 || c = 13 || c = 44 || c = 61))
    w [] (word_not_terminator w h)
  simp only [List.append_nil, List.dropWhile_nil] at this
  cases w with
  | nil => exact absurd rfl h.1
  | cons c cs =>
    unfold parse_id
    simp only
    rw [this]

theorem word_head_append (w rest : Str) (h : w ≠ []) : (w ++ rest).head? = w.head? := by
  cases w with
  | nil => exact absurd rfl h
  | cons c cs => rfl

/-- The argument `name=val` of two words is read whole by `parse_arg`. -/
theorem parse_arg_named (name val : Str) (hn : arg_word name) (hv : arg_word val) :
    parse_arg (name ++ 61 :: val) = ⟨0, name.length, val, []⟩ := by
  unfold parse_arg
  simp only [skip_blank_word name _ hn, word_head_append name _ hn.1]
  have q1 : ¬ (name.head? = some 34 ∨ name.head? = some 39) := by
    rintro (h | h)
    · exact hn.2.2.1 h
    · exact hn.2.2.2.1 h
  have q2 : ¬ (val.head? = some 34 ∨ val.head? = some 39) := by
    rintro (h | h)
    · exact hv.2.2.1 h
    · exact hv.2.2.2.1 h
  simp only [q1, if_false, parse_id_word_eq name val hn, skip_blank_eq]
  have hv0 : skip_blank val = val := by
    have := skip_blank_word val [] hv
    simpa using this
  simp only [List.head?_cons, ne_eq, not_true_eq_false, if_false, List.drop_succ_cons,
    List.drop_zero, hv0, q2, parse_id_word val hv]
  simp

/-- A bare word is read whole by `parse_arg`, as a value without a name. -/
theorem parse_arg_bare (val : Str) (hv : arg_word val) :
    parse_arg val = ⟨0, 0, val, []⟩ := by
  unfold parse_arg
  have hv0 : skip_blank val = val := by
    have := skip_blank_word val [] hv
    simpa using this
  have q2 : ¬ (val.head? = some 34 ∨ val.head? = some 39) := by
    rintro (h | h)
    · exact hv.2.2.1 h
    · exact hv.2.2.2.1 h
  simp only [hv0, q2, if_false, parse_id_word val hv, skip_blank_nil]
  simp

/-! ### Status codes of the searches -/

theorem search_loop_error (fuel : Nat) :
    ∀ (config : snd_config_t) (key : Str) (e : Int),
      snd_config_search_loop fuel config key = .error e → e = -ENOENT := by
  induction fuel with
  | zero => intro _ _ e h; simp [snd_config_search_loop] at h; exact h.symm
  | succ fuel ih =>
    intro config key e h
    rw [search_loop_succ] at h
    split at h
    · simp at h; exact h.symm
    · split at h
      · split at h
        · rename_i err herr
          cases h
          exact search_error_code _ _ _ _ herr
        · exact ih _ _ _ h
      · exact search_error_code _ _ _ _ h

theorem snd_config_search_error (config : snd_config_t) (key : Str) (e : Int)
    (h : snd_config_search config key = .error e) : e = -ENOENT :=
  search_loop_error _ _ _ _ h

theorem alias_loop_error (config : snd_config_t) (fuel : Nat) :
    ∀ (key : Str) (res : Option snd_config_t) (e : Int),
      snd_config_search_alias_loop config none fuel key res = some (e, none) →
        e = -ENOENT := by
  induction fuel with
  | zero => intro _ _ _ h; simp [snd_config_search_alias_loop] at h
  | succ fuel ih =>
    intro key res e h
    simp only [snd_config_search_alias_loop] at h
    cases hs : snd_config_search config key with
    | error err =>
      simp only [hs] at h
      cases h
      exact snd_config_search_error _ _ _ hs
    | ok n =>
      simp only [hs] at h
      cases hg : snd_config_get_string n with
      | error _ => simp [hg] at h
      | ok key1 =>
        simp only [hg] at h
        exact ih _ _ _ h

theorem search_alias_error (fuel : Nat) (config : snd_config_t) (key : Str) (e : Int)
    (h : snd_config_search_alias fuel config none key = some (.error e)) : e = -ENOENT := by
  unfold snd_config_search_alias at h
  split at h
  · cases h
  · rename_i err heq
    cases h
    exact alias_loop_error _ _ _ _ _ heq
  · cases h

theorem get_string_error (n : snd_config_t) (e : Int)
    (h : snd_config_get_string n = .error e) : e = -EINVAL := by
  cases n <;> simp [snd_config_get_string] at h <;> exact h.symm

theorem safe_strtod_error (L : libc_double) (str : Str) (e : Int)
    (h : safe_strtod L str = .error e) : e < 0 := by
  unfold safe_strtod at h
  split at h
  · cases h; decide
  · simp only at h
    split at h
    · rename_i h1
      cases h
      have : 0 < (L.strtod str).2.2 := Nat.pos_of_ne_zero h1
      omega
    · split at h
      · cases h; decide
      · cases h

theorem parse_args_convert_error (L : libc_double) (tmp var val : Str) (e : Int)
    (h : parse_args_convert L tmp var val = .error e) : e < 0 := by
  unfold parse_args_convert at h
  split at h
  · cases hs : safe_strtol val with
    | error e' =>
      simp only [hs] at h
      cases h
      rcases safe_strtol_error _ _ hs with h1 | h1 <;> subst h1 <;> decide
    | ok v => simp [hs] at h
  · split at h
    · cases hs : safe_strtod L val with
      | error e' =>
        simp only [hs] at h
        cases h
        exact safe_strtod_error _ _ _ hs
      | ok v => simp [hs] at h
    · split at h
      · cases h
      · cases h; decide

theorem snd_config_add_error (father leaf : snd_config_t) (e : Int)
    (h : snd_config_add father leaf = .error e) : e = -EEXIST := by
  unfold snd_config_add at h
  split at h
  · cases h; rfl
  · cases h

/-- A successful turn of the binding loop, read backwards. -/
theorem parse_args_bind_ok (L : libc_double) (fuel : Nat) (subs : snd_config_t) (str : Str)
    (varlen : Nat) (val : Str) (arg : Nat) (defs subs2 : snd_config_t)
    (h : parse_args_bind L fuel subs str varlen val arg defs = some (0, subs2)) :
    ∃ d var typ tmp sub,
      snd_config_search_alias fuel defs none (arg_key str varlen arg) = some (.ok d) ∧
      snd_config_get_type d = .COMPOUND ∧ snd_config_get_id d = some var ∧
      snd_config_search d (cstr "type") = .ok typ ∧ snd_config_get_string typ = .ok tmp ∧
      parse_args_convert L tmp var val = .ok sub ∧
      snd_config_add (delete_found subs var) sub = .ok subs2 := by
  unfold parse_args_bind at h
  split at h
  · cases h
  · simp only at h
    cases ha : snd_config_search_alias fuel defs none
        (if 0 < varlen then str.take varlen else dec_nat arg) with
    | none => simp [ha] at h
    | some r =>
      cases r with
      | error e =>
        simp only [ha] at h
        have := search_alias_error _ _ _ _ ha
        simp [this, ENOENT] at h
      | ok d =>
        simp only [ha] at h
        split at h
        · simp [EINVAL] at h
        · rename_i hty
          cases hid : snd_config_get_id d with
          | none => simp [hid] at h
          | some var =>
            simp only [hid] at h
            cases hs : snd_config_search d (cstr "type") with
            | error e =>
              simp only [hs] at h
              have := snd_config_search_error _ _ _ hs
              simp [this, ENOENT] at h
            | ok typ =>
              simp only [hs] at h
              cases hg : snd_config_get_string typ with
              | error e =>
                simp only [hg] at h
                have := get_string_error _ _ hg
                simp [this, EINVAL] at h
              | ok tmp =>
                simp only [hg] at h
                cases hc : parse_args_convert L tmp var val with
                | error e =>
                  simp only [hc] at h
                  have := parse_args_convert_error _ _ _ _ _ hc
                  simp at h
                  omega
                | ok sub =>
                  simp only [hc] at h
                  cases hadd : snd_config_add (delete_found subs var) sub with
                  | error e =>
                    simp only [hadd] at h
                    have := snd_config_add_error _ _ _ hadd
                    simp [this, EEXIST] at h
                  | ok s2 =>
                    simp only [hadd] at h
                    simp at h
                    subst h
                    exact ⟨d, var, typ, tmp, sub, ha, by simpa using hty, hid, hs, hg, hc, hadd⟩

/-- A turn of the binding loop for a resolved parameter, read forwards. -/
theorem parse_args_bind_resolved (L : libc_double) (fuel : Nat) (subs : snd_config_t) (str : Str)
    (varlen : Nat) (val : Str) (arg : Nat) (defs d typ : snd_config_t) (var tmp : Str)
    (hlen : varlen < 256)
    (ha : snd_config_search_alias fuel defs none (arg_key str varlen arg) = some (.ok d))
    (hty : snd_config_get_type d = .COMPOUND) (hid : snd_config_get_id d = some var)
    (hs : snd_config_search d (cstr "type") = .ok typ)
    (hg : snd_config_get_string typ = .ok tmp) :
    parse_args_bind L fuel subs str varlen val arg defs =
      (match parse_args_convert L tmp var val with
       | .error e => some (e, delete_found subs var)
       | .ok sub =>
         match snd_config_add (delete_found subs var) sub with
         | .error e => some (e, delete_found subs var)
         | .ok subs2 => some (0, subs2)) := by
  unfold parse_args_bind
  unfold arg_key at ha
  have : ¬ (256 ≤ varlen) := by omega
  simp only [this, if_false, ha, hty, ne_eq, not_true_eq_false, hid, hs, hg]

/-! ### Integer literals are argument words -/

theorem digit_value_lt (c : Nat) (h : digit_value c < 36) :
    (48 ≤ c ∧ c ≤ 57) ∨ (65 ≤ c ∧ c ≤ 90) ∨ (97 ≤ c ∧ c ≤ 122) := by
  unfold digit_value at h
  split at h
  · left; assumption
  · split at h
    · right; right; assumption
    · split at h
      · right; left; assumption
      · omega

theorem digits_value_chars (base : Nat) (hb : base ≤ 36) (s : Str) (m : Nat)
    (h : digits_value base s = some m) : s ≠ [] ∧ ∀ c ∈ s, digit_value c < 36 := by
  unfold digits_value at h
  split at h
  · cases h
  · rename_i hne
    split at h
    · rename_i hall
      refine ⟨fun e => hne e, fun c hc => ?_⟩
      have := (List.all_eq_true.1 hall) c hc
      simp at this
      omega
    · cases h

theorem unsigned_literal_chars (s : Str) (m : Nat) (h : unsigned_literal s = some m) :
    s ≠ [] ∧ ∀ c ∈ s, digit_value c < 36 := by
  unfold unsigned_literal at h
  split at h
  · rename_i x hh r
    split at h
    · rename_i hx
      have := digits_value_chars 16 (by omega) _ _ h
      refine ⟨by simp, fun c hc => ?_⟩
      simp only [List.mem_cons] at hc
      rcases hc with rfl | rfl | hc
      · decide
      · rcases hx with rfl | rfl <;> decide
      · exact this.2 c (by simpa using hc)
    · exact digits_value_chars 8 (by omega) _ _ h
  · exact digits_value_chars 8 (by omega) _ _ h
  · exact digits_value_chars 10 (by omega) _ _ h

theorem literal_char_plain (c : Nat)
    (h : c = 45 ∨ c = 43 ∨ digit_value c < 36) :
    is_blank c = false ∧ c ≠ 44 ∧ c ≠ 61 ∧ c ≠ 34 ∧ c ≠ 39 ∧ c ≠ 123 := by
  have hc : c = 45 ∨ c = 43 ∨ (48 ≤ c ∧ c ≤ 57) ∨ (65 ≤ c ∧ c ≤ 90) ∨ (97 ≤ c ∧ c ≤ 122) := by
    rcases h with h | h | h
    · exact Or.inl h
    · exact Or.inr (Or.inl h)
    · exact Or.inr (Or.inr (digit_value_lt c h))
  refine ⟨?_, by omega, by omega, by omega, by omega, by omega⟩
  simp only [is_blank, Bool.or_eq_false_iff, decide_eq_false_iff_not]
  omega

theorem integer_literal_chars (s : Str) (v : Int) (h : integer_literal s = some v) :
    s ≠ [] ∧ ∀ c ∈ s, c = 45 ∨ c = 43 ∨ digit_value c < 36 := by
  unfold integer_literal at h
  split at h
  · rename_i r
    cases hu : unsigned_literal r with
    | none => simp [hu] at h
    | some m =>
      have := unsigned_literal_chars r m hu
      refine ⟨by simp, fun c hc => ?_⟩
      simp only [List.mem_cons] at hc
      rcases hc with rfl | hc
      · exact Or.inl rfl
      · exact Or.inr (Or.inr (this.2 c hc))
  · rename_i r
    cases hu : unsigned_literal r with
    | none => simp [hu] at h
    | some m =>
      have := unsigned_literal_chars r m hu
      refine ⟨by simp, fun c hc => ?_⟩
      simp only [List.mem_cons] at hc
      rcases hc with rfl | hc
      · exact Or.inr (Or.inl rfl)
      · exact Or.inr (Or.inr (this.2 c hc))
  · cases hu : unsigned_literal s with
    | none => simp [hu] at h
    | some m =>
      have := unsigned_literal_chars s m hu
      exact ⟨this.1, fun c hc => Or.inr (Or.inr (this.2 c hc))⟩

/-- An integer literal is an argument word. -/
theorem integer_literal_word (s : Str) (v : Int) (h : integer_literal s = some v) :
    arg_word s := by
  obtain ⟨hne, hall⟩ := integer_literal_chars s v h
  refine ⟨hne, fun c hc => ?_, ?_, ?_, ?_⟩
  · have := literal_char_plain c (hall c hc)
    exact ⟨this.1, this.2.1, this.2.2.1⟩
  all_goals
    cases s with
    | nil => exact absurd rfl hne
    | cons c cs =>
      have := literal_char_plain c (hall c (by simp))
      simp only [List.head?_cons, ne_eq, Option.some.injEq]
      omega

theorem dropWhile_isspace_literal (s : Str) (v : Int) (h : integer_literal s = some v) :
    s.dropWhile isspace = s := by
  obtain ⟨hne, hall⟩ := integer_literal_chars s v h
  cases s with
  | nil => rfl
  | cons c cs =>
    have hc := hall c (by simp)
    have : isspace c = false := by
      have hp : c = 45 ∨ c = 43 ∨ (48 ≤ c ∧ c ≤ 57) ∨ (65 ≤ c ∧ c ≤ 90) ∨ (97 ≤ c ∧ c ≤ 122) := by
        rcases hc with h | h | h
        · exact Or.inl h
        · exact Or.inr (Or.inl h)
        · exact Or.inr (Or.inr (digit_value_lt c h))
      simp only [isspace, Bool.or_eq_false_iff, decide_eq_false_iff_not, Bool.and_eq_false_iff]
      omega
    simp [List.dropWhile_cons, this]

/-- An integer literal in the range of `long` is converted by `safe_strtol`. -/
theorem safe_strtol_literal (s : Str) (v : Int) (h : integer_literal s = some v)
    (hr : LONG_MIN ≤ v ∧ v ≤ LONG_MAX) : safe_strtol s = .ok v := by
  rw [safe_strtol_ok_iff]
  refine ⟨?_, hr.1, hr.2⟩
  unfold complete_integer_literal
  rw [dropWhile_isspace_literal s v h]
  exact h

/-! ### Deleting and adding an entry of a compound -/

theorem search_no_dot (config : snd_config_t) (key : Str) (hk : 46 ∉ key)
    (hc : snd_config_get_type config = .COMPOUND) :
    snd_config_search config key = _snd_config_search config key (-1) := by
  rw [search_unfold, strchr_none_of_not_mem key 46 hk]
  simp [hc]

theorem delete_found_no_dot (config : snd_config_t) (key : Str) (hk : 46 ∉ key)
    (hc : snd_config_get_type config = .COMPOUND) :
    delete_found config key =
      (match (fields config).findIdx? (id_matches key (-1)) with
       | some k => delete_field config k
       | none => config) := by
  unfold delete_found
  simp only [delete_found_loop, hc, ne_eq, not_true_eq_false, if_false,
    strchr_none_of_not_mem key 46 hk]
  cases (fields config).findIdx? (id_matches key (-1)) <;> rfl

theorem findIdx_cons (p : snd_config_t → Bool) (a : snd_config_t) (t : List snd_config_t) :
    (a :: t).findIdx? p = if p a then some 0 else (t.findIdx? p).map (· + 1) := by
  rw [List.findIdx?_cons]
  split
  · rfl
  · rw [List.findIdx?_succ]

theorem eraseIdx_findIdx_filter (p : snd_config_t → Bool) (l : List snd_config_t)
    (h : l.Pairwise (fun a b => ¬ (p a = true ∧ p b = true))) :
    (match l.findIdx? p with
     | some k => l.eraseIdx k
     | none => l) = l.filter (fun n => !p n) := by
  induction l with
  | nil => rfl
  | cons a t ih =>
    rw [List.pairwise_cons] at h
    by_cases ha : p a = true
    · have ht : ∀ b ∈ t, p b = false := by
        intro b hb
        have := h.1 b hb
        cases hpb : p b with
        | false => rfl
        | true => exact absurd ⟨ha, hpb⟩ this
      have hf : t.filter (fun n => !p n) = t := by
        apply List.filter_eq_self.2
        intro b hb
        simp [ht b hb]
      simp [findIdx_cons, ha, hf]
    · have ha' : p a = false := by simpa using ha
      have := ih h.2
      simp only [findIdx_cons, ha', List.filter_cons]
      cases hfi : t.findIdx? p with
      | none =>
        simp only [hfi] at this
        simp only [Option.map_none', Bool.not_false, if_true, Bool.false_eq_true, if_false]
        rw [← this]
      | some k =>
        simp only [hfi] at this
        simp only [Option.map_some', List.eraseIdx_cons_succ, Bool.not_false, if_true,
          Bool.false_eq_true, if_false]
        rw [← this]

theorem id_matches_iff (key : Str) (n : snd_config_t) :
    id_matches key (-1) n = true ↔ snd_config_get_id n = some key := by
  rw [id_matches_neg]; simp

theorem nodup_ids_pairwise (l : List snd_config_t) (key : Str)
    (h : (l.map snd_config_get_id).Nodup) :
    l.Pairwise (fun a b => ¬ (id_matches key (-1) a = true ∧ id_matches key (-1) b = true)) := by
  rw [List.Nodup, List.pairwise_map] at h
  refine h.imp ?_
  intro a b hab ⟨h1, h2⟩
  rw [id_matches_iff] at h1 h2
  exact hab (h1.trans h2.symm)

/-- The children of `subs` once the entry identified `name` is deleted. -/
theorem fields_delete_found (subs : snd_config_t) (name : Str) (hk : 46 ∉ name)
    (hc : snd_config_get_type subs = .COMPOUND)
    (hnd : ((fields subs).map snd_config_get_id).Nodup) :
    delete_found subs name =
      set_fields subs ((fields subs).filter (fun n => !id_matches name (-1) n)) := by
  rw [delete_found_no_dot subs name hk hc]
  have := eraseIdx_findIdx_filter (id_matches name (-1)) (fields subs)
    (nodup_ids_pairwise _ name hnd)
  cases hf : (fields subs).findIdx? (id_matches name (-1)) with
  | none =>
    rw [hf] at this
    simp only at this ⊢
    rw [← this]
    cases subs with
    | compound i j fs => rfl
    | integer i v => simp [snd_config_get_type] at hc
    | real i v => simp [snd_config_get_type] at hc
    | string i v => simp [snd_config_get_type] at hc
  | some k =>
    rw [hf] at this
    simp only at this ⊢
    rw [← this]
    rfl

theorem fields_set_fields (subs : snd_config_t) (fs : List snd_config_t)
    (hc : snd_config_get_type subs = .COMPOUND) : fields (set_fields subs fs) = fs := by
  cases subs <;> simp_all [set_fields, fields, snd_config_get_type]

theorem set_fields_set_fields (subs : snd_config_t) (fs gs : List snd_config_t) :
    set_fields (set_fields subs fs) gs = set_fields subs gs := by
  cases subs <;> simp [set_fields]

theorem type_set_fields (subs : snd_config_t) (fs : List snd_config_t) :
    snd_config_get_type (set_fields subs fs) = snd_config_get_type subs := by
  cases subs <;> simp [set_fields, snd_config_get_type]

/-- Adding a node under a name that was just deleted succeeds. -/
theorem add_after_delete (subs : snd_config_t) (name : Str) (leaf : snd_config_t)
    (hc : snd_config_get_type subs = .COMPOUND)
    (hl : snd_config_get_id leaf = some name) :
    snd_config_add
        (set_fields subs ((fields subs).filter (fun n => !id_matches name (-1) n))) leaf =
      .ok (set_fields subs
        ((fields subs).filter (fun n => !id_matches name (-1) n) ++ [leaf])) := by
  unfold snd_config_add
  rw [fields_set_fields _ _ hc]
  have : ((fields subs).filter (fun n => !id_matches name (-1) n)).any (same_id leaf) = false := by
    rw [List.any_eq_false]
    intro n hn
    rw [List.mem_filter] at hn
    have hn2 := hn.2
    simp only [Bool.not_eq_true', id_matches_neg, decide_eq_false_iff_not] at hn2
    unfold same_id
    rw [hl]
    cases hid : snd_config_get_id n with
    | none => simp
    | some b =>
      simp only [decide_eq_true_eq]
      intro e
      subst e
      exact hn2 hid
  simp only [this, Bool.false_eq_true, if_false, add_field, fields_set_fields _ _ hc,
    set_fields_set_fields]

/-- The node added last under a name no other child has is the one a search
for the name finds. -/
theorem search_added (subs : snd_config_t) (name : Str) (leaf : snd_config_t)
    (hk : 46 ∉ name) (hc : snd_config_get_type subs = .COMPOUND)
    (hl : snd_config_get_id leaf = some name) :
    snd_config_search
        (set_fields subs ((fields subs).filter (fun n => !id_matches name (-1) n) ++ [leaf]))
        name = .ok leaf := by
  rw [search_no_dot _ _ hk (by rw [type_set_fields]; exact hc)]
  unfold _snd_config_search
  rw [fields_set_fields _ _ hc, List.find?_append]
  have h1 : ((fields subs).filter (fun n => !id_matches name (-1) n)).find?
      (id_matches name (-1)) = none := by
    rw [List.find?_eq_none]
    intro n hn
    rw [List.mem_filter] at hn
    simpa using hn.2
  have h2 : id_matches name (-1) leaf = true := (id_matches_iff name leaf).2 hl
  simp [h1, h2]

/-! ### Binding by name -/

theorem first_child_id (p : snd_config_t) (k : Str) (c : snd_config_t) (h : FirstChild p k c) :
    snd_config_get_id c = some k := by
  obtain ⟨_, _, _, h2, _⟩ := h
  exact h2

theorem search_first_child (p : snd_config_t) (k : Str) (c : snd_config_t) (hk : 46 ∉ k)
    (hp : snd_config_get_type p = .COMPOUND) (h : FirstChild p k c) :
    snd_config_search p k = .ok c := by
  rw [search_no_dot p k hk hp]
  exact (search_last_iff p k c).2 h

/-- The alias chase ends at once at a node that is not a String. -/
theorem search_alias_direct (fuel : Nat) (config : snd_config_t) (key : Str) (d : snd_config_t)
    (hs : snd_config_search config key = .ok d) (hd : snd_config_get_type d ≠ .STRING) :
    snd_config_search_alias (fuel + 1) config none key = some (.ok d) := by
  have := alias_loop_chain config none [key] d (AliasChain.last key d hs hd) (fuel + 1)
    (by simp) none
  simp only [List.headD_cons] at this
  simp only [snd_config_search_alias, this]

theorem filter_id_eq (name : Str) :
    (fun n : snd_config_t => !id_matches name (-1) n)
      = (fun n => decide (snd_config_get_id n ≠ some name)) := by
  funext n
  rw [id_matches_neg]
  simp

/-- The binding loop on a single argument that binds. -/
theorem parse_args_loop_single (L : libc_double) (fuel n : Nat) (subs defs subs2 : snd_config_t)
    (str : Str) (arg varlen : Nat) (val : Str)
    (ha : parse_arg str = ⟨0, varlen, val, []⟩)
    (hb : parse_args_bind L fuel subs str varlen val arg defs = some (0, subs2)) :
    parse_args_loop L fuel defs (n + 1) subs str arg = some (0, subs2) := by
  simp only [parse_args_loop, ha, hb]
  simp

theorem parse_args_list (L : libc_double) (fuel : Nat) (subs defs : snd_config_t) (str : Str)
    (hs : skip_blank str = str) (hne : str ≠ []) (hb : str.head? ≠ some 123) :
    parse_args L fuel subs (some str) defs =
      (parse_args_loop L fuel defs (str.length + 1) subs str 0).map
        (fun r => (r.1, some r.2)) := by
  unfold parse_args
  simp only [hs]
  cases str with
  | nil => exact absurd rfl hne
  | cons c cs =>
    have : c ≠ 123 := by simpa using hb
    simp only [this, if_false]

theorem parse_id_word_comma (w rest : Str) (h : arg_word w) :
    parse_id (w ++ 44 :: rest) = (0, 44 :: rest) := by
  unfold parse_id
  have hne : w ++ 44 :: rest ≠ [] := by simp
  split
  · rename_i heq; exact absurd heq hne
  · rw [dropWhile_word _ w _ (word_not_terminator w h)]
    simp [List.dropWhile_cons]

/-- The argument `name=val` of two words in front of a comma is read by
`parse_arg` up to the comma. -/
theorem parse_arg_named_comma (name val rest : Str) (hn : arg_word name) (hv : arg_word val) :
    parse_arg (name ++ 61 :: (val ++ 44 :: rest)) = ⟨0, name.length, val, 44 :: rest⟩ := by
  unfold parse_arg
  simp only [skip_blank_word name _ hn, word_head_append name _ hn.1]
  have q1 : ¬ (name.head? = some 34 ∨ name.head? = some 39) := by
    rintro (h | h)
    · exact hn.2.2.1 h
    · exact hn.2.2.2.1 h
  have q2 : ¬ (val.head? = some 34 ∨ val.head? = some 39) := by
    rintro (h | h)
    · exact hv.2.2.1 h
    · exact hv.2.2.2.1 h
  simp only [q1, if_false, parse_id_word_eq name _ hn, skip_blank_eq]
  simp only [List.head?_cons, ne_eq, not_true_eq_false, if_false, List.drop_succ_cons,
    List.drop_zero, skip_blank_word val _ hv, word_head_append val _ hv.1, q2,
    parse_id_word_comma val rest hv]
  simp

/-- A turn of the binding loop that binds an argument in front of a comma goes
on with the text behind the comma and the next argument index. -/
theorem parse_args_loop_step (L : libc_double) (fuel n : Nat) (subs defs subs2 : snd_config_t)
    (str rest : Str) (arg varlen : Nat) (val : Str)
    (ha : parse_arg str = ⟨0, varlen, val, 44 :: rest⟩)
    (hb : parse_args_bind L fuel subs str varlen val arg defs = some (0, subs2)) :
    parse_args_loop L fuel defs (n + 1) subs str arg
      = parse_args_loop L fuel defs n subs2 rest (arg + 1) := by
  simp only [parse_args_loop, ha, hb]
  simp

/-- A turn of the binding loop for the named argument of an integer parameter. -/
theorem parse_args_bind_named_integer (L : libc_double) (fuel arg : Nat)
    (subs defs d typ : snd_config_t) (name val tail : Str) (v : Int)
    (hfuel : 0 < fuel)
    (hname : arg_word name) (hlen : name.length < 256) (hdot : 46 ∉ name)
    (hlit : integer_literal val = some v) (hrange : LONG_MIN ≤ v ∧ v ≤ LONG_MAX)
    (hdefs : snd_config_get_type defs = .COMPOUND) (hd : FirstChild defs name d)
    (hdc : snd_config_get_type d = .COMPOUND)
    (htyp : FirstChild d (cstr "type") typ)
    (hint : snd_config_get_string typ = .ok (cstr "integer"))
    (hsubs : snd_config_get_type subs = .COMPOUND)
    (hnd : ((fields subs).map snd_config_get_id).Nodup) :
    parse_args_bind L fuel subs (name ++ tail) name.length val arg defs
      = some (0, bind_entry subs name (.integer (some name) v)) := by
  obtain ⟨fuel', rfl⟩ : ∃ k, fuel = k + 1 := ⟨fuel - 1, by omega⟩
  have hkey : arg_key (name ++ tail) name.length arg = name := by
    have : 0 < name.length := List.length_pos.2 hname.1
    simp [arg_key, this]
  have halias : snd_config_search_alias (fuel' + 1) defs none
      (arg_key (name ++ tail) name.length arg) = some (.ok d) := by
    rw [hkey]
    exact search_alias_direct fuel' defs name d (search_first_child defs name d hdot hdefs hd)
      (by rw [hdc]; decide)
  have htype : snd_config_search d (cstr "type") = .ok typ :=
    search_first_child d (cstr "type") typ (by decide) hdc htyp
  have hbind := parse_args_bind_resolved L (fuel' + 1) subs (name ++ tail) name.length val arg
    defs d typ name (cstr "integer") hlen halias hdc (first_child_id _ _ _ hd) htype hint
  have hconv : parse_args_convert L (cstr "integer") name val = .ok (.integer (some name) v) := by
    simp [parse_args_convert, safe_strtol_literal val v hlit hrange]
  rw [hconv, fields_delete_found subs name hdot hsubs hnd] at hbind
  simp only at hbind
  rw [add_after_delete subs name (.integer (some name) v) hsubs rfl] at hbind
  simp only at hbind
  rw [filter_id_eq] at hbind
  exact hbind

/-! ### C6 -/

/-- Claim C6, amended (named argument binding).  For a parameter `name` (a word
without `.`, shorter than 256 characters) declared in the parameter block
`defs` as a Compound whose `type` is the string `integer`, and a value `val`
that is an integer literal within the range of `long`, the argument `name=val`
is bound wherever it stands in the list: as the whole argument string, as the
last argument, and in front of a comma, where the loop goes on behind the
comma.  The substitution tree then holds its other entries in their order and,
last, the Integer node `name` = `v`, which is the node a search for `name`
finds. -/
theorem parse_args_named_integer (L : libc_double) (fuel n arg : Nat)
    (subs defs d typ : snd_config_t) (name val : Str) (v : Int)
    (hfuel : 0 < fuel)
    (hname : arg_word name) (hlen : name.length < 256) (hdot : 46 ∉ name)
    (hlit : integer_literal val = some v) (hrange : LONG_MIN ≤ v ∧ v ≤ LONG_MAX)
    (hdefs : snd_config_get_type defs = .COMPOUND) (hd : FirstChild defs name d)
    (hdc : snd_config_get_type d = .COMPOUND)
    (htyp : FirstChild d (cstr "type") typ)
    (hint : snd_config_get_string typ = .ok (cstr "integer"))
    (hsubs : snd_config_get_type subs = .COMPOUND)
    (hnd : ((fields subs).map snd_config_get_id).Nodup) :
    parse_args L fuel subs (some (name ++ 61 :: val)) defs
        = some (0, some (bind_entry subs name (.integer (some name) v))) ∧
      parse_args_loop L fuel defs (n + 1) subs (name ++ 61 :: val) arg
        = some (0, bind_entry subs name (.integer (some name) v)) ∧
      (∀ rest, parse_args_loop L fuel defs (n + 1) subs (name ++ 61 :: (val ++ 44 :: rest)) arg
        = parse_args_loop L fuel defs n (bind_entry subs name (.integer (some name) v)) rest
            (arg + 1)) ∧
      (∀ rest, parse_args L fuel subs (some (name ++ 61 :: (val ++ 44 :: rest))) defs
        = (parse_args_loop L fuel defs (name ++ 61 :: (val ++ 44 :: rest)).length
            (bind_entry subs name (.integer (some name) v)) rest 1).map
              (fun r => (r.1, some r.2))) ∧
      snd_config_search (bind_entry subs name (.integer (some name) v)) name
        = .ok (.integer (some name) v) := by
  have hval : arg_word val := integer_literal_word val v hlit
  have hb : ∀ tail a, parse_args_bind L fuel subs (name ++ tail) name.length val a defs
      = some (0, bind_entry subs name (.integer (some name) v)) := fun tail a =>
    parse_args_bind_named_integer L fuel a subs defs d typ name val tail v hfuel hname hlen hdot
      hlit hrange hdefs hd hdc htyp hint hsubs hnd
  have h1 : ∀ m a, parse_args_loop L fuel defs (m + 1) subs (name ++ 61 :: val) a
      = some (0, bind_entry subs name (.integer (some name) v)) := fun m a =>
    parse_args_loop_single L fuel m subs defs _ _ a name.length val
      (parse_arg_named name val hname hval) (hb _ a)
  have h2 : ∀ m a rest,
      parse_args_loop L fuel defs (m + 1) subs (name ++ 61 :: (val ++ 44 :: rest)) a
        = parse_args_loop L fuel defs m (bind_entry subs name (.integer (some name) v)) rest
            (a + 1) := fun m a rest =>
    parse_args_loop_step L fuel m subs defs _ _ rest a name.length val
      (parse_arg_named_comma name val rest hname hval) (hb _ a)
  refine ⟨?_, h1 n arg, h2 n arg, ?_, ?_⟩
  · rw [parse_args_list L _ subs defs _ (skip_blank_word name _ hname) (by simp)
      (by rw [word_head_append name _ hname.1]; exact hname.2.2.2.2), h1]
    rfl
  · intro rest
    rw [parse_args_list L _ subs defs _ (skip_blank_word name _ hname) (by simp)
      (by rw [word_head_append name _ hname.1]; exact hname.2.2.2.2), h2]
  · have := search_added subs name (.integer (some name) v) hdot hsubs rfl
    rw [filter_id_eq] at this
    exact this

theorem arg_word_count : arg_word (cstr "count") := by
  refine ⟨by decide, ?_, by decide, by decide, by decide⟩
  decide

/-- Witness of C6: with the declared parameter `count` of type integer and
default 1, `load_defaults` seeds `count` = 1, and binding `count=5` leaves the
substitution tree with the single entry `count` = Integer 5; binding
`count=5,count=6` leaves `count` = Integer 6. -/
theorem parse_args_named_integer_example :
    load_defaults snd_config_top args_count
        = some (0, .compound none false [.integer (some (cstr "count")) 1]) ∧
    ∀ L : libc_double,
      parse_args L 1 (.compound none false [.integer (some (cstr "count")) 1])
          (some (cstr "count=5")) args_count
        = some (0, some (.compound none false [.integer (some (cstr "count")) 5])) ∧
      parse_args L 1 (.compound none false [.integer (some (cstr "count")) 1])
          (some (cstr "count=5,count=6")) args_count
        = (parse_args_loop L 1 args_count 15
            (.compound none false [.integer (some (cstr "count")) 5]) (cstr "count=6") 1).map
              (fun r => (r.1, some r.2)) ∧
      parse_args_loop L 1 args_count 15
          (.compound none false [.integer (some (cstr "count")) 5]) (cstr "count=6") 1
        = some (0, .compound none false [.integer (some (cstr "count")) 6]) :=
  ⟨by decide, fun L =>
    ⟨(parse_args_named_integer L 1 0 0 (.compound none false [.integer (some (cstr "count")) 1])
      args_count
      (.compound (some (cstr "count")) false
        [.string (some (cstr "type")) (cstr "integer"), .integer (some (cstr "default")) 1])
      (.string (some (cstr "type")) (cstr "integer"))
      (cstr "count") (cstr "5") 5 (by decide) arg_word_count (by decide) (by decide)
      (by decide) (by decide) (by decide)
      ⟨[], [], rfl, rfl, by simp⟩ (by decide)
      ⟨[], [.integer (some (cstr "default")) 1], rfl, rfl, by simp⟩ (by decide) (by decide)
      (by decide)).1,
     (parse_args_named_integer L 1 0 0 (.compound none false [.integer (some (cstr "count")) 1])
      args_count
      (.compound (some (cstr "count")) false
        [.string (some (cstr "type")) (cstr "integer"), .integer (some (cstr "default")) 1])
      (.string (some (cstr "type")) (cstr "integer"))
      (cstr "count") (cstr "5") 5 (by decide) arg_word_count (by decide) (by decide)
      (by decide) (by decide) (by decide)
      ⟨[], [], rfl, rfl, by simp⟩ (by decide)
      ⟨[], [.integer (some (cstr "default")) 1], rfl, rfl, by simp⟩ (by decide) (by decide)
      (by decide)).2.2.2.1 (cstr "count=6"),
     (parse_args_named_integer L 1 14 1 (.compound none false [.integer (some (cstr "count")) 5])
      args_count
      (.compound (some (cstr "count")) false
        [.string (some (cstr "type")) (cstr "integer"), .integer (some (cstr "default")) 1])
      (.string (some (cstr "type")) (cstr "integer"))
      (cstr "count") (cstr "6") 6 (by decide) arg_word_count (by decide) (by decide)
      (by decide) (by decide) (by decide)
      ⟨[], [], rfl, rfl, by simp⟩ (by decide)
      ⟨[], [.integer (some (cstr "default")) 1], rfl, rfl, by simp⟩ (by decide) (by decide)
      (by decide)).2.1⟩⟩

/-- Counterexample of C6: `99999999999999999999` is a complete integer literal,
and the argument `count=99999999999999999999` does not bind `count`:
`safe_strtol` returns `-ERANGE`, which `parse_args` returns, and the entry of
`count` is gone.  A parameter whose identifier holds a dot, as
`@args { 'a.b' { type integer } }` declares it, is not found under its name:
the name is searched as a path and `a.b=5` gives `-ENOENT`.  A name of 256
characters stops at the assertion on `varlen`. -/
theorem parse_args_named_out_of_range :
    complete_integer_literal (cstr "99999999999999999999") = some 99999999999999999999 ∧
    parse_args libc_no_real 1 (.compound none false [.integer (some (cstr "count")) 1])
        (some (cstr "count=99999999999999999999")) args_count
      = some (-ERANGE, some (.compound none false [])) ∧
    snd_config_load libc_no_real 12 snd_config_top (cstr "@args \x7b 'a.b' \x7b type integer \x7d \x7d")
      = some (0, .compound none false
          [.compound (some (cstr "@args")) false
            [.compound (some (cstr "a.b")) false
              [.string (some (cstr "type")) (cstr "integer")]]]) ∧
    parse_args libc_no_real 1 snd_config_top (some (cstr "a.b=5"))
        (.compound (some (cstr "@args")) false
          [.compound (some (cstr "a.b")) false
            [.string (some (cstr "type")) (cstr "integer")]])
      = some (-ENOENT, some snd_config_top) ∧
    parse_args_bind libc_no_real 1 snd_config_top (List.replicate 256 97 ++ cstr "=5") 256
        (cstr "5") 0 args_count = none := by
  refine ⟨by decide, by decide!, by decide!, by decide!, rfl⟩

/-! ### C7 -/

theorem alias_loop_res (config : snd_config_t) (base : Option Str) (fuel : Nat) (key : Str)
    (e : Int) (r : snd_config_t)
    (h : snd_config_search_alias_loop config base fuel key none = some (e, some r)) :
    ∀ res, snd_config_search_alias_loop config base fuel key res = some (e, some r) := by
  intro res
  cases fuel with
  | zero => simp [snd_config_search_alias_loop] at h
  | succ fuel =>
    simp only [snd_config_search_alias_loop] at h ⊢
    split at h
    · rename_i err heq
      simp at h
    · exact h

theorem search_alias_via_string (fuel : Nat) (defs : snd_config_t) (key name : Str)
    (i : Option Str) (d : snd_config_t)
    (hidx : snd_config_search defs key = .ok (.string i name))
    (hres : snd_config_search_alias fuel defs none name = some (.ok d)) :
    snd_config_search_alias (fuel + 1) defs none key = some (.ok d) := by
  unfold snd_config_search_alias at hres ⊢
  simp only [snd_config_search_alias_loop, hidx, snd_config_get_string]
  cases hl : snd_config_search_alias_loop defs none fuel name none with
  | none => simp [hl] at hres
  | some p =>
    obtain ⟨e, r⟩ := p
    cases r with
    | none => simp [hl] at hres
    | some r =>
      simp only [hl] at hres
      rw [alias_loop_res defs none fuel name e r hl]
      exact hres

/-- Claim C7, amended (positional binding).  A bare value at argument index `arg` is
bound through the index entry of the parameter block: when the entry of `defs`
identified by the decimal text of `arg` is a String with value `name`, and `name`
resolves to a parameter, the value is bound exactly like `name=value`. -/
theorem parse_args_bind_positional (L : libc_double) (fuel : Nat) (subs defs : snd_config_t)
    (str val name : Str) (arg : Nat) (i : Option Str) (d : snd_config_t)
    (hidx : snd_config_search defs (dec_nat arg) = .ok (.string i name))
    (hne : name ≠ []) (hlen : name.length < 256)
    (hres : snd_config_search_alias fuel defs none name = some (.ok d)) :
    parse_args_bind L (fuel + 1) subs str 0 val arg defs =
      parse_args_bind L fuel subs name name.length val arg defs := by
  have h1 := search_alias_via_string fuel defs (dec_nat arg) name i d hidx hres
  have hpos : 0 < name.length := List.length_pos.2 hne
  unfold parse_args_bind
  have q1 : ¬ (256 ≤ 0) := by omega
  have q2 : ¬ (256 ≤ name.length) := by omega
  simp only [q1, q2, if_false, hpos, if_true, Nat.lt_irrefl, List.take_length, h1, hres]

/-- Witness of C7, amended: with `@args [ count ]` and
`@args.count { type integer default 1 }`, the bare argument `5` is bound like
`count=5`, and the substitution tree ends with `count` = Integer 5. -/
theorem parse_args_bind_positional_example :
    snd_config_search args_index_count (dec_nat 0)
        = .ok (.string (some (cstr "0")) (cstr "count")) ∧
    (∀ L : libc_double,
      parse_args_bind L 2 (.compound none false [.integer (some (cstr "count")) 1])
          (cstr "5") 0 (cstr "5") 0 args_index_count
        = parse_args_bind L 1 (.compound none false [.integer (some (cstr "count")) 1])
          (cstr "count") 5 (cstr "5") 0 args_index_count) ∧
    parse_args libc_no_real 2 (.compound none false [.integer (some (cstr "count")) 1])
        (some (cstr "5")) args_index_count
      = some (0, some (.compound none false [.integer (some (cstr "count")) 5])) :=
  ⟨by decide, fun L =>
    parse_args_bind_positional L 1 (.compound none false [.integer (some (cstr "count")) 1])
      args_index_count (cstr "5") (cstr "5") (cstr "count") 0 (some (cstr "0"))
      (.compound (some (cstr "count")) false
        [.string (some (cstr "type")) (cstr "integer"), .integer (some (cstr "default")) 1])
      (by decide) (by decide) (by decide) (by decide), by decide⟩

/-- Counterexample of C7: against the declared parameter `count` alone (no index
entry), the bare argument `5` is not bound: `parse_args` looks up a parameter
named `0` and returns `-ENOENT`, leaving the default in place. -/
theorem parse_args_positional_unbound :
    load_defaults snd_config_top args_count
        = some (0, .compound none false [.integer (some (cstr "count")) 1]) ∧
    parse_args libc_no_real 2 (.compound none false [.integer (some (cstr "count")) 1])
        (some (cstr "5")) args_count
      = some (-ENOENT, some (.compound none false [.integer (some (cstr "count")) 1])) ∧
    parse_args libc_no_real 2 (.compound none false [.integer (some (cstr "count")) 1])
        (some (cstr "count=5")) args_count
      = some (0, some (.compound none false [.integer (some (cstr "count")) 5])) := by
  decide

/-! ### C8 -/

theorem safe_strtol_reject (val : Str) (h : complete_integer_literal val = none) :
    safe_strtol val = .error (if (strtol val).2.2 = 0 then -EINVAL else -ERANGE) := by
  cases hs : safe_strtol val with
  | ok v =>
    have := (safe_strtol_ok_iff val v).1 hs
    rw [h] at this
    cases this.1
  | error e =>
    unfold safe_strtol at hs
    split at hs
    · rename_i h0
      subst h0
      cases hs
      rfl
    · simp only at hs
      split at hs
      · rename_i h1
        cases hs
        rcases strtol_errno val with h0 | h0
        · exact absurd h0 h1
        · rw [h0]; rfl
      · rename_i h1
        split at hs
        · cases hs
          have : (strtol val).2.2 = 0 := by
            by_contra hne
            exact h1 hne
          rw [this]; rfl
        · cases hs

/-- Claim C8, amended (argument type errors).  In any turn of the binding loop, when the
argument read by `parse_arg` (by name or by position) resolves to a parameter `d`
whose `type` is the string `integer`, and its value text is not a complete
integer literal, the loop ends with the status of `safe_strtol`, which
`parse_args` returns: `-ERANGE` when `strtol` sets `errno`, that is when the
number the text starts with is out of the range of `long`, and `-EINVAL` in
every other case; the previous entry of the parameter is already deleted. -/
theorem parse_args_integer_reject (L : libc_double) (fuel n : Nat)
    (subs defs d typ : snd_config_t) (str var : Str) (arg : Nat)
    (herr : (parse_arg str).err = 0) (hlen : (parse_arg str).varlen < 256)
    (halias : snd_config_search_alias fuel defs none
      (arg_key str (parse_arg str).varlen arg) = some (.ok d))
    (hdc : snd_config_get_type d = .COMPOUND) (hid : snd_config_get_id d = some var)
    (hs : snd_config_search d (cstr "type") = .ok typ)
    (hg : snd_config_get_string typ = .ok (cstr "integer"))
    (hlit : complete_integer_literal (parse_arg str).val = none) :
    parse_args_loop L fuel defs (n + 1) subs str arg
        = some (if (strtol (parse_arg str).val).2.2 = 0 then -EINVAL else -ERANGE,
            delete_found subs var) ∧
      (arg = 0 → skip_blank str = str → str ≠ [] → str.head? ≠ some 123 →
        parse_args L fuel subs (some str) defs
          = some (if (strtol (parse_arg str).val).2.2 = 0 then -EINVAL else -ERANGE,
              some (delete_found subs var))) := by
  have hstr := safe_strtol_reject _ hlit
  have hneg : (if (strtol (parse_arg str).val).2.2 = 0 then -EINVAL else -ERANGE) < 0 := by
    split <;> decide
  have hbind := parse_args_bind_resolved L fuel subs str (parse_arg str).varlen
    (parse_arg str).val arg defs d typ var (cstr "integer") hlen halias hdc hid hs hg
  have hconv : parse_args_convert L (cstr "integer") var (parse_arg str).val
      = .error (if (strtol (parse_arg str).val).2.2 = 0 then -EINVAL else -ERANGE) := by
    simp [parse_args_convert, hstr]
  rw [hconv] at hbind
  simp only at hbind
  have hloop : ∀ m, parse_args_loop L fuel defs (m + 1) subs str arg
      = some (if (strtol (parse_arg str).val).2.2 = 0 then -EINVAL else -ERANGE,
          delete_found subs var) := by
    intro m
    have h0 : ¬ ((parse_arg str).err < 0) := by omega
    simp only [parse_args_loop, h0, if_false, hbind, hneg, if_true]
  refine ⟨hloop n, ?_⟩
  intro harg hsk hne hb
  subst harg
  rw [parse_args_list L fuel subs defs str hsk hne hb, hloop]
  rfl

/-- Witness of C8, amended: against `count` declared integer, `count=bogus`
gives `-EINVAL` and the bare `99999999999999999999x` gives `-ERANGE`. -/
theorem parse_args_integer_reject_example :
    (parse_arg (cstr "count=bogus")).err = 0 ∧
    complete_integer_literal (parse_arg (cstr "count=bogus")).val = none ∧
    complete_integer_literal (parse_arg (cstr "99999999999999999999x")).val = none ∧
    ∀ L : libc_double,
      parse_args L 1 (.compound none false [.integer (some (cstr "count")) 1])
          (some (cstr "count=bogus")) args_count
        = some (-EINVAL, some (.compound none false [])) ∧
      parse_args L 2 (.compound none false [.integer (some (cstr "count")) 1])
          (some (cstr "99999999999999999999x")) args_index_count
        = some (-ERANGE, some (.compound none false [])) :=
  ⟨by decide, by decide, by decide, fun L =>
    ⟨(parse_args_integer_reject L 1 11
        (.compound none false [.integer (some (cstr "count")) 1]) args_count
        (.compound (some (cstr "count")) false
          [.string (some (cstr "type")) (cstr "integer"), .integer (some (cstr "default")) 1])
        (.string (some (cstr "type")) (cstr "integer"))
        (cstr "count=bogus") (cstr "count") 0
        (by decide) (by decide) (by decide) (by decide) (by decide) (by decide) (by decide)
        (by decide)).2 rfl (by decide) (by decide) (by decide),
     (parse_args_integer_reject L 2 21
        (.compound none false [.integer (some (cstr "count")) 1]) args_index_count
        (.compound (some (cstr "count")) false
          [.string (some (cstr "type")) (cstr "integer"), .integer (some (cstr "default")) 1])
        (.string (some (cstr "type")) (cstr "integer"))
        (cstr "99999999999999999999x") (cstr "count") 0
        (by decide) (by decide) (by decide) (by decide) (by decide) (by decide) (by decide)
        (by decide)).2 rfl (by decide) (by decide) (by decide)⟩⟩

/-- Counterexample of C8: the value text `99999999999999999999x` is not a complete
integer literal, and binding it to the integer parameter `count` fails with
`-ERANGE`, not `-EINVAL`. -/
theorem parse_args_integer_erange :
    complete_integer_literal (cstr "99999999999999999999x") = none ∧
    parse_args libc_no_real 2 (.compound none false [.integer (some (cstr "count")) 1])
        (some (cstr "count=99999999999999999999x")) args_count
      = some (-ERANGE, some (.compound none false [])) ∧
    -ERANGE ≠ -EINVAL := by
  decide

/-! ### C9 and C10 -/

theorem type_set_field (c : snd_config_t) (k : Nat) (n : snd_config_t) :
    snd_config_get_type (set_field c k n) = snd_config_get_type c := type_set_fields _ _

theorem type_delete_field (c : snd_config_t) (k : Nat) :
    snd_config_get_type (delete_field c k) = snd_config_get_type c := type_set_fields _ _

theorem type_delete_found_loop (fuel : Nat) :
    ∀ (config : snd_config_t) (key : Str) (c : snd_config_t),
      delete_found_loop fuel config key = some c →
        snd_config_get_type c = snd_config_get_type config := by
  induction fuel with
  | zero => intro _ _ _ h; simp [delete_found_loop] at h
  | succ fuel ih =>
    intro config key c h
    simp only [delete_found_loop] at h
    split at h
    · cases h
    · split at h
      · split at h
        · cases h
        · split at h
          · cases h
          · split at h
            · cases h
            · cases h; exact type_set_field _ _ _
      · split at h
        · cases h
        · cases h; exact type_delete_field _ _

theorem type_delete_found (config : snd_config_t) (key : Str) :
    snd_config_get_type (delete_found config key) = snd_config_get_type config := by
  unfold delete_found
  split
  · rename_i c h; exact type_delete_found_loop _ _ _ _ h
  · rfl

/-- A node converted from an argument is a scalar identified by the parameter,
of the type its declaration names. -/
theorem parse_args_convert_ok (L : libc_double) (tmp var val : Str) (sub : snd_config_t)
    (h : parse_args_convert L tmp var val = .ok sub) :
    snd_config_get_id sub = some var ∧ fields sub = [] ∧
      snd_config_get_type sub ≠ .COMPOUND ∧
      snd_config_get_type_ascii tmp = .ok (snd_config_get_type sub) ∧
      (tmp = cstr "string" → sub = .string (some var) val) := by
  unfold parse_args_convert at h
  split at h
  · rename_i ht
    cases hs : safe_strtol val with
    | error e => simp [hs] at h
    | ok v =>
      simp only [hs, Except.ok.injEq] at h
      subst h; subst ht
      refine ⟨rfl, rfl, by simp [snd_config_get_type], rfl, fun e => ?_⟩
      exact absurd e (by decide)
  · split at h
    · rename_i ht
      cases hs : safe_strtod L val with
      | error e => simp [hs] at h
      | ok v =>
        simp only [hs, Except.ok.injEq] at h
        subst h; subst ht
        refine ⟨rfl, rfl, by simp [snd_config_get_type], rfl, fun e => ?_⟩
        exact absurd e (by decide)
    · split at h
      · rename_i ht
        simp only [Except.ok.injEq] at h
        subst h; subst ht
        exact ⟨rfl, rfl, by simp [snd_config_get_type], rfl, fun _ => rfl⟩
      · cases h

theorem snd_config_add_ok (father leaf s2 : snd_config_t) (var : Str)
    (hc : snd_config_get_type father = .COMPOUND)
    (hl : snd_config_get_id leaf = some var)
    (h : snd_config_add father leaf = .ok s2) :
    fields s2 = fields father ++ [leaf] ∧
      ∀ n ∈ fields father, snd_config_get_id n ≠ some var := by
  unfold snd_config_add at h
  split at h
  · cases h
  · rename_i hany
    simp only [Except.ok.injEq] at h
    subst h
    refine ⟨by simp [add_field, fields_set_fields _ _ hc], fun n hn hid => hany ?_⟩
    rw [List.any_eq_true]
    exact ⟨n, hn, by simp [same_id, hl, hid]⟩

/-- Claim C9, amended (an argument of the list syntax replaces the default).  After a
turn of the binding loop of `parse_args` that succeeds, the substitution tree is
the previous one with the entry of the resolved parameter deleted and one new node
added last: a scalar without children, identified by the parameter and built from
the argument's value alone; no other entry has that identifier. -/
theorem parse_args_bind_replaces (L : libc_double) (fuel : Nat) (subs : snd_config_t)
    (str : Str) (varlen : Nat) (val : Str) (arg : Nat) (defs subs2 : snd_config_t)
    (hc : snd_config_get_type subs = .COMPOUND)
    (h : parse_args_bind L fuel subs str varlen val arg defs = some (0, subs2)) :
    ∃ d var tmp leaf,
      snd_config_search_alias fuel defs none (arg_key str varlen arg) = some (.ok d) ∧
      snd_config_get_id d = some var ∧
      parse_args_convert L tmp var val = .ok leaf ∧
      fields subs2 = fields (delete_found subs var) ++ [leaf] ∧
      snd_config_get_id leaf = some var ∧ fields leaf = [] ∧
      snd_config_get_type leaf ≠ .COMPOUND ∧
      ∀ n ∈ fields (delete_found subs var), snd_config_get_id n ≠ some var := by
  obtain ⟨d, var, typ, tmp, sub, ha, _, hid, _, _, hconv, hadd⟩ :=
    parse_args_bind_ok L fuel subs str varlen val arg defs subs2 h
  obtain ⟨h1, h2, h3, _, _⟩ := parse_args_convert_ok L tmp var val sub hconv
  obtain ⟨h5, h6⟩ := snd_config_add_ok _ _ _ var
    (by rw [type_delete_found]; exact hc) h1 hadd
  exact ⟨d, var, tmp, sub, ha, hid, hconv, h5, h1, h2, h3, h6⟩

/-- Witness of C9, amended: `count=5` over the default `count` = 1. -/
theorem parse_args_bind_replaces_example :
    snd_config_get_type (.compound none false [.integer (some (cstr "count")) 1])
      = .COMPOUND ∧
    ∀ L : libc_double,
      parse_args_bind L 1 (.compound none false [.integer (some (cstr "count")) 1])
          (cstr "count=5") 5 (cstr "5") 0 args_count
        = some (0, .compound none false [.integer (some (cstr "count")) 5]) ∧
      ∃ d var tmp leaf,
        snd_config_search_alias 1 args_count none (arg_key (cstr "count=5") 5 0)
          = some (.ok d) ∧
        snd_config_get_id d = some var ∧
        parse_args_convert L tmp var (cstr "5") = .ok leaf ∧
        fields (.compound none false [.integer (some (cstr "count")) 5])
          = fields (delete_found (.compound none false [.integer (some (cstr "count")) 1]) var)
              ++ [leaf] ∧
        snd_config_get_id leaf = some var ∧ fields leaf = [] ∧
        snd_config_get_type leaf ≠ .COMPOUND ∧
        ∀ n ∈ fields (delete_found (.compound none false [.integer (some (cstr "count")) 1])
          var), snd_config_get_id n ≠ some var :=
  ⟨by decide, fun L =>
    have hb : parse_args_bind L 1 (.compound none false [.integer (some (cstr "count")) 1])
          (cstr "count=5") 5 (cstr "5") 0 args_count
        = some (0, .compound none false [.integer (some (cstr "count")) 5]) := rfl
    ⟨hb, parse_args_bind_replaces L 1 _ (cstr "count=5") 5 (cstr "5") 0 args_count _
      (by decide) hb⟩⟩

/-- Counterexample of C9: in the brace syntax the argument is merged with the
default.  With `p { type string default { a 1 } }` the defaults give `p { a 1 }`,
and the argument `{ p { b 2 } }` leaves `p { a 1 b 2 }`: the child `a` of the
default is still there. -/
theorem parse_args_brace_merges :
    load_defaults snd_config_top args_compound_default
        = some (0, .compound none false
            [.compound (some (cstr "p")) false [.integer (some (cstr "a")) 1]]) ∧
    parse_args libc_no_real 20
        (.compound none false [.compound (some (cstr "p")) false [.integer (some (cstr "a")) 1]])
        (some (cstr "{ p { b 2 } }")) args_compound_default
      = some (0, some (.compound none false
          [.compound (some (cstr "p")) false
            [.integer (some (cstr "a")) 1, .integer (some (cstr "b")) 2]])) := by
  decide!

/-- Claim C10, amended (arguments of the list syntax are type-checked).  After a turn
of the binding loop of `parse_args` that succeeds, the node added last for the
argument has the node type that the `type` field of the resolved parameter names
(`integer`, `real` or `string`); and when the value cannot be converted to the
declared type the turn fails with a negative status. -/
theorem parse_args_bind_typed (L : libc_double) (fuel : Nat) (subs : snd_config_t)
    (str : Str) (varlen : Nat) (val : Str) (arg : Nat) (defs : snd_config_t)
    (hc : snd_config_get_type subs = .COMPOUND) :
    (∀ subs2, parse_args_bind L fuel subs str varlen val arg defs = some (0, subs2) →
      ∃ d var typ tmp leaf,
        snd_config_search_alias fuel defs none (arg_key str varlen arg) = some (.ok d) ∧
        snd_config_get_id d = some var ∧
        snd_config_search d (cstr "type") = .ok typ ∧ snd_config_get_string typ = .ok tmp ∧
        (fields subs2).getLast? = some leaf ∧ snd_config_get_id leaf = some var ∧
        snd_config_get_type_ascii tmp = .ok (snd_config_get_type leaf) ∧
        snd_config_get_type leaf ≠ .COMPOUND) ∧
    (∀ d var typ tmp e, varlen < 256 →
      snd_config_search_alias fuel defs none (arg_key str varlen arg) = some (.ok d) →
      snd_config_get_type d = .COMPOUND → snd_config_get_id d = some var →
      snd_config_search d (cstr "type") = .ok typ → snd_config_get_string typ = .ok tmp →
      parse_args_convert L tmp var val = .error e →
      e < 0 ∧ parse_args_bind L fuel subs str varlen val arg defs
        = some (e, delete_found subs var)) := by
  constructor
  · intro subs2 h
    obtain ⟨d, var, typ, tmp, sub, ha, _, hid, hs, hg, hconv, hadd⟩ :=
      parse_args_bind_ok L fuel subs str varlen val arg defs subs2 h
    obtain ⟨h1, _, h3, h4, _⟩ := parse_args_convert_ok L tmp var val sub hconv
    obtain ⟨h5, _⟩ := snd_config_add_ok _ _ _ var
      (by rw [type_delete_found]; exact hc) h1 hadd
    exact ⟨d, var, typ, tmp, sub, ha, hid, hs, hg, by simp [h5], h1, h4, h3⟩
  · intro d var typ tmp e hlen ha hdc hid hs hg hconv
    refine ⟨parse_args_convert_error L tmp var val e hconv, ?_⟩
    rw [parse_args_bind_resolved L fuel subs str varlen val arg defs d typ var tmp hlen ha hdc
      hid hs hg, hconv]

/-- Witness of C10, amended: `count=5` gives an Integer node, and `count=bogus`
fails. -/
theorem parse_args_bind_typed_example :
    snd_config_get_type (.compound none false [.integer (some (cstr "count")) 1])
      = .COMPOUND ∧
    ∀ L : libc_double,
      parse_args_bind L 1 (.compound none false [.integer (some (cstr "count")) 1])
          (cstr "count=5") 5 (cstr "5") 0 args_count
        = some (0, .compound none false [.integer (some (cstr "count")) 5]) ∧
      parse_args_bind L 1 (.compound none false [.integer (some (cstr "count")) 1])
          (cstr "count=bogus") 5 (cstr "bogus") 0 args_count
        = some (-EINVAL, .compound none false []) ∧
      ((∀ subs2,
        parse_args_bind L 1 (.compound none false [.integer (some (cstr "count")) 1])
            (cstr "count=5") 5 (cstr "5") 0 args_count = some (0, subs2) →
        ∃ d var typ tmp leaf,
          snd_config_search_alias 1 args_count none (arg_key (cstr "count=5") 5 0)
            = some (.ok d) ∧
          snd_config_get_id d = some var ∧
          snd_config_search d (cstr "type") = .ok typ ∧
          snd_config_get_string typ = .ok tmp ∧
          (fields subs2).getLast? = some leaf ∧ snd_config_get_id leaf = some var ∧
          snd_config_get_type_ascii tmp = .ok (snd_config_get_type leaf) ∧
          snd_config_get_type leaf ≠ .COMPOUND) ∧
      (∀ d var typ tmp e, 5 < 256 →
        snd_config_search_alias 1 args_count none (arg_key (cstr "count=5") 5 0)
          = some (.ok d) →
        snd_config_get_type d = .COMPOUND → snd_config_get_id d = some var →
        snd_config_search d (cstr "type") = .ok typ → snd_config_get_string typ = .ok tmp →
        parse_args_convert L tmp var (cstr "5") = .error e →
        e < 0 ∧ parse_args_bind L 1 (.compound none false [.integer (some (cstr "count")) 1])
            (cstr "count=5") 5 (cstr "5") 0 args_count
          = some (e, delete_found (.compound none false [.integer (some (cstr "count")) 1])
              var))) :=
  ⟨by decide, fun L => ⟨rfl, rfl,
    parse_args_bind_typed L 1 (.compound none false [.integer (some (cstr "count")) 1])
      (cstr "count=5") 5 (cstr "5") 0 args_count (by decide)⟩⟩

/-- Counterexample of C10: in the brace syntax the value is not checked against
the declared type.  The parameter `count` is declared `integer` without a
default, so that `load_defaults` seeds nothing, and the argument
`{ count foo }` is accepted with `count` bound to the String `foo`.  With the
default 1 seeded, the same argument is refused by the parser, which holds the
value to the type of the entry that is there, and the substitution tree is
deleted. -/
theorem parse_args_brace_untyped :
    load_defaults snd_config_top args_count_no_default = some (0, snd_config_top) ∧
    parse_args libc_no_real 20 snd_config_top (some (cstr "{ count foo }"))
        args_count_no_default
      = some (0, some (.compound none false [.string (some (cstr "count")) (cstr "foo")])) ∧
    load_defaults snd_config_top args_count
      = some (0, .compound none false [.integer (some (cstr "count")) 1]) ∧
    parse_args libc_no_real 20 (.compound none false [.integer (some (cstr "count")) 1])
        (some (cstr "{ count foo }")) args_count
      = some (-EINVAL, none) := by
  decide!

/-! ### Round trip of the printer and the parser -/

theorem Clean.feeds {inp : input_t} {T : List Nat} (h : Clean inp T) : Feeds inp T :=
  Or.inl h

theorem feeds_length {inp : input_t} {T : List Nat} (h : Feeds inp T) :
    T.length ≤ inp.current.length + 1 := by
  rcases h with ⟨_, h⟩ | ⟨_, c, _, h⟩ | ⟨_, _, _, h⟩ <;> subst h <;> simp

theorem get_char_cons {inp : input_t} {c : Nat} {T : List Nat} (h : Feeds inp (c :: T)) :
    ∃ inp', get_char inp = ((c : Int), inp') ∧ Clean inp' T := by
  rcases h with ⟨h1, h2⟩ | ⟨h1, c', h2, h3⟩ | ⟨_, _, _, h⟩
  · exact ⟨{ inp with current := T }, by simp [get_char, h1, h2], h1, rfl⟩
  · cases h3
    exact ⟨{ inp with unget := false }, by simp [get_char, h1, h2], rfl, rfl⟩
  · cases h

theorem get_char_nil {inp : input_t} (h : Feeds inp []) :
    ∃ inp', get_char inp = (EOF, inp') ∧ Clean inp' [] := by
  rcases h with ⟨h1, h2⟩ | ⟨h1, c', h2, h3⟩ | ⟨h1, h2, h3, _⟩
  · exact ⟨inp, by simp [get_char, h1, h2], h1, h2⟩
  · cases h3
  · exact ⟨{ inp with unget := false }, by simp [get_char, h1, h2], rfl, h3⟩

theorem unget_feeds {inp : input_t} {T : List Nat} (c : Nat) (h : Clean inp T) :
    Feeds (unget_char (c : Int) inp) (c :: T) := by
  right; left
  exact ⟨rfl, c, rfl, by simp [unget_char, h.2]⟩

theorem unget_eof_feeds {inp : input_t} (h : Clean inp []) :
    Feeds (unget_char EOF inp) [] := by
  right; right
  exact ⟨rfl, rfl, by simp [unget_char, h.2], rfl⟩

theorem unget_current (c : Int) (inp : input_t) : (unget_char c inp).current = inp.current := rfl

/-- Without `<` or `#` in front, `get_char_skip_comments` is `get_char`. -/
theorem get_char_skip_comments_plain (inp : input_t)
    (h1 : (get_char inp).1 ≠ 60) (h2 : (get_char inp).1 ≠ 35) :
    get_char_skip_comments inp = get_char inp := by
  unfold get_char_skip_comments
  simp only [get_char_skip_comments_loop, h1, h2, if_false, ne_eq, not_false_eq_true, if_true]

theorem is_blank_iff (c : Nat) :
    is_blank c = true ↔ (c = 32 ∨ c = 12 ∨ c = 9 ∨ c = 10 ∨ c = 13) := by
  simp only [is_blank, Bool.or_eq_true, decide_eq_true_eq]
  omega

theorem get_nonwhite_loop_spec (X : List Nat) :
    ∀ (fuel : Nat) (inp : input_t), Feeds inp X → X.length < fuel →
      (∀ c Y, lstrip X = c :: Y → c ≠ 60 → c ≠ 35 →
        ∃ inp', get_nonwhite_loop fuel inp = ((c : Int), inp') ∧ Clean inp' Y) ∧
      (lstrip X = [] → ∃ inp', get_nonwhite_loop fuel inp = (EOF, inp') ∧ Clean inp' []) := by
  induction X with
  | nil =>
    intro fuel inp hf hfuel
    obtain ⟨inp', hg, hc⟩ := get_char_nil hf
    cases fuel with
    | zero => simp at hfuel
    | succ fuel =>
      constructor
      · intro c Y h; simp [lstrip] at h
      · intro _
        refine ⟨inp', ?_, hc⟩
        have hcs : get_char_skip_comments inp = (EOF, inp') := by
          rw [get_char_skip_comments_plain inp (by rw [hg]; simp [EOF])
            (by rw [hg]; simp [EOF]), hg]
        simp only [get_nonwhite_loop, hcs]
        simp [EOF]
  | cons x X ih =>
    intro fuel inp hf hfuel
    obtain ⟨inp', hg, hc⟩ := get_char_cons hf
    cases fuel with
    | zero => simp at hfuel
    | succ fuel =>
      by_cases hb : is_blank x = true
      · have hx := (is_blank_iff x).1 hb
        have hcs : get_char_skip_comments inp = ((x : Int), inp') := by
          rw [get_char_skip_comments_plain inp (by rw [hg]; simp; omega)
            (by rw [hg]; simp; omega), hg]
        have hstep : get_nonwhite_loop (fuel + 1) inp = get_nonwhite_loop fuel inp' := by
          simp only [get_nonwhite_loop, hcs]
          have : ((x : Int) = 32 ∨ (x : Int) = 12 ∨ (x : Int) = 9 ∨ (x : Int) = 10 ∨
              (x : Int) = 13) := by omega
          simp only [this, if_true]
        have hl : lstrip (x :: X) = lstrip X := by simp [lstrip, List.dropWhile_cons, hb]
        rw [hstep, hl]
        exact ih fuel inp' hc.feeds (by simp at hfuel; omega)
      · have hl : lstrip (x :: X) = x :: X := by
          simp [lstrip, List.dropWhile_cons, hb]
        rw [hl]
        constructor
        · intro c Y h h60 h35
          simp only [List.cons.injEq] at h
          obtain ⟨hxc, hXY⟩ := h
          subst hxc; subst hXY
          refine ⟨inp', ?_, hc⟩
          have hcs : get_char_skip_comments inp = ((x : Int), inp') := by
            rw [get_char_skip_comments_plain inp (by rw [hg]; simp; omega)
              (by rw [hg]; simp; omega), hg]
          simp only [get_nonwhite_loop, hcs]
          have hx : ¬ (x = 32 ∨ x = 12 ∨ x = 9 ∨ x = 10 ∨ x = 13) := by
            rw [← is_blank_iff]; exact hb
          have : ¬ ((x : Int) = 32 ∨ (x : Int) = 12 ∨ (x : Int) = 9 ∨ (x : Int) = 10 ∨
              (x : Int) = 13) := by omega
          simp only [this, if_false]
        · intro h; cases h

theorem Feeds.feedsW {inp : input_t} {T : List Nat} (h : Feeds inp T) : FeedsW inp T :=
  ⟨T, h, rfl⟩

theorem get_nonwhite_char {inp : input_t} {Y : List Nat} {c : Nat} {Y' : List Nat}
    (h : FeedsW inp Y) (hl : lstrip Y = c :: Y') (h60 : c ≠ 60) (h35 : c ≠ 35) :
    ∃ inp', get_nonwhite inp = ((c : Int), inp') ∧ Clean inp' Y' := by
  obtain ⟨X, hf, hX⟩ := h
  have := (get_nonwhite_loop_spec X (inp.current.length + 2) inp hf
    (by have := feeds_length hf; omega)).1 c Y' (by rw [hX, hl]) h60 h35
  exact this

theorem get_nonwhite_eof {inp : input_t} {Y : List Nat}
    (h : FeedsW inp Y) (hl : lstrip Y = []) :
    ∃ inp', get_nonwhite inp = (EOF, inp') ∧ Clean inp' [] := by
  obtain ⟨X, hf, hX⟩ := h
  exact (get_nonwhite_loop_spec X (inp.current.length + 2) inp hf
    (by have := feeds_length hf; omega)).2 (by rw [hX, hl])

theorem plain_char_spec {c : Nat} (h : plain_char c = true) :
    33 ≤ c ∧ c ≤ 126 ∧ c ≠ 34 ∧ c ≠ 35 ∧ c ≠ 39 ∧ c ≠ 44 ∧ c ≠ 46 ∧ c ≠ 59 ∧ c ≠ 60 ∧
      c ≠ 61 ∧ c ≠ 91 ∧ c ≠ 92 ∧ c ≠ 93 ∧ c ≠ 123 ∧ c ≠ 125 := by
  simp only [plain_char, Bool.and_eq_true, decide_eq_true_eq, Bool.not_eq_true',
    Bool.or_eq_false_iff, decide_eq_false_iff_not] at h
  omega

theorem plain_not_blank {c : Nat} (h : plain_char c = true) : is_blank c = false := by
  have := plain_char_spec h
  cases hb : is_blank c with
  | false => rfl
  | true =>
    have := (is_blank_iff c).1 hb
    omega

theorem plain_not_end {c : Nat} (id : Bool) (h : plain_char c = true) :
    freestring_end id (c : Int) = false := by
  have := plain_char_spec h
  simp only [freestring_end, EOF, Bool.or_eq_false_iff, Bool.and_eq_false_iff,
    decide_eq_false_iff_not]
  omega

theorem plain_to_char {c : Nat} (h : plain_char c = true) : to_char (c : Int) = c := by
  have := plain_char_spec h
  simp only [to_char]
  omega

theorem c_string_plain (w : Str) (h : w.all plain_char = true) : c_string w = w := by
  unfold c_string
  rw [List.takeWhile_eq_self_iff]
  intro c hc
  have := plain_char_spec (List.all_eq_true.1 h c hc)
  simp
  omega

theorem get_freestring_loop_word (id : Bool) (t : Nat) (T : List Nat)
    (ht : freestring_end id (t : Int) = true) (w : Str) :
    ∀ (fuel : Nat) (inp : input_t) (buf : List Nat), w.all plain_char = true →
      Feeds inp (w ++ t :: T) → w.length < fuel →
      ∃ inp', get_freestring_loop fuel id inp buf
          = (c_string (buf ++ w), unget_char (t : Int) inp') ∧ Clean inp' T := by
  induction w with
  | nil =>
    intro fuel inp buf _ hf hfuel
    obtain ⟨inp', hg, hc⟩ := get_char_cons hf
    cases fuel with
    | zero => simp at hfuel
    | succ fuel =>
      refine ⟨inp', ?_, hc⟩
      simp only [get_freestring_loop, hg, ht, if_true, List.append_nil]
  | cons c w ih =>
    intro fuel inp buf hall hf hfuel
    simp only [List.all_cons, Bool.and_eq_true] at hall
    obtain ⟨inp1, hg, hc⟩ := get_char_cons hf
    cases fuel with
    | zero => simp at hfuel
    | succ fuel =>
      obtain ⟨inp', hl, hc'⟩ := ih fuel inp1 (buf ++ [c]) hall.2 hc.feeds
        (by simp at hfuel; omega)
      refine ⟨inp', ?_, hc'⟩
      simp only [get_freestring_loop, hg, plain_not_end id hall.1, Bool.false_eq_true, if_false,
        plain_to_char hall.1, hl]
      simp

/-- A plain word followed by a terminator is read whole by `get_freestring`, and
the terminator is pushed back. -/
theorem get_freestring_word (id : Bool) {t : Nat} {T : List Nat} {w : Str} {inp : input_t}
    (ht : freestring_end id (t : Int) = true) (hw : w.all plain_char = true)
    (hf : Feeds inp (w ++ t :: T)) :
    ∃ inp', get_freestring id inp = (w, unget_char (t : Int) inp') ∧ Clean inp' T := by
  obtain ⟨inp', h, hc⟩ := get_freestring_loop_word id t T ht w (inp.current.length + 2) inp []
    hw hf (by have := feeds_length hf; simp at this; omega)
  refine ⟨inp', ?_, hc⟩
  unfold get_freestring
  rw [h]
  simp [c_string_plain w hw]

theorem lstrip_plain {c : Nat} (T : List Nat) (h : plain_char c = true) :
    lstrip (c :: T) = c :: T := by
  simp [lstrip, List.dropWhile_cons, plain_not_blank h]

/-- A plain word in front of the input is the next token of `get_string`. -/
theorem get_string_word (id : Bool) (t : Nat) {T : List Nat} {w : Str} {inp : input_t}
    (ht : freestring_end id (t : Int) = true) (hw : plain_word w = true)
    (hf : FeedsW inp (w ++ t :: T)) :
    ∃ inp', get_string id inp = ⟨0, w, unget_char (t : Int) inp'⟩ ∧ Clean inp' T := by
  simp only [plain_word, Bool.and_eq_true, Bool.not_eq_true', List.isEmpty_eq_false] at hw
  obtain ⟨hne, hall⟩ := hw
  cases w with
  | nil => simp at hne
  | cons c w =>
    have hc := (List.all_cons.symm ▸ hall : (plain_char c && w.all plain_char) = true)
    simp only [Bool.and_eq_true] at hc
    have hp := plain_char_spec hc.1
    obtain ⟨inp1, hg, hc1⟩ := @get_nonwhite_char _ _ c (w ++ t :: T) hf
      (lstrip_plain _ hc.1) (by omega) (by omega)
    obtain ⟨inp', hfs, hc'⟩ := get_freestring_word id ht hall
      (unget_feeds c hc1)
    refine ⟨inp', ?_, hc'⟩
    unfold get_string
    simp only [hg]
    have e1 : ¬ ((c : Int) = EOF) := by simp only [EOF]; omega
    have e2 : ¬ ((c : Int) = 61 ∨ (c : Int) = 44 ∨ (c : Int) = 59 ∨ (c : Int) = 46 ∨
        (c : Int) = 123 ∨ (c : Int) = 125 ∨ (c : Int) = 91 ∨ (c : Int) = 93) := by omega
    have e3 : ¬ ((c : Int) = 39 ∨ (c : Int) = 34) := by omega
    simp only [e1, e2, e3, if_false, hfs]

theorem digit_value_digit (c : Nat) (h1 : 48 ≤ c) (h2 : c ≤ 57) : digit_value c = c - 48 := by
  simp [digit_value, h1, h2]

/-- The digits `dec_digits` writes: they denote `n` in front of what `acc`
holds, they are decimal digits when `acc` is made of decimal digits, and the first
one is not `0` unless `n` is 0. -/
theorem dec_digits_spec (fuel : Nat) :
    ∀ (n : Nat) (acc : Str), n < fuel →
      (dec_digits fuel n acc).foldl (fun a c => a * 10 + digit_value c) 0
          = acc.foldl (fun a c => a * 10 + digit_value c) n ∧
      ((∀ c ∈ acc, 48 ≤ c ∧ c ≤ 57) → ∀ c ∈ dec_digits fuel n acc, 48 ≤ c ∧ c ≤ 57) ∧
      (∃ d rest, dec_digits fuel n acc = d :: rest ∧ (0 < n → d ≠ 48)) := by
  induction fuel with
  | zero => intro n _ h; omega
  | succ fuel ih =>
    intro n acc hn
    by_cases h10 : n < 10
    · simp only [dec_digits, h10, if_true]
      refine ⟨?_, ?_, ⟨48 + n, acc, rfl, by omega⟩⟩
      · simp only [List.foldl_cons, Nat.zero_mul, Nat.zero_add]
        rw [digit_value_digit _ (by omega) (by omega)]
        simp
      · intro hacc c hc
        simp only [List.mem_cons] at hc
        rcases hc with rfl | hc
        · omega
        · exact hacc c hc
    · simp only [dec_digits, h10, if_false]
      have hlt : n / 10 < fuel := by omega
      obtain ⟨h1, h2, d, rest, h3, h4⟩ := ih (n / 10) ((48 + n % 10) :: acc) hlt
      refine ⟨?_, ?_, ⟨d, rest, h3, fun _ => h4 (by omega)⟩⟩
      · rw [h1]
        simp only [List.foldl_cons]
        rw [digit_value_digit _ (by omega) (by omega)]
        congr 1
        omega
      · intro hacc
        apply h2
        intro c hc
        simp only [List.mem_cons] at hc
        rcases hc with rfl | hc
        · omega
        · exact hacc c hc

theorem dec_nat_spec (n : Nat) :
    (dec_nat n).foldl (fun a c => a * 10 + digit_value c) 0 = n ∧
      (∀ c ∈ dec_nat n, 48 ≤ c ∧ c ≤ 57) ∧
      (∃ d rest, dec_nat n = d :: rest ∧ (0 < n → d ≠ 48)) := by
  obtain ⟨h1, h2, h3⟩ := dec_digits_spec (n + 1) n [] (by omega)
  exact ⟨by simpa using h1, h2 (by simp), h3⟩

theorem digits_value_dec (base : Nat) (hb : 10 ≤ base) (s : Str)
    (hd : ∀ c ∈ s, 48 ≤ c ∧ c ≤ 57) :
    s.all (fun c => decide (digit_value c < base)) = true := by
  rw [List.all_eq_true]
  intro c hc
  have := hd c hc
  rw [decide_eq_true_eq, digit_value_digit c this.1 this.2]
  omega

theorem unsigned_literal_dec_nat (n : Nat) : unsigned_literal (dec_nat n) = some n := by
  obtain ⟨h1, h2, d, rest, h3, h4⟩ := dec_nat_spec n
  by_cases hn : n = 0
  · subst hn
    decide
  · have hd : d ≠ 48 := h4 (by omega)
    have hall := digits_value_dec 10 (by omega) (dec_nat n) h2
    have : unsigned_literal (dec_nat n) = digits_value 10 (dec_nat n) := by
      rw [h3]
      unfold unsigned_literal
      split
      · rename_i heq; simp only [List.cons.injEq] at heq; exact absurd heq.1 hd
      · rename_i heq; simp only [List.cons.injEq] at heq; exact absurd heq.1 hd
      · rfl
    rw [this]
    unfold digits_value
    split
    · rename_i heq; rw [h3] at heq; cases heq
    · simp only [hall, if_true, h1]

theorem integer_literal_dec_int (v : Int) : integer_literal (dec_int v) = some v := by
  unfold dec_int
  obtain ⟨_, h2, d, rest, h3, _⟩ := dec_nat_spec v.toNat
  split
  · rename_i hv
    simp only [integer_literal, unsigned_literal_dec_nat, Option.map_some', Option.some.injEq]
    omega
  · rename_i hv
    have hd := h2 d (by rw [h3]; simp)
    have : integer_literal (dec_nat v.toNat)
        = (unsigned_literal (dec_nat v.toNat)).map (fun (m : Nat) => (m : Int)) := by
      rw [h3]
      unfold integer_literal
      split
      · rename_i heq; simp only [List.cons.injEq] at heq; omega
      · rename_i heq; simp only [List.cons.injEq] at heq; omega
      · rfl
    rw [this, unsigned_literal_dec_nat]
    simp only [Option.map_some', Option.some.injEq]
    omega

/-- The text printed for a `long` is converted back by `safe_strtol`. -/
theorem safe_strtol_dec_int (v : Int) (h : LONG_MIN ≤ v ∧ v ≤ LONG_MAX) :
    safe_strtol (dec_int v) = .ok v :=
  safe_strtol_literal _ v (integer_literal_dec_int v) h

theorem digit_plain {c : Nat} (h : 48 ≤ c ∧ c ≤ 57) : plain_char c = true := by
  simp only [plain_char, Bool.and_eq_true, decide_eq_true_eq, Bool.not_eq_true',
    Bool.or_eq_false_iff, decide_eq_false_iff_not]
  omega

/-- The text printed for an integer is a plain word that starts with a digit or
a minus sign. -/
theorem dec_int_word (v : Int) :
    plain_word (dec_int v) = true ∧
      ∃ c rest, dec_int v = c :: rest ∧ ((48 ≤ c ∧ c ≤ 57) ∨ c = 45) := by
  unfold dec_int
  split
  · obtain ⟨_, h2, _⟩ := dec_nat_spec v.natAbs
    refine ⟨?_, 45, dec_nat v.natAbs, rfl, Or.inr rfl⟩
    simp only [plain_word, List.isEmpty_cons, Bool.not_false, List.all_cons, Bool.true_and,
      Bool.and_eq_true]
    refine ⟨by decide, ?_⟩
    rw [List.all_eq_true]
    exact fun c hc => digit_plain (h2 c hc)
  · obtain ⟨_, h2, d, rest, h3, _⟩ := dec_nat_spec v.toNat
    refine ⟨?_, d, rest, h3, Or.inl (h2 d (by rw [h3]; simp))⟩
    simp only [plain_word, Bool.and_eq_true, Bool.not_eq_true', List.isEmpty_eq_false]
    refine ⟨by rw [h3]; simp, ?_⟩
    rw [List.all_eq_true]
    exact fun c hc => digit_plain (h2 c hc)

theorem lstrip_blank_cons {c : Nat} (T : List Nat) (h : is_blank c = true) :
    lstrip (c :: T) = lstrip T := by
  simp [lstrip, List.dropWhile_cons, h]

theorem feedsW_blank {inp : input_t} {c : Nat} {T : List Nat} (hb : is_blank c = true)
    (h : FeedsW inp (c :: T)) : FeedsW inp T := by
  obtain ⟨X, hf, hX⟩ := h
  exact ⟨X, hf, by rw [hX, lstrip_blank_cons T hb]⟩

theorem feedsW_lstrip {inp : input_t} {T : List Nat} (h : Feeds inp (lstrip T)) :
    FeedsW inp T := by
  refine ⟨lstrip T, h, ?_⟩
  unfold lstrip
  rw [List.dropWhile_idempotent]

/-- The end of `parse_def` on a good tail: the blanks are skipped and the next
character is pushed back. -/
theorem parse_def_end_tail (err : Int) (F : snd_config_t) {inp : input_t} {T : List Nat}
    (hf : FeedsW inp T) (ht : GoodTail T) :
    ∃ inp', parse_def_end err F inp = ⟨err, F, inp'⟩ ∧ Feeds inp' (lstrip T) := by
  unfold parse_def_end
  cases hl : lstrip T with
  | nil =>
    obtain ⟨inp1, hg, hc⟩ := get_nonwhite_eof hf hl
    refine ⟨unget_char EOF inp1, ?_, unget_eof_feeds hc⟩
    simp only [hg]
    simp [EOF]
  | cons c Y =>
    obtain ⟨h60, h35, h59, h44⟩ := ht c Y hl
    obtain ⟨inp1, hg, hc⟩ := get_nonwhite_char hf hl h60 h35
    refine ⟨unget_char (c : Int) inp1, ?_, unget_feeds c hc⟩
    simp only [hg]
    have : ¬ ((c : Int) = 59 ∨ (c : Int) = 44) := by omega
    simp only [this, if_false]

/-- A printed integer is parsed into a new Integer node. -/
theorem parse_value_integer (L : libc_double) (F : snd_config_t) (id : Str) (v : Int)
    (hv : LONG_MIN ≤ v ∧ v ≤ LONG_MAX) {inp : input_t} {T : List Nat}
    (hf : FeedsW inp (dec_int v ++ 10 :: T)) :
    ∃ inp', parse_value L none F inp id
        = ⟨0, add_field F (.integer (some id) v), unget_char 10 inp'⟩ ∧ Clean inp' T := by
  obtain ⟨hw, c, rest, hcr, hc⟩ := dec_int_word v
  obtain ⟨inp', hg, hcl⟩ := get_string_word false 10 (by decide) hw hf
  refine ⟨inp', ?_, hcl⟩
  unfold parse_value
  simp only [hg]
  have h0 : ¬ ((0 : Int) < 0) := by omega
  simp only [h0, if_false, safe_strtol_dec_int v hv]
  rw [hcr]
  simp only
  have : ((48 ≤ c ∧ c ≤ 57) ∨ c = 45) := hc
  simp only [this, if_true]
  rfl

/-- A printed value word is parsed into a new String node. -/
theorem parse_value_string (L : libc_double) (F : snd_config_t) (id : Str) (w : Str)
    (hw : value_word w = true) {inp : input_t} {T : List Nat}
    (hf : FeedsW inp (w ++ 10 :: T)) :
    ∃ inp', parse_value L none F inp id
        = ⟨0, add_field F (.string (some id) w), unget_char 10 inp'⟩ ∧ Clean inp' T := by
  simp only [value_word, Bool.and_eq_true] at hw
  obtain ⟨hp, hfirst⟩ := hw
  obtain ⟨inp', hg, hcl⟩ := get_string_word false 10 (by decide) hp hf
  refine ⟨inp', ?_, hcl⟩
  unfold parse_value
  simp only [hg]
  have h0 : ¬ ((0 : Int) < 0) := by omega
  simp only [h0, if_false]
  cases w with
  | nil => simp at hfirst
  | cons c w' =>
    simp only [Bool.not_eq_true', Bool.or_eq_false_iff, Bool.and_eq_false_iff,
      decide_eq_false_iff_not] at hfirst
    have : ¬ ((48 ≤ c ∧ c ≤ 57) ∨ c = 45) := by omega
    simp only [this, if_false]
    rfl

theorem Keeps.trans {A B C : snd_config_t} (h1 : Keeps A B) (h2 : Keeps B C) : Keeps A C := by
  obtain ⟨I, J, fs, gs, rfl, rfl⟩ := h1
  obtain ⟨I2, J2, fs2, gs2, h, rfl⟩ := h2
  cases h
  exact ⟨_, _, _, _, rfl, rfl⟩

theorem add_new_keeps {i : Str} {n X X1 : snd_config_t} (h : add_new i n X = some X1) :
    Keeps X X1 := by
  cases X with
  | compound I J fs =>
    simp only [add_new] at h
    split at h
    · cases h; exact ⟨I, J, fs, _, rfl, rfl⟩
    · cases h
  | _ => simp [add_new] at h

theorem findIdx_set {q : snd_config_t → Bool} {x : snd_config_t} :
    ∀ (fs : List snd_config_t) (k : Nat), fs.findIdx? q = some k → q x = true →
      (fs.set k x).findIdx? q = some k := by
  intro fs
  induction fs with
  | nil => intro k h; simp at h
  | cons a t ih =>
    intro k h hx
    rw [findIdx_cons] at h
    by_cases ha : q a = true
    · simp only [ha, if_true] at h
      cases h
      simp [List.set, findIdx_cons, hx]
    · simp only [ha] at h
      cases ht : t.findIdx? q with
      | none => simp [ht] at h
      | some j =>
        simp only [ht, Option.map_some', if_false] at h
        cases h
        simp only [List.set, findIdx_cons, ha, if_false, Bool.false_eq_true]
        rw [ih j ht hx]
        rfl

theorem findIdx_append_new {q : snd_config_t → Bool} {x : snd_config_t} :
    ∀ (fs : List snd_config_t), fs.findIdx? q = none → q x = true →
      (fs ++ [x]).findIdx? q = some fs.length := by
  intro fs
  induction fs with
  | nil => intro _ hx; simp [findIdx_cons, hx]
  | cons a t ih =>
    intro h hx
    rw [findIdx_cons] at h
    by_cases ha : q a = true
    · simp [ha] at h
    · simp only [ha, if_false, Bool.false_eq_true, Option.map_eq_none'] at h
      simp only [List.cons_append, findIdx_cons, ha, if_false, Bool.false_eq_true]
      rw [ih h hx]
      rfl

theorem findIdx_lt {q : snd_config_t → Bool} :
    ∀ (fs : List snd_config_t) (k : Nat), fs.findIdx? q = some k → k < fs.length := by
  intro fs
  induction fs with
  | nil => intro k h; simp at h
  | cons a t ih =>
    intro k h
    rw [findIdx_cons] at h
    by_cases ha : q a = true
    · simp only [ha, if_true] at h
      cases h
      simp
    · simp only [ha] at h
      cases ht : t.findIdx? q with
      | none => simp [ht] at h
      | some j =>
        simp only [ht, Option.map_some', if_false] at h
        cases h
        have := ih j ht
        simp only [List.length_cons]
        omega

theorem at_path_keeps {g : snd_config_t → Option snd_config_t}
    (hg : ∀ X X1, g X = some X1 → Keeps X X1) :
    ∀ (P : List Str) (F F1 : snd_config_t), at_path g F P = some F1 → Keeps F F1 := by
  intro P
  induction P with
  | nil => intro F F1 h; exact hg F F1 h
  | cons p ps ih =>
    intro F F1 h
    cases F with
    | compound I J fs =>
      simp only [at_path] at h
      split at h
      · split at h
        · simp only [Option.map_eq_some'] at h
          obtain ⟨X, _, rfl⟩ := h
          exact ⟨I, J, fs, _, rfl, rfl⟩
        · cases h
      · simp only [Option.map_eq_some'] at h
        obtain ⟨X, _, rfl⟩ := h
        exact ⟨I, J, fs, _, rfl, rfl⟩
    | _ => simp [at_path] at h

theorem at_path_append (g : snd_config_t → Option snd_config_t) :
    ∀ (P Q : List Str) (F : snd_config_t),
      at_path g F (P ++ Q) = at_path (fun X => at_path g X Q) F P := by
  intro P
  induction P with
  | nil => intro Q F; simp [at_path]
  | cons p ps ih =>
    intro Q F
    cases F with
    | compound I J fs =>
      have ih2 : ∀ (F : snd_config_t),
          at_path g F (ps.append Q) = at_path (fun X => at_path g X Q) F ps := ih Q
      simp only [List.cons_append, at_path, ih2]
    | _ => simp [at_path]

/-- Two changes at the same path, one after the other, are one change at that
path. -/
theorem at_path_bind {h1 h2 : snd_config_t → Option snd_config_t}
    (hk : ∀ X X1, h1 X = some X1 → Keeps X X1) :
    ∀ (P : List Str) (F : snd_config_t),
      at_path (fun X => (h1 X).bind h2) F P
        = (at_path h1 F P).bind (fun F1 => at_path h2 F1 P) := by
  intro P
  induction P with
  | nil => intro F; simp [at_path]
  | cons p ps ih =>
    intro F
    cases F with
    | compound I J fs =>
      simp only [at_path]
      cases hs : search_index (.compound I J fs) p with
      | some k =>
        simp only
        have hs2 : fs.findIdx? (id_matches p (-1)) = some k := hs
        have hk2 := findIdx_lt fs k hs2
        cases hf : (fields (.compound I J fs))[k]? with
        | none => simp
        | some x =>
          have hf2 : fs[k]? = some x := hf
          have hq : id_matches p (-1) x = true := by
            have := List.findIdx?_eq_some_iff_getElem.mp hs2
            obtain ⟨hlt, hx, _⟩ := this
            rw [List.getElem?_eq_getElem hlt] at hf2
            cases hf2
            exact hx
          cases x with
          | compound i j gs =>
            simp only [ih]
            cases ha : at_path h1 (.compound i true gs) ps with
            | none => simp
            | some X1 =>
              obtain ⟨I2, J2, fs2, gs2, e1, e2⟩ := at_path_keeps hk ps _ _ ha
              cases e1
              subst e2
              simp only [Option.map_some', Option.some_bind]
              have hq2 : id_matches p (-1) (.compound i true gs2) = true := by
                rw [id_matches_iff] at hq ⊢
                exact hq
              have hs3 : search_index (set_field (.compound I J fs) k (.compound i true gs2)) p
                  = some k := by
                simp only [search_index, set_field, set_fields, fields]
                exact findIdx_set fs k hs2 hq2
              have hf3 : (fields (set_field (.compound I J fs) k (.compound i true gs2)))[k]?
                  = some (.compound i true gs2) := by
                simp only [set_field, set_fields, fields]
                rw [List.getElem?_set_self (by simpa using hk2)]
              have hc : set_field (.compound I J fs) k (.compound i true gs2)
                  = .compound I J (fs.set k (.compound i true gs2)) := rfl
              rw [hc] at hs3 hf3
              rw [hc]
              simp only [at_path, hs3, hf3]
              cases at_path h2 (.compound i true gs2) ps with
              | none => simp
              | some Y => simp [set_field, set_fields, fields]
          | _ => simp
      | none =>
        simp only [ih]
        have hs2 : fs.findIdx? (id_matches p (-1)) = none := hs
        cases ha : at_path h1 (.compound (some p) true []) ps with
        | none => simp
        | some X1 =>
          obtain ⟨I2, J2, fs2, gs2, e1, e2⟩ := at_path_keeps hk ps _ _ ha
          cases e1
          subst e2
          simp only [Option.map_some', Option.some_bind]
          have hq2 : id_matches p (-1) (.compound (some p) true gs2) = true := by
            rw [id_matches_iff]; rfl
          have hc : add_field (.compound I J fs) (.compound (some p) true gs2)
              = .compound I J (fs ++ [.compound (some p) true gs2]) := rfl
          have hs3 : search_index (.compound I J (fs ++ [.compound (some p) true gs2])) p
              = some fs.length := findIdx_append_new fs hs2 hq2
          have hf3 : (fields (.compound I J (fs ++ [.compound (some p) true gs2])))[fs.length]?
              = some (.compound (some p) true gs2) := by
            simp [fields]
          rw [hc]
          simp only [at_path, hs3, hf3]
          cases at_path h2 (.compound (some p) true gs2) ps with
          | none => simp
          | some Y => simp [set_field, set_fields, fields, add_field]
    | _ => simp [at_path]

theorem round_trip_compound {i : Option Str} {j : Bool} {kids : List snd_config_t}
    (h : round_trip_node (.compound i j kids) = true) :
    ∃ w, i = some w ∧ plain_word w = true ∧ (j = true → kids ≠ []) ∧
      (kids.map snd_config_get_id).Nodup ∧ round_trip_list kids = true := by
  cases i with
  | none => simp [round_trip_node] at h
  | some w =>
    simp only [round_trip_node, Bool.and_eq_true, Bool.or_eq_true, Bool.not_eq_true',
      decide_eq_true_eq] at h
    obtain ⟨⟨⟨h1, h2⟩, h3⟩, h4⟩ := h
    refine ⟨w, rfl, h1, ?_, h3, h4⟩
    intro hj hk
    subst hj; subst hk
    simp at h2

theorem round_trip_cons {n : snd_config_t} {rest : List snd_config_t}
    (h : round_trip_list (n :: rest) = true) :
    round_trip_node n = true ∧ round_trip_list rest = true := by
  simpa [round_trip_list] using h

theorem ins_all_cons (F : snd_config_t) (P : List Str) (n : snd_config_t)
    (rest : List snd_config_t) :
    ins_all F P (n :: rest) = (ins_node F P n).bind (fun F1 => ins_all F1 P rest) := by
  simp only [ins_all]
  cases ins_node F P n <;> rfl

theorem ins_all_single (F : snd_config_t) (P : List Str) (n : snd_config_t) :
    ins_all F P [n] = ins_node F P n := by
  rw [ins_all_cons]
  cases ins_node F P n <;> simp [ins_all]

mutual
theorem ins_node_keeps : ∀ (n F F1 : snd_config_t) (P : List Str),
    round_trip_node n = true → ins_node F P n = some F1 → Keeps F F1
  | .integer i v, F, F1, P, _, h => by
    cases i with
    | none => simp [ins_node] at h
    | some i =>
      simp only [ins_node] at h
      exact at_path_keeps (fun _ _ => add_new_keeps) P F F1 h
  | .string i s, F, F1, P, _, h => by
    cases i with
    | none => simp [ins_node] at h
    | some i =>
      simp only [ins_node] at h
      exact at_path_keeps (fun _ _ => add_new_keeps) P F F1 h
  | .real i v, F, F1, P, _, h => by simp [ins_node] at h
  | .compound i j kids, F, F1, P, hr, h => by
    obtain ⟨w, rfl, _, hne, _, hl⟩ := round_trip_compound hr
    cases j with
    | true =>
      simp only [ins_node] at h
      exact ins_all_keeps kids F F1 (P ++ [w]) (hne rfl) hl h
    | false =>
      simp only [ins_node] at h
      split at h
      · exact at_path_keeps (fun _ _ => add_new_keeps) P F F1 h
      · cases h
theorem ins_all_keeps : ∀ (kids : List snd_config_t) (F F1 : snd_config_t) (P : List Str),
    kids ≠ [] → round_trip_list kids = true → ins_all F P kids = some F1 → Keeps F F1
  | [], _, _, _, hne, _, _ => absurd rfl hne
  | k :: rest, F, F1, P, _, hr, h => by
    obtain ⟨hk, hrest⟩ := round_trip_cons hr
    rw [ins_all_cons] at h
    cases hn : ins_node F P k with
    | none => simp [hn] at h
    | some F2 =>
      simp only [hn, Option.some_bind] at h
      have k1 := ins_node_keeps k F F2 P hk hn
      by_cases he : rest = []
      · subst he
        simp only [ins_all] at h
        cases h
        exact k1
      · exact k1.trans (ins_all_keeps rest F2 F1 P he hrest h)
end

theorem at_path_none : ∀ (P : List Str) (F : snd_config_t),
    at_path (fun _ => none) F P = none := by
  intro P
  induction P with
  | nil => intro F; rfl
  | cons p ps ih =>
    intro F
    cases F with
    | compound I J fs =>
      simp only [at_path, ih]
      split
      · split <;> simp
      · simp
    | _ => simp [at_path]

mutual
theorem ins_node_at_path : ∀ (n F : snd_config_t) (P : List Str),
    round_trip_node n = true → ins_node F P n = at_path (fun X => ins_node X [] n) F P
  | .integer i v, F, P, h => by
    cases i with
    | none => simp [round_trip_node] at h
    | some i =>
      have : (fun X => ins_node X [] (.integer (some i) v))
          = add_new i (.integer (some i) v) := by
        funext X; simp [ins_node, at_path]
      rw [this]; simp only [ins_node]
  | .string i s, F, P, h => by
    cases i with
    | none => simp [round_trip_node] at h
    | some i =>
      have : (fun X => ins_node X [] (.string (some i) s))
          = add_new i (.string (some i) s) := by
        funext X; simp [ins_node, at_path]
      rw [this]; simp only [ins_node]
  | .real i v, F, P, h => by simp [round_trip_node] at h
  | .compound i j kids, F, P, hr => by
    obtain ⟨w, rfl, _, hne, _, hl⟩ := round_trip_compound hr
    cases j with
    | true =>
      have h1 := ins_all_at_path kids F (P ++ [w]) (hne rfl) hl
      have h2 : (fun X => ins_node X [] (.compound (some w) true kids))
          = fun X => at_path (fun Y => ins_all Y [] kids) X [w] := by
        funext X
        simp only [ins_node, List.nil_append]
        exact ins_all_at_path kids X [w] (hne rfl) hl
      rw [h2]
      simp only [ins_node]
      rw [h1, at_path_append]
    | false =>
      cases hin : ins_all (.compound (some w) false []) [] kids with
      | none =>
        have : (fun X => ins_node X [] (.compound (some w) false kids)) = fun _ => none := by
          funext X; simp [ins_node, hin]
        rw [this, at_path_none]
        simp [ins_node, hin]
      | some m =>
        have : (fun X => ins_node X [] (.compound (some w) false kids)) = add_new w m := by
          funext X; simp [ins_node, hin, at_path]
        rw [this]
        simp [ins_node, hin]
theorem ins_all_at_path : ∀ (kids : List snd_config_t) (F : snd_config_t) (P : List Str),
    kids ≠ [] → round_trip_list kids = true →
      ins_all F P kids = at_path (fun X => ins_all X [] kids) F P
  | [], _, _, hne, _ => absurd rfl hne
  | k :: rest, F, P, _, hr => by
    obtain ⟨hk, hrest⟩ := round_trip_cons hr
    by_cases he : rest = []
    · subst he
      have : (fun X => ins_all X [] [k]) = fun X => ins_node X [] k := by
        funext X; exact ins_all_single X [] k
      rw [this, ins_all_single]
      exact ins_node_at_path k F P hk
    · have h1 : (fun X => ins_all X [] (k :: rest))
          = fun X => (ins_node X [] k).bind (fun Y => ins_all Y [] rest) := by
        funext X; exact ins_all_cons X [] k rest
      have h2 : (fun F1 => ins_all F1 P rest)
          = fun F1 => at_path (fun Y => ins_all Y [] rest) F1 P := by
        funext F1; exact ins_all_at_path rest F1 P he hrest
      rw [h1, at_path_bind (fun X X1 h => ins_node_keeps k X X1 [] hk h), ins_all_cons, h2,
        ins_node_at_path k F P hk]
end

theorem findIdx_none_of_not_mem (i : Str) :
    ∀ (pre : List snd_config_t), some i ∉ pre.map snd_config_get_id →
      pre.findIdx? (id_matches i (-1)) = none := by
  intro pre
  induction pre with
  | nil => intro _; rfl
  | cons a t ih =>
    intro h
    simp only [List.map_cons, List.mem_cons, not_or] at h
    have ha : ¬ id_matches i (-1) a = true := by
      rw [id_matches_iff]; exact fun e => h.1 e.symm
    rw [findIdx_cons]
    simp only [ha, if_false, Bool.false_eq_true]
    rw [ih h.2]; rfl

theorem add_new_fresh (i : Str) (n : snd_config_t) (I : Option Str) (J : Bool)
    (pre : List snd_config_t) (h : some i ∉ pre.map snd_config_get_id) :
    add_new i n (.compound I J pre) = some (.compound I J (pre ++ [n])) := by
  have : search_index (.compound I J pre) i = none := findIdx_none_of_not_mem i pre h
  simp [add_new, this, add_field, set_fields, fields]

mutual
theorem ins_node_fresh : ∀ (n : snd_config_t) (I : Option Str) (J : Bool)
    (pre : List snd_config_t), round_trip_node n = true →
      snd_config_get_id n ∉ pre.map snd_config_get_id →
      ins_node (.compound I J pre) [] n = some (.compound I J (pre ++ [n]))
  | .integer i v, I, J, pre, h, hf => by
    cases i with
    | none => simp [round_trip_node] at h
    | some i =>
      simp only [ins_node, at_path]
      exact add_new_fresh i _ I J pre hf
  | .string i s, I, J, pre, h, hf => by
    cases i with
    | none => simp [round_trip_node] at h
    | some i =>
      simp only [ins_node, at_path]
      exact add_new_fresh i _ I J pre hf
  | .real i v, I, J, pre, h, _ => by simp [round_trip_node] at h
  | .compound i j kids, I, J, pre, hr, hf => by
    obtain ⟨w, rfl, _, hne, hnd, hl⟩ := round_trip_compound hr
    cases j with
    | true =>
      simp only [ins_node, List.nil_append]
      rw [ins_all_at_path kids _ [w] (hne rfl) hl]
      have hs : search_index (.compound I J pre) w = none := findIdx_none_of_not_mem w pre hf
      simp only [at_path, hs]
      rw [ins_all_fresh kids (some w) true [] hl (by simpa using hnd)]
      simp [add_field, set_fields, fields]
    | false =>
      simp only [ins_node]
      rw [ins_all_fresh kids (some w) false [] hl (by simpa using hnd)]
      simp only [List.nil_append, at_path]
      exact add_new_fresh w _ I J pre hf
theorem ins_all_fresh : ∀ (fs : List snd_config_t) (I : Option Str) (J : Bool)
    (pre : List snd_config_t), round_trip_list fs = true →
      ((pre ++ fs).map snd_config_get_id).Nodup →
      ins_all (.compound I J pre) [] fs = some (.compound I J (pre ++ fs))
  | [], I, J, pre, _, _ => by simp [ins_all]
  | n :: rest, I, J, pre, hr, hnd => by
    obtain ⟨hn, hrest⟩ := round_trip_cons hr
    have hf : snd_config_get_id n ∉ pre.map snd_config_get_id := by
      simp only [List.map_append, List.map_cons] at hnd
      have := (List.nodup_append.mp hnd).2.2
      intro hm
      exact this hm (List.mem_cons_self _ _)
    rw [ins_all_cons, ins_node_fresh n I J pre hn hf]
    simp only [Option.some_bind]
    rw [ins_all_fresh rest I J (pre ++ [n]) hrest (by simpa using hnd)]
    simp
end

theorem lstrip_solid {c : Nat} (T : List Nat) (h : is_blank c = false) :
    lstrip (c :: T) = c :: T := by
  simp [lstrip, List.dropWhile_cons, h]

theorem plain_word_cons {w : Str} (h : plain_word w = true) :
    ∃ c w', w = c :: w' ∧ plain_char c = true := by
  cases w with
  | nil => simp [plain_word] at h
  | cons c w' =>
    simp only [plain_word, List.all_cons, Bool.and_eq_true] at h
    exact ⟨c, w', rfl, h.2.1⟩

theorem goodTail_newline {T : List Nat} (h : GoodTail T) : GoodTail (10 :: T) := by
  intro c Y hl
  rw [lstrip_blank_cons T (by decide)] at hl
  exact h c Y hl

/-- The identifier of a definition and the character after it, as `parse_def`
reads them. -/
theorem parse_def_id (t : Nat) {w : Str} {inp : input_t} {T : List Nat}
    (ht : freestring_end true (t : Int) = true) (hw : plain_word w = true)
    (hf : FeedsW inp (w ++ t :: T)) :
    ∃ inp2, get_string true (unget_char (get_nonwhite inp).1 (get_nonwhite inp).2)
        = ⟨0, w, unget_char (t : Int) inp2⟩ ∧ Clean inp2 T := by
  obtain ⟨c, w', rfl, hc⟩ := plain_word_cons hw
  obtain ⟨_, _, _, _, _, _, _, _, _, _, _, _, _, _, _⟩ := plain_char_spec hc
  have hl : lstrip ((c :: w') ++ t :: T) = c :: (w' ++ t :: T) := lstrip_plain _ hc
  obtain ⟨inp1, hg, hcl⟩ := get_nonwhite_char hf hl (by omega) (by omega)
  rw [hg]
  exact get_string_word true t ht hw (unget_feeds c hcl).feedsW

/-- The part of `parse_def` for a scalar value followed by a newline. -/
theorem parse_def_leaf (L : libc_double) (i : Str) (n : snd_config_t) (vtext : Str)
    (hi : plain_word i = true) (hvw : plain_word vtext = true)
    (hv : ∀ (F : snd_config_t) (inp : input_t) (T : List Nat),
      FeedsW inp (vtext ++ 10 :: T) →
      ∃ inp', parse_value L none F inp i = ⟨0, add_field F n, unget_char 10 inp'⟩ ∧
        Clean inp' T)
    (X X1 : snd_config_t) (inp : input_t) (T : List Nat)
    (hx : add_new i n X = some X1) (hf : FeedsW inp (i ++ 32 :: (vtext ++ 10 :: T)))
    (ht : GoodTail T) :
    Yields (fun f => parse_def L f X inp) X1 (lstrip T) := by
  obtain ⟨inp2, hgs, hc2⟩ := parse_def_id 32 (by decide) hi hf
  obtain ⟨c1, v', rfl, hc1⟩ := plain_word_cons hvw
  have hs1 := plain_char_spec hc1
  have hl : lstrip (32 :: ((c1 :: v') ++ 10 :: T)) = c1 :: (v' ++ 10 :: T) := by
    rw [lstrip_blank_cons _ (by decide)]
    exact lstrip_plain _ hc1
  obtain ⟨inp3, hg1, hc3⟩ := get_nonwhite_char (unget_feeds 32 hc2).feedsW hl
    (by omega) (by omega)
  obtain ⟨inp4, hpv, hc4⟩ := hv X (unget_char (c1 : Int) inp3) T (unget_feeds c1 hc3).feedsW
  obtain ⟨inp5, hpe, hf5⟩ := parse_def_end_tail 0 (add_field X n)
    (unget_feeds 10 hc4).feedsW (goodTail_newline ht)
  rw [lstrip_blank_cons T (by decide)] at hf5
  simp only [Nat.cast_ofNat] at hpe
  have hX : search_index X i = none ∧ X1 = add_field X n := by
    cases X with
    | compound I J fs =>
      simp only [add_new] at hx
      split at hx
      · cases hx; exact ⟨by assumption, rfl⟩
      · cases hx
    | _ => simp [add_new] at hx
  obtain ⟨hsi, rfl⟩ := hX
  refine ⟨inp5, hf5, 1, ?_⟩
  intro f hf1
  obtain ⟨f, rfl⟩ : ∃ k, f = k + 1 := ⟨f - 1, by omega⟩
  have h46 : ¬ ((c1 : Int) = 46) := by omega
  have h61 : ¬ ((c1 : Int) = 61) := by omega
  have hbr : ¬ ((c1 : Int) = 123 ∨ (c1 : Int) = 91) := by omega
  have h0 : ¬ ((0 : Int) < 0) := by omega
  simp only [parse_def, hgs, h0, if_false, hg1, h46, h61, hbr, hsi, hpv, hpe]

/-- At the end of the input `parse_defs` returns the father as it is. -/
theorem parse_defs_eof (L : libc_double) (F : snd_config_t) {inp : input_t} {Y : List Nat}
    (hf : FeedsW inp Y) (hl : lstrip Y = []) :
    Yields (fun f => parse_defs L f F inp) F [] := by
  obtain ⟨inp1, hg, hc⟩ := get_nonwhite_eof hf hl
  refine ⟨inp1, hc.feeds, 1, ?_⟩
  intro f hf1
  obtain ⟨f, rfl⟩ : ∃ k, f = k + 1 := ⟨f - 1, by omega⟩
  simp only [parse_defs, hg, if_true]

/-- At a closing brace `parse_defs` returns the father as it is, the brace pushed
back. -/
theorem parse_defs_close (L : libc_double) (F : snd_config_t) {inp : input_t}
    {Y Y1 : List Nat} (hf : FeedsW inp Y) (hl : lstrip Y = 125 :: Y1) :
    Yields (fun f => parse_defs L f F inp) F (125 :: Y1) := by
  obtain ⟨inp1, hg, hc⟩ := get_nonwhite_char hf hl (by decide) (by decide)
  refine ⟨unget_char 125 inp1, unget_feeds 125 hc, 1, ?_⟩
  intro f hf1
  obtain ⟨f, rfl⟩ : ∃ k, f = k + 1 := ⟨f - 1, by omega⟩
  have h1 : ¬ (((125 : Nat) : Int) = EOF) := by simp [EOF]
  simp only [parse_defs, hg, h1, if_false]
  simp

/-- One definition read by `parse_defs`, then the rest. -/
theorem parse_defs_step (L : libc_double) (F F1 Ff : snd_config_t) {inp : input_t}
    {Y Y1 T1 Tf : List Nat} {c : Nat} (hf : FeedsW inp Y) (hl : lstrip Y = c :: Y1)
    (hc : plain_char c = true)
    (hd : ∀ inp1, Feeds inp1 (c :: Y1) → Yields (fun f => parse_def L f F inp1) F1 T1)
    (hk : ∀ inp2, Feeds inp2 T1 → Yields (fun f => parse_defs L f F1 inp2) Ff Tf) :
    Yields (fun f => parse_defs L f F inp) Ff Tf := by
  have hs := plain_char_spec hc
  obtain ⟨inp1, hg, hc1⟩ := get_nonwhite_char hf hl (by omega) (by omega)
  obtain ⟨inp2, hf2, f1, h1⟩ := hd _ (unget_feeds c hc1)
  obtain ⟨inp3, hf3, f2, h2⟩ := hk inp2 hf2
  refine ⟨inp3, hf3, max f1 f2 + 1, ?_⟩
  intro f hfm
  obtain ⟨f, rfl⟩ : ∃ k, f = k + 1 := ⟨f - 1, by omega⟩
  have e1 : ¬ ((c : Int) = EOF) := by simp only [EOF]; omega
  have e2 : ¬ ((c : Int) = 125) := by omega
  have h0 : ¬ ((0 : Int) < 0) := by omega
  simp only [parse_defs, hg, e1, e2, if_false, h1 f (by omega), h0]
  exact h2 f (by omega)

/-- The part of `parse_def` for a new compound written in braces. -/
theorem parse_def_compound (L : libc_double) (i : Str) (m : snd_config_t) (B T : List Nat)
    (hi : plain_word i = true)
    (hb : ∀ inp0, Clean inp0 B →
      Yields (fun f => parse_defs L f (.compound (some i) false []) inp0) m (125 :: 10 :: T))
    (X X1 : snd_config_t) (inp : input_t)
    (hx : add_new i m X = some X1) (hf : FeedsW inp (i ++ 32 :: 123 :: B))
    (ht : GoodTail T) :
    Yields (fun f => parse_def L f X inp) X1 (lstrip T) := by
  obtain ⟨inp2, hgs, hc2⟩ := parse_def_id 32 (by decide) hi hf
  have hl : lstrip (32 :: 123 :: B) = 123 :: B := by
    rw [lstrip_blank_cons _ (by decide)]
    exact lstrip_solid _ (by decide)
  obtain ⟨inp3, hg1, hc3⟩ := get_nonwhite_char (unget_feeds 32 hc2).feedsW hl
    (by decide) (by decide)
  obtain ⟨inp4, hf4, f0, hbody⟩ := hb inp3 hc3
  have hl4 : lstrip (125 :: 10 :: T) = 125 :: 10 :: T := lstrip_solid _ (by decide)
  obtain ⟨inp5, hg5, hc5⟩ := get_nonwhite_char hf4.feedsW hl4 (by decide) (by decide)
  obtain ⟨I, J, fs, hX, hsi⟩ : ∃ I J fs, X = .compound I J fs ∧
      search_index X i = none := by
    cases X with
    | compound I J fs =>
      simp only [add_new] at hx
      split at hx
      · exact ⟨I, J, fs, rfl, by assumption⟩
      · cases hx
    | _ => simp [add_new] at hx
  subst hX
  have hX1 : X1 = .compound I J (fs ++ [m]) := by
    simp only [add_new, hsi, if_true] at hx
    cases hx; rfl
  subst hX1
  obtain ⟨inp6, hpe, hf6⟩ := parse_def_end_tail 0 (.compound I J (fs ++ [m]))
    hc5.feeds.feedsW (goodTail_newline ht)
  rw [lstrip_blank_cons T (by decide)] at hf6
  refine ⟨inp6, hf6, f0 + 1, ?_⟩
  intro f hf1
  obtain ⟨f, rfl⟩ : ∃ k, f = k + 1 := ⟨f - 1, by omega⟩
  have h46 : ¬ ((123 : Int) = 46) := by decide
  have h61 : ¬ ((123 : Int) = 61) := by decide
  have h123 : ((123 : Int) = 123) := rfl
  have h0 : ¬ ((0 : Int) < 0) := by omega
  have hne : ¬ ((125 : Int) ≠ 125) := by decide
  simp only [Nat.cast_ofNat] at hgs hg1 hg5
  have hset : set_field (add_field (.compound I J fs) (.compound (some i) false []))
      fs.length m = .compound I J (fs ++ [m]) := by
    simp [set_field, add_field, set_fields, fields]
  simp only [parse_def, hgs, h0, if_false, hg1, h46, h61, h123, if_true, hsi,
    hbody f (by omega), hg5, hne, fields, hset, hpe, true_or]

/-- The turns of the loop of `parse_def` that follow the dotted path in front of
an identifier: they lead to the compound that `at_path` names. -/
theorem parse_def_path (L : libc_double) (g : snd_config_t → Option snd_config_t)
    (A Tq : List Nat)
    (hbase : ∀ (X X1 : snd_config_t) (inp : input_t), g X = some X1 → FeedsW inp A →
      Yields (fun f => parse_def L f X inp) X1 Tq) :
    ∀ (P : List Str), (∀ p ∈ P, plain_word p = true) →
      ∀ (F F1 : snd_config_t) (inp : input_t), at_path g F P = some F1 →
        FeedsW inp (dotted_path P ++ A) → Yields (fun f => parse_def L f F inp) F1 Tq := by
  intro P
  induction P with
  | nil =>
    intro _ F F1 inp ha hf
    exact hbase F F1 inp ha (by simpa [dotted_path] using hf)
  | cons p ps ih =>
    intro hP F F1 inp ha hf
    have hp : plain_word p = true := hP p (List.mem_cons_self _ _)
    have hps : ∀ q ∈ ps, plain_word q = true := fun q hq => hP q (List.mem_cons_of_mem _ hq)
    have htxt : dotted_path (p :: ps) ++ A = p ++ 46 :: (dotted_path ps ++ A) := by
      simp [dotted_path]
    rw [htxt] at hf
    obtain ⟨inp2, hgs, hc2⟩ := parse_def_id 46 (by decide) hp hf
    have hl : lstrip (46 :: (dotted_path ps ++ A)) = 46 :: (dotted_path ps ++ A) :=
      lstrip_solid _ (by decide)
    obtain ⟨inp3, hg1, hc3⟩ := get_nonwhite_char (unget_feeds 46 hc2).feedsW hl
      (by decide) (by decide)
    have h0 : ¬ ((0 : Int) < 0) := by omega
    have h46 : ((46 : Int) = 46) := rfl
    simp only [Nat.cast_ofNat] at hgs hg1
    cases F with
    | compound I J fs =>
      simp only [at_path] at ha
      cases hs : search_index (.compound I J fs) p with
      | some k =>
        simp only [hs] at ha
        cases hfk : (fields (.compound I J fs))[k]? with
        | none => simp [hfk] at ha
        | some x =>
          cases x with
          | compound i j gs =>
            simp only [hfk, Option.map_eq_some'] at ha
            obtain ⟨X1, ha1, rfl⟩ := ha
            obtain ⟨inp4, hf4, f0, hrec⟩ := ih hps _ X1 inp3 ha1 hc3.feeds.feedsW
            refine ⟨inp4, hf4, f0 + 1, ?_⟩
            intro f hf1
            obtain ⟨f, rfl⟩ : ∃ k, f = k + 1 := ⟨f - 1, by omega⟩
            simp only [parse_def, hgs, h0, if_false, hg1, h46, if_true, hs, hfk,
              hrec f (by omega)]
          | _ => simp [hfk] at ha
      | none =>
        simp only [hs, Option.map_eq_some'] at ha
        obtain ⟨X1, ha1, rfl⟩ := ha
        obtain ⟨inp4, hf4, f0, hrec⟩ := ih hps _ X1 inp3 ha1 hc3.feeds.feedsW
        refine ⟨inp4, hf4, f0 + 1, ?_⟩
        intro f hf1
        obtain ⟨f, rfl⟩ : ∃ k, f = k + 1 := ⟨f - 1, by omega⟩
        simp only [parse_def, hgs, h0, if_false, hg1, h46, if_true, hs, hrec f (by omega)]
    | _ => simp [at_path] at ha

theorem lstrip_tabs (n : Nat) (Z : List Nat) : lstrip (List.replicate n 9 ++ Z) = lstrip Z := by
  induction n with
  | zero => rfl
  | succ k ih =>
    rw [List.replicate_succ, List.cons_append, lstrip_blank_cons _ (by decide), ih]

theorem string_print_plain {w : Str} (h : plain_word w = true) :
    string_print w true = some w := by
  obtain ⟨c, w', rfl, _⟩ := plain_word_cons h
  simp only [plain_word, Bool.and_eq_true] at h
  have hall := h.2
  have hq : (c :: w').any print_needs_quote = false := by
    rw [List.any_eq_false]
    intro x hx
    have hp := plain_char_spec (List.all_eq_true.mp hall x hx)
    simp only [print_needs_quote, Bool.or_eq_true, Bool.and_eq_true, decide_eq_true_eq]
    omega
  simp only [string_print, Bool.not_true, Bool.false_and, hq]
  simp

theorem string_print_value {w : Str} (h : value_word w = true) :
    string_print w false = some w := by
  simp only [value_word, Bool.and_eq_true] at h
  obtain ⟨hp, hfirst⟩ := h
  obtain ⟨c, w', rfl, _⟩ := plain_word_cons hp
  simp only [plain_word, Bool.and_eq_true] at hp
  have hall := hp.2
  have hq : (c :: w').any print_needs_quote = false := by
    rw [List.any_eq_false]
    intro x hx
    have hp := plain_char_spec (List.all_eq_true.mp hall x hx)
    simp only [print_needs_quote, Bool.or_eq_true, Bool.and_eq_true, decide_eq_true_eq]
    omega
  simp only [Bool.not_eq_true'] at hfirst
  simp only [string_print, Bool.not_false, Bool.true_and, hfirst, hq]
  simp

theorem id_print_plain (i : Str) (hi : plain_word i = true) :
    ∀ (P : List Str), (∀ p ∈ P, plain_word p = true) →
      id_print (P.map some) (some i) = some (dotted_path P ++ i) := by
  intro P
  induction P with
  | nil => intro _; simp [id_print, string_print_plain hi, dotted_path]
  | cons p ps ih =>
    intro hP
    have hp : plain_word p = true := hP p (List.mem_cons_self _ _)
    have hps : ∀ q ∈ ps, plain_word q = true := fun q hq => hP q (List.mem_cons_of_mem _ hq)
    simp [id_print, string_print_plain hp, ih hps, dotted_path]

theorem line_head (i : Str) (hi : plain_word i = true) :
    ∀ (P : List Str), (∀ p ∈ P, plain_word p = true) →
      ∃ c Y, plain_char c = true ∧ dotted_path P ++ i = c :: Y := by
  intro P hP
  cases P with
  | nil =>
    obtain ⟨c, w, rfl, hc⟩ := plain_word_cons hi
    exact ⟨c, w, hc, by simp [dotted_path]⟩
  | cons p ps =>
    obtain ⟨c, w, rfl, hc⟩ := plain_word_cons (hP p (List.mem_cons_self _ _))
    exact ⟨c, _, hc, by simp only [dotted_path, List.flatMap_cons, List.cons_append]; rfl⟩

theorem save_leaves_cons (L : libc_double) (n : snd_config_t) (rest : List snd_config_t)
    (level : Nat) (path : List (Option Str)) (a b : Str)
    (ha : _snd_config_save_leaves L [n] level path = some a)
    (hb : _snd_config_save_leaves L rest level path = some b) :
    _snd_config_save_leaves L (n :: rest) level path = some (a ++ b) := by
  have key : ∀ (X : Option Str),
      (match X, (some [] : Option Str) with
        | some a, some b => some (a ++ b)
        | _, _ => none) = some a →
      (match X, some b with
        | some a, some b => some (a ++ b)
        | _, _ => none) = some (a ++ b) := by
    intro X h
    cases X with
    | none => simp at h
    | some x => simp at h; simp [h]
  cases n with
  | compound id j fs =>
    cases j
    all_goals
      simp only [_snd_config_save_leaves] at ha ⊢
      rw [hb]
      exact key _ ha
  | _ =>
    simp only [_snd_config_save_leaves] at ha ⊢
    rw [hb]
    exact key _ ha

theorem line_starts (level : Nat) (P : List Str) (i V : Str) (hi : plain_word i = true)
    (hP : ∀ p ∈ P, plain_word p = true) : Starts (line_text level P i V) := by
  obtain ⟨c, Y, hc, hY⟩ := line_head i hi P hP
  refine ⟨c, Y ++ 32 :: V ++ [10], hc, ?_⟩
  intro T
  have : line_text level P i V ++ T
      = List.replicate level 9 ++ (c :: (Y ++ 32 :: V ++ [10] ++ T)) := by
    simp only [line_text, hY]; simp
  rw [this, lstrip_tabs, lstrip_plain _ hc]

theorem reads_line (L : libc_double) (level : Nat) (P : List Str) (i V : Str)
    (g : snd_config_t → Option snd_config_t) (hi : plain_word i = true)
    (hP : ∀ p ∈ P, plain_word p = true)
    (hbase : ∀ T, GoodTail T → ∀ (X X1 : snd_config_t) (inp : input_t), g X = some X1 →
      FeedsW inp (i ++ 32 :: (V ++ 10 :: T)) →
      Yields (fun f => parse_def L f X inp) X1 (lstrip T)) :
    Reads L (line_text level P i V) (fun F => at_path g F P) := by
  intro F F1 inp T Ff Tf hins hf ht hk
  obtain ⟨c, Y, hc, hY⟩ := line_head i hi P hP
  have e1 : line_text level P i V ++ T
      = List.replicate level 9 ++ (dotted_path P ++ (i ++ 32 :: (V ++ 10 :: T))) := by
    simp [line_text]
  have e2 : dotted_path P ++ (i ++ 32 :: (V ++ 10 :: T)) = c :: (Y ++ 32 :: (V ++ 10 :: T)) := by
    rw [← List.append_assoc, hY]; rfl
  have hl : lstrip (line_text level P i V ++ T) = c :: (Y ++ 32 :: (V ++ 10 :: T)) := by
    rw [e1, lstrip_tabs, e2, lstrip_plain _ hc]
  refine parse_defs_step L F F1 Ff hf hl hc ?_ (fun inp2 hf2 => hk inp2 (feedsW_lstrip hf2))
  intro inp1 hf1
  rw [← e2] at hf1
  exact parse_def_path L g _ _ (hbase T ht) P hP F F1 inp1 hins hf1.feedsW

theorem goodTail_of_starts {b : Str} (h : Starts b) (T : List Nat) : GoodTail (b ++ T) := by
  obtain ⟨c, Y, hc, hY⟩ := h
  intro c1 Y1 hl
  rw [hY T] at hl
  cases hl
  have := plain_char_spec hc
  omega

theorem starts_append {a : Str} (h : Starts a) (b : Str) : Starts (a ++ b) := by
  obtain ⟨c, Y, hc, hY⟩ := h
  refine ⟨c, Y ++ b, hc, ?_⟩
  intro T
  rw [List.append_assoc, hY, List.append_assoc]

theorem save_leaves_line (L : libc_double) (n : snd_config_t) (level : Nat) (P : List Str)
    (i V : Str) (hn : ∀ id fs, n ≠ .compound id true fs)
    (hid : snd_config_get_id n = some i) (hi : plain_word i = true)
    (hP : ∀ p ∈ P, plain_word p = true) (hV : _snd_config_save_leaf L n level = some V) :
    _snd_config_save_leaves L [n] level (P.map some) = some (line_text level P i V) := by
  rw [_snd_config_save_leaves]
  · simp only [hid, id_print_plain i hi P hP, hV, _snd_config_save_leaves, line_text]
    simp
  · exact fun id fs h => hn id fs h

theorem reads_none (L : libc_double) (text : Str) : Reads L text (fun _ => none) := by
  intro F F1 inp T Ff Tf h
  cases h

mutual
theorem reads_node (L : libc_double) : ∀ (n : snd_config_t) (level : Nat) (P : List Str),
    round_trip_node n = true → (∀ p ∈ P, plain_word p = true) →
    ∃ text, _snd_config_save_leaves L [n] level (P.map some) = some text ∧ Starts text ∧
      Reads L text (fun F => ins_node F P n)
  | .integer i v, level, P, hr, hP => by
    cases i with
    | none => simp [round_trip_node] at hr
    | some i =>
      simp only [round_trip_node, Bool.and_eq_true, decide_eq_true_eq] at hr
      obtain ⟨⟨hi, h1⟩, h2⟩ := hr
      refine ⟨line_text level P i (dec_int v), ?_, line_starts level P i _ hi hP, ?_⟩
      · exact save_leaves_line L _ level P i _ (fun _ _ h => by cases h) rfl hi hP
          (by simp [_snd_config_save_leaf])
      · simp only [ins_node]
        refine reads_line L level P i _ _ hi hP ?_
        intro T ht X X1 inp hx hf
        exact parse_def_leaf L i _ (dec_int v) hi (dec_int_word v).1
          (fun F inp T hf => parse_value_integer L F i v ⟨h1, h2⟩ hf) X X1 inp T hx hf ht
  | .string i s, level, P, hr, hP => by
    cases i with
    | none => simp [round_trip_node] at hr
    | some i =>
      simp only [round_trip_node, Bool.and_eq_true] at hr
      obtain ⟨hi, hs⟩ := hr
      have hsw : plain_word s = true := by
        simp only [value_word, Bool.and_eq_true] at hs
        exact hs.1
      refine ⟨line_text level P i s, ?_, line_starts level P i _ hi hP, ?_⟩
      · exact save_leaves_line L _ level P i _ (fun _ _ h => by cases h) rfl hi hP
          (by simp [_snd_config_save_leaf, string_print_value hs])
      · simp only [ins_node]
        refine reads_line L level P i _ _ hi hP ?_
        intro T ht X X1 inp hx hf
        exact parse_def_leaf L i _ s hi hsw
          (fun F inp T hf => parse_value_string L F i s hs hf) X X1 inp T hx hf ht
  | .real i v, level, P, hr, _ => by simp [round_trip_node] at hr
  | .compound i j kids, level, P, hr, hP => by
    obtain ⟨w, rfl, hw, hne, _, hl⟩ := round_trip_compound hr
    cases j with
    | true =>
      have hP2 : ∀ p ∈ P ++ [w], plain_word p = true := by
        intro p hp
        rcases List.mem_append.mp hp with h | h
        · exact hP p h
        · simp only [List.mem_singleton] at h
          subst h; exact hw
      obtain ⟨text, hsave, hstart, _, hreads⟩ := reads_list L kids level (P ++ [w]) hl hP2
      refine ⟨text, ?_, hstart (hne rfl), ?_⟩
      · simp only [List.map_append, List.map_cons, List.map_nil] at hsave
        simp only [_snd_config_save_leaves, hsave]
        simp
      · simp only [ins_node]
        exact hreads
    | false =>
      obtain ⟨body, hsave, _, _, hreads⟩ := reads_list L kids (level + 1) [] hl
        (fun p hp => by cases hp)
      simp only [List.map_nil] at hsave
      let V : Str := 123 :: 10 :: body ++ List.replicate level 9 ++ [125]
      refine ⟨line_text level P w V, ?_, line_starts level P w _ hw hP, ?_⟩
      · exact save_leaves_line L _ level P w _ (fun _ _ h => by cases h) rfl hw hP
          (by simp [_snd_config_save_leaf, hsave, V])
      · cases hin : ins_all (.compound (some w) false []) [] kids with
        | none =>
          simp only [ins_node, hin]
          exact reads_none L _
        | some m =>
          simp only [ins_node, hin]
          refine reads_line L level P w _ _ hw hP ?_
          intro T ht X X1 inp hx hf
          have hl125 : lstrip (List.replicate level 9 ++ 125 :: 10 :: T) = 125 :: 10 :: T := by
            rw [lstrip_tabs]; exact lstrip_solid _ (by decide)
          have hgt : GoodTail (List.replicate level 9 ++ 125 :: 10 :: T) := by
            intro c Y hc
            rw [hl125] at hc
            cases hc
            decide
          refine parse_def_compound L w m
            (10 :: (body ++ (List.replicate level 9 ++ 125 :: 10 :: T))) T hw ?_ X X1 inp hx
            (by simpa [V] using hf) ht
          intro inp0 hc0
          exact hreads _ m inp0 _ m _ hin (feedsW_blank (by decide) hc0.feeds.feedsW) hgt
            (fun inp1 hf1 => parse_defs_close L m hf1 hl125)
theorem reads_list (L : libc_double) : ∀ (fs : List snd_config_t) (level : Nat) (P : List Str),
    round_trip_list fs = true → (∀ p ∈ P, plain_word p = true) →
    ∃ text, _snd_config_save_leaves L fs level (P.map some) = some text ∧
      (fs ≠ [] → Starts text) ∧ (fs = [] → text = []) ∧
      Reads L text (fun F => ins_all F P fs)
  | [], level, P, _, _ => by
    refine ⟨[], by simp [_snd_config_save_leaves], fun h => absurd rfl h, fun _ => rfl, ?_⟩
    intro F F1 inp T Ff Tf hins hf _ hk
    simp only [ins_all, Option.some.injEq] at hins
    subst hins
    exact hk inp (by simpa using hf)
  | n :: rest, level, P, hr, hP => by
    obtain ⟨hn, hrest⟩ := round_trip_cons hr
    obtain ⟨a, hsa, hst, hra⟩ := reads_node L n level P hn hP
    obtain ⟨b, hsb, hstb, hnil, hrb⟩ := reads_list L rest level P hrest hP
    refine ⟨a ++ b, save_leaves_cons L n rest level _ a b hsa hsb,
      fun _ => starts_append hst b, fun h => absurd h (List.cons_ne_nil n rest), ?_⟩
    intro F F1 inp T Ff Tf hins hf ht hk
    simp only [ins_all_cons] at hins
    cases hn1 : ins_node F P n with
    | none => simp [hn1] at hins
    | some F2 =>
      simp only [hn1, Option.some_bind] at hins
      have hgt : GoodTail (b ++ T) := by
        by_cases he : rest = []
        · rw [hnil he]; exact ht
        · exact goodTail_of_starts (hstb he) T
      rw [List.append_assoc] at hf
      exact hra F F2 inp (b ++ T) Ff Tf hn1 hf hgt
        (fun inp1 hf1 => hrb F2 F1 inp1 T Ff Tf hins hf1 ht hk)
end

/-- Round trip of the plain trees: the tree printed by `snd_config_save` and
loaded by `snd_config_load` into an empty top node is the same tree again, for
every tree of Integers within the range of `long`, Strings that are plain words
starting with neither a digit nor a minus sign, and compounds (join compounds
not empty), whose identifiers are plain words, pairwise distinct among
siblings. -/
theorem snd_config_save_load (L : libc_double) (fs : List snd_config_t)
    (h : round_trip_tree fs = true) :
    ∃ text, snd_config_save L (.compound none false fs) = some text ∧
      ∃ fuel0, ∀ fuel, fuel0 ≤ fuel →
        snd_config_load L fuel snd_config_top text = some (0, .compound none false fs) := by
  simp only [round_trip_tree, Bool.and_eq_true, decide_eq_true_eq] at h
  obtain ⟨hl, hnd⟩ := h
  obtain ⟨text, hsave, _, _, hreads⟩ := reads_list L fs 0 [] hl (fun p hp => by cases hp)
  refine ⟨text, hsave, ?_⟩
  have hins : ins_all snd_config_top [] fs = some (.compound none false fs) := by
    have := ins_all_fresh fs none false [] hl (by simpa using hnd)
    simpa [snd_config_top] using this
  have hf : FeedsW ⟨text, false, 0, 0⟩ (text ++ []) := by
    rw [List.append_nil]
    exact (Clean.feeds ⟨rfl, rfl⟩).feedsW
  have hgt : GoodTail [] := by
    intro c Y hc
    simp [lstrip] at hc
  obtain ⟨inp1, hf1, f0, hp⟩ := hreads snd_config_top _ _ [] _ [] hins hf hgt
    (fun inp1 hf1 => parse_defs_eof L _ hf1 rfl)
  obtain ⟨inp2, hg, _⟩ := get_char_nil hf1
  refine ⟨f0, ?_⟩
  intro fuel hfuel
  have := hp fuel hfuel
  simp only at this
  simp only [snd_config_load, this, hg]
  simp

/-- The example tree is of the round-trip class, so its printed text is loaded
back into the same tree. -/
theorem snd_config_save_load_example :
    round_trip_tree round_trip_example = true ∧
    ∃ text, snd_config_save libc_no_real (.compound none false round_trip_example) = some text ∧
      ∃ fuel0, ∀ fuel, fuel0 ≤ fuel →
        snd_config_load libc_no_real fuel snd_config_top text
          = some (0, .compound none false round_trip_example) :=
  ⟨by decide, snd_config_save_load libc_no_real round_trip_example (by decide)⟩

/-- Claim C1 fails in the code: the tree with the single child `a`, a String
with the value "5", has no `@func` node; it is printed as `a '5'`, the quotes
set by `string_print` for a String that starts with a digit, and that text is
loaded as the Integer 5: `get_string` returns 1 for a quoted token, and
`parse_value` converts the token all the same. -/
theorem snd_config_save_load_string_digits :
    snd_config_save libc_no_real (.compound none false [.string (some (cstr "a")) (cstr "5")])
      = some (cstr "a '5'\n") ∧
    snd_config_load libc_no_real 8 snd_config_top (cstr "a '5'\n")
      = some (0, .compound none false [.integer (some (cstr "a")) 5]) := by
  decide!

/-! ### Sibling identifiers after parsing -/

/-- Claim C2 fails in the code: the text `a [ 1 ] a [ 2 ]` is loaded with
status 0 into an empty top node, and the compound `a` then has two children
identified `0`: `parse_array_def` adds each element under its index without
looking for a child of that name, and the second array starts at index 0 again. -/
theorem snd_config_load_array_twice :
    snd_config_load libc_no_real 8 snd_config_top (cstr "a [ 1 ] a [ 2 ]")
      = some (0, .compound none false
          [.compound (some (cstr "a")) false
            [.integer (some (cstr "0")) 1, .integer (some (cstr "0")) 2]]) ∧
    siblings_distinct (.compound none false
          [.compound (some (cstr "a")) false
            [.integer (some (cstr "0")) 1, .integer (some (cstr "0")) 2]]) = false := by
  decide!

/-! ### Copy, default seeding, expansion and single definitions -/

theorem siblings_distinct_cons {n : snd_config_t} {rest : List snd_config_t}
    (h : siblings_distinct_list (n :: rest) = true) :
    siblings_distinct n = true ∧ siblings_distinct_list rest = true := by
  simpa [siblings_distinct_list] using h

theorem siblings_distinct_compound {i : Option Str} {j : Bool} {fs : List snd_config_t}
    (h : siblings_distinct (.compound i j fs) = true) :
    (fs.map snd_config_get_id).Nodup ∧ siblings_distinct_list fs = true := by
  simpa [siblings_distinct] using h

theorem siblings_distinct_mem {fs : List snd_config_t} (h : siblings_distinct_list fs = true) :
    ∀ n ∈ fs, siblings_distinct n = true := by
  induction fs with
  | nil => intro n hn; cases hn
  | cons a t ih =>
    obtain ⟨h1, h2⟩ := siblings_distinct_cons h
    intro n hn
    rcases List.mem_cons.mp hn with rfl | hm
    · exact h1
    · exact ih h2 n hm

/-- A node whose identifier no child of the compound has is added last. -/
theorem snd_config_add_fresh (I : Option Str) (J : Bool) (pre : List snd_config_t)
    (d : snd_config_t) (h : snd_config_get_id d ∉ pre.map snd_config_get_id) :
    snd_config_add (.compound I J pre) d = .ok (.compound I J (pre ++ [d])) := by
  have hany : (fields (.compound I J pre)).any (same_id d) = false := by
    rw [List.any_eq_false]
    intro x hx hs
    apply h
    simp only [same_id] at hs
    split at hs
    · rename_i a b ha hb
      simp only [decide_eq_true_eq] at hs
      subst hs
      rw [ha, ← hb]
      exact List.mem_map_of_mem _ hx
    · cases hs
  simp only [snd_config_add, hany]
  rfl

mutual
theorem walk_copy (root : Option snd_config_t) : ∀ (t : snd_config_t),
    siblings_distinct t = true →
    snd_config_walk _snd_config_copy () root t = some ⟨1, some t⟩
  | .integer i v, _ => by simp [snd_config_walk, _snd_config_copy]
  | .real i v, _ => by simp [snd_config_walk, _snd_config_copy]
  | .string i v, _ => by simp [snd_config_walk, _snd_config_copy]
  | .compound i j fs, h => by
    obtain ⟨hnd, hl⟩ := siblings_distinct_compound h
    have := walk_fields_copy root fs i j [] hl (by simpa using hnd)
    simp only [List.nil_append] at this
    simp [snd_config_walk, _snd_config_copy, this]
theorem walk_fields_copy (root : Option snd_config_t) : ∀ (rest : List snd_config_t)
    (I : Option Str) (J : Bool) (pre : List snd_config_t),
    siblings_distinct_list rest = true → ((pre ++ rest).map snd_config_get_id).Nodup →
    snd_config_walk_fields _snd_config_copy () root rest (some (.compound I J pre))
      = some ⟨1, some (.compound I J (pre ++ rest))⟩
  | [], I, J, pre, _, _ => by simp [snd_config_walk_fields]
  | n :: rest, I, J, pre, hl, hnd => by
    obtain ⟨hn, hrest⟩ := siblings_distinct_cons hl
    have hf : snd_config_get_id n ∉ pre.map snd_config_get_id := by
      simp only [List.map_append, List.map_cons] at hnd
      have := (List.nodup_append.mp hnd).2.2
      intro hm
      exact this hm (List.mem_cons_self _ _)
    have ih := walk_fields_copy root rest I J (pre ++ [n]) hrest (by simpa using hnd)
    have ha := snd_config_add_fresh I J pre n hf
    simp only [snd_config_walk_fields, walk_copy root n hn]
    rw [if_neg (by decide : ¬ ((1 : Int) < 0)), if_pos (by decide : (1 : Int) ≠ 0)]
    simp only [ha, ih]
    simp
end

/-- Claim C12: `snd_config_copy` of a tree whose compounds have pairwise-distinct
child identifiers succeeds (the walk returns 1) and the copy is the source tree
again: identifiers, types, values, join flags and the order of the children. -/
theorem snd_config_copy_deep_equal (src : snd_config_t) (h : siblings_distinct src = true) :
    snd_config_copy src = some ⟨1, some src⟩ :=
  walk_copy none src h

theorem load_defaults_fields_rest (subs : snd_config_t) (name : Str) :
    ∀ (flds : List snd_config_t),
      (∀ f ∈ flds, (snd_config_get_id f).isSome = true) →
      (∀ f ∈ flds, snd_config_get_id f ≠ some (cstr "default")) →
      load_defaults_fields subs (some name) flds
        = some (if flds.any unknown_field then (-EINVAL, subs) else (0, subs)) := by
  intro flds
  induction flds with
  | nil => intro _ _; simp [load_defaults_fields]
  | cons f rest ih =>
    intro hid h
    have hf := h f (List.mem_cons_self _ _)
    have hr := ih (fun g hg => hid g (List.mem_cons_of_mem _ hg))
      (fun g hg => h g (List.mem_cons_of_mem _ hg))
    obtain ⟨i, hi⟩ := Option.isSome_iff_exists.mp (hid f (List.mem_cons_self _ _))
    have hd : ¬ i = cstr "default" := fun e => hf (by rw [hi, e])
    by_cases ht : i = cstr "type"
    · simp only [load_defaults_fields, hi, ht, if_true, hr]
      simp [unknown_field, hi, ht]
    · simp only [load_defaults_fields, hi, ht, hd, if_false]
      simp [unknown_field, hi, ht, hd]

theorem set_id_get_id (n : snd_config_t) (name : Str) :
    snd_config_get_id (snd_config_set_id n name) = some name := by
  cases n <;> rfl

theorem load_defaults_fields_spec (I : Option Str) (J : Bool) (pre : List snd_config_t)
    (name : Str) (hfresh : some name ∉ pre.map snd_config_get_id) :
    ∀ (flds : List snd_config_t), (flds.map snd_config_get_id).Nodup →
      siblings_distinct_list flds = true →
      (∀ f ∈ flds, (snd_config_get_id f).isSome = true) →
      (flds.any unknown_field = true →
        (load_defaults_fields (.compound I J pre) (some name) flds).map Prod.fst
          = some (-EINVAL)) ∧
      (flds.any unknown_field = false →
        load_defaults_fields (.compound I J pre) (some name) flds
          = some (0, .compound I J (pre ++
              ((flds.find? (fun f => decide (snd_config_get_id f = some (cstr "default")))).map
                (fun f => snd_config_set_id f name)).toList))) := by
  intro flds
  induction flds with
  | nil => intro _ _ _; simp [load_defaults_fields]
  | cons f rest ih =>
    intro hnd hsd hid
    obtain ⟨hf, hrest⟩ := siblings_distinct_cons hsd
    simp only [List.map_cons, List.nodup_cons] at hnd
    obtain ⟨hnotin, hnd2⟩ := hnd
    have hidr : ∀ g ∈ rest, (snd_config_get_id g).isSome = true :=
      fun g hg => hid g (List.mem_cons_of_mem _ hg)
    obtain ⟨i, hi⟩ := Option.isSome_iff_exists.mp (hid f (List.mem_cons_self _ _))
    by_cases ht : i = cstr "type"
    · have hd : ¬ snd_config_get_id f = some (cstr "default") := by
        rw [hi, ht]; decide
      obtain ⟨ih1, ih2⟩ := ih hnd2 hrest hidr
      have hu : unknown_field f = false := by simp [unknown_field, hi, ht]
      simp only [load_defaults_fields, hi, ht, if_true, List.any_cons, hu, Bool.false_or,
        List.find?_cons, hd, decide_False]
      rw [hi, ht] at hd
      simp only [hd, decide_False]
      exact ⟨ih1, ih2⟩
    · by_cases hd : i = cstr "default"
      · have hu : unknown_field f = false := by simp [unknown_field, hi, hd]
        have hnodef : ∀ g ∈ rest, snd_config_get_id g ≠ some (cstr "default") := by
          intro g hg he
          apply hnotin
          rw [hi, hd, ← he]
          exact List.mem_map_of_mem _ hg
        have hcopy : snd_config_copy f = some ⟨1, some f⟩ := walk_copy none f hf
        have hadd := snd_config_add_fresh I J pre (snd_config_set_id f name)
          (by rw [set_id_get_id]; exact hfresh)
        have hrestv := load_defaults_fields_rest
          (.compound I J (pre ++ [snd_config_set_id f name])) name rest hidr hnodef
        have hne : ¬ (cstr "default" = cstr "type") := by decide
        simp only [load_defaults_fields, hi, hd, hne, if_true, if_false, hcopy,
          hadd, hrestv, List.any_cons, hu, Bool.false_or, List.find?_cons, decide_True,
          Option.map_some', Option.toList_some]
        rw [if_neg (by decide : ¬ ((1 : Int) < 0))]
        constructor
        · intro h; simp [h]
        · intro h; simp [h]
      · have hu : unknown_field f = true := by simp [unknown_field, hi, ht, hd]
        simp only [load_defaults_fields, hi, ht, hd, if_false, List.any_cons, hu, Bool.true_or]
        simp

theorem default_entry_id {d e : snd_config_t} (h : default_entry d = some e) :
    snd_config_get_id e = snd_config_get_id d := by
  unfold default_entry at h
  split at h
  · split at h
    · rename_i name f hn _
      cases h
      rw [set_id_get_id, hn]
    · cases h
  · cases h

theorem declarations_well_formed_mem {ds : List snd_config_t}
    (h : declarations_well_formed ds = true) (d : snd_config_t) (hd : d ∈ ds)
    (hc : snd_config_get_type d = .COMPOUND) :
    (∃ name, snd_config_get_id d = some name) ∧
      (∀ f ∈ fields d, (snd_config_get_id f).isSome = true) ∧ siblings_distinct d = true := by
  simp only [declarations_well_formed, List.all_eq_true, Bool.or_eq_true, Bool.and_eq_true,
    decide_eq_true_eq] at h
  rcases h d hd with h1 | ⟨⟨h2, h4⟩, h3⟩
  · exact absurd hc h1
  · exact ⟨Option.isSome_iff_exists.mp h2, h4, h3⟩

theorem declarations_well_formed_tail {d : snd_config_t} {rest : List snd_config_t}
    (h : declarations_well_formed (d :: rest) = true) : declarations_well_formed rest = true := by
  simp only [declarations_well_formed, List.all_cons, Bool.and_eq_true] at h ⊢
  exact h.2

theorem load_defaults_defs_spec (I : Option Str) (J : Bool) :
    ∀ (ds pre : List snd_config_t), ((pre ++ ds).map snd_config_get_id).Nodup →
      declarations_well_formed ds = true →
      (ds.any bad_declaration = true →
        (load_defaults_defs (.compound I J pre) ds).map Prod.fst = some (-EINVAL)) ∧
      (ds.any bad_declaration = false →
        load_defaults_defs (.compound I J pre) ds
          = some (0, .compound I J (pre ++ ds.filterMap default_entry))) := by
  intro ds
  induction ds with
  | nil => intro pre _ _; simp [load_defaults_defs]
  | cons d rest ih =>
    intro pre hnd hwf
    have hwf2 : declarations_well_formed rest = true := declarations_well_formed_tail hwf
    by_cases hc : snd_config_get_type d = .COMPOUND
    · obtain ⟨⟨name, hname⟩, hids, hsd⟩ :=
        declarations_well_formed_mem hwf d (List.mem_cons_self _ _) hc
      have hfresh : some name ∉ pre.map snd_config_get_id := by
        simp only [List.map_append, List.map_cons] at hnd
        have := (List.nodup_append.mp hnd).2.2
        intro hm
        exact this hm (by rw [hname]; exact List.mem_cons_self _ _)
      obtain ⟨I2, J2, fs, rfl⟩ : ∃ I2 J2 fs, d = .compound I2 J2 fs := by
        cases d <;> simp [snd_config_get_type] at hc
        exact ⟨_, _, _, rfl⟩
      obtain ⟨hnd3, hsl⟩ := siblings_distinct_compound hsd
      obtain ⟨f1, f2⟩ := load_defaults_fields_spec I J pre name hfresh fs hnd3 hsl hids
      have hid : I2 = some name := hname
      subst hid
      cases hany : fs.any unknown_field with
      | true =>
        have e1 := f1 hany
        have hbad : bad_declaration (.compound (some name) J2 fs) = true := by
          simp [bad_declaration, snd_config_get_type, fields, hany]
        simp only [List.any_cons, hbad, Bool.true_or, forall_true_left]
        refine ⟨?_, fun h => by cases h⟩
        simp only [load_defaults_defs, hc, ne_eq, not_true_eq_false, if_false,
          snd_config_get_id, fields]
        cases hr : load_defaults_fields (.compound I J pre) (some name) fs with
        | none => rw [hr] at e1; cases e1
        | some r =>
          rw [hr] at e1
          simp only [Option.map_some', Option.some.injEq] at e1
          simp only [e1]
          rw [if_pos (by decide : -EINVAL < 0)]
          simp [e1]
      | false =>
        have e2 := f2 hany
        have hbad : bad_declaration (.compound (some name) J2 fs) = false := by
          simp [bad_declaration, snd_config_get_type, fields, hany]
        have hentry : (((fs.find? (fun f => decide (snd_config_get_id f = some (cstr "default")))).map
            (fun f => snd_config_set_id f name)).toList)
              = (default_entry (.compound (some name) J2 fs)).toList := by
          simp only [default_entry, hc, if_true, hname, default_field, fields]
          generalize fs.find? (fun f => decide (snd_config_get_id f = some (cstr "default"))) = o
          cases o <;> rfl
        rw [hentry] at e2
        have hnd4 : (((pre ++ (default_entry (.compound (some name) J2 fs)).toList) ++ rest).map
            snd_config_get_id).Nodup := by
          cases he : default_entry (.compound (some name) J2 fs) with
          | none =>
            simp only [Option.toList_none, List.append_nil]
            refine List.Nodup.sublist ?_ hnd
            exact List.Sublist.map _
              (List.Sublist.append (List.Sublist.refl _) (List.sublist_cons_self _ _))
          | some e =>
            have hid := default_entry_id he
            simp only [Option.toList_some, List.map_append, List.map_cons, List.map_nil,
              List.append_assoc, List.singleton_append, hid] at hnd ⊢
            exact hnd
        obtain ⟨i1, i2⟩ := ih _ hnd4 hwf2
        simp only [List.any_cons, hbad, Bool.false_or]
        have hstep : load_defaults_defs (.compound I J pre) (.compound (some name) J2 fs :: rest)
            = load_defaults_defs
                (.compound I J (pre ++ (default_entry (.compound (some name) J2 fs)).toList)) rest := by
          simp only [load_defaults_defs, hc, ne_eq, not_true_eq_false, if_false,
            snd_config_get_id, fields, e2]
          rw [if_neg (by decide : ¬ ((0 : Int) < 0))]
        rw [hstep]
        refine ⟨i1, fun h => ?_⟩
        rw [i2 h, List.filterMap_cons]
        cases he : default_entry (.compound (some name) J2 fs) <;> simp
    · have hbad : bad_declaration d = false := by simp [bad_declaration, hc]
      have hent : default_entry d = none := by simp [default_entry, hc]
      have hnd4 : ((pre ++ rest).map snd_config_get_id).Nodup := by
        refine List.Nodup.sublist ?_ hnd
        exact List.Sublist.map _
          (List.Sublist.append (List.Sublist.refl _) (List.sublist_cons_self _ _))
      obtain ⟨i1, i2⟩ := ih pre hnd4 hwf2
      simp only [List.any_cons, hbad, Bool.false_or, load_defaults_defs, hc, ne_eq,
        not_false_eq_true, if_true, List.filterMap_cons, hent]
      exact ⟨i1, i2⟩

/-- Claim C11, amended (default seeding).  For an `@args` block with
pairwise-distinct parameter names whose Compound declarations are well formed
(a name on the declaration, an identifier on each field, pairwise-distinct
sibling identifiers inside it), `load_defaults` on the fresh substitution
tree of `snd_config_expand` returns `-EINVAL` when some Compound declaration
has a field other than `type` and `default`; otherwise it returns 0 and the
substitution tree holds, in declaration order, exactly one entry for each
Compound declaration with a `default` field: that field's node, with its whole
subtree, identified by the name of the parameter. -/
theorem load_defaults_seeds (I : Option Str) (J : Bool) (ds : List snd_config_t)
    (hwf : declarations_well_formed ds = true)
    (hnd : (ds.map snd_config_get_id).Nodup) :
    (ds.any bad_declaration = true →
      (load_defaults snd_config_top (.compound I J ds)).map Prod.fst = some (-EINVAL)) ∧
    (ds.any bad_declaration = false →
      load_defaults snd_config_top (.compound I J ds)
        = some (0, .compound none false (default_entries (.compound I J ds)))) := by
  have h := load_defaults_defs_spec none false ds [] (by simpa using hnd) hwf
  simpa [load_defaults, snd_config_top, default_entries, fields] using h

/-- Witness of C11: the block `@args [ count ]`, `@args.count { type integer
default 1 }` seeds the empty substitution tree with the single entry
`count = 1`; the index entry `0` is no declaration.  With a field `comment` in
the declaration the status is `-EINVAL`. -/
theorem load_defaults_seeds_example :
    load_defaults snd_config_top args_index_count
      = some (0, .compound none false [.integer (some (cstr "count")) 1]) ∧
    (load_defaults snd_config_top (.compound (some (cstr "@args")) false
      [.compound (some (cstr "count")) false
        [.string (some (cstr "type")) (cstr "integer"),
         .string (some (cstr "comment")) (cstr "x")]])).map Prod.fst = some (-EINVAL) :=
  ⟨(load_defaults_seeds (some (cstr "@args")) true
      [.string (some (cstr "0")) (cstr "count"),
       .compound (some (cstr "count")) false
        [.string (some (cstr "type")) (cstr "integer"), .integer (some (cstr "default")) 1]]
      (by decide) (by decide)).2 (by decide),
   (load_defaults_seeds (some (cstr "@args")) false
      [.compound (some (cstr "count")) false
        [.string (some (cstr "type")) (cstr "integer"),
         .string (some (cstr "comment")) (cstr "x")]] (by decide) (by decide)).1 (by decide)⟩

/-- Counterexample of C11: the text `@args.p.default [ 1 ] @args.p.default [ 2 ]`
loads into a block with the one parameter `p`, whose only field is `default`;
the default holds two children identified `0`, its copy fails in
`snd_config_add`, and `load_defaults` returns `-EEXIST` with nothing seeded. -/
theorem load_defaults_duplicate_default :
    snd_config_load libc_no_real 12 snd_config_top
        (cstr "@args.p.default [ 1 ] @args.p.default [ 2 ]")
      = some (0, .compound none false [args_default_twice]) ∧
    ((fields args_default_twice).map snd_config_get_id).Nodup ∧
    (fields args_default_twice).any bad_declaration = false ∧
    load_defaults snd_config_top args_default_twice = some (-EEXIST, snd_config_top) := by
  decide!

/-- Witness of C12: the copy of the example tree. -/
theorem snd_config_copy_deep_equal_example :
    siblings_distinct (.compound none false round_trip_example) = true ∧
    snd_config_copy (.compound none false round_trip_example)
      = some ⟨1, some (.compound none false round_trip_example)⟩ :=
  ⟨by decide, snd_config_copy_deep_equal _ (by decide)⟩

theorem siblings_distinct_find {fs : List snd_config_t} {p : snd_config_t → Bool}
    {n : snd_config_t} (h : siblings_distinct_list fs = true) (hf : fs.find? p = some n) :
    siblings_distinct n = true :=
  siblings_distinct_mem h n (List.mem_of_find?_eq_some hf)

theorem siblings_distinct_search_step {config n : snd_config_t} {key : Str} {len : Int}
    (h : siblings_distinct config = true) (hs : _snd_config_search config key len = .ok n) :
    siblings_distinct n = true := by
  unfold _snd_config_search at hs
  cases config with
  | compound i j fs =>
    obtain ⟨_, hl⟩ := siblings_distinct_compound h
    simp only [fields] at hs
    cases hf : fs.find? (id_matches key len) with
    | none => simp [hf] at hs
    | some m =>
      simp only [hf, Except.ok.injEq] at hs
      subst hs
      exact siblings_distinct_find hl hf
  | _ => simp [fields] at hs

theorem siblings_distinct_search_loop : ∀ (fuel : Nat) (config : snd_config_t) (key : Str)
    (v : snd_config_t), siblings_distinct config = true →
    snd_config_search_loop fuel config key = .ok v → siblings_distinct v = true := by
  intro fuel
  induction fuel with
  | zero => intro config key v _ h; simp [snd_config_search_loop] at h
  | succ fuel ih =>
    intro config key v hc h
    rw [search_loop_succ] at h
    split at h
    · cases h
    · split at h
      · rename_i p hp
        cases hs : _snd_config_search config key p with
        | error e => simp [hs] at h
        | ok n =>
          simp only [hs] at h
          exact ih n _ v (siblings_distinct_search_step hc hs) h
      · exact siblings_distinct_search_step hc h

theorem siblings_distinct_search {vars v : snd_config_t} {key : Str}
    (h : siblings_distinct vars = true) (hs : snd_config_search vars key = .ok v) :
    siblings_distinct v = true :=
  siblings_distinct_search_loop _ vars key v h hs

theorem named_cons {n : snd_config_t} {rest : List snd_config_t}
    (h : named_list (n :: rest) = true) : named n = true ∧ named_list rest = true := by
  simpa [named_list] using h

theorem expand_list_cons (vars n : snd_config_t) (rest : List snd_config_t) :
    expand_list vars (n :: rest)
      = (expand_node vars n).toList ++ expand_list vars rest := by
  simp only [expand_list]
  cases expand_node vars n <;> rfl

theorem expand_node_id (vars : snd_config_t) {n m : snd_config_t}
    (h : expand_node vars n = some m) : snd_config_get_id m = snd_config_get_id n := by
  cases n with
  | integer i v => simp only [expand_node, Option.some.injEq] at h; subst h; rfl
  | real i v => simp only [expand_node, Option.some.injEq] at h; subst h; rfl
  | string i s =>
    simp only [expand_node] at h
    split at h
    · split at h
      · cases h
        rw [set_id_get_id]
        rfl
      · cases h
    · cases h; rfl
  | compound i j fs =>
    simp only [expand_node] at h
    split at h
    · cases h
    · cases h; rfl

mutual
theorem walk_expand (vars : snd_config_t) (root : Option snd_config_t)
    (hv : siblings_distinct vars = true) : ∀ (n : snd_config_t),
    siblings_distinct n = true → named n = true →
    snd_config_walk _snd_config_expand vars root n = some (expand_result (expand_node vars n))
  | .integer i v, _, _ => by simp [snd_config_walk, _snd_config_expand, expand_node, expand_result]
  | .real i v, _, _ => by simp [snd_config_walk, _snd_config_expand, expand_node, expand_result]
  | .string i s, _, hn => by
    obtain ⟨k, rfl⟩ : ∃ k, i = some k := by
      simp only [named, snd_config_get_id] at hn
      exact Option.isSome_iff_exists.mp hn
    by_cases hvar : is_variable s = true
    · cases hs : snd_config_search vars (variable_name s) with
      | error e =>
        simp [snd_config_walk, _snd_config_expand, expand_node, expand_result, hvar, hs]
      | ok val =>
        have hc : snd_config_copy val = some ⟨1, some val⟩ :=
          walk_copy none val (siblings_distinct_search hv hs)
        simp [snd_config_walk, _snd_config_expand, expand_node, expand_result, hvar, hs, hc]
    · simp [snd_config_walk, _snd_config_expand, expand_node, expand_result, hvar]
  | .compound i j fs, hsd, hn => by
    obtain ⟨hnd, hl⟩ := siblings_distinct_compound hsd
    have hnl : named_list fs = true := by
      simp only [named, Bool.and_eq_true] at hn
      exact hn.2
    obtain ⟨k, rfl⟩ : ∃ k, i = some k := by
      simp only [named, Bool.and_eq_true] at hn
      exact Option.isSome_iff_exists.mp hn.1
    by_cases hargs : k = cstr "@args"
    · simp [snd_config_walk, _snd_config_expand, expand_node, expand_result, hargs]
    · have hch := walk_expand_fields vars root hv fs (some k) j [] hl hnl hnd (by simp)
      simp only [List.nil_append] at hch
      simp only [snd_config_walk, _snd_config_expand, hargs, if_false, hch, expand_node,
        expand_result, Option.some.injEq]
      simp
theorem walk_expand_fields (vars : snd_config_t) (root : Option snd_config_t)
    (hv : siblings_distinct vars = true) : ∀ (rest : List snd_config_t)
    (I : Option Str) (J : Bool) (pre : List snd_config_t),
    siblings_distinct_list rest = true → named_list rest = true →
    (rest.map snd_config_get_id).Nodup →
    (∀ n ∈ rest, snd_config_get_id n ∉ pre.map snd_config_get_id) →
    snd_config_walk_fields _snd_config_expand vars root rest (some (.compound I J pre))
      = some ⟨1, some (.compound I J (pre ++ expand_list vars rest))⟩
  | [], I, J, pre, _, _, _, _ => by simp [snd_config_walk_fields, expand_list]
  | n :: rest, I, J, pre, hl, hnl, hnd, hpre => by
    obtain ⟨hn, hrest⟩ := siblings_distinct_cons hl
    obtain ⟨hnn, hnrest⟩ := named_cons hnl
    simp only [List.map_cons, List.nodup_cons] at hnd
    obtain ⟨hnotin, hnd2⟩ := hnd
    have hw := walk_expand vars root hv n hn hnn
    rw [expand_list_cons]
    cases he : expand_node vars n with
    | none =>
      have ih := walk_expand_fields vars root hv rest I J pre hrest hnrest hnd2
        (fun m hm => hpre m (List.mem_cons_of_mem _ hm))
      simp only [snd_config_walk_fields, hw, he, expand_result]
      rw [if_neg (by decide : ¬ ((0 : Int) < 0)), if_neg (by decide : ¬ ((0 : Int) ≠ 0))]
      simp only [ih]
      simp
    | some m =>
      have hid := expand_node_id vars he
      have hfresh : snd_config_get_id m ∉ pre.map snd_config_get_id := by
        rw [hid]; exact hpre n (List.mem_cons_self _ _)
      have ha := snd_config_add_fresh I J pre m hfresh
      have ih := walk_expand_fields vars root hv rest I J (pre ++ [m]) hrest hnrest hnd2
        (by
          intro x hx hmem
          simp only [List.map_append, List.map_cons, List.map_nil, List.mem_append,
            List.mem_singleton] at hmem
          rcases hmem with h1 | h2
          · exact hpre x (List.mem_cons_of_mem _ hx) h1
          · apply hnotin
            rw [← hid, ← h2]
            exact List.mem_map_of_mem _ hx)
      simp only [snd_config_walk_fields, hw, he, expand_result]
      rw [if_neg (by decide : ¬ ((1 : Int) < 0)), if_pos (by decide : (1 : Int) ≠ 0)]
      simp only [ha, ih]
      simp
end

theorem expand_drops_iff (vars : snd_config_t) (n : snd_config_t) (hn : named n = true) :
    expand_node vars n = none ↔ expand_drops vars n = true := by
  cases n with
  | integer i v => simp [expand_node, expand_drops]
  | real i v => simp [expand_node, expand_drops]
  | string i s =>
    obtain ⟨k, rfl⟩ : ∃ k, i = some k := by
      simp only [named, snd_config_get_id] at hn
      exact Option.isSome_iff_exists.mp hn
    by_cases hvar : is_variable s = true
    · cases hs : snd_config_search vars (variable_name s) <;>
        simp [expand_node, expand_drops, hvar, hs]
    · simp [expand_node, expand_drops, hvar]
  | compound i j fs =>
    by_cases hargs : i = some (cstr "@args") <;> simp [expand_node, expand_drops, hargs]

theorem expand_list_ids (vars : snd_config_t) : ∀ (fs : List snd_config_t),
    named_list fs = true →
    (expand_list vars fs).map snd_config_get_id
      = (fs.filter (fun n => !expand_drops vars n)).map snd_config_get_id := by
  intro fs
  induction fs with
  | nil => intro _; simp [expand_list]
  | cons n rest ih =>
    intro h
    obtain ⟨hn, hrest⟩ := named_cons h
    rw [expand_list_cons, List.map_append, ih hrest, List.filter_cons]
    cases he : expand_node vars n with
    | none =>
      have := (expand_drops_iff vars n hn).mp he
      simp [this]
    | some m =>
      have hd : expand_drops vars n = false := by
        cases hx : expand_drops vars n with
        | false => rfl
        | true => rw [(expand_drops_iff vars n hn).mpr hx] at he; cases he
      simp [hd, expand_node_id vars he]

/-- The expansion walk of a well-formed compound that has an identifier other
than `@args`: the status 1 and the compound of the expanded children. -/
theorem walk_expand_compound (vars : snd_config_t) (root : Option snd_config_t)
    (id : Str) (j : Bool) (fs : List snd_config_t)
    (hid : id ≠ cstr "@args")
    (hsd : siblings_distinct (.compound (some id) j fs) = true) (hn : named_list fs = true)
    (hv : siblings_distinct vars = true) :
    snd_config_walk _snd_config_expand vars root (.compound (some id) j fs)
      = some ⟨1, some (.compound (some id) j (expand_list vars fs))⟩ := by
  obtain ⟨hnd, hl⟩ := siblings_distinct_compound hsd
  have hch := walk_expand_fields vars root hv fs (some id) j [] hl hn hnd (by simp)
  simp only [List.nil_append] at hch
  simp only [snd_config_walk, _snd_config_expand, hid, if_false, hch]
  simp

/-- Claim C13, amended: the expansion walk of a well-formed template (a
compound with an identifier other than `@args`, identifiers on all nodes,
pairwise-distinct sibling identifiers) against a well-formed substitution tree
returns 1 with the compound whose children are what `expand_node` makes of the
children of the template, in their order: a String `$(name)` with an entry
`name` becomes that entry under the identifier of the String, a String
`$(name)` without entry and a compound `@args` are left out, every other leaf
is there as it is. -/
theorem snd_config_expand_substitutes (vars : snd_config_t) (root : Option snd_config_t)
    (id : Str) (j : Bool) (fs : List snd_config_t)
    (hid : id ≠ cstr "@args")
    (hsd : siblings_distinct (.compound (some id) j fs) = true) (hn : named_list fs = true)
    (hv : siblings_distinct vars = true) :
    snd_config_walk _snd_config_expand vars root (.compound (some id) j fs)
      = some ⟨1, some (.compound (some id) j (expand_list vars fs))⟩ :=
  walk_expand_compound vars root id j fs hid hsd hn hv

/-- Witness of C13: `card = $(x)` becomes the entry `x` under the identifier
`card`, `dev = $(y)` is left out, `rate` and `name` are copied. -/
theorem snd_config_expand_substitutes_example :
    siblings_distinct (.compound (some (cstr "pcm")) false expand_template) = true ∧
    named_list expand_template = true ∧ siblings_distinct expand_vars = true ∧
    snd_config_walk _snd_config_expand expand_vars none
        (.compound (some (cstr "pcm")) false expand_template)
      = some ⟨1, some (.compound (some (cstr "pcm")) false
          [.integer (some (cstr "card")) 0, .integer (some (cstr "rate")) 44100,
           .string (some (cstr "name")) (cstr "hw")])⟩ :=
  ⟨by decide, by decide, by decide,
    snd_config_expand_substitutes expand_vars none (cstr "pcm") false expand_template
      (by decide) (by decide) (by decide) (by decide)⟩

/-- Counterexample to C13 as stated: the String leaf `a = $(x)` has no entry in
the empty substitution tree; it is not copied, the result has no child. -/
theorem snd_config_expand_unresolved_dropped :
    snd_config_walk _snd_config_expand snd_config_top none
        (.compound (some (cstr "pcm")) false [.string (some (cstr "a")) (cstr "$(x)")])
      = some ⟨1, some (.compound (some (cstr "pcm")) false [])⟩ := by
  decide

/-- Claim C14, amended: for a well-formed template (a compound with an
identifier other than `@args`, identifiers on all nodes, pairwise-distinct
sibling identifiers) with a Compound child `@args`, the expansion walk returns
1 with a compound that has no child identified `@args`; its children carry, in
the original order, the identifiers of the children of the template other than
`@args` and the Strings `$(name)` whose name has no entry in the substitution
tree. -/
theorem snd_config_expand_drops_args (vars : snd_config_t) (root : Option snd_config_t)
    (id : Str) (j : Bool) (fs : List snd_config_t)
    (hid : id ≠ cstr "@args")
    (hsd : siblings_distinct (.compound (some id) j fs) = true) (hn : named_list fs = true)
    (hv : siblings_distinct vars = true)
    (ha : ∃ a ∈ fs, snd_config_get_id a = some (cstr "@args") ∧
      snd_config_get_type a = .COMPOUND) :
    ∃ out, snd_config_walk _snd_config_expand vars root (.compound (some id) j fs)
        = some ⟨1, some (.compound (some id) j out)⟩ ∧
      (∀ n ∈ out, snd_config_get_id n ≠ some (cstr "@args")) ∧
      out.map snd_config_get_id
        = (fs.filter (fun n => !expand_drops vars n)).map snd_config_get_id := by
  obtain ⟨hnd, hl⟩ := siblings_distinct_compound hsd
  refine ⟨expand_list vars fs, walk_expand_compound vars root id j fs hid hsd hn hv, ?_,
    expand_list_ids vars fs hn⟩
  intro n hmem hidn
  have hin : snd_config_get_id n ∈ (expand_list vars fs).map snd_config_get_id :=
    List.mem_map_of_mem _ hmem
  rw [expand_list_ids vars fs hn, List.mem_map] at hin
  obtain ⟨m, hm, hmid⟩ := hin
  rw [List.mem_filter] at hm
  obtain ⟨hmfs, hkeep⟩ := hm
  obtain ⟨a, hafs, haid, hat⟩ := ha
  have hma : m = a :=
    List.inj_on_of_nodup_map hnd hmfs hafs (by rw [hmid, hidn, haid])
  subst hma
  have hdrop : expand_drops vars m = true := by
    cases m with
    | compound i k gs =>
      simp only [snd_config_get_id] at haid
      simp [expand_drops, haid]
    | _ => simp [snd_config_get_type] at hat
  simp [hdrop] at hkeep

/-- Witness of C14: the expansion of the example template has the children
`card`, `rate` and `name`. -/
theorem snd_config_expand_drops_args_example :
    siblings_distinct (.compound (some (cstr "pcm")) false expand_template) = true ∧
    named_list expand_template = true ∧ siblings_distinct expand_vars = true ∧
    (∃ a ∈ expand_template, snd_config_get_id a = some (cstr "@args") ∧
      snd_config_get_type a = .COMPOUND) ∧
    ∃ out, snd_config_walk _snd_config_expand expand_vars none
        (.compound (some (cstr "pcm")) false expand_template)
        = some ⟨1, some (.compound (some (cstr "pcm")) false out)⟩ ∧
      (∀ n ∈ out, snd_config_get_id n ≠ some (cstr "@args")) ∧
      out.map snd_config_get_id
        = (expand_template.filter (fun n => !expand_drops expand_vars n)).map
            snd_config_get_id :=
  have ha : ∃ a ∈ expand_template, snd_config_get_id a = some (cstr "@args") ∧
      snd_config_get_type a = .COMPOUND :=
    ⟨_, List.mem_cons_self _ _, by decide, by decide⟩
  ⟨by decide, by decide, by decide, ha,
    snd_config_expand_drops_args expand_vars none (cstr "pcm") false expand_template (by decide)
      (by decide) (by decide) (by decide) ha⟩

/-- Counterexample to C14 as stated: with the empty substitution tree the
siblings `card` and `dev` of `@args` are not in the result. -/
theorem snd_config_expand_sibling_dropped :
    snd_config_walk _snd_config_expand snd_config_top none
        (.compound (some (cstr "pcm")) false expand_template)
      = some ⟨1, some (.compound (some (cstr "pcm")) false
          [.integer (some (cstr "rate")) 44100, .string (some (cstr "name")) (cstr "hw")])⟩ := by
  decide

theorem scalar_node_id (L : libc_double) (id s : Str) :
    snd_config_get_id (scalar_node L id s) = some id := by
  unfold scalar_node
  simp only
  split
  · split
    · split
      · rfl
      · split <;> rfl
    · split <;> rfl
  · rfl

theorem scalar_node_integer (L : libc_double) (id s : Str) (v : Int)
    (hn : starts_numeric s = true) (hs : safe_strtol s = .ok v) :
    scalar_node L id s = .integer (some id) v := by
  obtain ⟨h1, h2⟩ := (safe_strtol_ok_iff s v).mp hs
  simp [scalar_node, hn, h1, h2]

theorem scalar_node_other (L : libc_double) (id s : Str) (e : Int)
    (hn : starts_numeric s = true) (hs : safe_strtol s = .error e) :
    scalar_node L id s
      = match safe_strtod L s with
        | .ok r => .real (some id) r
        | .error _ => .string (some id) s := by
  simp only [scalar_node, hn, if_true]
  cases hc : complete_integer_literal s with
  | none => rfl
  | some v =>
    simp only
    have : ¬ (LONG_MIN ≤ v ∧ v ≤ LONG_MAX) := by
      intro hr
      have := (safe_strtol_ok_iff s v).mpr ⟨hc, hr⟩
      rw [hs] at this
      cases this
    rw [if_neg this]

/-- What `parse_value` adds for a token that `get_string` returned. -/
theorem parse_value_scalar (L : libc_double) (F : snd_config_t) (input : input_t) (id : Str)
    (h : ¬ (get_string false input).err < 0) :
    parse_value L none F input id
      = ⟨0, add_field F (scalar_node L id (get_string false input).string),
          (get_string false input).input⟩ := by
  unfold parse_value
  simp only [h, if_false]
  generalize (get_string false input).string = s
  generalize (get_string false input).input = inp1
  cases s with
  | nil => simp [scalar_node, starts_numeric]
  | cons c t =>
    by_cases hc : (48 ≤ c ∧ c ≤ 57) ∨ c = 45
    · have hn : starts_numeric (c :: t) = true := by
        simp only [starts_numeric, Bool.or_eq_true, Bool.and_eq_true, decide_eq_true_eq]
        exact hc
      simp only [hc, if_true]
      cases hs : safe_strtol (c :: t) with
      | ok v => simp only [scalar_node_integer L id _ v hn hs]
      | error e =>
        simp only [scalar_node_other L id _ e hn hs]
        cases safe_strtod L (c :: t) <;> rfl
    · have hn : starts_numeric (c :: t) = false := by
        simp only [starts_numeric, Bool.or_eq_false_iff, Bool.and_eq_false_iff,
          decide_eq_false_iff_not]
        omega
      simp only [hc, if_false]
      simp [scalar_node, hn]

/-- Claim C16, amended: for every token that `get_string` returns, the node
`parse_value` adds is an Integer with the value of the token when the token
starts with a digit or `-` and is a complete integer literal (decimal, `0x`
hexadecimal or `0` octal) whose value fits `long`; otherwise a Real when the
token starts so and `safe_strtod` converts it whole; in every other case a
String holding the token unchanged. -/
theorem parse_value_classifies (L : libc_double) (F : snd_config_t) (input : input_t)
    (id : Str) (h : ¬ (get_string false input).err < 0) :
    parse_value L none F input id
      = ⟨0, add_field F (scalar_node L id (get_string false input).string),
          (get_string false input).input⟩ :=
  parse_value_scalar L F input id h

/-- Witness of C16: `-5` gives the Integer -5 and `-5x` the String "-5x". -/
theorem parse_value_classifies_example :
    (¬ (get_string false (mk_input (cstr "-5\n"))).err < 0 ∧
      parse_value libc_no_real none snd_config_top (mk_input (cstr "-5\n")) (cstr "a")
        = ⟨0, .compound none false [.integer (some (cstr "a")) (-5)], ⟨[], true, 10, 0⟩⟩) ∧
    parse_value libc_no_real none snd_config_top (mk_input (cstr "-5x\n")) (cstr "a")
        = ⟨0, .compound none false [.string (some (cstr "a")) (cstr "-5x")],
            ⟨[], true, 10, 0⟩⟩ :=
  ⟨⟨by decide, parse_value_classifies libc_no_real snd_config_top _ (cstr "a") (by decide)⟩,
    parse_value_classifies libc_no_real snd_config_top _ (cstr "a") (by decide)⟩

/-- Counterexample to C16 as stated: `99999999999999999999` starts with a digit
and is a complete integer literal, but its value does not fit `long`, and with
no libc is the node added for it an Integer: it is a Real when `strtod`
converts the token, a String otherwise. -/
theorem parse_value_integer_overflow :
    starts_numeric (cstr "99999999999999999999") = true ∧
    complete_integer_literal (cstr "99999999999999999999") = some 99999999999999999999 ∧
    ¬ ∃ (L : libc_double) (v : Int) (inp : input_t),
      parse_value L none snd_config_top (mk_input (cstr "99999999999999999999\n")) (cstr "a")
        = ⟨0, .compound none false [.integer (some (cstr "a")) v], inp⟩ := by
  refine ⟨by decide, by decide, ?_⟩
  rintro ⟨L, v, inp, h⟩
  have hg : get_string false (mk_input (cstr "99999999999999999999\n"))
      = ⟨0, cstr "99999999999999999999", ⟨[], true, 10, 0⟩⟩ := by decide
  rw [parse_value_scalar L _ _ _ (by rw [hg]; decide), hg] at h
  have hs : safe_strtol (cstr "99999999999999999999") = .error (-ERANGE) := by decide
  rw [scalar_node_other L _ _ _ (by decide) hs] at h
  cases hd : safe_strtod L (cstr "99999999999999999999") with
  | ok r => simp [hd, add_field, set_fields, fields, snd_config_top] at h
  | error e => simp [hd, add_field, set_fields, fields, snd_config_top] at h

theorem lstrip_blanks (sep : Str) (X : List Nat) (h : sep.all is_blank = true) :
    lstrip (sep ++ X) = lstrip X := by
  induction sep with
  | nil => rfl
  | cons b t ih =>
    simp only [List.all_cons, Bool.and_eq_true] at h
    rw [List.cons_append, lstrip_blank_cons _ h.1, ih h.2]

theorem feedsW_blanks {inp : input_t} {sep : Str} {X : List Nat}
    (h : sep.all is_blank = true) (hf : FeedsW inp (sep ++ X)) : FeedsW inp X := by
  obtain ⟨Y, hY, hl⟩ := hf
  exact ⟨Y, hY, by rw [hl, lstrip_blanks sep X h]⟩

theorem array_text_head (items : List (Str × Str)) (h : array_items_ok items = true) :
    ∃ c Y, array_text items = c :: Y ∧ (c = 93 ∨ plain_char c = true) := by
  cases items with
  | nil => exact ⟨93, [], rfl, Or.inl rfl⟩
  | cons a rest =>
    obtain ⟨w, sep⟩ := a
    simp only [array_items_ok, Bool.and_eq_true] at h
    obtain ⟨c, w', rfl, hc⟩ := plain_word_cons h.1.1.1
    exact ⟨c, w' ++ sep ++ array_text rest, by simp [array_text], Or.inr hc⟩

/-- The character after a token of an array body ends the token. -/
theorem array_token_end (sep : Str) (rest : List (Str × Str)) (T : List Nat)
    (hsep : sep.all is_blank = true) (hne : (!sep.isEmpty || rest.isEmpty) = true) :
    ∃ t T1, sep ++ array_text rest ++ T = t :: T1 ∧ freestring_end false (t : Int) = true := by
  cases sep with
  | nil =>
    cases rest with
    | nil => exact ⟨93, T, rfl, by decide⟩
    | cons a r => simp at hne
  | cons b sep' =>
    simp only [List.all_cons, Bool.and_eq_true] at hsep
    refine ⟨b, sep' ++ array_text rest ++ T, by simp, ?_⟩
    have hb := (is_blank_iff b).mp hsep.1
    simp only [freestring_end, EOF, Bool.or_eq_true, Bool.and_eq_true, decide_eq_true_eq]
    omega

/-- One turn of the loop of `parse_array_defs` that reads an element. -/
theorem parse_array_defs_from_step (L : libc_double) (fuel : Nat) (father : snd_config_t)
    (input : input_t) (idx : Nat) (d : parse_result)
    (h1 : ¬ (get_nonwhite input).1 = EOF) (h2 : ¬ (get_nonwhite input).1 = 93)
    (hd : parse_array_def L fuel father
      (unget_char (get_nonwhite input).1 (get_nonwhite input).2) idx = some d)
    (he : ¬ d.err < 0) :
    parse_array_defs_from L (fuel + 1) father input idx
      = parse_array_defs_from L fuel d.father d.input (idx + 1) := by
  simp only [parse_array_defs_from, h1, h2, if_false, hd, he]

/-- The element of an array that is a scalar token. -/
theorem parse_array_def_scalar (L : libc_double) (fuel : Nat) (father : snd_config_t)
    (input : input_t) (idx : Nat) (v : parse_result)
    (h : ¬ ((get_nonwhite input).1 = 123 ∨ (get_nonwhite input).1 = 91))
    (hv : parse_value L none father
      (unget_char (get_nonwhite input).1 (get_nonwhite input).2) (dec_nat idx) = v)
    (he : ¬ v.err < 0) :
    parse_array_def L (fuel + 1) father input idx = some ⟨0, v.father, v.input⟩ := by
  simp only [parse_array_def, h, if_false, hv, he]

/-- The loop of `parse_array_defs` on an array body of scalar tokens. -/
theorem parse_array_defs_from_items (L : libc_double) (I : Option Str) (J : Bool) (T : List Nat) :
    ∀ (items : List (Str × Str)) (idx : Nat) (pre : List snd_config_t) (inp : input_t),
      array_items_ok items = true → FeedsW inp (array_text items ++ T) →
      ∃ inp1, Clean inp1 T ∧ ∀ fuel, items.length + 2 ≤ fuel →
        parse_array_defs_from L fuel (.compound I J pre) inp idx
          = some ⟨0, .compound I J (pre ++ array_nodes L idx items), unget_char 93 inp1⟩ := by
  intro items
  induction items with
  | nil =>
    intro idx pre inp _ hf
    obtain ⟨inp1, hg, hc⟩ := get_nonwhite_char hf (lstrip_solid _ (by decide))
      (by decide) (by decide)
    simp only [Nat.cast_ofNat] at hg
    refine ⟨inp1, hc, ?_⟩
    intro fuel hfuel
    obtain ⟨f, rfl⟩ : ∃ k, fuel = k + 1 := ⟨fuel - 1, by omega⟩
    have h1 : ¬ ((93 : Int) = EOF) := by decide
    simp only [parse_array_defs_from, hg, h1, if_false, array_nodes, List.append_nil]
    simp
  | cons a rest ih =>
    intro idx pre inp hok hf
    obtain ⟨w, sep⟩ := a
    simp only [array_items_ok, Bool.and_eq_true] at hok
    obtain ⟨⟨⟨hw, hsep⟩, hne⟩, hrest⟩ := hok
    obtain ⟨c, w', rfl, hc⟩ := plain_word_cons hw
    have hcs := plain_char_spec hc
    obtain ⟨t, T1, htxt, hend⟩ := array_token_end sep rest T hsep hne
    have htext : array_text ((c :: w', sep) :: rest) ++ T = c :: (w' ++ t :: T1) := by
      simp only [array_text, List.append_assoc, List.cons_append] at htxt ⊢
      rw [htxt]
    rw [htext] at hf
    obtain ⟨inp1, hg, hc1⟩ := get_nonwhite_char hf (lstrip_plain _ hc) (by omega) (by omega)
    have hf1 : Feeds (unget_char (c : Int) inp1) (c :: (w' ++ t :: T1)) := unget_feeds c hc1
    obtain ⟨inp1b, hg1, hc1b⟩ := get_nonwhite_char hf1.feedsW (lstrip_plain _ hc)
      (by omega) (by omega)
    obtain ⟨inp2, hgs, hc2⟩ := get_string_word false t hend hw
      (unget_feeds c hc1b).feedsW
    have hpv := parse_value_scalar L (.compound I J pre) (unget_char (c : Int) inp1b)
      (dec_nat idx) (by rw [hgs]; show ¬ ((0 : Int) < 0); decide)
    rw [hgs] at hpv
    have hf2 : FeedsW (unget_char (t : Int) inp2) (array_text rest ++ T) := by
      have := (unget_feeds t hc2).feedsW
      rw [← htxt, List.append_assoc] at this
      exact feedsW_blanks hsep this
    obtain ⟨inp3, hc3, hrec⟩ := ih (idx + 1) (pre ++ [scalar_node L (dec_nat idx) (c :: w')])
      (unget_char (t : Int) inp2) hrest hf2
    refine ⟨inp3, hc3, ?_⟩
    intro fuel hfuel
    obtain ⟨f, rfl⟩ : ∃ k, fuel = k + 1 := ⟨fuel - 1, by omega⟩
    obtain ⟨f, rfl⟩ : ∃ k, f = k + 1 := ⟨f - 1, by simp only [List.length_cons] at hfuel; omega⟩
    have e1 : ¬ ((c : Int) = EOF) := by simp only [EOF]; omega
    have e2 : ¬ ((c : Int) = 93) := by omega
    have e3 : ¬ ((c : Int) = 123 ∨ (c : Int) = 91) := by omega
    have h0 : ¬ ((0 : Int) < 0) := by omega
    have hr := hrec (f + 1) (by simp only [List.length_cons] at hfuel; omega)
    have hadd : add_field (.compound I J pre) (scalar_node L (dec_nat idx) (c :: w'))
        = .compound I J (pre ++ [scalar_node L (dec_nat idx) (c :: w')]) := rfl
    rw [hadd] at hpv
    have hpv2 : parse_value L none (.compound I J pre) (unget_char (c : Int) inp1b) (dec_nat idx)
        = ⟨0, .compound I J (pre ++ [scalar_node L (dec_nat idx) (c :: w')]),
            unget_char (t : Int) inp2⟩ := hpv
    have hd := parse_array_def_scalar L f (.compound I J pre) (unget_char (c : Int) inp1) idx
      ⟨0, .compound I J (pre ++ [scalar_node L (dec_nat idx) (c :: w')]),
        unget_char (t : Int) inp2⟩
      (by rw [hg1]; exact e3) (by rw [hg1]; exact hpv2) h0
    have hstep := parse_array_defs_from_step L (f + 1) (.compound I J pre) inp idx
      ⟨0, .compound I J (pre ++ [scalar_node L (dec_nat idx) (c :: w')]),
        unget_char (t : Int) inp2⟩
      (by rw [hg]; exact e1) (by rw [hg]; exact e2) (by rw [hg]; exact hd) h0
    rw [hstep, hr]
    simp [array_nodes]

theorem lstrip_append (A Y : List Nat) :
    lstrip (A ++ Y) = if lstrip A = [] then lstrip Y else lstrip A ++ Y := by
  induction A with
  | nil => simp [lstrip]
  | cons a t ih =>
    by_cases ha : is_blank a = true
    · rw [List.cons_append, lstrip_blank_cons _ ha, lstrip_blank_cons _ ha, ih]
    · have ha2 : is_blank a = false := by simpa using ha
      rw [List.cons_append, lstrip_solid _ ha2, lstrip_solid _ ha2]
      simp

theorem assign_sep_cases {A : Str} (h : assign_sep A = true) (c : Nat) (R : List Nat)
    (hc : is_blank c = false) :
    (∃ t A1, A = t :: A1 ∧ freestring_end true (t : Int) = true) ∧
    (lstrip (A ++ c :: R) = c :: R ∨
      ∃ b, b.all is_blank = true ∧ lstrip (A ++ c :: R) = 61 :: (b ++ c :: R)) := by
  simp only [assign_sep, Bool.and_eq_true, Bool.not_eq_true', List.isEmpty_eq_false] at h
  obtain ⟨hne, hrest⟩ := h
  have hl : lstrip A = A.dropWhile is_blank := rfl
  constructor
  · cases A with
    | nil => exact absurd rfl hne
    | cons t A1 =>
      refine ⟨t, A1, rfl, ?_⟩
      by_cases ht : is_blank t = true
      · have hb := (is_blank_iff t).mp ht
        simp only [freestring_end, EOF, Bool.or_eq_true, Bool.and_eq_true, decide_eq_true_eq]
        omega
      · have ht2 : is_blank t = false := by simpa using ht
        rw [← hl, lstrip_solid _ ht2] at hrest
        simp only [Bool.and_eq_true, decide_eq_true_eq] at hrest
        rw [hrest.1]
        decide
  · rw [lstrip_append]
    cases hd : A.dropWhile is_blank with
    | nil =>
      left
      rw [hl, hd]
      simp only [if_true]
      exact lstrip_solid _ hc
    | cons x rest =>
      right
      rw [hd] at hrest
      simp only [Bool.and_eq_true, decide_eq_true_eq] at hrest
      refine ⟨rest, hrest.2, ?_⟩
      rw [hl, hd, hrest.1]
      simp

/-- The identifier of a definition and the character its value starts with, as
`parse_def` reads them across the separator. -/
theorem assign_reads {inp : input_t} {i A : Str} {c : Nat} {R : List Nat}
    (hi : plain_word i = true) (hA : assign_sep A = true) (hc : is_blank c = false)
    (h60 : c ≠ 60) (h35 : c ≠ 35)
    (hf : FeedsW inp (i ++ (A ++ c :: R))) :
    ∃ g1 inp3, get_string true (unget_char (get_nonwhite inp).1 (get_nonwhite inp).2)
        = ⟨0, i, g1⟩ ∧ Clean inp3 R ∧
      (get_nonwhite g1 = ((c : Int), inp3) ∨
        ∃ inp2, get_nonwhite g1 = (61, inp2) ∧ get_nonwhite inp2 = ((c : Int), inp3)) := by
  obtain ⟨⟨t, A1, hAt, hend⟩, hcases⟩ := assign_sep_cases hA c R hc
  have htxt : i ++ (A ++ c :: R) = i ++ t :: (A1 ++ c :: R) := by rw [hAt]; rfl
  rw [htxt] at hf
  obtain ⟨inp2, hgs, hc2⟩ := parse_def_id t hend hi hf
  have hf2 : FeedsW (unget_char (t : Int) inp2) (A ++ c :: R) := by
    have := (unget_feeds t hc2).feedsW
    rw [hAt]; exact this
  rcases hcases with hl | ⟨b, hb, hl⟩
  · obtain ⟨inp3, hg, hc3⟩ := get_nonwhite_char hf2 hl h60 h35
    exact ⟨_, inp3, hgs, hc3, Or.inl hg⟩
  · obtain ⟨inp2b, hg, hc2b⟩ := get_nonwhite_char hf2 hl (by decide) (by decide)
    have hf3 : FeedsW inp2b (c :: R) := feedsW_blanks hb hc2b.feeds.feedsW
    obtain ⟨inp3, hg3, hc3⟩ := get_nonwhite_char hf3 (lstrip_solid _ hc) h60 h35
    simp only [Nat.cast_ofNat] at hg
    exact ⟨_, inp3, hgs, hc3, Or.inr ⟨inp2b, hg, hg3⟩⟩

/-- The part of `parse_def` for a scalar token followed by a newline. -/
theorem parse_def_scalar (L : libc_double) (i A v : Str) (hi : plain_word i = true)
    (hA : assign_sep A = true) (hv : plain_word v = true)
    (X X1 : snd_config_t) (inp : input_t) (T : List Nat)
    (hx : add_new i (scalar_node L i v) X = some X1)
    (hf : FeedsW inp (i ++ (A ++ (v ++ 10 :: T)))) (ht : GoodTail T) :
    Yields (fun f => parse_def L f X inp) X1 (lstrip T) := by
  obtain ⟨c, v', rfl, hc⟩ := plain_word_cons hv
  have hcs := plain_char_spec hc
  obtain ⟨g1, inp3, hgs, hc3, hcase⟩ := assign_reads hi hA (plain_not_blank hc)
    (by omega) (by omega) hf
  obtain ⟨inp4, hgv, hc4⟩ := get_string_word false 10 (by decide) hv
    (unget_feeds c hc3).feedsW
  have hpv := parse_value_scalar L X (unget_char (c : Int) inp3) i
    (by rw [hgv]; show ¬ ((0 : Int) < 0); decide)
  rw [hgv] at hpv
  have hpv2 : parse_value L none X (unget_char (c : Int) inp3) i
      = ⟨0, add_field X (scalar_node L i (c :: v')), unget_char 10 inp4⟩ := hpv
  obtain ⟨inp5, hpe, hf5⟩ := parse_def_end_tail 0 (add_field X (scalar_node L i (c :: v')))
    (unget_feeds 10 hc4).feedsW (goodTail_newline ht)
  rw [lstrip_blank_cons T (by decide)] at hf5
  simp only [Nat.cast_ofNat] at hpe
  have hX : search_index X i = none ∧ X1 = add_field X (scalar_node L i (c :: v')) := by
    cases X with
    | compound I J fs =>
      simp only [add_new] at hx
      split at hx
      · cases hx; exact ⟨by assumption, rfl⟩
      · cases hx
    | _ => simp [add_new] at hx
  obtain ⟨hsi, rfl⟩ := hX
  refine ⟨inp5, hf5, 1, ?_⟩
  intro f hf1
  obtain ⟨f, rfl⟩ : ∃ k, f = k + 1 := ⟨f - 1, by omega⟩
  have h46 : ¬ ((c : Int) = 46) := by omega
  have h61 : ¬ ((c : Int) = 61) := by omega
  have hbr : ¬ ((c : Int) = 123 ∨ (c : Int) = 91) := by omega
  have h0 : ¬ ((0 : Int) < 0) := by omega
  have e46 : ¬ ((61 : Int) = 46) := by decide
  rcases hcase with hg | ⟨inp2, hg, hg2⟩
  · simp only [parse_def, hgs, h0, if_false, hg, h46, h61, hbr, hsi, hpv2, hpe]
  · simp only [parse_def, hgs, h0, if_false, hg, e46, if_true, hg2, hbr, hsi, hpv2, hpe]

/-- The part of `parse_def` for a new compound written as an array of scalar
tokens. -/
theorem parse_def_array (L : libc_double) (i A ws : Str) (items : List (Str × Str))
    (hi : plain_word i = true) (hA : assign_sep A = true) (hws : ws.all is_blank = true)
    (hok : array_items_ok items = true)
    (X X1 : snd_config_t) (inp : input_t) (T : List Nat)
    (hx : add_new i (.compound (some i) false (array_nodes L 0 items)) X = some X1)
    (hf : FeedsW inp (i ++ (A ++ 91 :: (ws ++ (array_text items ++ T))))) (ht : GoodTail T) :
    Yields (fun f => parse_def L f X inp) X1 (lstrip T) := by
  obtain ⟨g1, inp3, hgs, hc3, hcase⟩ := assign_reads hi hA (by decide : is_blank 91 = false)
    (by decide) (by decide) hf
  have hf3 : FeedsW inp3 (array_text items ++ T) := feedsW_blanks hws hc3.feeds.feedsW
  obtain ⟨inp4, hc4, hbody⟩ := parse_array_defs_from_items L (some i) false T items 0 [] inp3
    hok hf3
  have hl4 : lstrip (93 :: T) = 93 :: T := lstrip_solid _ (by decide)
  obtain ⟨inp5, hg5, hc5⟩ := get_nonwhite_char (unget_feeds 93 hc4).feedsW hl4
    (by decide) (by decide)
  obtain ⟨I, J, fs, hX, hsi⟩ : ∃ I J fs, X = .compound I J fs ∧
      search_index X i = none := by
    cases X with
    | compound I J fs =>
      simp only [add_new] at hx
      split at hx
      · exact ⟨I, J, fs, rfl, by assumption⟩
      · cases hx
    | _ => simp [add_new] at hx
  subst hX
  have hX1 : X1 = .compound I J (fs ++ [.compound (some i) false (array_nodes L 0 items)]) := by
    simp only [add_new, hsi, if_true] at hx
    cases hx; rfl
  subst hX1
  obtain ⟨inp6, hpe, hf6⟩ := parse_def_end_tail 0
    (.compound I J (fs ++ [.compound (some i) false (array_nodes L 0 items)]))
    hc5.feeds.feedsW ht
  refine ⟨inp6, hf6, items.length + 4, ?_⟩
  intro f hf1
  obtain ⟨f, rfl⟩ : ∃ k, f = k + 1 := ⟨f - 1, by omega⟩
  obtain ⟨f, rfl⟩ : ∃ k, f = k + 1 := ⟨f - 1, by omega⟩
  have hb := hbody f (by omega)
  simp only [List.nil_append] at hb
  have e46 : ¬ ((61 : Int) = 46) := by decide
  have h46 : ¬ ((91 : Int) = 46) := by decide
  have h61 : ¬ ((91 : Int) = 61) := by decide
  have h123 : ¬ ((91 : Int) = 123) := by decide
  have h0 : ¬ ((0 : Int) < 0) := by omega
  have hne : ¬ ((93 : Int) ≠ 93) := by decide
  simp only [Nat.cast_ofNat] at hg5 hcase
  have hset : set_field (add_field (.compound I J fs) (.compound (some i) false []))
      fs.length (.compound (some i) false (array_nodes L 0 items))
      = .compound I J (fs ++ [.compound (some i) false (array_nodes L 0 items)]) := by
    simp [set_field, add_field, set_fields, fields]
  rcases hcase with hg | ⟨inp2, hg, hg2⟩
  · simp only [parse_def, hgs, h0, if_false, hg, h46, h61, h123, if_true, hsi,
      parse_array_defs, hb, hg5, hne, fields, hset, hpe, or_true]
  · simp only [parse_def, hgs, h0, if_false, hg, e46, if_true, hg2, h123, hsi,
      parse_array_defs, hb, hg5, hne, fields, hset, hpe, or_true]

/-- A load whose `parse_defs` reads the whole text returns 0. -/
theorem snd_config_load_of_yields (L : libc_double) (F F1 : snd_config_t) (text : Str)
    (h : Yields (fun f => parse_defs L f F ⟨text, false, 0, 0⟩) F1 []) :
    ∃ fuel0, ∀ fuel, fuel0 ≤ fuel → snd_config_load L fuel F text = some (0, F1) := by
  obtain ⟨inp1, hf1, f0, hp⟩ := h
  obtain ⟨inp2, hg, _⟩ := get_char_nil hf1
  refine ⟨f0, ?_⟩
  intro fuel hfuel
  have := hp fuel hfuel
  simp only at this
  simp only [snd_config_load, this, hg]
  simp

/-- A text that is one definition: `parse_defs` reads it and then meets the end
of the input. -/
theorem parse_defs_single (L : libc_double) (F F1 : snd_config_t) (c : Nat) (Y : List Nat)
    (hc : plain_char c = true)
    (hd : ∀ inp1, Feeds inp1 (c :: Y) → Yields (fun f => parse_def L f F inp1) F1 []) :
    Yields (fun f => parse_defs L f F ⟨c :: Y, false, 0, 0⟩) F1 [] := by
  have hf : FeedsW ⟨c :: Y, false, 0, 0⟩ (c :: Y) := (Clean.feeds ⟨rfl, rfl⟩).feedsW
  exact parse_defs_step L F F1 F1 hf (lstrip_plain _ hc) hc hd
    (fun inp2 hf2 => parse_defs_eof L F1 hf2.feedsW rfl)

theorem goodTail_nil : GoodTail [] := by
  intro c Y hc
  simp [lstrip] at hc

theorem array_nodes_ids (L : libc_double) : ∀ (items : List (Str × Str)) (idx : Nat),
    (array_nodes L idx items).map snd_config_get_id
      = (List.range' idx items.length).map (fun k => some (dec_nat k)) := by
  intro items
  induction items with
  | nil => intro idx; rfl
  | cons a rest ih =>
    intro idx
    obtain ⟨w, sep⟩ := a
    simp only [array_nodes, List.map_cons, scalar_node_id, List.length_cons, List.range'_succ,
      ih (idx + 1)]

theorem at_path_fresh (g : snd_config_t → Option snd_config_t) (n : snd_config_t)
    (hg : ∀ p, g (.compound (some p) true []) = some (.compound (some p) true [n])) :
    ∀ (ps : List Str) (p : Str) (I : Option Str) (J : Bool) (fs : List snd_config_t),
      search_index (.compound I J fs) p = none →
      at_path g (.compound I J fs) (p :: ps)
        = some (.compound I J (fs ++ [join_nest (p :: ps) n])) := by
  intro ps
  induction ps with
  | nil =>
    intro p I J fs hs
    simp only [at_path, hs, hg p, Option.map_some', join_nest]
    rfl
  | cons q qs ih =>
    intro p I J fs hs
    have hq : search_index (.compound (some p) true []) q = none := rfl
    have := ih q (some p) true [] hq
    simp only [List.nil_append] at this
    rw [at_path]
    simp only [hs, this, Option.map_some']
    rfl

/-- Claim C15 (array parsing).  For every identifier `i` and every list of `n`
scalar tokens separated by blanks inside `[ ]`, the text `i [ tokens ]` loaded
into an empty top node gives the single child `i`, a compound that holds
exactly the nodes of the tokens in their order, identified "0", "1", ...,
"n-1". -/
theorem snd_config_load_array (L : libc_double) (i A ws : Str) (items : List (Str × Str))
    (hi : plain_word i = true) (hA : assign_sep A = true) (hws : ws.all is_blank = true)
    (hok : array_items_ok items = true) :
    (∃ fuel0, ∀ fuel, fuel0 ≤ fuel →
      snd_config_load L fuel snd_config_top (i ++ (A ++ 91 :: (ws ++ array_text items)))
        = some (0, .compound none false
            [.compound (some i) false (array_nodes L 0 items)])) ∧
    (array_nodes L 0 items).map snd_config_get_id
      = (List.range items.length).map (fun k => some (dec_nat k)) := by
  constructor
  · obtain ⟨c, i1, rfl, hc⟩ := plain_word_cons hi
    apply snd_config_load_of_yields
    refine parse_defs_single L _ _ c _ hc ?_
    intro inp1 hf1
    have hx : add_new (c :: i1) (.compound (some (c :: i1)) false (array_nodes L 0 items))
        snd_config_top
        = some (.compound none false
            [.compound (some (c :: i1)) false (array_nodes L 0 items)]) := rfl
    have := parse_def_array L (c :: i1) A ws items hi hA hws hok snd_config_top _ inp1 []
      hx (by simpa using hf1.feedsW) goodTail_nil
    exact this
  · rw [array_nodes_ids, List.range_eq_range']

/-- Witness of C15: `a [1 2 3]` gives `a` with the children "0", "1", "2"
holding the Integers 1, 2, 3. -/
theorem snd_config_load_array_example :
    plain_word (cstr "a") = true ∧ assign_sep (cstr " ") = true ∧
    array_items_ok [(cstr "1", cstr " "), (cstr "2", cstr " "), (cstr "3", [])] = true ∧
    ∃ fuel0, ∀ fuel, fuel0 ≤ fuel →
      snd_config_load libc_no_real fuel snd_config_top (cstr "a [1 2 3]")
        = some (0, .compound none false
            [.compound (some (cstr "a")) false
              [.integer (some (cstr "0")) 1, .integer (some (cstr "1")) 2,
               .integer (some (cstr "2")) 3]]) :=
  ⟨by decide, by decide, by decide,
    (snd_config_load_array libc_no_real (cstr "a") (cstr " ") []
      [(cstr "1", cstr " "), (cstr "2", cstr " "), (cstr "3", [])]
      (by decide) (by decide) (by decide) (by decide)).1⟩

/-- Claim C18 (dotted-path assignment).  For a definition `i1.i2.....in = v`
with a scalar token `v`, loaded into a compound `F`: the load returns 0 and the
tree is `F` changed along the path, each compound found under a segment entered
with its join flag set and each missing one created as a join compound, the
node of `v` added under `in` in the innermost one; when `F` has no child `i1`
this is `F` with the new last child `i1 { i2 { ... in = v } }`, every compound
of it with the join flag set. -/
theorem snd_config_load_dotted (L : libc_double) (P : List Str) (i A v : Str)
    (F F1 : snd_config_t) (hP : ∀ p ∈ P, plain_word p = true) (hi : plain_word i = true)
    (hA : assign_sep A = true) (hv : plain_word v = true)
    (hF : at_path (add_new i (scalar_node L i v)) F P = some F1) :
    (∃ fuel0, ∀ fuel, fuel0 ≤ fuel →
      snd_config_load L fuel F (dotted_path P ++ (i ++ (A ++ (v ++ [10])))) = some (0, F1)) ∧
    (∀ p ps, P = p :: ps → search_index F p = none →
      F1 = add_field F (join_nest P (scalar_node L i v))) := by
  constructor
  · obtain ⟨c, Y, hc, hY⟩ := line_head i hi P hP
    have htxt : dotted_path P ++ (i ++ (A ++ (v ++ [10]))) = c :: (Y ++ (A ++ (v ++ [10]))) := by
      rw [← List.append_assoc, hY]; rfl
    rw [htxt]
    apply snd_config_load_of_yields
    refine parse_defs_single L _ _ c _ hc ?_
    intro inp1 hf1
    rw [← htxt] at hf1
    exact parse_def_path L _ (i ++ (A ++ (v ++ [10]))) []
      (fun X X1 inp hx hf => parse_def_scalar L i A v hi hA hv X X1 inp [] hx hf goodTail_nil)
      P hP F F1 inp1 hF hf1.feedsW
  · intro p ps hPp hs
    subst hPp
    cases F with
    | compound I J fs =>
      have hg : ∀ q, add_new i (scalar_node L i v) (.compound (some q) true [])
          = some (.compound (some q) true [scalar_node L i v]) := fun q => rfl
      rw [at_path_fresh _ _ hg ps p I J fs hs] at hF
      cases hF
      rfl
    | _ => simp [at_path] at hF

/-- Witness of C18: `a.b.c = 1` loaded into an empty top node creates the join
compounds `a` and `a.b` and the Integer `c` = 1. -/
theorem snd_config_load_dotted_example :
    (∀ p ∈ [cstr "a", cstr "b"], plain_word p = true) ∧
    at_path (add_new (cstr "c") (scalar_node libc_no_real (cstr "c") (cstr "1")))
        snd_config_top [cstr "a", cstr "b"]
      = some (.compound none false [.compound (some (cstr "a")) true
          [.compound (some (cstr "b")) true [.integer (some (cstr "c")) 1]]]) ∧
    ∃ fuel0, ∀ fuel, fuel0 ≤ fuel →
      snd_config_load libc_no_real fuel snd_config_top (cstr "a.b.c = 1\n")
        = some (0, .compound none false [.compound (some (cstr "a")) true
            [.compound (some (cstr "b")) true [.integer (some (cstr "c")) 1]]]) :=
  ⟨by decide, by decide,
    (snd_config_load_dotted libc_no_real [cstr "a", cstr "b"] (cstr "c") (cstr " = ") (cstr "1")
      snd_config_top _ (by decide) (by decide) (by decide) (by decide) (by decide)).1⟩

/-- Claim C17 fails in the code: in `x [ { a 1 a foo } ]` the identifier `a`,
an Integer, is assigned the String `foo`; `parse_value` reports `-EINVAL`, but
`parse_array_def` sets its status to 0 after it met the closing brace, and the
load returns 0. -/
theorem snd_config_load_mismatch_in_array :
    snd_config_load libc_no_real 20 snd_config_top (cstr "x [ { a 1 a foo } ]")
      = some (0, .compound none false [.compound (some (cstr "x")) false
          [.compound (some (cstr "0")) false [.integer (some (cstr "a")) 1]]]) ∧
    snd_config_load libc_no_real 20 snd_config_top (cstr "x { a 1 a foo }")
      = some (-EINVAL, .compound none false [.compound (some (cstr "x")) false
          [.integer (some (cstr "a")) 1]]) := by
  decide!

/-- Claim C19 fails in the code: in `a [ [ 1 2 } ] ]` the body of the inner
array reports an error at the brace, `parse_array_def` meets the closing
bracket right after it and returns 0, and the load returns 0. -/
theorem snd_config_load_array_error_masked :
    snd_config_load libc_no_real 20 snd_config_top (cstr "a [ [ 1 2 \x7d ] ]")
      = some (0, .compound none false [.compound (some (cstr "a")) false
          [.compound (some (cstr "0")) false
            [.integer (some (cstr "0")) 1, .integer (some (cstr "1")) 2]]]) := by
  decide!

/-- Counterexample to C20 as stated: the load of `a 1`, newline, `b {` fails
with `-EINVAL` at the end of the input, and the definition `a 1` parsed before
the error stays in the top node, which was empty before the call. -/
theorem snd_config_load_failed_partial :
    snd_config_load libc_no_real 20 snd_config_top (cstr "a 1\nb \x7b")
      = some (-EINVAL, .compound none false [.integer (some (cstr "a")) 1]) := by
  decide!

/-- Claim C25 (insertion with duplicate check).  For a compound `father` and a
leaf with an identifier: `snd_config_add` fails with `-EEXIST` exactly when a
child of `father` has the identifier of the leaf (nothing is changed then),
and otherwise returns the father with the leaf as its last child after the
earlier children, unchanged and in their order. -/
theorem snd_config_add_checks (I : Option Str) (J : Bool) (fs : List snd_config_t)
    (leaf : snd_config_t) (lid : Str) (hl : snd_config_get_id leaf = some lid) :
    ((∃ n ∈ fs, snd_config_get_id n = some lid) →
      snd_config_add (.compound I J fs) leaf = .error (-EEXIST)) ∧
    ((¬ ∃ n ∈ fs, snd_config_get_id n = some lid) →
      snd_config_add (.compound I J fs) leaf = .ok (.compound I J (fs ++ [leaf]))) := by
  constructor
  · rintro ⟨n, hn, hid⟩
    have : (fields (.compound I J fs)).any (same_id leaf) = true := by
      rw [List.any_eq_true]
      exact ⟨n, hn, by simp [same_id, hl, hid]⟩
    simp [snd_config_add, this]
  · intro h
    have : (fields (.compound I J fs)).any (same_id leaf) = false := by
      rw [List.any_eq_false]
      intro n hn hs
      apply h
      refine ⟨n, hn, ?_⟩
      simp only [same_id, hl] at hs
      split at hs
      · rename_i a b ha hb
        simp only [decide_eq_true_eq] at hs
        cases ha
        rw [hb, hs]
      · cases hs
    simp only [snd_config_add, this]
    rfl

/-- Witness of C25: `b` is added after `a`; a second `a` is refused. -/
theorem snd_config_add_checks_example :
    snd_config_add (.compound none false [.integer (some (cstr "a")) 1])
        (.integer (some (cstr "a")) 2) = .error (-EEXIST) ∧
    snd_config_add (.compound none false [.integer (some (cstr "a")) 1])
        (.integer (some (cstr "b")) 2)
      = .ok (.compound none false [.integer (some (cstr "a")) 1, .integer (some (cstr "b")) 2]) :=
  ⟨(snd_config_add_checks none false _ (.integer (some (cstr "a")) 2) (cstr "a") rfl).1
      ⟨_, List.mem_cons_self _ _, rfl⟩,
    (snd_config_add_checks none false _ (.integer (some (cstr "b")) 2) (cstr "b") rfl).2
      (by decide)⟩

/-- Claim C30 fails in the code (for a 64-bit `long`): the buffer of
`snd_config_get_ascii` has 12 bytes.  For the Integer 1234567890123 the call
returns the first 11 digits, which `safe_strtol` reads as 12345678901; for the
Integer 100000000000, whose text has 12 digits, the call fails with `-ENOMEM`. -/
theorem snd_config_get_ascii_truncates :
    snd_config_get_ascii libc_no_real (.integer (some (cstr "a")) 1234567890123)
      = .ok (cstr "12345678901") ∧
    safe_strtol (cstr "12345678901") = .ok 12345678901 ∧
    snd_config_get_ascii libc_no_real (.integer (some (cstr "a")) 100000000000)
      = .error (-ENOMEM) := by
  decide

/-- The ASCII form of an Integer whose decimal text has at most 11 characters
is that text, and `safe_strtol` reads it back. -/
theorem snd_config_get_ascii_short (L : libc_double) (id : Option Str) (v : Int)
    (hlen : (dec_int v).length ≤ 11) (hv : LONG_MIN ≤ v ∧ v ≤ LONG_MAX) :
    snd_config_get_ascii L (.integer id v) = .ok (dec_int v) ∧
    safe_strtol (dec_int v) = .ok v := by
  refine ⟨?_, safe_strtol_dec_int v hv⟩
  have h12 : ¬ (dec_int v).length = 12 := by omega
  simp only [snd_config_get_ascii, h12, if_false]
  rw [List.take_of_length_le hlen]


theorem get_quotedchar_octal_spec : ∀ (k : Nat) (X : List Nat) (num : Int) (inp : input_t),
    Feeds inp X →
    ∃ inp1, get_quotedchar_octal k num inp
        = (((X.takeWhile is_octal).take k).foldl
            (fun (a : Int) (d : Nat) => a * 8 + ((d : Int) - 48)) num, inp1) ∧
      Feeds inp1 (X.drop ((X.takeWhile is_octal).take k).length) := by
  intro k
  induction k with
  | zero => intro X num inp hf; exact ⟨inp, by simp [get_quotedchar_octal], by simpa using hf⟩
  | succ k ih =>
    intro X num inp hf
    cases X with
    | nil =>
      obtain ⟨inp1, hg, hc⟩ := get_char_nil hf
      refine ⟨unget_char EOF inp1, ?_, by simpa using unget_eof_feeds hc⟩
      simp [get_quotedchar_octal, hg, EOF]
    | cons c R =>
      obtain ⟨inp1, hg, hc⟩ := get_char_cons hf
      by_cases ho : is_octal c = true
      · obtain ⟨inp2, h2, hf2⟩ := ih R (num * 8 + (c : Int) - 48) inp1 hc.feeds
        have hoc : 48 ≤ c ∧ c ≤ 55 := by simpa [is_octal] using ho
        have hn : ¬ ((c : Int) < 48 ∨ (c : Int) > 55) := by omega
        refine ⟨inp2, ?_, ?_⟩
        · simp only [get_quotedchar_octal, hg, hn, if_false, h2, List.takeWhile_cons, ho, if_true,
            List.take_succ_cons, List.foldl_cons]
          congr 2
          ring
        · simpa [List.takeWhile_cons, ho] using hf2
      · have hoc : ¬ (48 ≤ c ∧ c ≤ 55) := by simpa [is_octal] using ho
        have hn : ((c : Int) < 48 ∨ (c : Int) > 55) := by omega
        refine ⟨unget_char (c : Int) inp1, ?_, ?_⟩
        · have hl : get_quotedchar_octal (k + 1) num inp = (num, unget_char (c : Int) inp1) := by
            simp only [get_quotedchar_octal, hg, hn, if_true]
          rw [hl]
          simp [List.takeWhile_cons, ho]
        · simpa [List.takeWhile_cons, ho] using unget_feeds c hc

/-- Claim C23 (escape decoding).  On the text `X` after a backslash
`get_quotedchar` returns what `escape_value` says: newline, tab, vertical tab,
backspace, carriage return and form feed for `n t v b r f`; for a first
character in `0`..`7` the base-8 value of the octal digits that follow one
another, at most three of them; any other character itself.  The input left
delivers the text after the characters consumed, the first character that is
no octal digit included. -/
theorem get_quotedchar_decodes (X : List Nat) (inp : input_t) (hf : Feeds inp X) :
    ∃ inp1, get_quotedchar inp = ((escape_value X).1, inp1) ∧ Feeds inp1 (escape_value X).2 := by
  cases X with
  | nil =>
    obtain ⟨inp1, hg, hc⟩ := get_char_nil hf
    refine ⟨inp1, ?_, hc.feeds⟩
    simp [get_quotedchar, hg, EOF, escape_value]
  | cons c R =>
    obtain ⟨inp1, hg, hc⟩ := get_char_cons hf
    by_cases h1 : c = 110
    · exact ⟨inp1, by subst h1; simp [get_quotedchar, hg, escape_value], by
        subst h1; simpa [escape_value] using hc.feeds⟩
    by_cases h2 : c = 116
    · exact ⟨inp1, by subst h2; simp [get_quotedchar, hg, escape_value], by
        subst h2; simpa [escape_value] using hc.feeds⟩
    by_cases h3 : c = 118
    · exact ⟨inp1, by subst h3; simp [get_quotedchar, hg, escape_value], by
        subst h3; simpa [escape_value] using hc.feeds⟩
    by_cases h4 : c = 98
    · exact ⟨inp1, by subst h4; simp [get_quotedchar, hg, escape_value], by
        subst h4; simpa [escape_value] using hc.feeds⟩
    by_cases h5 : c = 114
    · exact ⟨inp1, by subst h5; simp [get_quotedchar, hg, escape_value], by
        subst h5; simpa [escape_value] using hc.feeds⟩
    by_cases h6 : c = 102
    · exact ⟨inp1, by subst h6; simp [get_quotedchar, hg, escape_value], by
        subst h6; simpa [escape_value] using hc.feeds⟩
    have e1 : ¬ ((c : Int) = 110) := by omega
    have e2 : ¬ ((c : Int) = 116) := by omega
    have e3 : ¬ ((c : Int) = 118) := by omega
    have e4 : ¬ ((c : Int) = 98) := by omega
    have e5 : ¬ ((c : Int) = 114) := by omega
    have e6 : ¬ ((c : Int) = 102) := by omega
    by_cases ho : is_octal c = true
    · have hoc : 48 ≤ c ∧ c ≤ 55 := by simpa [is_octal] using ho
      have hn : (48 : Int) ≤ (c : Int) ∧ (c : Int) ≤ 55 := by omega
      obtain ⟨inp2, h2', hf2⟩ := get_quotedchar_octal_spec 2 R ((c : Int) - 48) inp1 hc.feeds
      refine ⟨inp2, ?_, ?_⟩
      · simp only [get_quotedchar, hg, e1, e2, e3, e4, e5, e6, if_false, hn, and_self, if_true,
          h2', escape_value, h1, h2, h3, h4, h5, h6, ho, List.takeWhile_cons,
          List.take_succ_cons, octal_value, List.foldl_cons]
        simp
      · simpa [escape_value, h1, h2, h3, h4, h5, h6, ho, List.takeWhile_cons] using hf2
    · have hoc : ¬ (48 ≤ c ∧ c ≤ 55) := by simpa [is_octal] using ho
      have hn : ¬ ((48 : Int) ≤ (c : Int) ∧ (c : Int) ≤ 55) := by omega
      refine ⟨inp1, ?_, ?_⟩
      · have hl : get_quotedchar inp = ((c : Int), inp1) := by
          simp only [get_quotedchar, hg, e1, e2, e3, e4, e5, e6, hn, if_false]
        rw [hl]
        simp [escape_value, h1, h2, h3, h4, h5, h6, ho]
      · simpa [escape_value, h1, h2, h3, h4, h5, h6, ho] using hc.feeds

/-- Witness of C23: after a backslash `n` is the newline, `101x` is the value
65 with `x` left, `1234` is the value 83 with `4` left, `q` is `q`. -/
theorem get_quotedchar_decodes_example :
    Feeds (mk_input (cstr "101x")) (cstr "101x") ∧
    (∃ inp1, get_quotedchar (mk_input (cstr "101x")) = (65, inp1) ∧ Feeds inp1 (cstr "x")) ∧
    escape_value (cstr "n") = (10, []) ∧ escape_value (cstr "1234") = (83, cstr "4") ∧
    escape_value (cstr "q") = (113, []) :=
  ⟨Or.inl ⟨rfl, rfl⟩, get_quotedchar_decodes (cstr "101x") _ (Or.inl ⟨rfl, rfl⟩),
    by decide, by decide, by decide⟩

theorem freestring_end_iff (id : Bool) (c : Int) :
    freestring_end id c = true ↔ token_terminator id c := by
  simp only [freestring_end, token_terminator, Bool.or_eq_true, Bool.and_eq_true,
    decide_eq_true_eq, EOF]
  tauto

theorem c_string_bytes (w : Str) (h : ∀ c ∈ w, 1 ≤ c) : c_string w = w := by
  unfold c_string
  rw [List.takeWhile_eq_self_iff]
  intro c hc
  have := h c hc
  simp only [ne_eq, decide_not, Bool.not_eq_true', decide_eq_false_iff_not]
  omega

theorem get_freestring_loop_token (id : Bool) (T : List Nat)
    (hT : T = [] ∨ ∃ t T1, T = t :: T1 ∧ freestring_end id (t : Int) = true) (w : Str) :
    ∀ (fuel : Nat) (inp : input_t) (buf : List Nat), w.all (token_byte id) = true →
      Feeds inp (w ++ T) → w.length < fuel →
      ∃ inp1, get_freestring_loop fuel id inp buf = (c_string (buf ++ w), inp1) ∧
        Feeds inp1 T := by
  induction w with
  | nil =>
    intro fuel inp buf _ hf hfuel
    cases fuel with
    | zero => simp at hfuel
    | succ fuel =>
      rcases hT with rfl | ⟨t, T1, rfl, ht⟩
      · obtain ⟨inp1, hg, hc⟩ := get_char_nil hf
        refine ⟨unget_char EOF inp1, ?_, unget_eof_feeds hc⟩
        have he : freestring_end id EOF = true := by simp [freestring_end]
        simp only [get_freestring_loop, hg, he, if_true, List.append_nil]
      · obtain ⟨inp1, hg, hc⟩ := get_char_cons hf
        refine ⟨unget_char (t : Int) inp1, ?_, unget_feeds t hc⟩
        simp only [get_freestring_loop, hg, ht, if_true, List.append_nil]
  | cons c w ih =>
    intro fuel inp buf hall hf hfuel
    simp only [List.all_cons, Bool.and_eq_true] at hall
    obtain ⟨hcb, hrest⟩ := hall
    simp only [token_byte, Bool.and_eq_true, decide_eq_true_eq, Bool.not_eq_true'] at hcb
    obtain ⟨⟨h1, h255⟩, hne⟩ := hcb
    obtain ⟨inp1, hg, hc⟩ := get_char_cons hf
    cases fuel with
    | zero => simp at hfuel
    | succ fuel =>
      obtain ⟨inp2, hl, hf2⟩ := ih fuel inp1 (buf ++ [c]) hrest hc.feeds
        (by simp at hfuel; omega)
      refine ⟨inp2, ?_, hf2⟩
      have htc : to_char (c : Int) = c := by
        unfold to_char
        omega
      simp only [get_freestring_loop, hg, hne, Bool.false_eq_true, if_false, htc, hl]
      simp

/-- Claim C24 (free-form token boundaries).  `get_freestring` returns exactly
the bytes in front of the first terminator and leaves the terminator to be
read again; a terminator is the end of the input, a blank (space, form feed,
tab, newline, carriage return), one of `= , ; { } [ ] ' " \ #`, and `.` when
an identifier is read.  The bytes of the token are bytes of a C string: none
of them is NUL. -/
theorem get_freestring_token (id : Bool) (w : Str) (T : List Nat) (inp : input_t)
    (hw : w.all (token_byte id) = true)
    (hT : T = [] ∨ ∃ t T1, T = t :: T1 ∧ token_terminator id (t : Int))
    (hf : Feeds inp (w ++ T)) :
    (∃ inp1, get_freestring id inp = (w, inp1) ∧ Feeds inp1 T) ∧
    ∀ c : Int, freestring_end id c = true ↔ token_terminator id c := by
  refine ⟨?_, freestring_end_iff id⟩
  have hT2 : T = [] ∨ ∃ t T1, T = t :: T1 ∧ freestring_end id (t : Int) = true := by
    rcases hT with h | ⟨t, T1, h, ht⟩
    · exact Or.inl h
    · exact Or.inr ⟨t, T1, h, (freestring_end_iff id _).mpr ht⟩
  have hlen := feeds_length hf
  obtain ⟨inp1, hl, hf1⟩ := get_freestring_loop_token id T hT2 w
    (inp.current.length + 2) inp [] hw hf (by simp at hlen; omega)
  refine ⟨inp1, ?_, hf1⟩
  unfold get_freestring
  rw [hl, List.nil_append, c_string_bytes]
  intro c hc
  have := List.all_eq_true.mp hw c hc
  simp only [token_byte, Bool.and_eq_true, decide_eq_true_eq] at this
  exact this.1.1

/-- Witness of C24: `a.b` read as an identifier yields `a` and leaves `.b`;
`1.5` read as a value yields `1.5`. -/
theorem get_freestring_token_example :
    ((cstr "a").all (token_byte true) = true ∧
      ∃ inp1, get_freestring true (mk_input (cstr "a.b")) = (cstr "a", inp1) ∧
        Feeds inp1 (cstr ".b")) ∧
    ((cstr "1.5").all (token_byte false) = true ∧
      ∃ inp1, get_freestring false (mk_input (cstr "1.5")) = (cstr "1.5", inp1) ∧
        Feeds inp1 []) :=
  ⟨⟨by decide, (get_freestring_token true (cstr "a") (cstr ".b") (mk_input (cstr "a.b"))
      (by decide) (Or.inr ⟨46, cstr "b", rfl, by simp [token_terminator]⟩)
      (Or.inl ⟨rfl, rfl⟩)).1⟩,
   ⟨by decide, (get_freestring_token false (cstr "1.5") [] (mk_input (cstr "1.5"))
      (by decide) (Or.inl rfl) (Or.inl ⟨rfl, rfl⟩)).1⟩⟩

/-- Claim C22 fails in the code: `a[b`, `a]b`, `a#b` and the text `a`,
backslash, `b` contain a structural character, and `string_print` writes them
unquoted: its list of quoting characters has none of `[ ] \ #`. -/
theorem string_print_bracket_unquoted :
    string_print (cstr "a[b") false = some (cstr "a[b") ∧
    string_print (cstr "a]b") false = some (cstr "a]b") ∧
    string_print (cstr "a#b") false = some (cstr "a#b") ∧
    string_print [97, 92, 98] false = some [97, 92, 98] := by
  decide

/-- Claim C21 fails in the code: the two bytes 195, 169 are written as a
quoted text with a backslash and four octal digits for each byte, of which the
lexer reads three: the token read back has the four bytes 24, 51, 21, 49. -/
theorem string_print_octal_misread :
    string_print [195, 169] false = some (cstr "'\\0303\\0251'") ∧
    get_string false (mk_input (cstr "'\\0303\\0251'"))
      = ⟨1, [24, 51, 21, 49], ⟨[], false, 0, 0⟩⟩ := by
  decide

/-- The status of `snd_config_expand` is negative or 1. -/
theorem snd_config_expand_status (L : libc_double) (call : func_call) (fuel : Nat)
    (config root : snd_config_t) (args : Option Str) (e : Int) (r : Option snd_config_t)
    (h : snd_config_expand L call fuel config root args = some (e, r)) : e < 0 ∨ e = 1 := by
  have hend : ∀ res e r, snd_config_expand_end call root res = (e, r) → e < 0 ∨ e = 1 := by
    intro res e r h
    unfold snd_config_expand_end at h
    simp only at h
    split at h
    · cases h; left; assumption
    · cases h; right; rfl
  unfold snd_config_expand at h
  split at h
  · split at h
    · cases h
    · split at h
      · cases h; left; assumption
      · split at h
        · cases h
        · simp only [Option.some.injEq] at h
          exact hend _ _ _ h
  · split at h
    · cases h
    · split at h
      · cases h; left; assumption
      · split at h
        · cases h
        · split at h
          · cases h; left; assumption
          · split at h
            · cases h
            · simp only at h
              split at h
              · cases h; left; assumption
              · split at h
                · cases h
                · split at h
                  · cases h; left; assumption
                  · split at h
                    · cases h
                    · simp only [Option.some.injEq] at h
                      exact hend _ _ _ h

/-- Claim C26 fails in the code: a successful `snd_config_expand` returns 1,
set by `err = 1` before its end, and `snd_config_search_definition` returns
that status; the documentation of both says 0.  Here the definition
`pcm.front` is expanded without arguments. -/
theorem snd_config_expand_returns_one :
    snd_config_expand libc_no_real no_functions 10
        (.compound (some (cstr "front")) false [.string (some (cstr "type")) (cstr "hw")])
        definition_tree none
      = some (1, some (.compound (some (cstr "front")) false
          [.string (some (cstr "type")) (cstr "hw")])) ∧
    snd_config_search_definition libc_no_real no_functions 10 definition_tree
        (some (cstr "pcm")) (cstr "front")
      = some (1, some (.compound (some (cstr "front")) false
          [.string (some (cstr "type")) (cstr "hw")])) := by
  decide!


theorem preload_pass_entries (L : libc_double) (W : world) :
    ∀ (cs : List snd_config_t) (ix : List Int) (es : List finfo) (s : preload_sel),
      cs.map (fun c => (snd_config_get_id c).map safe_strtol) = ix.map (fun i => some (.ok i)) →
      cs.map (preload_file L W) = es.map (fun e => .ok (some e)) →
      preload_pass L W cs s = some (.ok (pass_entries ix es s)) := by
  intro cs
  induction cs with
  | nil =>
    intro ix es s h1 h2
    cases ix with
    | nil => cases es <;> rfl
    | cons i ix => cases h1
  | cons c rest ih =>
    intro ix es s h1 h2
    cases ix with
    | nil => cases h1
    | cons i ix =>
      cases es with
      | nil => cases h2
      | cons e es =>
        simp only [List.map_cons, List.cons.injEq] at h1 h2
        obtain ⟨h1a, h1b⟩ := h1
        obtain ⟨h2a, h2b⟩ := h2
        cases hid : snd_config_get_id c with
        | none => rw [hid] at h1a; cases h1a
        | some id =>
          rw [hid] at h1a
          simp only [Option.map_some', Option.some.injEq] at h1a
          simp only [preload_pass, hid, h1a, h2a, pass_entries]
          by_cases hi : i = (s.idx : Int)
          · rw [if_pos hi, if_pos hi]
            exact ih ix es _ h1b h2b
          · rw [if_neg hi, if_neg hi]
            exact ih ix es _ h1b h2b

theorem lookup_zip_at (i : Int) (e : finfo) :
    ∀ (pre : List Int) (pre2 : List finfo) (ix : List Int) (es : List finfo),
      pre.length = pre2.length → i ∉ pre →
      ((pre ++ i :: ix).zip (pre2 ++ e :: es)).lookup i = some e := by
  intro pre
  induction pre with
  | nil =>
    intro pre2 ix es hl _
    cases pre2 with
    | nil => simp [List.lookup]
    | cons a as => cases hl
  | cons p pre ih =>
    intro pre2 ix es hl hn
    cases pre2 with
    | nil => cases hl
    | cons a as =>
      simp only [List.mem_cons, not_or] at hn
      simp only [List.cons_append, List.zip_cons_cons, List.lookup]
      have hne : (i == p) = false := by simpa using hn.1
      rw [hne]
      exact ih as ix es (by simpa using hl) hn.2

/-- The pass keeps the invariant of the selection: `idx` is at most `m` and
`fi` holds the files of the indices below `idx`. -/
theorem pass_entries_inv (IX : List Int) (ES : List finfo) (m : Nat)
    (hnd : IX.Nodup) (hm : (m : Int) ∉ IX) :
    ∀ (ix : List Int) (es : List finfo) (pre : List Int) (pre2 : List finfo) (s : preload_sel),
      IX = pre ++ ix → ES = pre2 ++ es → pre.length = pre2.length →
      s.idx ≤ m → s.fi = files_below IX ES s.idx →
      (pass_entries ix es s).idx ≤ m ∧
      (pass_entries ix es s).fi = files_below IX ES (pass_entries ix es s).idx ∧
      (pass_entries ix es s).fi_count = s.fi_count := by
  intro ix
  induction ix with
  | nil =>
    intro es pre pre2 s _ _ _ hle hfi
    cases es <;> exact ⟨hle, hfi, rfl⟩
  | cons i ix ih =>
    intro es pre pre2 s hIX hES hl hle hfi
    cases es with
    | nil => exact ⟨hle, hfi, rfl⟩
    | cons e es =>
      have hIX2 : IX = (pre ++ [i]) ++ ix := by rw [hIX]; simp
      have hES2 : ES = (pre2 ++ [e]) ++ es := by rw [hES]; simp
      have hl2 : (pre ++ [i]).length = (pre2 ++ [e]).length := by simp [hl]
      simp only [pass_entries]
      by_cases hi : i = (s.idx : Int)
      · rw [if_pos hi]
        have hmem : (s.idx : Int) ∈ IX := by rw [hIX, ← hi]; simp
        have hlt : s.idx < m := by
          rcases Nat.lt_or_ge s.idx m with h | h
          · exact h
          · have : s.idx = m := le_antisymm hle h
            rw [this] at hmem
            exact absurd hmem hm
        have hnot : i ∉ pre := by
          rw [hIX] at hnd
          have := (List.nodup_append.mp hnd).2.2
          intro hp
          exact this hp (List.mem_cons_self i ix)
        have hlook : (IX.zip ES).lookup (s.idx : Int) = some e := by
          rw [hIX, hES, ← hi]
          exact lookup_zip_at i e pre pre2 ix es hl hnot
        have hfi2 : s.fi ++ [e] = files_below IX ES (s.idx + 1) := by
          unfold files_below
          rw [List.range_succ, List.filterMap_append]
          simp only [List.filterMap_cons, List.filterMap_nil, hlook]
          rw [hfi]
          rfl
        exact ih es (pre ++ [i]) (pre2 ++ [e]) ⟨s.idx + 1, s.fi ++ [e], s.fi_count, true⟩
          hIX2 hES2 hl2 hlt hfi2
      · rw [if_neg hi]
        exact ih es (pre ++ [i]) (pre2 ++ [e]) s hIX2 hES2 hl2 hle hfi

/-- A pass either sets `hit` and moves `idx` on, or changes nothing because no
child has the index `idx`. -/
theorem pass_entries_hit :
    ∀ (ix : List Int) (es : List finfo) (s : preload_sel), ix.length = es.length →
      s.idx ≤ (pass_entries ix es s).idx ∧
      ((pass_entries ix es s).hit = true → s.hit = true ∨ s.idx < (pass_entries ix es s).idx) ∧
      ((pass_entries ix es s).hit = false → pass_entries ix es s = s ∧ (s.idx : Int) ∉ ix) := by
  intro ix
  induction ix with
  | nil =>
    intro es s _
    cases es <;> simp [pass_entries]
  | cons i ix ih =>
    intro es s hl
    cases es with
    | nil => cases hl
    | cons e es =>
      have hl2 : ix.length = es.length := by simpa using hl
      simp only [pass_entries]
      by_cases hi : i = (s.idx : Int)
      · rw [if_pos hi]
        obtain ⟨h1, h2, h3⟩ := ih es ⟨s.idx + 1, s.fi ++ [e], s.fi_count, true⟩ hl2
        simp only at h1 h2 h3
        refine ⟨by omega, fun _ => Or.inr (by omega), ?_⟩
        intro hf
        have := (h3 hf).1
        rw [this] at hf
        cases hf
      · rw [if_neg hi]
        obtain ⟨h1, h2, h3⟩ := ih es s hl2
        refine ⟨h1, h2, ?_⟩
        intro hf
        refine ⟨(h3 hf).1, ?_⟩
        simp only [List.mem_cons, not_or]
        exact ⟨fun h => hi h.symm, (h3 hf).2⟩

theorem preload_select_entries (L : libc_double) (W : world) (cs : List snd_config_t)
    (ix : List Int) (es : List finfo) (m : Nat)
    (hid : cs.map (fun c => (snd_config_get_id c).map safe_strtol)
      = ix.map (fun i => some (.ok i)))
    (hfile : cs.map (preload_file L W) = es.map (fun e => .ok (some e)))
    (hnd : ix.Nodup) (hlt : ∀ j < m, (j : Int) ∈ ix) (hm : (m : Int) ∉ ix) :
    ∀ (fuel : Nat) (s : preload_sel), m - s.idx < fuel → s.idx ≤ m →
      s.fi = files_below ix es s.idx →
      preload_select L W cs fuel s = some (.ok ⟨m, files_below ix es m, s.fi_count, false⟩) := by
  have hlen : ix.length = es.length := by
    have a := congrArg List.length hid
    have b := congrArg List.length hfile
    simp only [List.length_map] at a b
    omega
  intro fuel
  induction fuel with
  | zero => intro s h; omega
  | succ fuel ih =>
    intro s hf hle hfi
    simp only [preload_select]
    rw [preload_pass_entries L W cs ix es _ hid hfile]
    simp only
    obtain ⟨i1, i2, i3⟩ := pass_entries_inv ix es m hnd hm ix es [] []
      ⟨s.idx, s.fi, s.fi_count, false⟩ rfl rfl rfl hle hfi
    obtain ⟨h1, h2, h3⟩ := pass_entries_hit ix es ⟨s.idx, s.fi, s.fi_count, false⟩ hlen
    simp only at i1 i2 i3 h1 h2 h3
    cases hh : (pass_entries ix es ⟨s.idx, s.fi, s.fi_count, false⟩).hit with
    | true =>
      rw [if_pos rfl]
      have hadv := h2 hh
      simp only [Bool.false_eq_true, false_or] at hadv
      rw [ih _ (by omega) i1 i2, i3]
    | false =>
      obtain ⟨heq, hnot⟩ := h3 hh
      have hidx : s.idx = m := by
        rcases Nat.lt_or_ge s.idx m with h | h
        · exact absurd (hlt _ h) hnot
        · exact le_antisymm hle h
      simp only [Bool.false_eq_true, if_false]
      rw [heq]
      simp only [Option.some.injEq, Except.ok.injEq, preload_sel.mk.injEq, true_and, and_true]
      exact ⟨hidx, by rw [hfi, hidx]⟩


theorem lookup_zip_mem (ix : List Int) (es : List finfo) (i : Int)
    (hlen : ix.length = es.length) (hnd : ix.Nodup) (hi : i ∈ ix) :
    ∃ e, (ix.zip es).lookup i = some e := by
  obtain ⟨s, t, hst⟩ := List.append_of_mem hi
  have hns : i ∉ s := by
    rw [hst] at hnd
    intro hp
    exact (List.nodup_append.mp hnd).2.2 hp (List.mem_cons_self _ t)
  have hsl : s.length < es.length := by
    rw [← hlen, hst]; simp
  have hes : ∃ p e q, es = p ++ e :: q ∧ s.length = p.length := by
    refine ⟨es.take s.length, es.get ⟨s.length, hsl⟩, es.drop (s.length + 1), ?_, ?_⟩
    · conv_lhs => rw [← List.take_append_drop s.length es]
      rw [List.drop_eq_getElem_cons hsl]
      rfl
    · simp; omega
  obtain ⟨p, e, q, hpe, hpl⟩ := hes
  refine ⟨e, ?_⟩
  rw [hst, hpe]
  exact lookup_zip_at i e s p t q hpl hns

theorem files_below_spec (ix : List Int) (es : List finfo)
    (hlen : ix.length = es.length) (hnd : ix.Nodup) :
    ∀ m : Nat, (∀ j : Nat, j < m → (j : Int) ∈ ix) →
      (files_below ix es m).length = m ∧
      ∀ j : Nat, j < m → (files_below ix es m)[j]? = (ix.zip es).lookup (j : Int) := by
  intro m
  induction m with
  | zero => intro _; exact ⟨rfl, fun j hj => absurd hj (Nat.not_lt_zero j)⟩
  | succ m ih =>
    intro hlt
    obtain ⟨hl, hget⟩ := ih (fun j hj => hlt j (by omega))
    obtain ⟨e, he⟩ := lookup_zip_mem ix es (m : Int) hlen hnd (hlt m (by omega))
    have hstep : files_below ix es (m + 1) = files_below ix es m ++ [e] := by
      unfold files_below
      rw [List.range_succ, List.filterMap_append]
      simp [he]
    rw [hstep]
    refine ⟨by simp [hl], ?_⟩
    intro j hj
    rcases Nat.lt_or_ge j m with h | h
    · rw [List.getElem?_append_left (by omega)]
      exact hget j h
    · have hjm : j = m := by omega
      subst hjm
      rw [List.getElem?_append_right (by omega), hl, he]
      simp

/-- Claim C29 fails in the code: the selection loop of `snd_config_preload`
ends at the first index that no child has.  With the children `0 a`, `1 b`
and `3 c` the files `a` and `b` are loaded and `c` is not, and the third slot
of the recorded array is left empty; with the children `0 a`, `01 b` and
`1 c` the child `1`, of the same value as `01`, is not selected. -/
theorem snd_config_preload_gap :
    snd_config_preload libc_no_real no_functions (example_world none) 20
        (preload_tree [(cstr "0", cstr "a"), (cstr "1", cstr "b"), (cstr "3", cstr "c")])
      = some (0,
          .compound none false
            [.compound (some (cstr "preload")) false
              [.compound (some (cstr "filenames")) false
                [.string (some (cstr "0")) (cstr "a"), .string (some (cstr "1")) (cstr "b"),
                 .string (some (cstr "3")) (cstr "c")]],
             .integer (some (cstr "x")) 1, .integer (some (cstr "y")) 2],
          some [⟨some (cstr "a"), 1, 11, 100⟩, ⟨some (cstr "b"), 1, 12, 100⟩, ⟨none, 0, 0, 0⟩]) ∧
    preload_select libc_no_real (example_world none)
        [.string (some (cstr "0")) (cstr "a"), .string (some (cstr "01")) (cstr "b"),
         .string (some (cstr "1")) (cstr "c")] 20 ⟨0, [], 3, false⟩
      = some (.ok ⟨2, [⟨some (cstr "a"), 1, 11, 100⟩, ⟨some (cstr "b"), 1, 12, 100⟩], 3, false⟩) := by
  decide!

/-- Claim C29, amended (order of the preload).  For children whose identifiers
are integers `ix` of pairwise different values and that each name one file
that exists (`es`), with every index below `m` present and `m` itself missing,
the selection loop of `snd_config_preload` ends after at most `m + 1` passes
with `idx = m` and with exactly the `m` files of the indices `0, 1, ..., m - 1`
in `fi`, in this ascending order; children with an index above `m` are not
selected. -/
theorem snd_config_preload_order (L : libc_double) (W : world) (cs : List snd_config_t)
    (ix : List Int) (es : List finfo) (m c0 fuel : Nat)
    (hid : cs.map (fun c => (snd_config_get_id c).map safe_strtol)
      = ix.map (fun i => some (.ok i)))
    (hfile : cs.map (preload_file L W) = es.map (fun e => .ok (some e)))
    (hnd : ix.Nodup) (hlt : ∀ j < m, (j : Int) ∈ ix) (hm : (m : Int) ∉ ix)
    (hfuel : m < fuel) :
    preload_select L W cs fuel ⟨0, [], c0, false⟩
      = some (.ok ⟨m, files_below ix es m, c0, false⟩) ∧
    (files_below ix es m).length = m ∧
    ∀ j < m, (files_below ix es m)[j]? = (ix.zip es).lookup (j : Int) := by
  have hlen : ix.length = es.length := by
    have a := congrArg List.length hid
    have b := congrArg List.length hfile
    simp only [List.length_map] at a b
    omega
  obtain ⟨hl, hget⟩ := files_below_spec ix es hlen hnd m hlt
  exact ⟨preload_select_entries L W cs ix es m hid hfile hnd hlt hm fuel ⟨0, [], c0, false⟩
    (by simpa using hfuel) (Nat.zero_le m) rfl, hl, hget⟩

/-- Witness of C29: the children `1 b`, `0 a` and `3 c` select `a`, then `b`. -/
theorem snd_config_preload_order_example :
    preload_select libc_no_real (example_world none)
        [.string (some (cstr "1")) (cstr "b"), .string (some (cstr "0")) (cstr "a"),
         .string (some (cstr "3")) (cstr "c")] 3 ⟨0, [], 3, false⟩
      = some (.ok ⟨2, [⟨some (cstr "a"), 1, 11, 100⟩, ⟨some (cstr "b"), 1, 12, 100⟩], 3, false⟩) :=
  (snd_config_preload_order libc_no_real (example_world none)
    [.string (some (cstr "1")) (cstr "b"), .string (some (cstr "0")) (cstr "a"),
     .string (some (cstr "3")) (cstr "c")]
    [1, 0, 3]
    [⟨some (cstr "b"), 1, 12, 100⟩, ⟨some (cstr "a"), 1, 11, 100⟩, ⟨some (cstr "c"), 1, 13, 100⟩]
    2 3 3 (by decide!) (by decide!) (by decide) (by decide) (by decide) (by decide)).1


theorem preload_file_recorded (L : libc_double) (W : world) (n : snd_config_t) (e : finfo)
    (h : preload_file L W n = .ok (some e)) : recorded W e := by
  unfold preload_file at h
  split at h
  · cases h
  · split at h
    · cases h
    · rename_i w hw
      split at h
      · cases h
      · rename_i st hst
        simp only [Except.ok.injEq, Option.some.injEq] at h
        exact Or.inr ⟨w, st, hst, h.symm⟩

theorem preload_pass_recorded (L : libc_double) (W : world) :
    ∀ (cs : List snd_config_t) (s s1 : preload_sel),
      (∀ e ∈ s.fi, recorded W e) → preload_pass L W cs s = some (.ok s1) →
      ∀ e ∈ s1.fi, recorded W e := by
  intro cs
  induction cs with
  | nil =>
    intro s s1 hs h
    simp only [preload_pass, Option.some.injEq, Except.ok.injEq] at h
    rw [← h]; exact hs
  | cons n rest ih =>
    intro s s1 hs h
    simp only [preload_pass] at h
    split at h
    · cases h
    · split at h
      · cases h
      · split at h
        · split at h
          · cases h
          · exact ih ⟨s.idx + 1, s.fi, s.fi_count - 1, true⟩ s1 hs h
          · rename_i e he
            refine ih ⟨s.idx + 1, s.fi ++ [e], s.fi_count, true⟩ s1 ?_ h
            intro x hx
            simp only [List.mem_append, List.mem_singleton] at hx
            rcases hx with hx | hx
            · exact hs x hx
            · rw [hx]; exact preload_file_recorded L W n e he
        · exact ih _ s1 hs h

theorem preload_select_recorded (L : libc_double) (W : world) (cs : List snd_config_t) :
    ∀ (fuel : Nat) (s s1 : preload_sel),
      (∀ e ∈ s.fi, recorded W e) → preload_select L W cs fuel s = some (.ok s1) →
      ∀ e ∈ s1.fi, recorded W e := by
  intro fuel
  induction fuel with
  | zero => intro s s1 _ h; cases h
  | succ fuel ih =>
    intro s s1 hs h
    simp only [preload_select] at h
    split at h
    · cases h
    · cases h
    · rename_i s2 hp
      have h2 := preload_pass_recorded L W cs ⟨s.idx, s.fi, s.fi_count, false⟩ s2 hs hp
      split at h
      · exact ih s2 s1 h2 h
      · simp only [Option.some.injEq, Except.ok.injEq] at h
        rw [← h]; exact h2

theorem preloaded_changed_recorded (W : world) (h0 : W.stat none = none) :
    ∀ (p : List finfo), (∀ e ∈ p, recorded W e) → preloaded_changed W p = false := by
  intro p
  induction p with
  | nil => intro _; rfl
  | cons e rest ih =>
    intro h
    have hr := ih (fun x hx => h x (List.mem_cons_of_mem _ hx))
    rcases h e (List.mem_cons_self _ _) with he | ⟨w, st, hst, he⟩
    · subst he
      simp only [preloaded_changed, h0, hr]
    · subst he
      simp only [preloaded_changed, hst, ne_eq, not_true_eq_false, or_self, if_false, hr]

theorem snd_config_preload_recorded (L : libc_double) (call : func_call) (W : world)
    (fuel : Nat) (root cfg : snd_config_t) (e : Int) (pre : Option (List finfo))
    (h : snd_config_preload L call W fuel root = some (e, cfg, pre)) :
    ∀ x ∈ pre.getD [], recorded W x := by
  have hnone : ∀ x ∈ (none : Option (List finfo)).getD [], recorded W x := by
    intro x hx; cases hx
  unfold snd_config_preload at h
  split at h
  · cases h; exact hnone
  · split at h
    · cases h; exact hnone
    · split at h
      · cases h
      · split at h
        · cases h; exact hnone
        · split at h
          · cases h
          · split at h
            · cases h; exact hnone
            · split at h
              · cases h; exact hnone
              · split at h
                · cases h
                · cases h; exact hnone
                · rename_i s hs
                  split at h
                  · cases h
                  · split at h
                    · cases h; exact hnone
                    · cases h
                      have hfi := preload_select_recorded L W _ fuel _ s
                        (fun x hx => by cases hx) hs
                      intro x hx
                      simp only [Option.getD_some, fi_slots, List.mem_append,
                        List.mem_replicate] at hx
                      rcases hx with hx | hx
                      · exact hfi x hx
                      · exact Or.inl hx.2

theorem files_differ_self : ∀ (fi : List finfo), files_differ fi fi = false := by
  intro fi
  induction fi with
  | nil => rfl
  | cons a rest ih => simp [files_differ, ih]

/-- A reread returns 1 or a negative status; with 1 it stores `fi` and a
preloaded list that agrees with the world. -/
theorem snd_config_update_reread_spec (L : libc_double) (call : func_call) (W : world)
    (fuel : Nat) (fi : Option (List finfo)) (e : Int) (s1 : update_state)
    (h : snd_config_update_reread L call W fuel fi = some (e, s1)) :
    e < 0 ∨ (e = 1 ∧ s1.snd_config.isSome = true ∧ s1.files_info = fi ∧
      ∀ x ∈ s1.preloaded_files_info.getD [], recorded W x) := by
  unfold snd_config_update_reread at h
  split at h
  · cases h
  · split at h
    · cases h; left; assumption
    · split at h
      · cases h
      · rename_i e1 cfg1 pre hp
        split at h
        · cases h; left; assumption
        · cases h
          right
          exact ⟨rfl, rfl, rfl, snd_config_preload_recorded L call W fuel _ cfg1 e1 pre hp⟩


theorem expand_word_error (W : world) (name : Str) (e : Int)
    (h : expand_word W name = .error e) : e < 0 := by
  unfold expand_word at h
  simp only at h
  split at h
  · cases h; decide
  · split at h
    · split at h
      · cases h
      · cases h; decide
    · cases h; decide

theorem expand_names_error (W : world) :
    ∀ (names : List Str) (e : Int), expand_names W names = .error e → e < 0 := by
  intro names
  induction names with
  | nil => intro e h; cases h
  | cons n rest ih =>
    intro e h
    simp only [expand_names] at h
    split at h
    · rename_i e1 he1
      cases h
      exact expand_word_error W n _ he1
    · split at h
      · rename_i e2 he2
        cases h
        exact ih _ he2
      · cases h

/-- Claim C27 fails in the code: an update that fails at `wordexp` deletes the
tree at `_end` and keeps `files_info`, so the next update with the files as
recorded returns 0 although there is no tree.  Here the first call builds the
tree from the path list `a`, the second has the path list `$(x)` and fails
with `-EINVAL`, and the third, with the path list `a` again, returns 0 with
`snd_config` null. -/
theorem snd_config_update_stale_cache :
    snd_config_update libc_no_real no_functions (example_world (some (cstr "a"))) 20
        update_initial = some (1, update_built) ∧
    snd_config_update libc_no_real no_functions (example_world (some (cstr "$(x)"))) 20
        update_built = some (-EINVAL, ⟨none, some [⟨some (cstr "a"), 1, 11, 100⟩], none⟩) ∧
    snd_config_update libc_no_real no_functions (example_world (some (cstr "a"))) 20
        ⟨none, some [⟨some (cstr "a"), 1, 11, 100⟩], none⟩
      = some (0, ⟨none, some [⟨some (cstr "a"), 1, 11, 100⟩], none⟩) := by
  decide!

/-- Claim C28 fails in the code for an empty path list: `fi_count == 0` goes
to `_reread` before any comparison, so every call rebuilds the tree and
returns 1, and `files_info` stays null. -/
theorem snd_config_update_empty_path :
    snd_config_update libc_no_real no_functions (example_world (some [])) 20 update_initial
      = some (1, ⟨some snd_config_top, none, none⟩) ∧
    snd_config_update libc_no_real no_functions (example_world (some [])) 20
        ⟨some snd_config_top, none, none⟩
      = some (1, ⟨some snd_config_top, none, none⟩) := by
  decide!

/-- Claim C28, amended (cache stability).  For a path list that names at
least one file, in a world where `stat` of a null pointer fails: after a call
of `snd_config_update` that has built the tree (status 1), a call with the
same path list and the same files returns 0 and leaves the tree, `files_info`
and `preloaded_files_info` as they were; the state being the same, so does
every call after it.  The tree exists. -/
theorem snd_config_update_stable (L : libc_double) (call : func_call) (W : world)
    (fuel fuel2 : Nat) (s s1 : update_state)
    (hpath : path_names ((W.getenv.getD W.ALSA_CONFIG_PATH_DEFAULT).length + 1)
      (W.getenv.getD W.ALSA_CONFIG_PATH_DEFAULT) ≠ [])
    (h0 : W.stat none = none)
    (h : snd_config_update L call W fuel s = some (1, s1)) :
    snd_config_update L call W fuel2 s1 = some (0, s1) ∧ s1.snd_config.isSome = true := by
  have hn : ¬ (path_names ((W.getenv.getD W.ALSA_CONFIG_PATH_DEFAULT).length + 1)
      (W.getenv.getD W.ALSA_CONFIG_PATH_DEFAULT)).length = 0 := by
    intro hl
    exact hpath (List.length_eq_zero.mp hl)
  unfold snd_config_update at h ⊢
  simp only [if_neg hn] at h ⊢
  cases hx : expand_names W (path_names ((W.getenv.getD W.ALSA_CONFIG_PATH_DEFAULT).length + 1)
      (W.getenv.getD W.ALSA_CONFIG_PATH_DEFAULT)) with
  | error e =>
    rw [hx] at h
    simp only [Option.some.injEq, Prod.mk.injEq] at h
    have := expand_names_error W _ e hx
    omega
  | ok ws =>
    rw [hx] at h
    simp only at h
    have hre : snd_config_update_reread L call W fuel (some (stat_names W ws)) = some (1, s1) := by
      split at h
      · exact h
      · split at h
        · exact h
        · split at h
          · exact h
          · split at h
            · exact h
            · simp only [Option.some.injEq, Prod.mk.injEq] at h
              omega
    rcases snd_config_update_reread_spec L call W fuel _ 1 s1 hre with hneg | ⟨_, htree, hfi, hrec⟩
    · omega
    · have hp := preloaded_changed_recorded W h0 _ hrec
      simp only [hfi, ne_eq, not_true_eq_false, if_false, files_differ_self, hp,
        Bool.false_eq_true]
      exact ⟨trivial, htree⟩

/-- Witness of C28: after the build from the path list `a:b`, the next call
returns 0 and changes nothing. -/
theorem snd_config_update_stable_example :
    snd_config_update libc_no_real no_functions (example_world (some (cstr "a:b"))) 20
        ⟨some (.compound none false [.integer (some (cstr "x")) 1, .integer (some (cstr "y")) 2]),
         some [⟨some (cstr "a"), 1, 11, 100⟩, ⟨some (cstr "b"), 1, 12, 100⟩], none⟩
      = some (0,
        ⟨some (.compound none false [.integer (some (cstr "x")) 1, .integer (some (cstr "y")) 2]),
         some [⟨some (cstr "a"), 1, 11, 100⟩, ⟨some (cstr "b"), 1, 12, 100⟩], none⟩) :=
  (snd_config_update_stable libc_no_real no_functions (example_world (some (cstr "a:b"))) 20 20
    update_initial _ (by decide) rfl (by decide!)).1

/-- The loop over the path list does not depend on its fuel once the fuel is
above the length of the list. -/
theorem path_names_fuel :
    ∀ (fuel1 fuel2 : Nat) (c : Str), c.length < fuel1 → c.length < fuel2 →
      path_names fuel1 c = path_names fuel2 c := by
  intro fuel1
  induction fuel1 with
  | zero => intro fuel2 c h; omega
  | succ f1 ih =>
    intro fuel2 c h1 h2
    cases fuel2 with
    | zero => omega
    | succ f2 =>
      simp only [path_names]
      by_cases hl : strcspn_path c = 0
      · rw [if_pos hl, if_pos hl]
      · rw [if_neg hl, if_neg hl]
        cases hd : c.drop (strcspn_path c) with
        | nil => rfl
        | cons x rest =>
          simp only
          have hlen : (c.drop (strcspn_path c)).length = rest.length + 1 := by rw [hd]; rfl
          rw [List.length_drop] at hlen
          rw [ih f2 rest (by omega) (by omega)]


theorem refine_min_bound_fields (i : interval_t) (min : Nat) (openmin : Bool) :
    (refine_min_bound i min openmin).1.max = i.max ∧
    (refine_min_bound i min openmin).1.openmax = i.openmax ∧
    (refine_min_bound i min openmin).1.integer = i.integer ∧
    (refine_min_bound i min openmin).1.empty = i.empty := by
  unfold refine_min_bound
  split_ifs <;> exact ⟨rfl, rfl, rfl, rfl⟩

theorem refine_max_bound_fields (i : interval_t) (max : Nat) (openmax : Bool) :
    (refine_max_bound i max openmax).1.min = i.min ∧
    (refine_max_bound i max openmax).1.openmin = i.openmin ∧
    (refine_max_bound i max openmax).1.integer = i.integer ∧
    (refine_max_bound i max openmax).1.empty = i.empty := by
  unfold refine_max_bound
  split_ifs <;> exact ⟨rfl, rfl, rfl, rfl⟩

/-- The meet of two lower bounds. -/
theorem lower_meet (m1 m2 : Nat) (o1 o2 : Bool) (x : ℚ) :
    lower (if m1 < m2 then m2 else m1)
        (if m1 < m2 then o2 else if m1 = m2 ∧ o1 = false ∧ o2 = true then true else o1) x
      ↔ lower m1 o1 x ∧ lower m2 o2 x := by
  rcases Nat.lt_trichotomy m1 m2 with h | h | h
  · have hq : (m1 : ℚ) < (m2 : ℚ) := by exact_mod_cast h
    rw [if_pos h, if_pos h]
    cases o1 <;> cases o2 <;> simp only [lower, if_true, if_false, Bool.false_eq_true] <;>
      refine ⟨fun hx => ?_, fun hx => ?_⟩ <;>
      first | linarith [hx.1, hx.2] | (constructor <;> linarith)
  · subst h
    have hn : ¬ m1 < m1 := by omega
    rw [if_neg hn, if_neg hn]
    cases o1 <;> cases o2 <;>
      simp only [lower, if_true, if_false, Bool.false_eq_true, Bool.true_eq_false, true_and, and_true,
        and_false, and_self, ite_self] <;>
      refine ⟨fun hx => ?_, fun hx => ?_⟩ <;>
      first | linarith [hx.1, hx.2] | (constructor <;> linarith)
  · have hq : (m2 : ℚ) < (m1 : ℚ) := by exact_mod_cast h
    have hn : ¬ m1 < m2 := by omega
    have hne : ¬ m1 = m2 := by omega
    rw [if_neg hn, if_neg hn]
    simp only [hne, false_and, if_false]
    cases o1 <;> cases o2 <;> simp only [lower, if_true, if_false, Bool.false_eq_true] <;>
      refine ⟨fun hx => ?_, fun hx => ?_⟩ <;>
      first | linarith [hx.1, hx.2] | (constructor <;> linarith)

/-- The meet of two upper bounds. -/
theorem upper_meet (m1 m2 : Nat) (o1 o2 : Bool) (x : ℚ) :
    upper (if m1 > m2 then m2 else m1)
        (if m1 > m2 then o2 else if m1 = m2 ∧ o1 = false ∧ o2 = true then true else o1) x
      ↔ upper m1 o1 x ∧ upper m2 o2 x := by
  rcases Nat.lt_trichotomy m1 m2 with h | h | h
  · have hq : (m1 : ℚ) < (m2 : ℚ) := by exact_mod_cast h
    have hn : ¬ m1 > m2 := by omega
    have hne : ¬ m1 = m2 := by omega
    rw [if_neg hn, if_neg hn]
    simp only [hne, false_and, if_false]
    cases o1 <;> cases o2 <;> simp only [upper, if_true, if_false, Bool.false_eq_true] <;>
      refine ⟨fun hx => ?_, fun hx => ?_⟩ <;>
      first | linarith [hx.1, hx.2] | (constructor <;> linarith)
  · subst h
    have hn : ¬ m1 > m1 := by omega
    rw [if_neg hn, if_neg hn]
    cases o1 <;> cases o2 <;>
      simp only [upper, if_true, if_false, Bool.false_eq_true, Bool.true_eq_false, true_and, and_true,
        and_false, and_self, ite_self] <;>
      refine ⟨fun hx => ?_, fun hx => ?_⟩ <;>
      first | linarith [hx.1, hx.2] | (constructor <;> linarith)
  · have hq : (m2 : ℚ) < (m1 : ℚ) := by exact_mod_cast h
    have hp : m1 > m2 := h
    rw [if_pos hp, if_pos hp]
    cases o1 <;> cases o2 <;> simp only [upper, if_true, if_false, Bool.false_eq_true] <;>
      refine ⟨fun hx => ?_, fun hx => ?_⟩ <;>
      first | linarith [hx.1, hx.2] | (constructor <;> linarith)

theorem refine_min_bound_eq (i : interval_t) (min : Nat) (openmin : Bool) :
    (refine_min_bound i min openmin).1.min = (if i.min < min then min else i.min) ∧
    (refine_min_bound i min openmin).1.openmin
      = (if i.min < min then openmin
         else if i.min = min ∧ i.openmin = false ∧ openmin = true then true else i.openmin) := by
  unfold refine_min_bound
  split_ifs <;> exact ⟨rfl, rfl⟩

theorem refine_max_bound_eq (i : interval_t) (max : Nat) (openmax : Bool) :
    (refine_max_bound i max openmax).1.max = (if i.max > max then max else i.max) ∧
    (refine_max_bound i max openmax).1.openmax
      = (if i.max > max then openmax
         else if i.max = max ∧ i.openmax = false ∧ openmax = true then true else i.openmax) := by
  unfold refine_max_bound
  split_ifs <;> exact ⟨rfl, rfl⟩

/-- The lower bound after `refine_min_bound` is the meet of the two lower
bounds. -/
theorem refine_min_bound_lower (i : interval_t) (min : Nat) (openmin : Bool) (x : ℚ) :
    lower (refine_min_bound i min openmin).1.min (refine_min_bound i min openmin).1.openmin x
      ↔ lower i.min i.openmin x ∧ lower min openmin x := by
  rw [(refine_min_bound_eq i min openmin).1, (refine_min_bound_eq i min openmin).2]
  exact lower_meet _ _ _ _ x

/-- The upper bound after `refine_max_bound` is the meet of the two upper
bounds. -/
theorem refine_max_bound_upper (i : interval_t) (max : Nat) (openmax : Bool) (x : ℚ) :
    upper (refine_max_bound i max openmax).1.max (refine_max_bound i max openmax).1.openmax x
      ↔ upper i.max i.openmax x ∧ upper max openmax x := by
  rw [(refine_max_bound_eq i max openmax).1, (refine_max_bound_eq i max openmax).2]
  exact upper_meet _ _ _ _ x


theorem integer_min_fields (i : interval_t) :
    (integer_min i).max = i.max ∧ (integer_min i).openmax = i.openmax ∧
    (integer_min i).integer = i.integer ∧ (integer_min i).empty = i.empty ∧
    (integer_min i).openmin = false := by
  unfold integer_min
  cases h : i.openmin
  · simp [h]
  · simp

theorem integer_max_fields (i : interval_t) :
    (integer_max i).min = i.min ∧ (integer_max i).openmin = i.openmin ∧
    (integer_max i).integer = i.integer ∧ (integer_max i).empty = i.empty ∧
    (integer_max i).openmax = false := by
  unfold integer_max
  cases h : i.openmax
  · simp [h]
  · simp

/-- For an integer, the closed lower bound that `integer_min` writes says the
same as the open one, when the increment does not wrap. -/
theorem integer_min_lower (i : interval_t) (n : ℤ)
    (hw : i.openmin = true → i.min < UINT_MAX) :
    lower (integer_min i).min (integer_min i).openmin (n : ℚ)
      ↔ lower i.min i.openmin (n : ℚ) := by
  unfold integer_min
  cases h : i.openmin
  · simp [h]
  · have := hw h
    have hm : (i.min + 1) % 2 ^ 32 = i.min + 1 := by
      unfold UINT_MAX at this
      omega
    simp only [if_true, lower, hm, Bool.false_eq_true, if_false]
    constructor
    · intro hx
      have : ((i.min + 1 : ℕ) : ℤ) ≤ n := by exact_mod_cast hx
      have : (i.min : ℤ) < n := by push_cast at this; omega
      exact_mod_cast this
    · intro hx
      have : (i.min : ℤ) < n := by exact_mod_cast hx
      have : ((i.min + 1 : ℕ) : ℤ) ≤ n := by push_cast; omega
      exact_mod_cast this

/-- For an integer, the closed upper bound that `integer_max` writes says the
same as the open one, when the decrement does not wrap. -/
theorem integer_max_upper (i : interval_t) (n : ℤ)
    (hw : i.openmax = true → 0 < i.max ∧ i.max ≤ UINT_MAX) :
    upper (integer_max i).max (integer_max i).openmax (n : ℚ)
      ↔ upper i.max i.openmax (n : ℚ) := by
  unfold integer_max
  cases h : i.openmax
  · simp [h]
  · have := hw h
    have hm : (i.max + 2 ^ 32 - 1) % 2 ^ 32 = i.max - 1 := by
      unfold UINT_MAX at this
      omega
    simp only [if_true, upper, hm, Bool.false_eq_true, if_false]
    constructor
    · intro hx
      have : n ≤ ((i.max - 1 : ℕ) : ℤ) := by exact_mod_cast hx
      have : n < (i.max : ℤ) := by omega
      exact_mod_cast this
    · intro hx
      have : n < (i.max : ℤ) := by exact_mod_cast hx
      have : n ≤ ((i.max - 1 : ℕ) : ℤ) := by omega
      exact_mod_cast this

/-- An interval that `interval_checkempty` finds empty has no member. -/
theorem checkempty_no_mem (d : interval_t) (x : ℚ) (h : interval_checkempty d = true) :
    ¬ (lower d.min d.openmin x ∧ upper d.max d.openmax x) := by
  rintro ⟨hl, hu⟩
  unfold interval_checkempty at h
  simp only [Bool.or_eq_true, Bool.and_eq_true, decide_eq_true_eq] at h
  unfold lower at hl
  unfold upper at hu
  rcases h with h | ⟨h, ho⟩
  · have hq : (d.max : ℚ) < (d.min : ℚ) := by exact_mod_cast h
    split at hl <;> split at hu <;> linarith
  · have hq : (d.min : ℚ) = (d.max : ℚ) := by exact_mod_cast h
    rcases ho with ho | ho
    · rw [if_pos ho] at hl
      split at hu <;> linarith
    · rw [if_pos ho] at hu
      split at hl <;> linarith

/-- An interval that `interval_checkempty` does not find empty, with closed
sides when it is an integer interval, has a member. -/
theorem exists_mem (d : interval_t) (he : d.empty = false)
    (h : interval_checkempty d = false)
    (hint : d.integer = true → d.openmin = false ∧ d.openmax = false) :
    ∃ x, interval_mem d x := by
  unfold interval_checkempty at h
  simp only [Bool.or_eq_false_iff, Bool.and_eq_false_iff, decide_eq_false_iff_not] at h
  obtain ⟨h1, h2⟩ := h
  cases hi : d.integer
  · by_cases heq : d.min = d.max
    · have ho : d.openmin = false ∧ d.openmax = false := by
        rcases h2 with h2 | h2
        · exact absurd heq h2
        · simpa using h2
      refine ⟨(d.min : ℚ), he, ?_, ?_, ?_⟩
      · simp [lower, ho.1]
      · simp [upper, ho.2, heq]
      · intro hc; rw [hi] at hc; cases hc
    · have hlt : (d.min : ℚ) < (d.max : ℚ) := by
        have : d.min < d.max := by omega
        exact_mod_cast this
      refine ⟨((d.min : ℚ) + d.max) / 2, he, ?_, ?_, ?_⟩
      · unfold lower; split <;> linarith
      · unfold upper; split <;> linarith
      · intro hc; rw [hi] at hc; cases hc
  · obtain ⟨ho1, ho2⟩ := hint hi
    have hle : (d.min : ℚ) ≤ (d.max : ℚ) := by
      have : d.min ≤ d.max := by omega
      exact_mod_cast this
    refine ⟨(d.min : ℚ), he, ?_, ?_, ?_⟩
    · simp [lower, ho1]
    · simp [upper, ho2, hle]
    · intro _; exact ⟨(d.min : ℤ), by push_cast; rfl⟩

/-- In an interval that is not empty an open lower bound is below `max` and an
open upper bound is above `min`. -/
theorem nonempty_open (i : interval_t) (h : interval_is_empty i = false) :
    i.empty = false ∧ i.min ≤ i.max ∧ (i.openmin = true → i.min < i.max) ∧
    (i.openmax = true → i.min < i.max) := by
  unfold interval_is_empty interval_checkempty at h
  simp only [Bool.or_eq_false_iff, Bool.and_eq_false_iff, decide_eq_false_iff_not] at h
  obtain ⟨he, h1, h2⟩ := h
  refine ⟨he, by omega, ?_, ?_⟩
  · intro ho
    rcases h2 with h2 | h2
    · omega
    · rw [ho] at h2; simp at h2
  · intro ho
    rcases h2 with h2 | h2
    · omega
    · rw [ho] at h2; simp at h2

theorem refine_integer_fields (i : interval_t) (integer : Bool) :
    (refine_integer i integer).1.min = i.min ∧
    (refine_integer i integer).1.max = i.max ∧
    (refine_integer i integer).1.openmin = i.openmin ∧
    (refine_integer i integer).1.openmax = i.openmax ∧
    (refine_integer i integer).1.empty = i.empty ∧
    (refine_integer i integer).1.integer = (i.integer || integer) := by
  unfold refine_integer
  cases hi : i.integer <;> cases integer <;> simp [hi]

/-- The interval that `refine_close` returns has the members of the one it is
given, when closing the bounds does not wrap, and is closed when it is an
integer interval. -/
theorem refine_close_mem (c : interval_t)
    (hw1 : c.openmin = true → c.min < UINT_MAX)
    (hw2 : c.openmax = true → 0 < c.max ∧ c.max ≤ UINT_MAX) :
    (refine_close c).empty = c.empty ∧
    ((refine_close c).integer = true →
      (refine_close c).openmin = false ∧ (refine_close c).openmax = false) ∧
    ∀ x, interval_mem (refine_close c) x ↔ interval_mem c x := by
  unfold refine_close
  cases hi : c.integer
  · simp only [Bool.false_eq_true, if_false]
    by_cases hs : c.openmin = false ∧ c.openmax = false ∧ c.min = c.max
    · rw [if_pos hs]
      refine ⟨rfl, fun _ => ⟨hs.1, hs.2.1⟩, ?_⟩
      intro x
      unfold interval_mem
      simp only [hi, Bool.false_eq_true, false_implies, and_true, true_implies]
      constructor
      · rintro ⟨h1, h2, h3, _⟩; exact ⟨h1, h2, h3⟩
      · rintro ⟨h1, h2, h3⟩
        refine ⟨h1, h2, h3, (c.min : ℤ), ?_⟩
        have hl := h2
        have hu := h3
        simp only [lower, hs.1, Bool.false_eq_true, if_false] at hl
        simp only [upper, hs.2.1, Bool.false_eq_true, if_false, ← hs.2.2] at hu
        push_cast
        linarith
    · rw [if_neg hs]
      refine ⟨rfl, fun h => ?_, fun x => Iff.rfl⟩
      rw [hi] at h; cases h
  · simp only [if_true]
    obtain ⟨m1, m2, m3, m4, m5⟩ := integer_min_fields c
    obtain ⟨M1, M2, M3, M4, M5⟩ := integer_max_fields (integer_min c)
    refine ⟨by rw [M4, m4], fun _ => ⟨by rw [M2, m5], M5⟩, ?_⟩
    intro x
    unfold interval_mem
    rw [M4, m4, M3, m3, hi, M1, M2]
    simp only [true_implies]
    constructor
    · rintro ⟨h1, h2, h3, n, rfl⟩
      refine ⟨h1, (integer_min_lower c n hw1).mp h2, ?_, n, rfl⟩
      have := (integer_max_upper (integer_min c) n (by rw [m2, m1]; exact hw2)).mp h3
      rw [m1, m2] at this
      exact this
    · rintro ⟨h1, h2, h3, n, rfl⟩
      refine ⟨h1, (integer_min_lower c n hw1).mpr h2, ?_, n, rfl⟩
      apply (integer_max_upper (integer_min c) n (by rw [m2, m1]; exact hw2)).mpr
      rw [m1, m2]
      exact h3

/-- The interval that `interval_refine` has before its last test stands for the
intersection, and is closed when it is an integer interval. -/
theorem interval_refine_meet (i v : interval_t)
    (hi : interval_is_empty i = false) (hv : interval_is_empty v = false)
    (hio : interval_ok i) (hvo : interval_ok v) :
    ∃ d changed, interval_refine i v = some (refine_end d changed) ∧
      d.empty = false ∧
      (d.integer = true → d.openmin = false ∧ d.openmax = false) ∧
      ∀ x, interval_mem d x ↔ (interval_mem i x ∧ interval_mem v x) := by
  obtain ⟨hie, hile, him, hiM⟩ := nonempty_open i hi
  obtain ⟨hve, hvle, hvm, hvM⟩ := nonempty_open v hv
  obtain ⟨hi1, hi2⟩ := hio
  obtain ⟨hv1, hv2⟩ := hvo
  have hunf : interval_refine i v = some (refine_end
      (refine_close (refine_integer (refine_max_bound (refine_min_bound i v.min v.openmin).1
        v.max v.openmax).1 v.integer).1)
      ((refine_min_bound i v.min v.openmin).2 ||
        (refine_max_bound (refine_min_bound i v.min v.openmin).1 v.max v.openmax).2 ||
        (refine_integer (refine_max_bound (refine_min_bound i v.min v.openmin).1
          v.max v.openmax).1 v.integer).2)) := by
    unfold interval_refine interval_empty
    simp only [hie, Bool.false_eq_true, if_false]
  refine ⟨_, _, hunf, ?_⟩
  obtain ⟨a1, a2, a3, a4⟩ := refine_min_bound_fields i v.min v.openmin
  obtain ⟨a5, a6⟩ := refine_min_bound_eq i v.min v.openmin
  have aL := refine_min_bound_lower i v.min v.openmin
  generalize refine_min_bound i v.min v.openmin = a at a1 a2 a3 a4 a5 a6 aL ⊢
  obtain ⟨b1, b2, b3, b4⟩ := refine_max_bound_fields a.1 v.max v.openmax
  obtain ⟨b5, b6⟩ := refine_max_bound_eq a.1 v.max v.openmax
  have bU := refine_max_bound_upper a.1 v.max v.openmax
  generalize refine_max_bound a.1 v.max v.openmax = b at b1 b2 b3 b4 b5 b6 bU ⊢
  obtain ⟨c1, c2, c3, c4, c5, c6⟩ := refine_integer_fields b.1 v.integer
  generalize refine_integer b.1 v.integer = c at c1 c2 c3 c4 c5 c6 ⊢
  have hw1 : c.1.openmin = true → c.1.min < UINT_MAX := by
    rw [c3, b2, a6, c1, b1, a5]
    intro h
    split_ifs at h ⊢ <;> simp_all <;> omega
  have hw2 : c.1.openmax = true → 0 < c.1.max ∧ c.1.max ≤ UINT_MAX := by
    rw [c4, b6, c2, b5, a1, a2]
    intro h
    split_ifs at h ⊢ <;> simp_all <;> omega
  obtain ⟨d1, d2, d3⟩ := refine_close_mem c.1 hw1 hw2
  refine ⟨by rw [d1, c5, b4, a4, hie], d2, ?_⟩
  intro x
  rw [d3 x]
  unfold interval_mem
  rw [c5, b4, a4, hie, hve, c1, c3, b1, b2, c2, c4, c6, b3, a3, aL x, bU x, a1, a2]
  simp only [Bool.or_eq_true, true_and]
  constructor
  · rintro ⟨⟨h1, h2⟩, ⟨h3, h4⟩, h5⟩
    exact ⟨⟨h1, h3, fun h => h5 (Or.inl h)⟩, h2, h4, fun h => h5 (Or.inr h)⟩
  · rintro ⟨⟨h1, h3, h5⟩, h2, h4, h6⟩
    exact ⟨⟨h1, h2⟩, ⟨h3, h4⟩, fun h => h.elim h5 h6⟩

/-- Claim C37 (`interval_refine` computes the intersection).  An interval
stands for the rationals between `min` and `max`, strictly on an open side,
the integers among them when the integer flag is set, and is called empty when
its empty flag is set, or `min > max`, or `min == max` with an open side.  For
intervals `i` and `v` that are not empty, with bounds of an `unsigned int`:
`interval_refine(i, v)` returns, the interval `i` afterwards stands for the
intersection of `i` and `v`, the status is `-EINVAL` exactly when the
intersection has no member, `i` then has its empty flag set, and every other
status is 0 or 1. -/
theorem interval_refine_intersection (i v : interval_t)
    (hi : interval_is_empty i = false) (hv : interval_is_empty v = false)
    (hio : interval_ok i) (hvo : interval_ok v) :
    ∃ r i1, interval_refine i v = some (r, i1) ∧
      (∀ x, interval_mem i1 x ↔ (interval_mem i x ∧ interval_mem v x)) ∧
      (r = -EINVAL ↔ ∀ x, ¬ (interval_mem i x ∧ interval_mem v x)) ∧
      (r = -EINVAL → i1.empty = true) ∧
      (r ≠ -EINVAL → r = 0 ∨ r = 1) := by
  obtain ⟨d, changed, hr, he, hint, hm⟩ := interval_refine_meet i v hi hv hio hvo
  rw [hr]
  unfold refine_end
  cases hc : interval_checkempty d
  · simp only [Bool.false_eq_true, if_false]
    have hne : ¬ ((if changed = true then (1 : Int) else 0) = -EINVAL) := by
      cases changed <;> decide
    refine ⟨_, _, rfl, hm, ?_, fun h => absurd h hne, fun _ => ?_⟩
    · constructor
      · intro h; exact absurd h hne
      · intro h
        obtain ⟨x, hx⟩ := exists_mem d he hc hint
        exact absurd ((hm x).mp hx) (h x)
    · cases changed
      · left; rfl
      · right; rfl
  · simp only [if_true]
    have hnone : ∀ x, ¬ (interval_mem i x ∧ interval_mem v x) := by
      intro x hx
      have := (hm x).mpr hx
      exact checkempty_no_mem d x hc ⟨this.2.1, this.2.2.1⟩
    refine ⟨_, _, rfl, ?_, ?_, fun _ => rfl, fun h => absurd rfl h⟩
    · intro x
      constructor
      · intro h
        have := h.1
        simp [interval_none] at this
      · intro h; exact absurd h (hnone x)
    · exact ⟨fun _ => hnone, fun _ => rfl⟩

/-- Witness of C37: the integers of `[1, 10]` refined with the rationals of
`(3, 20)` are the integers of `[4, 10]`. -/
theorem interval_refine_intersection_example :
    interval_refine ⟨1, 10, false, false, true, false⟩ ⟨3, 20, true, true, false, false⟩
      = some (1, ⟨4, 10, false, false, true, false⟩) ∧
    ∃ r i1, interval_refine ⟨1, 10, false, false, true, false⟩
        ⟨3, 20, true, true, false, false⟩ = some (r, i1) ∧
      (∀ x, interval_mem i1 x ↔ (interval_mem ⟨1, 10, false, false, true, false⟩ x ∧
        interval_mem ⟨3, 20, true, true, false, false⟩ x)) ∧
      (r = -EINVAL ↔ ∀ x, ¬ (interval_mem ⟨1, 10, false, false, true, false⟩ x ∧
        interval_mem ⟨3, 20, true, true, false, false⟩ x)) ∧
      (r = -EINVAL → i1.empty = true) ∧
      (r ≠ -EINVAL → r = 0 ∨ r = 1) :=
  ⟨by decide,
   interval_refine_intersection ⟨1, 10, false, false, true, false⟩
    ⟨3, 20, true, true, false, false⟩ (by decide) (by decide)
    (by unfold interval_ok UINT_MAX; exact ⟨by decide, by decide⟩)
    (by unfold interval_ok UINT_MAX; exact ⟨by decide, by decide⟩)⟩

/-- Claim C38 fails in the code: for an integer interval the open bound is
closed with `i->min++` and `i->max--` on an `unsigned int`.  The integers of
`[5, 10]` refined with the open lower bound `UINT_MAX` become `[0, 10]`, and
refined with the open upper bound 0 they become `[5, UINT_MAX]`; both calls
return 1. -/
theorem interval_refine_min_wraps :
    interval_refine_min ⟨5, 10, false, false, true, false⟩ UINT_MAX true
      = some (1, ⟨0, 10, false, false, true, false⟩) ∧
    interval_refine_max ⟨5, 10, false, false, true, false⟩ 0 true
      = some (1, ⟨5, UINT_MAX, false, false, true, false⟩) := by
  decide

/-- Claim C39 fails in the code: `interval_sub` computes the upper bound with
`add`.  For `a = [5, 10]` and `b = [1, 2]` the result is `[3, 11]`, where the
differences lie in `[3, 9]`. -/
theorem interval_sub_adds :
    interval_sub ⟨5, 10, false, false, true, false⟩ ⟨1, 2, false, false, true, false⟩
        ⟨0, 0, false, false, false, false⟩
      = ⟨3, 11, false, false, true, false⟩ ∧
    sub 10 1 = 9 := by
  decide

/-- Claim C40 fails in the code: with `a = [0, 0]`, `b = [1, 1]` and
`c = [0, 1]`, none of them empty, the second call `muldiv32(0, 1, 0, &r)` of
`interval_muldiv` has the product 0 and the divisor 0 and fails the assertion
`n > 0`. -/
theorem interval_muldiv_asserts :
    interval_is_empty ⟨0, 0, false, false, true, false⟩ = false ∧
    interval_is_empty ⟨1, 1, false, false, true, false⟩ = false ∧
    interval_is_empty ⟨0, 1, false, false, true, false⟩ = false ∧
    muldiv32 0 1 1 = some (0, 0) ∧
    muldiv32 0 1 0 = none ∧
    interval_muldiv ⟨0, 0, false, false, true, false⟩ ⟨1, 1, false, false, true, false⟩
      ⟨0, 1, false, false, true, false⟩ ⟨0, 0, false, false, false, false⟩ = none := by
  decide

/-- A key without dot that no child has is not found. -/
theorem search_absent (config : snd_config_t) (key : Str) (hk : 46 ∉ key)
    (h : ∀ c ∈ fields config, snd_config_get_id c ≠ some key) :
    snd_config_search config key = .error (-ENOENT) := by
  by_cases hc : snd_config_get_type config = .COMPOUND
  · rw [search_no_dot config key hk hc]
    unfold _snd_config_search
    have : (fields config).find? (id_matches key (-1)) = none := by
      rw [List.find?_eq_none]
      intro c hcm
      rw [id_matches_iff]
      exact h c hcm
    rw [this]
  · rw [search_unfold]
    simp [hc]

theorem no_func_children {id : Option Str} {join : Bool} {fs : List snd_config_t}
    (h : no_func (.compound id join fs) = true) :
    (∀ c ∈ fs, snd_config_get_id c ≠ some (cstr "@func")) ∧ no_func_list fs = true := by
  simp only [no_func, Bool.and_eq_true, List.all_eq_true, decide_eq_true_eq] at h
  exact h

mutual
theorem walk_in_place_no_func (call : func_call) (root : snd_config_t) :
    ∀ (n : snd_config_t), no_func n = true →
      snd_config_walk_in_place (_snd_config_evaluate call root) n = (1, n)
  | .integer i v, _ => by simp [snd_config_walk_in_place, _snd_config_evaluate]
  | .real i v, _ => by simp [snd_config_walk_in_place, _snd_config_evaluate]
  | .string i v, _ => by simp [snd_config_walk_in_place, _snd_config_evaluate]
  | .compound i j fs, h => by
    obtain ⟨hc, hl⟩ := no_func_children h
    have hs : snd_config_search (.compound i j fs) (cstr "@func") = .error (-ENOENT) :=
      search_absent _ _ (by decide) hc
    have hf := walk_in_place_fields_no_func call root fs hl
    simp only [snd_config_walk_in_place, _snd_config_evaluate, hs, hf]
    rw [if_neg (by decide : ¬ ((1 : Int) ≤ 0)), if_neg (by decide : ¬ ((0 : Int) < 0))]
theorem walk_in_place_fields_no_func (call : func_call) (root : snd_config_t) :
    ∀ (fs : List snd_config_t), no_func_list fs = true →
      snd_config_walk_in_place_fields (_snd_config_evaluate call root) fs = (0, fs)
  | [], _ => by simp [snd_config_walk_in_place_fields]
  | n :: rest, h => by
    simp only [no_func_list, Bool.and_eq_true] at h
    have h1 := walk_in_place_no_func call root n h.1
    have h2 := walk_in_place_fields_no_func call root rest h.2
    simp only [snd_config_walk_in_place_fields, h1, h2]
    rw [if_neg (by decide : ¬ ((1 : Int) < 0))]
end

/-- Claim C36 (evaluate is the identity without functions).  For a tree in
which no compound has a child identified `@func`, `snd_config_evaluate`
returns the status 1 and leaves the tree as it is, whatever the functions
outside are: none of them is called. -/
theorem snd_config_evaluate_identity (call : func_call) (config root : snd_config_t)
    (h : no_func config = true) :
    snd_config_evaluate call config root = (1, config) :=
  walk_in_place_no_func call root config h

/-- Witness of C36: a definition with a nested compound and no `@func`, with
functions that fail and with functions that would replace the node. -/
theorem snd_config_evaluate_identity_example :
    snd_config_evaluate no_functions plain_definition definition_tree
      = (1, plain_definition) ∧
    snd_config_evaluate (fun _ _ _ => (0, some snd_config_top)) plain_definition
        definition_tree = (1, plain_definition) :=
  ⟨snd_config_evaluate_identity no_functions plain_definition definition_tree (by decide),
   snd_config_evaluate_identity (fun _ _ _ => (0, some snd_config_top)) plain_definition
    definition_tree (by decide)⟩

/-- Claim C33 (expansion without a parameter block is a plain copy).  For a
definition that has no child `@args` and no `@func` anywhere, with
pairwise-distinct identifiers among the children of each compound:
`snd_config_expand` returns, for every argument string, the tree that
`snd_config_copy` returns, which is the definition itself, variables
`$(name)` included. -/
theorem snd_config_expand_plain_copy (L : libc_double) (call : func_call) (fuel : Nat)
    (config root : snd_config_t) (args : Option Str)
    (hargs : ∀ c ∈ fields config, snd_config_get_id c ≠ some (cstr "@args"))
    (hf : no_func config = true) (hsd : siblings_distinct config = true) :
    snd_config_expand L call fuel config root args
      = some (1, (snd_config_copy config).bind walk_result.dst) ∧
    snd_config_copy config = some ⟨1, some config⟩ := by
  have hs : snd_config_search config (cstr "@args") = .error (-ENOENT) :=
    search_absent _ _ (by decide) hargs
  have hc : snd_config_copy config = some ⟨1, some config⟩ := walk_copy none config hsd
  refine ⟨?_, hc⟩
  have he : snd_config_evaluate call config root = (1, config) :=
    walk_in_place_no_func call root config hf
  simp only [snd_config_expand, hs, hc, snd_config_expand_end, he]
  rw [if_neg (by decide : ¬ ((1 : Int) < 0))]
  simp

/-- Witness of C33: the definition is returned as it is, with the argument
string `CARD=1` as without one. -/
theorem snd_config_expand_plain_copy_example :
    snd_config_expand libc_no_real no_functions 0 plain_definition definition_tree
        (some (cstr "CARD=1")) = some (1, some plain_definition) ∧
    snd_config_expand libc_no_real no_functions 0 plain_definition definition_tree none
      = some (1, some plain_definition) :=
  have h1 := snd_config_expand_plain_copy libc_no_real no_functions 0 plain_definition
    definition_tree (some (cstr "CARD=1")) (by decide) (by decide) (by decide)
  have h2 := snd_config_expand_plain_copy libc_no_real no_functions 0 plain_definition
    definition_tree none (by decide) (by decide) (by decide)
  ⟨by rw [h1.1, h1.2]; rfl, by rw [h2.1, h2.2]; rfl⟩

theorem expand_list_append (vars : snd_config_t) :
    ∀ (a b : List snd_config_t),
      expand_list vars (a ++ b) = expand_list vars a ++ expand_list vars b := by
  intro a
  induction a with
  | nil => intro b; simp [expand_list]
  | cons n rest ih =>
    intro b
    rw [List.cons_append, expand_list_cons, expand_list_cons, ih, List.append_assoc]

/-- Claim C32, amended (unresolved variables are dropped silently).  In the
Expand walk of a compound that has an identifier other than `@args`, with
identifiers on all nodes and pairwise-distinct identifiers among the children of
each compound, in the template and in the substitution tree: a String child
`$(name)` whose name the substitution tree does not have leaves no node in the
result, the children in front of it and behind it are produced as without it,
in their order, and the walk returns the status 1.  The compound may sit
anywhere in a template: its expansion `expand_node` is the same. -/
theorem snd_config_expand_drops_unresolved (vars : snd_config_t) (root : Option snd_config_t)
    (id : Str) (j : Bool) (pre post : List snd_config_t) (i s : Str) (e : Int)
    (hid : id ≠ cstr "@args")
    (hsd : siblings_distinct (.compound (some id) j (pre ++ .string (some i) s :: post)) = true)
    (hn : named_list (pre ++ .string (some i) s :: post) = true)
    (hv : siblings_distinct vars = true)
    (hvar : is_variable s = true)
    (hs : snd_config_search vars (variable_name s) = .error e) :
    snd_config_walk _snd_config_expand vars root
        (.compound (some id) j (pre ++ .string (some i) s :: post))
      = some ⟨1, some (.compound (some id) j
          (expand_list vars pre ++ expand_list vars post))⟩ ∧
    expand_node vars (.compound (some id) j (pre ++ .string (some i) s :: post))
      = some (.compound (some id) j (expand_list vars pre ++ expand_list vars post)) ∧
    some i ∉ (expand_list vars pre ++ expand_list vars post).map snd_config_get_id := by
  have hleaf : expand_node vars (.string (some i) s) = none := by
    simp [expand_node, hvar, hs]
  have hlist : expand_list vars (pre ++ .string (some i) s :: post)
      = expand_list vars pre ++ expand_list vars post := by
    rw [expand_list_append, expand_list_cons, hleaf]
    rfl
  obtain ⟨hnd, hl⟩ := siblings_distinct_compound hsd
  have hw := walk_expand_compound vars root id j _ hid hsd hn hv
  refine ⟨?_, ?_, ?_⟩
  · rw [hw, hlist]
  · simp only [expand_node, Option.some.injEq, hid, if_false, hlist]
  · rw [← hlist, expand_list_ids vars _ hn]
    intro hmem
    rw [List.mem_map] at hmem
    obtain ⟨m, hm, hmid⟩ := hmem
    rw [List.mem_filter] at hm
    obtain ⟨hm1, hm2⟩ := hm
    have hnd2 : ((pre ++ .string (some i) s :: post).map snd_config_get_id).Nodup := by
      simpa using hnd
    have hmeq : m = .string (some i) s := by
      have hinj := List.inj_on_of_nodup_map hnd2
      exact hinj hm1 (by simp) (by rw [hmid]; rfl)
    rw [hmeq] at hm2
    simp [expand_drops, hvar, hs] at hm2

/-- Witness of C32: in the template of the examples the child `dev = $(y)` has
no entry; `card`, `rate` and `name` are produced around it. -/
theorem snd_config_expand_drops_unresolved_example :
    snd_config_walk _snd_config_expand expand_vars none
        (.compound (some (cstr "pcm")) false
          ([.string (some (cstr "card")) (cstr "$(x)"), .integer (some (cstr "rate")) 44100]
            ++ .string (some (cstr "dev")) (cstr "$(y)")
              :: [.string (some (cstr "name")) (cstr "hw")]))
      = some ⟨1, some (.compound (some (cstr "pcm")) false
          [.integer (some (cstr "card")) 0, .integer (some (cstr "rate")) 44100,
           .string (some (cstr "name")) (cstr "hw")])⟩ :=
  (snd_config_expand_drops_unresolved expand_vars none (cstr "pcm") false
    [.string (some (cstr "card")) (cstr "$(x)"), .integer (some (cstr "rate")) 44100]
    [.string (some (cstr "name")) (cstr "hw")] (cstr "dev") (cstr "$(y)") (-ENOENT)
    (by decide) (by decide) (by decide) (by decide) (by decide) (by decide)).1

/-- Counterexample to C32 as stated: the text `pcm { dev $(y) a [ 1 ] a [ 2 ] }`
loads into the template `pcm` with the unresolved variable `dev` and the
compound `a`, which holds two children identified `0`.  The Expand walk of
`pcm` does not return a positive status: the second child `0` is refused by
`snd_config_add`, the walk returns `-EEXIST` and no result. -/
theorem snd_config_expand_duplicate_sibling :
    snd_config_load libc_no_real 12 snd_config_top (cstr "pcm \x7b dev $(y) a [ 1 ] a [ 2 ] \x7d")
      = some (0, .compound none false
          [.compound (some (cstr "pcm")) false
            [.string (some (cstr "dev")) (cstr "$(y)"),
             .compound (some (cstr "a")) false
               [.integer (some (cstr "0")) 1, .integer (some (cstr "0")) 2]]]) ∧
    snd_config_walk _snd_config_expand snd_config_top none
        (.compound (some (cstr "pcm")) false
          [.string (some (cstr "dev")) (cstr "$(y)"),
           .compound (some (cstr "a")) false
             [.integer (some (cstr "0")) 1, .integer (some (cstr "0")) 2]])
      = some ⟨-EEXIST, none⟩ := by
  decide!

theorem alias_loop_error_step (config : snd_config_t) (base : Option Str) (fuel : Nat)
    (key : Str) (res : Option snd_config_t) (e : Int)
    (h : alias_lookup config base key = .error e) :
    snd_config_search_alias_loop config base (fuel + 1) key res = some (e, res) := by
  unfold alias_lookup at h
  simp only [snd_config_search_alias_loop]
  cases hs : snd_config_search config key with
  | ok n => rw [hs] at h; cases h
  | error err =>
    rw [hs] at h
    cases base with
    | none => simp only at h ⊢; cases h; rfl
    | some b => simp only at h ⊢; rw [h]

theorem alias_loop_ok_step (config : snd_config_t) (base : Option Str) (fuel : Nat)
    (key : Str) (res : Option snd_config_t) (n : snd_config_t)
    (h : alias_lookup config base key = .ok n) :
    snd_config_search_alias_loop config base (fuel + 1) key res
      = (match snd_config_get_string n with
         | .ok key1 => snd_config_search_alias_loop config base fuel key1 (some n)
         | .error _ => some (0, some n)) := by
  unfold alias_lookup at h
  simp only [snd_config_search_alias_loop]
  cases hs : snd_config_search config key with
  | ok m => rw [hs] at h; cases h; rfl
  | error err =>
    rw [hs] at h
    cases base with
    | none => cases h
    | some b => simp only at h ⊢; rw [h]

/-- What the loop of the alias chase ends with: the error of the first lookup
and the node it started with, or a node at which the chase ends. -/
theorem alias_loop_outcome (config : snd_config_t) (base : Option Str) :
    ∀ (fuel : Nat) (key : Str) (res : Option snd_config_t) (e : Int)
      (R : Option snd_config_t),
      snd_config_search_alias_loop config base fuel key res = some (e, R) →
      (alias_lookup config base key = .error e ∧ R = res) ∨
      (∃ N, R = some N ∧ AliasEnd config base key N) := by
  intro fuel
  induction fuel with
  | zero => intro key res e R h; cases h
  | succ fuel ih =>
    intro key res e R h
    cases hl : alias_lookup config base key with
    | error err =>
      rw [alias_loop_error_step config base fuel key res err hl] at h
      cases h
      exact Or.inl ⟨rfl, rfl⟩
    | ok n =>
      rw [alias_loop_ok_step config base fuel key res n hl] at h
      cases hg : snd_config_get_string n with
      | error eg =>
        rw [hg] at h
        cases h
        exact Or.inr ⟨n, rfl, AliasEnd.last key n hl (fun v hv => by rw [hg] at hv; cases hv)⟩
      | ok key1 =>
        rw [hg] at h
        rcases ih key1 (some n) e R h with ⟨herr, hR⟩ | ⟨N, hR, hN⟩
        · refine Or.inr ⟨n, hR, AliasEnd.last key n hl ?_⟩
          intro v hv
          rw [hg] at hv
          cases hv
          exact ⟨e, herr⟩
        · exact Or.inr ⟨N, hR, AliasEnd.step key n key1 N hl hg hN⟩

/-- A chase that ends at `N` is found by the loop, given enough fuel. -/
theorem alias_loop_reaches (config : snd_config_t) (base : Option Str) (key : Str)
    (N : snd_config_t) (h : AliasEnd config base key N) :
    ∃ f0, ∀ fuel, f0 ≤ fuel → ∀ res,
      ∃ e, snd_config_search_alias_loop config base fuel key res = some (e, some N) := by
  induction h with
  | last key n hl hend =>
    refine ⟨2, ?_⟩
    intro fuel hf res
    obtain ⟨f, rfl⟩ : ∃ k, fuel = k + 2 := ⟨fuel - 2, by omega⟩
    rw [alias_loop_ok_step config base (f + 1) key res n hl]
    cases hg : snd_config_get_string n with
    | error eg => exact ⟨0, rfl⟩
    | ok v =>
      obtain ⟨e, he⟩ := hend v hg
      exact ⟨e, alias_loop_error_step config base f v (some n) e he⟩
  | step key n v N hl hg _ ih =>
    obtain ⟨f0, hf0⟩ := ih
    refine ⟨f0 + 1, ?_⟩
    intro fuel hf res
    obtain ⟨f, rfl⟩ : ∃ k, fuel = k + 1 := ⟨fuel - 1, by omega⟩
    rw [alias_loop_ok_step config base f key res n hl, hg]
    exact hf0 f (by omega) (some n)

/-- Claim C34 (outcome of the alias chase).  When `snd_config_search_alias`
returns (the chase ends within the fuel): it succeeds exactly when the first
lookup succeeds, of `key` or else of `base.key` when a base is given, and else
returns the error of that lookup; the node returned is the one at which the
chase ends, which is no String or a String whose value is found neither as a
key nor below the base.  And every chase that ends so is returned, given
enough fuel. -/
theorem snd_config_search_alias_outcome (config : snd_config_t) (base : Option Str)
    (key : Str) :
    (∀ fuel r, snd_config_search_alias fuel config base key = some r →
      ((∃ N, r = .ok N) ↔ ∃ n, alias_lookup config base key = .ok n) ∧
      (∀ N, r = .ok N → AliasEnd config base key N) ∧
      (∀ e, r = .error e → alias_lookup config base key = .error e)) ∧
    (∀ N, AliasEnd config base key N →
      ∃ f0, ∀ fuel, f0 ≤ fuel → snd_config_search_alias fuel config base key = some (.ok N)) := by
  constructor
  · intro fuel r h
    unfold snd_config_search_alias at h
    cases hl : snd_config_search_alias_loop config base fuel key none with
    | none => rw [hl] at h; cases h
    | some p =>
      obtain ⟨e, R⟩ := p
      rw [hl] at h
      have hfirst : ∀ N, AliasEnd config base key N → ∃ n, alias_lookup config base key = .ok n := by
        intro N hN
        cases hN with
        | last _ _ h1 _ => exact ⟨_, h1⟩
        | step _ n _ _ h1 _ _ => exact ⟨n, h1⟩
      rcases alias_loop_outcome config base fuel key none e R hl with ⟨herr, hR⟩ | ⟨N, hR, hN⟩
      · subst hR
        simp only [Option.some.injEq] at h
        subst h
        refine ⟨?_, ?_, ?_⟩
        · constructor
          · rintro ⟨N, hN⟩; cases hN
          · rintro ⟨n, hn⟩; rw [herr] at hn; cases hn
        · intro N hN; cases hN
        · intro e1 he1; cases he1; exact herr
      · subst hR
        simp only [Option.some.injEq] at h
        subst h
        refine ⟨?_, ?_, ?_⟩
        · exact ⟨fun _ => hfirst N hN, fun _ => ⟨N, rfl⟩⟩
        · intro N1 hN1; cases hN1; exact hN
        · intro e1 he1; cases he1
  · intro N hN
    obtain ⟨f0, hf0⟩ := alias_loop_reaches config base key N hN
    refine ⟨f0, ?_⟩
    intro fuel hf
    obtain ⟨e, he⟩ := hf0 fuel hf none
    simp only [snd_config_search_alias, he]

/-- Witness of C34: `x` leads to the String `y`, whose value `nowhere` names
nothing: the String `y` is returned; `z` is found below the base `pcm`; `q` is
found nowhere and gives `-ENOENT`. -/
theorem snd_config_search_alias_outcome_example :
    snd_config_search_alias 5 alias_tree (some (cstr "pcm")) (cstr "x")
      = some (.ok (.string (some (cstr "y")) (cstr "nowhere"))) ∧
    AliasEnd alias_tree (some (cstr "pcm")) (cstr "x")
      (.string (some (cstr "y")) (cstr "nowhere")) ∧
    snd_config_search_alias 5 alias_tree (some (cstr "pcm")) (cstr "z")
      = some (.ok (.integer (some (cstr "z")) 7)) ∧
    snd_config_search_alias 5 alias_tree (some (cstr "pcm")) (cstr "q")
      = some (.error (-ENOENT)) ∧
    alias_lookup alias_tree (some (cstr "pcm")) (cstr "q") = .error (-ENOENT) :=
  have h1 : snd_config_search_alias 5 alias_tree (some (cstr "pcm")) (cstr "x")
      = some (.ok (.string (some (cstr "y")) (cstr "nowhere"))) := by decide
  have h2 : snd_config_search_alias 5 alias_tree (some (cstr "pcm")) (cstr "q")
      = some (.error (-ENOENT)) := by decide
  ⟨h1,
   ((snd_config_search_alias_outcome alias_tree (some (cstr "pcm")) (cstr "x")).1 5 _ h1).2.1
      _ rfl,
   by decide, h2,
   ((snd_config_search_alias_outcome alias_tree (some (cstr "pcm")) (cstr "q")).1 5 _ h2).2.2
      _ rfl⟩

/-- Claim C35 fails in the code: the text `a ''` loads into the String node
`a` with the empty value, and `string_print` meets `assert(0)` when it prints
an empty value: `snd_config_save` of the tree does not complete. -/
theorem snd_config_save_empty_string_asserts :
    snd_config_load libc_no_real 10 snd_config_top (cstr "a ''")
      = some (0, .compound none false [.string (some (cstr "a")) []]) ∧
    string_print [] false = none ∧
    snd_config_save libc_no_real (.compound none false [.string (some (cstr "a")) []])
      = none := by
  decide!


theorem findIdx_some_get {q : snd_config_t → Bool} :
    ∀ (fs : List snd_config_t) (k : Nat), fs.findIdx? q = some k →
      ∃ x, fs[k]? = some x ∧ q x = true := by
  intro fs
  induction fs with
  | nil => intro k h; simp at h
  | cons a t ih =>
    intro k h
    rw [findIdx_cons] at h
    by_cases ha : q a = true
    · rw [if_pos ha] at h
      cases h
      exact ⟨a, by simp, ha⟩
    · rw [if_neg ha] at h
      cases ht : t.findIdx? q with
      | none => rw [ht] at h; cases h
      | some k1 =>
        rw [ht] at h
        simp only [Option.map_some', Option.some.injEq] at h
        subst h
        obtain ⟨x, hx, hq⟩ := ih k1 ht
        exact ⟨x, by simpa using hx, hq⟩

/-- The node that `_snd_config_search(father, id, -1, &n)` finds has the
identifier `id`. -/
theorem search_index_id (F : snd_config_t) (i : Str) (k : Nat) (old : snd_config_t)
    (hk : search_index F i = some k) (hold : (fields F)[k]? = some old) :
    snd_config_get_id old = some i := by
  obtain ⟨x, hx, hq⟩ := findIdx_some_get (fields F) k hk
  rw [hold] at hx
  cases hx
  exact (id_matches_iff i old).mp hq

/-- What `parse_value` does with a token for a node that exists and has the
type of the token: the node takes the value. -/
theorem parse_value_existing (L : libc_double) (F : snd_config_t) (input : input_t)
    (id : Str) (k : Nat) (old : snd_config_t)
    (h : ¬ (get_string false input).err < 0)
    (hk : (fields F)[k]? = some old) (hid : snd_config_get_id old = some id)
    (hty : snd_config_get_type old
      = snd_config_get_type (scalar_node L id (get_string false input).string)) :
    parse_value L (some k) F input id
      = ⟨0, set_field F k (scalar_node L id (get_string false input).string),
          (get_string false input).input⟩ := by
  unfold parse_value
  simp only [h, if_false]
  generalize (get_string false input).string = s at hty ⊢
  generalize (get_string false input).input = inp1
  cases s with
  | nil =>
    have hsn : scalar_node L id [] = .string (some id) [] := by
      simp [scalar_node, starts_numeric]
    rw [hsn] at hty ⊢
    simp only [hk]
    cases old with
    | string i0 s0 =>
      simp only [snd_config_get_id] at hid
      subst hid
      rfl
    | integer _ _ => simp [snd_config_get_type] at hty
    | real _ _ => simp [snd_config_get_type] at hty
    | compound _ _ _ => simp [snd_config_get_type] at hty
  | cons c t =>
    by_cases hc : (48 ≤ c ∧ c ≤ 57) ∨ c = 45
    · have hn : starts_numeric (c :: t) = true := by
        simp only [starts_numeric, Bool.or_eq_true, Bool.and_eq_true, decide_eq_true_eq]
        exact hc
      simp only [hc, if_true]
      cases hs : safe_strtol (c :: t) with
      | ok v =>
        have hsn := scalar_node_integer L id _ v hn hs
        rw [hsn] at hty ⊢
        simp only [hk]
        cases old with
        | integer i0 v0 =>
          simp only [snd_config_get_id] at hid
          subst hid
          rfl
        | string _ _ => simp [snd_config_get_type] at hty
        | real _ _ => simp [snd_config_get_type] at hty
        | compound _ _ _ => simp [snd_config_get_type] at hty
      | error e =>
        have hsn := scalar_node_other L id _ e hn hs
        simp only
        cases hd : safe_strtod L (c :: t) with
        | ok r =>
          rw [hd] at hsn
          simp only at hsn
          rw [hsn] at hty ⊢
          simp only [hk]
          cases old with
          | real i0 v0 =>
            simp only [snd_config_get_id] at hid
            subst hid
            rfl
          | string _ _ => simp [snd_config_get_type] at hty
          | integer _ _ => simp [snd_config_get_type] at hty
          | compound _ _ _ => simp [snd_config_get_type] at hty
        | error e2 =>
          rw [hd] at hsn
          simp only at hsn
          rw [hsn] at hty ⊢
          simp only [hk]
          cases old with
          | string i0 s0 =>
            simp only [snd_config_get_id] at hid
            subst hid
            rfl
          | integer _ _ => simp [snd_config_get_type] at hty
          | real _ _ => simp [snd_config_get_type] at hty
          | compound _ _ _ => simp [snd_config_get_type] at hty
    · have hn : starts_numeric (c :: t) = false := by
        simp only [starts_numeric, Bool.or_eq_false_iff, Bool.and_eq_false_iff,
          decide_eq_false_iff_not]
        omega
      have hsn : scalar_node L id (c :: t) = .string (some id) (c :: t) := by
        simp [scalar_node, hn]
      simp only [hc, if_false]
      rw [hsn] at hty ⊢
      simp only [hk]
      cases old with
      | string i0 s0 =>
        simp only [snd_config_get_id] at hid
        subst hid
        rfl
      | integer _ _ => simp [snd_config_get_type] at hty
      | real _ _ => simp [snd_config_get_type] at hty
      | compound _ _ _ => simp [snd_config_get_type] at hty

/-- The part of `parse_def` for a scalar token, followed by a newline, that is
assigned to a node that exists and has the type of the token. -/
theorem parse_def_scalar_existing (L : libc_double) (i A v : Str)
    (hi : plain_word i = true) (hA : assign_sep A = true) (hv : plain_word v = true)
    (X : snd_config_t) (k : Nat) (old : snd_config_t) (inp : input_t) (T : List Nat)
    (hsi : search_index X i = some k) (hold : (fields X)[k]? = some old)
    (hty : snd_config_get_type old = snd_config_get_type (scalar_node L i v))
    (hf : FeedsW inp (i ++ (A ++ (v ++ 10 :: T)))) (ht : GoodTail T) :
    Yields (fun f => parse_def L f X inp) (set_field X k (scalar_node L i v)) (lstrip T) := by
  obtain ⟨c, v', rfl, hc⟩ := plain_word_cons hv
  have hcs := plain_char_spec hc
  obtain ⟨g1, inp3, hgs, hc3, hcase⟩ := assign_reads hi hA (plain_not_blank hc)
    (by omega) (by omega) hf
  obtain ⟨inp4, hgv, hc4⟩ := get_string_word false 10 (by decide) hv
    (unget_feeds c hc3).feedsW
  have hpv := parse_value_existing L X (unget_char (c : Int) inp3) i k old
    (by rw [hgv]; show ¬ ((0 : Int) < 0); decide) hold (search_index_id X i k old hsi hold)
    (by rw [hgv]; exact hty)
  rw [hgv] at hpv
  have hpv2 : parse_value L (some k) X (unget_char (c : Int) inp3) i
      = ⟨0, set_field X k (scalar_node L i (c :: v')), unget_char 10 inp4⟩ := hpv
  obtain ⟨inp5, hpe, hf5⟩ := parse_def_end_tail 0 (set_field X k (scalar_node L i (c :: v')))
    (unget_feeds 10 hc4).feedsW (goodTail_newline ht)
  rw [lstrip_blank_cons T (by decide)] at hf5
  simp only [Nat.cast_ofNat] at hpe
  refine ⟨inp5, hf5, 1, ?_⟩
  intro f hf1
  obtain ⟨f, rfl⟩ : ∃ k, f = k + 1 := ⟨f - 1, by omega⟩
  have h46 : ¬ ((c : Int) = 46) := by omega
  have h61 : ¬ ((c : Int) = 61) := by omega
  have hbr : ¬ ((c : Int) = 123 ∨ (c : Int) = 91) := by omega
  have h0 : ¬ ((0 : Int) < 0) := by omega
  have e46 : ¬ ((61 : Int) = 46) := by decide
  rcases hcase with hg | ⟨inp2, hg, hg2⟩
  · simp only [parse_def, hgs, h0, if_false, hg, h46, h61, hbr, hsi, hpv2, hpe]
  · simp only [parse_def, hgs, h0, if_false, hg, e46, if_true, hg2, hbr, hsi, hpv2, hpe]

/-- The part of `parse_def` for a body in braces that is assigned to a compound
that exists. -/
theorem parse_def_compound_existing (L : libc_double) (i A : Str) (m : snd_config_t)
    (B T : List Nat) (hi : plain_word i = true) (hA : assign_sep A = true)
    (X : snd_config_t) (k : Nat) (ci : Option Str) (cj : Bool) (fs : List snd_config_t)
    (inp : input_t)
    (hsi : search_index X i = some k) (hold : (fields X)[k]? = some (.compound ci cj fs))
    (hb : ∀ inp0, Clean inp0 B →
      Yields (fun f => parse_defs L f (.compound ci cj fs) inp0) m (125 :: 10 :: T))
    (hf : FeedsW inp (i ++ (A ++ 123 :: B))) (ht : GoodTail T) :
    Yields (fun f => parse_def L f X inp) (set_field X k m) (lstrip T) := by
  obtain ⟨g1, inp3, hgs, hc3, hcase⟩ := assign_reads hi hA (by decide : is_blank 123 = false)
    (by decide) (by decide) hf
  obtain ⟨inp4, hf4, f0, hbody⟩ := hb inp3 hc3
  have hl4 : lstrip (125 :: 10 :: T) = 125 :: 10 :: T := lstrip_solid _ (by decide)
  obtain ⟨inp5, hg5, hc5⟩ := get_nonwhite_char hf4.feedsW hl4 (by decide) (by decide)
  obtain ⟨inp6, hpe, hf6⟩ := parse_def_end_tail 0 (set_field X k m)
    hc5.feeds.feedsW (goodTail_newline ht)
  rw [lstrip_blank_cons T (by decide)] at hf6
  refine ⟨inp6, hf6, f0 + 1, ?_⟩
  intro f hf1
  obtain ⟨f, rfl⟩ : ∃ k, f = k + 1 := ⟨f - 1, by omega⟩
  have e46 : ¬ ((61 : Int) = 46) := by decide
  have h46 : ¬ ((123 : Int) = 46) := by decide
  have h61 : ¬ ((123 : Int) = 61) := by decide
  have h123 : ((123 : Int) = 123) := rfl
  have h0 : ¬ ((0 : Int) < 0) := by omega
  have hne : ¬ ((125 : Int) ≠ 125) := by decide
  simp only [Nat.cast_ofNat] at hg5 hcase
  rcases hcase with hg | ⟨inp2, hg, hg2⟩
  · simp only [parse_def, hgs, h0, if_false, hg, h46, h61, h123, if_true, hsi, hold,
      hbody f (by omega), hg5, hne, hpe, true_or]
  · simp only [parse_def, hgs, h0, if_false, hg, e46, if_true, hg2, h123, hsi, hold,
      hbody f (by omega), hg5, hne, hpe, true_or]

theorem goodTail_solid (c : Nat) (T : List Nat) (hb : is_blank c = false)
    (h : c ≠ 60 ∧ c ≠ 35 ∧ c ≠ 59 ∧ c ≠ 44) : GoodTail (c :: T) := by
  intro d Y hl
  rw [lstrip_solid T hb] at hl
  cases hl
  exact h

theorem goodTail_body (lines : List (Str × Str × Str)) (T : List Nat)
    (hok : body_ok lines = true) : GoodTail (body_text lines ++ 125 :: T) := by
  cases lines with
  | nil => exact goodTail_solid 125 T (by decide) (by decide)
  | cons l rest =>
    simp only [body_ok, Bool.and_eq_true] at hok
    obtain ⟨c, w, hw, hc⟩ := plain_word_cons hok.1.1.1
    have hs := plain_char_spec hc
    simp only [body_text, hw, List.cons_append]
    exact goodTail_solid c _ (plain_not_blank hc) ⟨by omega, by omega, by omega, by omega⟩

/-- The body of scalar definitions with new identifiers is read into a
compound as new children behind the ones it has. -/
theorem body_yields (L : libc_double) (I : Option Str) (J : Bool) (T : List Nat) :
    ∀ (lines : List (Str × Str × Str)) (fs : List snd_config_t) (inp : input_t),
      body_ok lines = true →
      (fs.map snd_config_get_id ++ lines.map (fun l => some l.1)).Nodup →
      FeedsW inp (body_text lines ++ 125 :: T) →
      Yields (fun f => parse_defs L f (.compound I J fs) inp)
        (.compound I J (fs ++ body_nodes L lines)) (125 :: T) := by
  intro lines
  induction lines with
  | nil =>
    intro fs inp _ _ hf
    simp only [body_text, List.nil_append] at hf
    simp only [body_nodes, List.map_nil, List.append_nil]
    exact parse_defs_close L _ hf (lstrip_solid _ (by decide))
  | cons l rest ih =>
    intro fs inp hok hnd hf
    obtain ⟨i, A, v⟩ := l
    simp only [body_ok, Bool.and_eq_true] at hok
    obtain ⟨⟨⟨hi, hA⟩, hv⟩, hrest⟩ := hok
    obtain ⟨c, w, hw, hc⟩ := plain_word_cons hi
    have hfresh : some i ∉ fs.map snd_config_get_id := by
      intro hmem
      have := (List.nodup_append.mp hnd).2.2 hmem
      exact this (by simp)
    have hnd2 : ((fs ++ [scalar_node L i v]).map snd_config_get_id
        ++ rest.map (fun l => some l.1)).Nodup := by
      simp only [List.map_append, List.map_cons, List.map_nil, scalar_node_id,
        List.append_assoc, List.singleton_append]
      simpa using hnd
    have htext : body_text ((i, A, v) :: rest) ++ 125 :: T
        = i ++ (A ++ (v ++ 10 :: (body_text rest ++ 125 :: T))) := by
      simp [body_text]
    rw [htext] at hf
    have hl : lstrip (i ++ (A ++ (v ++ 10 :: (body_text rest ++ 125 :: T))))
        = c :: (w ++ (A ++ (v ++ 10 :: (body_text rest ++ 125 :: T)))) := by
      rw [hw]
      exact lstrip_plain _ hc
    have hgt := goodTail_body rest T hrest
    have hres : .compound I J (fs ++ body_nodes L ((i, A, v) :: rest))
        = snd_config_t.compound I J ((fs ++ [scalar_node L i v]) ++ body_nodes L rest) := by
      simp [body_nodes]
    rw [hres]
    refine @parse_defs_step L (.compound I J fs) (.compound I J (fs ++ [scalar_node L i v])) _
      inp _ _ (lstrip (body_text rest ++ 125 :: T)) _ c hf hl hc ?_ ?_
    · intro inp1 hf1
      have hf1w : FeedsW inp1 (i ++ (A ++ (v ++ 10 :: (body_text rest ++ 125 :: T)))) := by
        rw [hw]
        exact hf1.feedsW
      exact parse_def_scalar L i A v hi hA hv _ _ inp1 _
        (add_new_fresh i _ I J fs hfresh) hf1w hgt
    · intro inp2 hf2
      exact ih (fs ++ [scalar_node L i v]) inp2 hrest hnd2 (feedsW_lstrip hf2)


theorem set_ids_same : ∀ (l : List snd_config_t) (k : Nat) (old n : snd_config_t),
    l[k]? = some old → snd_config_get_id n = snd_config_get_id old →
    (l.set k n).map snd_config_get_id = l.map snd_config_get_id ∧ (l.set k n)[k]? = some n := by
  intro l
  induction l with
  | nil => intro k old n h; simp at h
  | cons a t ih =>
    intro k old n h hid
    cases k with
    | zero =>
      simp only [List.getElem?_cons_zero, Option.some.injEq] at h
      subst h
      simp [hid]
    | succ k =>
      simp only [List.getElem?_cons_succ] at h
      obtain ⟨h1, h2⟩ := ih k old n h hid
      simp [h1, h2]

theorem fields_set_field (F : snd_config_t) (k : Nat) (old n : snd_config_t)
    (hold : (fields F)[k]? = some old) :
    fields (set_field F k n) = (fields F).set k n := by
  cases F with
  | compound I J fs => rfl
  | integer _ _ => simp [fields] at hold
  | real _ _ => simp [fields] at hold
  | string _ _ => simp [fields] at hold

/-- Claim C31 (re-definition with the same type updates in place).  In a
compound `F` whose first child identified `i` is `old`, at the position `k`:
a definition `i v` of a scalar token of the type of `old` loads with status 0
and leaves `F` with the node of `v` at the position `k`; a definition
`i { ... }` of scalar definitions with new identifiers, for a compound `old`,
loads with status 0 and leaves at the position `k` the compound with the
children it had and the new ones behind them; in both cases `F` has the same
identifiers at the same positions as before, so no node is added and none
moved. -/
theorem snd_config_load_redefine (L : libc_double) (i A : Str) (F : snd_config_t) (k : Nat)
    (old : snd_config_t) (hi : plain_word i = true) (hA : assign_sep A = true)
    (hk : search_index F i = some k) (hold : (fields F)[k]? = some old) :
    (∀ v, plain_word v = true →
      snd_config_get_type old = snd_config_get_type (scalar_node L i v) →
      ∃ fuel0, ∀ fuel, fuel0 ≤ fuel →
        snd_config_load L fuel F (i ++ (A ++ (v ++ [10])))
          = some (0, set_field F k (scalar_node L i v))) ∧
    (∀ ci cj fs lines, old = .compound ci cj fs → body_ok lines = true →
      (fs.map snd_config_get_id ++ lines.map (fun l => some l.1)).Nodup →
      ∃ fuel0, ∀ fuel, fuel0 ≤ fuel →
        snd_config_load L fuel F (i ++ (A ++ 123 :: (body_text lines ++ [125, 10])))
          = some (0, set_field F k (.compound ci cj (fs ++ body_nodes L lines)))) ∧
    (∀ n, snd_config_get_id n = some i →
      (fields (set_field F k n)).map snd_config_get_id = (fields F).map snd_config_get_id ∧
      (fields (set_field F k n))[k]? = some n) := by
  obtain ⟨c, w, hw, hc⟩ := plain_word_cons hi
  refine ⟨?_, ?_, ?_⟩
  · intro v hv hty
    apply snd_config_load_of_yields
    have htext : i ++ (A ++ (v ++ [10])) = c :: (w ++ (A ++ (v ++ [10]))) := by
      rw [hw]; rfl
    rw [htext]
    refine parse_defs_single L F _ c _ hc ?_
    intro inp1 hf1
    rw [← htext] at hf1
    exact parse_def_scalar_existing L i A v hi hA hv F k old inp1 [] hk hold hty
      hf1.feedsW goodTail_nil
  · intro ci cj fs lines hold2 hok hnd
    subst hold2
    apply snd_config_load_of_yields
    have htext : i ++ (A ++ 123 :: (body_text lines ++ [125, 10]))
        = c :: (w ++ (A ++ 123 :: (body_text lines ++ [125, 10]))) := by
      rw [hw]; rfl
    rw [htext]
    refine parse_defs_single L F _ c _ hc ?_
    intro inp1 hf1
    rw [← htext] at hf1
    refine parse_def_compound_existing L i A _ (body_text lines ++ [125, 10]) [] hi hA F k
      ci cj fs inp1 hk hold ?_ hf1.feedsW goodTail_nil
    intro inp0 hc0
    exact body_yields L ci cj [10] lines fs inp0 hok hnd hc0.feeds.feedsW
  · intro n hn
    rw [fields_set_field F k old n hold]
    exact set_ids_same (fields F) k old n hold
      (by rw [hn, search_index_id F i k old hk hold])

/-- Witness of C31: in the tree `a 1`, `c { b 1 }`, `z end` the definition
`a 2` changes the Integer `a` at its place and `c { d 2 e x }` adds `d` and `e`
behind `b`; the texts `a 1 a 2` and `a {b 1} a {c 2}` of the claim load as it
says. -/
theorem snd_config_load_redefine_example :
    (∃ fuel0, ∀ fuel, fuel0 ≤ fuel →
      snd_config_load libc_no_real fuel redefine_tree (cstr "a 2\n")
        = some (0, .compound none false
            [.integer (some (cstr "a")) 2,
             .compound (some (cstr "c")) false [.integer (some (cstr "b")) 1],
             .string (some (cstr "z")) (cstr "end")])) ∧
    (∃ fuel0, ∀ fuel, fuel0 ≤ fuel →
      snd_config_load libc_no_real fuel redefine_tree (cstr "c \x7bd 2\ne x\n\x7d\n")
        = some (0, .compound none false
            [.integer (some (cstr "a")) 1,
             .compound (some (cstr "c")) false
               [.integer (some (cstr "b")) 1, .integer (some (cstr "d")) 2,
                .string (some (cstr "e")) (cstr "x")],
             .string (some (cstr "z")) (cstr "end")])) ∧
    snd_config_load libc_no_real 10 snd_config_top (cstr "a 1 a 2")
      = some (0, .compound none false [.integer (some (cstr "a")) 2]) ∧
    snd_config_load libc_no_real 10 snd_config_top (cstr "a \x7bb 1\x7d a \x7bc 2\x7d")
      = some (0, .compound none false
          [.compound (some (cstr "a")) false
            [.integer (some (cstr "b")) 1, .integer (some (cstr "c")) 2]]) :=
  ⟨(snd_config_load_redefine libc_no_real (cstr "a") (cstr " ") redefine_tree 0
      (.integer (some (cstr "a")) 1) (by decide) (by decide) (by decide) (by decide)).1
      (cstr "2") (by decide) (by decide),
   (snd_config_load_redefine libc_no_real (cstr "c") (cstr " ") redefine_tree 1
      (.compound (some (cstr "c")) false [.integer (some (cstr "b")) 1])
      (by decide) (by decide) (by decide) (by decide)).2.1
      (some (cstr "c")) false [.integer (some (cstr "b")) 1]
      [(cstr "d", cstr " ", cstr "2"), (cstr "e", cstr " ", cstr "x")] rfl (by decide)
      (by decide),
   by decide!, by decide!⟩


/-! ### A text followed by an unmatched brace -/

theorem sim_consume {S : Str} {c : Int} {a b : input_t}
    (h : Sim S (unget_char c a) (unget_char c b)) (ha : a.unget = false)
    (hb : b.unget = false) : Sim S a b := by
  obtain ⟨_, h2, h3, h4, _⟩ := h
  simp only [unget_char] at h2 h3 h4
  refine ⟨by rw [ha, hb], h2, h3, ?_, fun hu => by rw [ha] at hu; cases hu⟩
  rcases h4 with h4 | ⟨h4, _⟩
  · exact Or.inl h4
  · exact Or.inr ⟨h4, fun hu => by rw [ha] at hu; cases hu⟩

theorem past_unget {S : Str} {a b : input_t} (h : Past S a b) :
    Pending S (unget_char EOF a) (unget_char 125 b) := by
  obtain ⟨_, h2, _, h4⟩ := h
  exact ⟨rfl, rfl, h2, rfl, rfl, h4⟩

theorem get_char_sim {S : Str} {a b : input_t} (h : Sim S a b ∨ Pending S a b) :
    CharSim S (get_char a) (get_char b) := by
  rcases h with h | h
  · obtain ⟨h1, h2, h3, h4, h5⟩ := h
    cases hu : a.unget with
    | true =>
      obtain ⟨h6, h7, h8⟩ := h5 hu
      have hub : b.unget = true := by rw [h1, hu]
      have ea : get_char a = (a.ch, { a with unget := false }) := by simp [get_char, hu]
      have eb : get_char b = (b.ch, { b with unget := false }) := by simp [get_char, hub]
      rw [ea, eb]
      left
      refine ⟨h7, h8, h6, rfl, rfl, ?_⟩
      refine ⟨rfl, h2, h3, ?_, fun _ => ⟨rfl, h7, h8⟩⟩
      rcases h4 with h4 | ⟨h4, h9⟩
      · exact Or.inl h4
      · exact Or.inr ⟨h4, fun _ => h9 hu⟩
    | false =>
      have hub : b.unget = false := by rw [h1, hu]
      cases hc : a.current with
      | nil =>
        rw [hc] at h2
        have ea : get_char a = (EOF, a) := by simp [get_char, hu, hc]
        have eb : get_char b = (125, { b with current := S }) := by
          simp [get_char, hub, h2]
        rw [ea, eb]
        right
        exact ⟨rfl, rfl, hu, hc, hub, rfl⟩
      | cons c cs =>
        rw [hc] at h2 h3 h4
        have ea : get_char a = ((c : Int), { a with current := cs }) := by
          simp [get_char, hu, hc]
        have eb : get_char b = ((c : Int), { b with current := cs ++ 125 :: S }) := by
          simp [get_char, hub, h2]
        rw [ea, eb]
        left
        have hc60 : (c : Int) ≠ 60 := by
          intro he
          apply h3
          have : c = 60 := by exact_mod_cast he
          rw [this]
          exact List.mem_cons_self _ _
        refine ⟨Int.natCast_nonneg c, hc60, rfl, hu, hub, ?_⟩
        refine ⟨rfl, rfl, fun hm => h3 (List.mem_cons_of_mem _ hm), ?_,
          fun _ => ⟨rfl, Int.natCast_nonneg c, hc60⟩⟩
        rcases h4 with h4 | ⟨h4, _⟩
        · cases cs with
          | nil =>
            right
            simp only [List.getLast?_singleton, Option.some.injEq] at h4
            exact ⟨rfl, fun _ => by rw [h4]; rfl⟩
          | cons d ds =>
            left
            rw [List.getLast?_cons_cons] at h4
            exact h4
        · cases h4
  · obtain ⟨h1, h2, h3, h4, h5, h6⟩ := h
    have ea : get_char a = (a.ch, { a with unget := false }) := by simp [get_char, h1]
    have eb : get_char b = (b.ch, { b with unget := false }) := by simp [get_char, h4]
    rw [ea, eb]
    right
    exact ⟨h2, h5, rfl, h3, rfl, h6⟩

theorem vlen_get_char (a : input_t) (h : (get_char a).1 ≠ EOF) :
    vlen (get_char a).2 + 1 = vlen a := by
  unfold get_char at h ⊢
  cases hu : a.unget with
  | true => simp [vlen, hu]
  | false =>
    cases hc : a.current with
    | nil => simp [hu, hc] at h
    | cons c cs => simp [vlen, hu, hc]

theorem vlen_unget (c : Int) (a : input_t) : vlen (unget_char c a) = a.current.length + 1 := by
  simp [vlen, unget_char]

theorem vlen_le (a : input_t) : a.current.length ≤ vlen a := by
  simp [vlen]

theorem charSim_ne_eof {S : Str} {r r' : Int × input_t} (h : CharSim S r r') : r'.1 ≠ EOF := by
  rcases h with ⟨h1, _, h3, _⟩ | ⟨_, h2, _⟩
  · rw [h3]
    intro he
    rw [he] at h1
    exact absurd h1 (by decide)
  · rw [h2]; decide

theorem sim_error {S : Str} {a b : input_t} (h : Sim S a b) (e e' : Int) :
    Sim S { a with error := e } { b with error := e' } := h

theorem pending_error {S : Str} {a b : input_t} (h : Pending S a b) (e e' : Int) :
    Pending S { a with error := e } { b with error := e' } := h

theorem past_atEnd {S : Str} {a b : input_t} (h : Past S a b) : AtEnd a :=
  ⟨h.2.1, fun hu => by rw [h.1] at hu; cases hu⟩

theorem vlen_get_char_le (a : input_t) : vlen (get_char a).2 ≤ vlen a := by
  unfold get_char
  cases hu : a.unget with
  | true => simp [vlen, hu]
  | false =>
    cases hc : a.current with
    | nil => simp [vlen, hu, hc]
    | cons c cs => simp [vlen, hu, hc]

theorem get_char_unget (a : input_t) (hu : a.unget = false) : (get_char a).2.unget = false := by
  unfold get_char
  simp only [hu]
  cases a.current <;> simp [hu]

theorem vlen_octal : ∀ (k : Nat) (num : Int) (a : input_t),
    vlen (get_quotedchar_octal k num a).2 ≤ vlen a + 1 := by
  intro k
  induction k with
  | zero => intro num a; simp [get_quotedchar_octal]
  | succ k ih =>
    intro num a
    simp only [get_quotedchar_octal]
    split
    · rw [vlen_unget]
      have := vlen_le (get_char a).2
      have := vlen_get_char_le a
      omega
    · rename_i hd
      have hne : (get_char a).1 ≠ EOF := by
        intro he
        apply hd
        left
        rw [he]
        decide
      have := vlen_get_char a hne
      have := ih (num * 8 + (get_char a).1 - 48) (get_char a).2
      omega

theorem vlen_quotedchar (a : input_t) : vlen (get_quotedchar a).2 ≤ vlen a := by
  have hle := vlen_get_char_le a
  unfold get_quotedchar
  simp only
  split
  · exact hle
  · split
    · exact hle
    · split
      · exact hle
      · split
        · exact hle
        · split
          · exact hle
          · split
            · exact hle
            · split
              · rename_i hd
                have hne : (get_char a).1 ≠ EOF := by
                  intro he
                  rw [he] at hd
                  exact absurd hd.1 (by decide)
                have := vlen_get_char a hne
                have := vlen_octal 2 ((get_char a).1 - 48) (get_char a).2
                omega
              · exact hle

/-- The octal digits of a quoted character are read alike. -/
theorem get_quotedchar_octal_sim {S : Str} : ∀ (k : Nat) (num : Int) (a b : input_t),
    Sim S a b →
    (get_quotedchar_octal k num b).1 = (get_quotedchar_octal k num a).1 ∧
    (Sim S (get_quotedchar_octal k num a).2 (get_quotedchar_octal k num b).2 ∨
      Pending S (get_quotedchar_octal k num a).2 (get_quotedchar_octal k num b).2) := by
  intro k
  induction k with
  | zero => intro num a b h; exact ⟨rfl, Or.inl h⟩
  | succ k ih =>
    intro num a b h
    have hc := get_char_sim (Or.inl h : Sim S a b ∨ Pending S a b)
    simp only [get_quotedchar_octal]
    rcases hc with ⟨h1, h2, h3, h4, h5, h6⟩ | ⟨h1, h2, h3⟩
    · rw [h3]
      by_cases hd : (get_char a).1 < 48 ∨ (get_char a).1 > 55
      · simp only [hd, if_true]
        exact ⟨trivial, Or.inl h6⟩
      · simp only [hd, if_false]
        exact ih (num * 8 + (get_char a).1 - 48) _ _ (sim_consume h6 h4 h5)
    · rw [h1, h2]
      have e1 : (EOF < 48 ∨ EOF > 55) := Or.inl (by decide)
      have e2 : ((125 : Int) < 48 ∨ (125 : Int) > 55) := Or.inr (by decide)
      simp only [e1, e2, if_true]
      exact ⟨trivial, Or.inr (past_unget h3)⟩

/-- A quoted character is read alike, unless the text ends behind the
backslash. -/
theorem get_quotedchar_sim {S : Str} (a b : input_t) (h : Sim S a b) :
    ((get_quotedchar b).1 = (get_quotedchar a).1 ∧
      (Sim S (get_quotedchar a).2 (get_quotedchar b).2 ∨
        Pending S (get_quotedchar a).2 (get_quotedchar b).2)) ∨
    ((get_quotedchar a).1 < 0 ∧ AtEnd (get_quotedchar a).2) := by
  have hc := get_char_sim (Or.inl h : Sim S a b ∨ Pending S a b)
  rcases hc with ⟨h1, h2, h3, h4, h5, h6⟩ | ⟨h1, h2, h3⟩
  · have hs := sim_consume h6 h4 h5
    left
    unfold get_quotedchar
    simp only [h3]
    split
    · exact ⟨rfl, Or.inl hs⟩
    · split
      · exact ⟨rfl, Or.inl hs⟩
      · split
        · exact ⟨rfl, Or.inl hs⟩
        · split
          · exact ⟨rfl, Or.inl hs⟩
          · split
            · exact ⟨rfl, Or.inl hs⟩
            · split
              · exact ⟨rfl, Or.inl hs⟩
              · split
                · exact get_quotedchar_octal_sim 2 ((get_char a).1 - 48) _ _ hs
                · exact ⟨rfl, Or.inl hs⟩
  · right
    have hq : get_quotedchar a = (EOF, (get_char a).2) := by
      unfold get_quotedchar
      simp [h1, EOF]
    rw [hq]
    exact ⟨(by decide : EOF < 0), past_atEnd h3⟩

/-- A free string is read alike, up to the same character or to the end of the
text against the `}`. -/
theorem get_freestring_loop_sim {S : Str} (id : Bool) : ∀ (n m : Nat) (a b : input_t)
    (buf : List Nat), Sim S a b → vlen a < n → vlen b < m →
    (get_freestring_loop m id b buf).1 = (get_freestring_loop n id a buf).1 ∧
    (Sim S (get_freestring_loop n id a buf).2 (get_freestring_loop m id b buf).2 ∨
      Pending S (get_freestring_loop n id a buf).2 (get_freestring_loop m id b buf).2) := by
  intro n
  induction n with
  | zero => intro m a b buf _ h _; exact absurd h (Nat.not_lt_zero _)
  | succ n ih =>
    intro m a b buf h hn hm
    obtain ⟨m, rfl⟩ : ∃ k, m = k + 1 := ⟨m - 1, by omega⟩
    have hc := get_char_sim (Or.inl h : Sim S a b ∨ Pending S a b)
    have hvb := vlen_get_char b (charSim_ne_eof hc)
    simp only [get_freestring_loop]
    rcases hc with ⟨h1, h2, h3, h4, h5, h6⟩ | ⟨h1, h2, h3⟩
    · have hva := vlen_get_char a (by
        intro he; rw [he] at h1; exact absurd h1 (by decide))
      rw [h3]
      by_cases he : freestring_end id (get_char a).1 = true
      · simp only [he, if_true]
        exact ⟨trivial, Or.inl h6⟩
      · simp only [he, if_false]
        exact ih m _ _ _ (sim_consume h6 h4 h5) (by omega) (by omega)
    · rw [h1, h2]
      have e1 : freestring_end id EOF = true := by cases id <;> decide
      have e2 : freestring_end id 125 = true := by cases id <;> decide
      simp only [e1, e2, if_true]
      exact ⟨trivial, Or.inr (past_unget h3)⟩

theorem get_freestring_sim {S : Str} (id : Bool) (a b : input_t) (h : Sim S a b) :
    (get_freestring id b).1 = (get_freestring id a).1 ∧
    (Sim S (get_freestring id a).2 (get_freestring id b).2 ∨
      Pending S (get_freestring id a).2 (get_freestring id b).2) := by
  unfold get_freestring
  apply get_freestring_loop_sim id _ _ a b [] h
  · simp only [vlen]; split <;> omega
  · simp only [vlen]; split <;> omega

/-- A delimited string is read alike, unless the text ends inside it. -/
theorem get_delimstring_loop_sim {S : Str} (delim : Int) : ∀ (n m : Nat) (a b : input_t)
    (buf : List Nat), (Sim S a b ∨ Pending S a b) → vlen a < n → vlen b < m →
    ((get_delimstring_loop m delim b buf).err = (get_delimstring_loop n delim a buf).err ∧
      (get_delimstring_loop m delim b buf).string
        = (get_delimstring_loop n delim a buf).string ∧
      (Sim S (get_delimstring_loop n delim a buf).input
          (get_delimstring_loop m delim b buf).input ∨
        Pending S (get_delimstring_loop n delim a buf).input
          (get_delimstring_loop m delim b buf).input)) ∨
    ((get_delimstring_loop n delim a buf).err < 0 ∧
      AtEnd (get_delimstring_loop n delim a buf).input) := by
  intro n
  induction n with
  | zero => intro m a b buf _ h _; exact absurd h (Nat.not_lt_zero _)
  | succ n ih =>
    intro m a b buf h hn hm
    obtain ⟨m, rfl⟩ : ∃ k, m = k + 1 := ⟨m - 1, by omega⟩
    have hc := get_char_sim h
    have hvb := vlen_get_char b (charSim_ne_eof hc)
    have hne := charSim_ne_eof hc
    simp only [get_delimstring_loop]
    rcases hc with ⟨h1, h2, h3, h4, h5, h6⟩ | ⟨h1, h2, h3⟩
    · have hae : ¬ (get_char a).1 = EOF := by
        intro he; rw [he] at h1; exact absurd h1 (by decide)
      have hva := vlen_get_char a hae
      have hbe : ¬ (get_char b).1 = EOF := hne
      simp only [hae, hbe, if_false]
      rw [h3]
      have hs := sim_consume h6 h4 h5
      by_cases h92 : (get_char a).1 = 92
      · simp only [h92, if_true]
        have hqa := vlen_quotedchar (get_char a).2
        have hqb := vlen_quotedchar (get_char b).2
        rcases get_quotedchar_sim _ _ hs with ⟨q1, q2⟩ | ⟨q1, q2⟩
        · rw [q1]
          by_cases hq : (get_quotedchar (get_char a).2).1 < 0
          · simp only [hq, if_true]
            left
            refine ⟨trivial, trivial, ?_⟩
            rcases q2 with q2 | q2
            · exact Or.inl (sim_error q2 _ _)
            · exact Or.inr (pending_error q2 _ _)
          · simp only [hq, if_false]
            exact ih m _ _ _ q2 (by omega) (by omega)
        · simp only [q1, if_true]
          exact Or.inr ⟨by decide, q2⟩
      · simp only [h92, if_false]
        by_cases hd : (get_char a).1 = delim
        · simp only [hd, if_true]
          exact Or.inl ⟨trivial, trivial, Or.inl hs⟩
        · simp only [hd, if_false]
          exact ih m _ _ _ (Or.inl hs) (by omega) (by omega)
    · simp only [h1, if_true]
      exact Or.inr ⟨by decide, past_atEnd h3⟩

theorem get_delimstring_sim {S : Str} (delim : Int) (a b : input_t)
    (h : Sim S a b ∨ Pending S a b) :
    ((get_delimstring delim b).err = (get_delimstring delim a).err ∧
      (get_delimstring delim b).string = (get_delimstring delim a).string ∧
      (Sim S (get_delimstring delim a).input (get_delimstring delim b).input ∨
        Pending S (get_delimstring delim a).input (get_delimstring delim b).input)) ∨
    ((get_delimstring delim a).err < 0 ∧ AtEnd (get_delimstring delim a).input) := by
  unfold get_delimstring
  apply get_delimstring_loop_sim delim _ _ a b [] h
  · simp only [vlen]; split <;> omega
  · simp only [vlen]; split <;> omega

/-- A comment that starts in the text ends at a newline of the text, and is
skipped alike. -/
theorem skip_comment_sim {S : Str} : ∀ (n m : Nat) (c0 : Int) (a b : input_t),
    Sim S (unget_char c0 a) (unget_char c0 b) → c0 ≠ 10 → a.unget = false → b.unget = false →
    a.current.length < n → b.current.length < m →
    (skip_comment n a).1 = false ∧ (skip_comment m b).1 = false ∧
    Sim S (skip_comment n a).2 (skip_comment m b).2 ∧
    (skip_comment n a).2.unget = false ∧
    vlen (skip_comment n a).2 ≤ vlen a ∧ vlen (skip_comment m b).2 ≤ vlen b := by
  intro n
  induction n with
  | zero => intro m c0 a b _ _ _ _ h _; exact absurd h (Nat.not_lt_zero _)
  | succ n ih =>
    intro m c0 a b h hc0 hau hbu hn hm
    obtain ⟨m, rfl⟩ : ∃ k, m = k + 1 := ⟨m - 1, by omega⟩
    have hs := sim_consume h hau hbu
    have hlast : a.current.getLast? = some 10 := by
      obtain ⟨_, _, _, h4, _⟩ := h
      simp only [unget_char] at h4
      rcases h4 with h4 | ⟨_, h4⟩
      · exact h4
      · exact absurd (h4 trivial) hc0
    have hc := get_char_sim (Or.inl hs : Sim S a b ∨ Pending S a b)
    have hvb := vlen_get_char b (charSim_ne_eof hc)
    have hne := charSim_ne_eof hc
    simp only [skip_comment]
    rcases hc with ⟨h1, h2, h3, h4, h5, h6⟩ | ⟨h1, h2, h3⟩
    · have hae : ¬ (get_char a).1 = EOF := by
        intro he; rw [he] at h1; exact absurd h1 (by decide)
      have hva := vlen_get_char a hae
      have hbe : ¬ (get_char b).1 = EOF := hne
      simp only [hae, hbe, if_false]
      rw [h3]
      by_cases h10 : (get_char a).1 = 10
      · simp only [h10, if_true]
        exact ⟨trivial, trivial, sim_consume h6 h4 h5, h4, by omega, by omega⟩
      · simp only [h10, if_false]
        have hla : (get_char a).2.current.length < n := by
          have := vlen_le (get_char a).2
          have : vlen a = a.current.length := by simp [vlen, hau]
          omega
        have hlb : (get_char b).2.current.length < m := by
          have := vlen_le (get_char b).2
          have : vlen b = b.current.length := by simp [vlen, hbu]
          omega
        obtain ⟨i1, i2, i3, i4, i5, i6⟩ := ih m _ _ _ h6 h10 h4 h5 hla hlb
        exact ⟨i1, i2, i3, i4, by omega, by omega⟩
    · exfalso
      cases hcur : a.current with
      | nil => rw [hcur] at hlast; cases hlast
      | cons c cs =>
        have : (get_char a).1 = (c : Int) := by simp [get_char, hau, hcur]
        rw [this] at h1
        have := Int.natCast_nonneg c
        rw [h1] at this
        exact absurd this (by decide)


theorem get_char_skip_comments_loop_sim {S : Str} : ∀ (n m : Nat) (a b : input_t),
    (Sim S a b ∨ Pending S a b) → vlen a < n → vlen b < m →
    CharSim S (get_char_skip_comments_loop n a) (get_char_skip_comments_loop m b) ∧
    vlen (get_char_skip_comments_loop m b).2 + 1 ≤ vlen b ∧
    ((get_char_skip_comments_loop n a).1 ≠ EOF →
      vlen (get_char_skip_comments_loop n a).2 + 1 ≤ vlen a) := by
  intro n
  induction n with
  | zero => intro m a b _ h _; exact absurd h (Nat.not_lt_zero _)
  | succ n ih =>
    intro m a b h hn hm
    obtain ⟨m, rfl⟩ : ∃ k, m = k + 1 := ⟨m - 1, by omega⟩
    have hc := get_char_sim h
    have hvb := vlen_get_char b (charSim_ne_eof hc)
    simp only [get_char_skip_comments_loop]
    rcases hc with ⟨h1, h2, h3, h4, h5, h6⟩ | ⟨h1, h2, h3⟩
    · have hae : (get_char a).1 ≠ EOF := by
        intro he; rw [he] at h1; exact absurd h1 (by decide)
      have hva := vlen_get_char a hae
      have h2b : ¬ (get_char b).1 = 60 := by rw [h3]; exact h2
      simp only [h2, h2b, if_false]
      by_cases h35 : (get_char a).1 = 35
      · have h35b : (get_char b).1 = 35 := by rw [h3]; exact h35
        simp only [h35, h35b, ne_eq, not_true_eq_false, if_false]
        have h6' : Sim S (unget_char 35 (get_char a).2) (unget_char 35 (get_char b).2) := by
          rw [h35] at h6; exact h6
        obtain ⟨k1, k2, k3, k4, k5, k6⟩ := skip_comment_sim
          ((get_char a).2.current.length + 1) ((get_char b).2.current.length + 1) 35 _ _
          h6' (by decide) h4 h5 (Nat.lt_succ_self _) (Nat.lt_succ_self _)
        simp only [k1, k2, Bool.false_eq_true, if_false]
        obtain ⟨i1, i2, i3⟩ := ih m _ _ (Or.inl k3) (by omega) (by omega)
        exact ⟨i1, by omega, fun hne => by have := i3 hne; omega⟩
      · have h35b : ¬ (get_char b).1 = 35 := by rw [h3]; exact h35
        simp only [h35, h35b, ne_eq, not_false_eq_true, if_true]
        exact ⟨Or.inl ⟨h1, h2, h3, h4, h5, h6⟩, by omega, fun _ => by omega⟩
    · have e1 : ¬ (get_char a).1 = 60 := by rw [h1]; decide
      have e2 : ¬ (get_char b).1 = 60 := by rw [h2]; decide
      have e3 : (get_char a).1 ≠ 35 := by rw [h1]; decide
      have e4 : (get_char b).1 ≠ 35 := by rw [h2]; decide
      simp only [e1, e2, e3, e4, ne_eq, not_false_eq_true, if_true, if_false]
      exact ⟨Or.inr ⟨h1, h2, h3⟩, by omega, fun hne => absurd h1 hne⟩

theorem vlen_lt_fuel (a : input_t) : vlen a < a.current.length + 2 := by
  simp only [vlen]; split <;> omega

theorem get_char_skip_comments_sim {S : Str} (a b : input_t)
    (h : Sim S a b ∨ Pending S a b) :
    CharSim S (get_char_skip_comments a) (get_char_skip_comments b) ∧
    vlen (get_char_skip_comments b).2 + 1 ≤ vlen b ∧
    ((get_char_skip_comments a).1 ≠ EOF → vlen (get_char_skip_comments a).2 + 1 ≤ vlen a) :=
  get_char_skip_comments_loop_sim _ _ a b h (vlen_lt_fuel a) (vlen_lt_fuel b)

theorem get_nonwhite_loop_sim {S : Str} : ∀ (n m : Nat) (a b : input_t),
    (Sim S a b ∨ Pending S a b) → vlen a < n → vlen b < m →
    CharSim S (get_nonwhite_loop n a) (get_nonwhite_loop m b) := by
  intro n
  induction n with
  | zero => intro m a b _ h _; exact absurd h (Nat.not_lt_zero _)
  | succ n ih =>
    intro m a b h hn hm
    obtain ⟨m, rfl⟩ : ∃ k, m = k + 1 := ⟨m - 1, by omega⟩
    obtain ⟨hc, hvb, hva⟩ := get_char_skip_comments_sim a b h
    simp only [get_nonwhite_loop]
    rcases hc with ⟨h1, h2, h3, h4, h5, h6⟩ | ⟨h1, h2, h3⟩
    · have hae : (get_char_skip_comments a).1 ≠ EOF := by
        intro he; rw [he] at h1; exact absurd h1 (by decide)
      have := hva hae
      rw [h3]
      split
      · exact ih m _ _ (Or.inl (sim_consume h6 h4 h5)) (by omega) (by omega)
      · exact Or.inl ⟨h1, h2, h3, h4, h5, h6⟩
    · rw [h1, h2]
      have e1 : ¬ (EOF = 32 ∨ EOF = 12 ∨ EOF = 9 ∨ EOF = 10 ∨ EOF = 13) := by decide
      have e2 : ¬ ((125 : Int) = 32 ∨ (125 : Int) = 12 ∨ (125 : Int) = 9 ∨ (125 : Int) = 10
          ∨ (125 : Int) = 13) := by decide
      simp only [e1, e2, if_false]
      exact Or.inr ⟨h1, h2, h3⟩

/-- The next character that is no blank and in no comment is read alike, or is
the end of the text against the `}`. -/
theorem get_nonwhite_sim {S : Str} (a b : input_t) (h : Sim S a b ∨ Pending S a b) :
    CharSim S (get_nonwhite a) (get_nonwhite b) :=
  get_nonwhite_loop_sim _ _ a b h (vlen_lt_fuel a) (vlen_lt_fuel b)

/-- A token is read alike, unless the text ends before it or inside it. -/
theorem get_string_sim {S : Str} (id : Bool) (a b : input_t) (h : Sim S a b ∨ Pending S a b) :
    ((get_string id b).err = (get_string id a).err ∧
      (get_string id b).string = (get_string id a).string ∧
      (Sim S (get_string id a).input (get_string id b).input ∨
        Pending S (get_string id a).input (get_string id b).input)) ∨
    ((get_string id a).err < 0 ∧ AtEnd (get_string id a).input) := by
  have hc := get_nonwhite_sim a b h
  unfold get_string
  simp only
  rcases hc with ⟨h1, h2, h3, h4, h5, h6⟩ | ⟨h1, h2, h3⟩
  · have hae : ¬ (get_nonwhite a).1 = EOF := by
      intro he; rw [he] at h1; exact absurd h1 (by decide)
    have hs := sim_consume h6 h4 h5
    rw [h3]
    simp only [hae, if_false]
    split
    · exact Or.inl ⟨rfl, rfl, Or.inl (sim_error hs _ _)⟩
    · split
      · rcases get_delimstring_sim (get_nonwhite a).1 _ _ (Or.inl hs) with
          ⟨d1, d2, d3⟩ | ⟨d1, d2⟩
        · rw [d1]
          split
          · exact Or.inl ⟨d1, d2, d3⟩
          · exact Or.inl ⟨rfl, d2, d3⟩
        · simp only [d1, if_true]
          exact Or.inr ⟨trivial, d2⟩
      · obtain ⟨f1, f2⟩ := get_freestring_sim id _ _ h6
        exact Or.inl ⟨rfl, f1, f2⟩
  · simp only [h1, if_true]
    exact Or.inr ⟨by decide, past_atEnd h3⟩

/-- At the end of the text `get_nonwhite` returns `EOF`. -/
theorem get_nonwhite_at_end (a : input_t) (h : AtEnd a) :
    (get_nonwhite a).1 = EOF ∧ AtEnd (get_nonwhite a).2 := by
  obtain ⟨hc, hu⟩ := h
  have hg : (get_char a).1 = EOF ∧ (get_char a).2.current = [] ∧
      (get_char a).2.unget = false := by
    cases hun : a.unget with
    | true => simp [get_char, hun, hu hun, hc]
    | false => simp [get_char, hun, hc]
  obtain ⟨g1, g2, g3⟩ := hg
  have e1 : ¬ (EOF = 60) := by decide
  have e2 : EOF ≠ 35 := by decide
  have e3 : ¬ (EOF = 32 ∨ EOF = 12 ∨ EOF = 9 ∨ EOF = 10 ∨ EOF = 13) := by decide
  have hs : get_char_skip_comments a = get_char a := by
    simp only [get_char_skip_comments, hc, List.length_nil, get_char_skip_comments_loop, g1, e1,
      e2, ne_eq, not_false_eq_true, if_true, if_false]
  simp only [get_nonwhite, hc, List.length_nil, get_nonwhite_loop, hs, g1, e3, if_false]
  exact ⟨trivial, g2, fun hu2 => by rw [g3] at hu2; cases hu2⟩

theorem charSim_unget {S : Str} {r r' : Int × input_t} (h : CharSim S r r') :
    Sim S (unget_char r.1 r.2) (unget_char r'.1 r'.2) ∨
      Pending S (unget_char r.1 r.2) (unget_char r'.1 r'.2) := by
  rcases h with ⟨_, _, h3, _, _, h6⟩ | ⟨h1, h2, h3⟩
  · left; rw [h3]; exact h6
  · right; rw [h1, h2]; exact past_unget h3

theorem charSim_char {S : Str} {r r' : Int × input_t} (h : CharSim S r r') (hne : r.1 ≠ EOF) :
    r'.1 = r.1 ∧ Sim S r.2 r'.2 := by
  rcases h with ⟨_, _, h3, h4, h5, h6⟩ | ⟨h1, _, _⟩
  · exact ⟨h3, sim_consume h6 h4 h5⟩
  · exact absurd h1 hne

theorem charSim_at_end {S : Str} {r r' : Int × input_t} (h : CharSim S r r') (he : r.1 = EOF) :
    r'.1 = 125 ∧ Past S r.2 r'.2 := by
  rcases h with ⟨h1, _⟩ | ⟨_, h2, h3⟩
  · rw [he] at h1; exact absurd h1 (by decide)
  · exact ⟨h2, h3⟩

theorem parse_value_shape (L : libc_double) (n : Option Nat) (father : snd_config_t) (id : Str)
    (e : Int) (s : Str) (i i' a b : input_t)
    (ha : get_string false a = ⟨e, s, i⟩) (hb : get_string false b = ⟨e, s, i'⟩) :
    (parse_value L n father b id).err = (parse_value L n father a id).err ∧
    (parse_value L n father b id).father = (parse_value L n father a id).father ∧
    (parse_value L n father a id).input = i ∧ (parse_value L n father b id).input = i' := by
  unfold parse_value
  simp only [ha, hb]
  repeat' (first | exact ⟨rfl, rfl, rfl, rfl⟩ | split)

/-- A value is read alike, unless the text ends before it or inside it. -/
theorem parse_value_sim {S : Str} (L : libc_double) (n : Option Nat) (father : snd_config_t)
    (id : Str) (a b : input_t) (h : Sim S a b ∨ Pending S a b) :
    ParseSim S (parse_value L n father a id) (parse_value L n father b id) ∨
    ((parse_value L n father a id).err < 0 ∧ AtEnd (parse_value L n father a id).input) := by
  rcases get_string_sim false a b h with ⟨g1, g2, g3⟩ | ⟨g1, g2⟩
  · obtain ⟨s1, s2, s3, s4⟩ := parse_value_shape L n father id (get_string false a).err
      (get_string false a).string (get_string false a).input (get_string false b).input a b rfl
      (by rw [← g1, ← g2])
    exact Or.inl ⟨s1, s2, by rw [s3, s4]; exact g3⟩
  · right
    unfold parse_value
    simp only [g1, if_true]
    exact ⟨trivial, g2⟩

theorem parse_def_end_fields (err : Int) (father : snd_config_t) (a : input_t) :
    (parse_def_end err father a).err = err ∧ (parse_def_end err father a).father = father := by
  unfold parse_def_end
  simp only
  split <;> exact ⟨rfl, rfl⟩

/-- The end of a definition is read alike. -/
theorem parse_def_end_sim {S : Str} (err : Int) (father : snd_config_t) (a b : input_t)
    (h : Sim S a b ∨ Pending S a b) :
    ParseSim S (parse_def_end err father a) (parse_def_end err father b) := by
  have hc := get_nonwhite_sim a b h
  unfold parse_def_end
  simp only
  rcases hc with ⟨h1, h2, h3, h4, h5, h6⟩ | ⟨h1, h2, h3⟩
  · rw [h3]
    split
    · exact ⟨rfl, rfl, Or.inl (sim_consume h6 h4 h5)⟩
    · exact ⟨rfl, rfl, Or.inl h6⟩
  · rw [h1, h2]
    have e1 : ¬ (EOF = 59 ∨ EOF = 44) := by decide
    have e2 : ¬ ((125 : Int) = 59 ∨ (125 : Int) = 44) := by decide
    simp only [e1, e2, if_false]
    exact ⟨rfl, rfl, Or.inr (past_unget h3)⟩

theorem parse_defs_sim_step {S : Str} (L : libc_double) (n : Nat)
    (hD : ParseDefSim L S n) (hE : ParseDefsSim L S n) : ParseDefsSim L S (n + 1) := by
  intro father a b r hrel hT
  have hc := get_nonwhite_sim a b hrel
  simp only [parse_defs] at hT ⊢
  by_cases he : (get_nonwhite a).1 = EOF
  · obtain ⟨e1, e3⟩ := charSim_at_end hc he
    simp only [he, if_true, Option.some.injEq] at hT
    subst hT
    have e4 : ¬ (get_nonwhite b).1 = EOF := by rw [e1]; decide
    simp only [e4, if_false, e1, if_true]
    exact Or.inl ⟨_, rfl, rfl, rfl, Or.inr ⟨e3.1, e3.2.1, rfl, rfl, e3.2.2.2⟩⟩
  · obtain ⟨c1, c2⟩ := charSim_char hc he
    have hU := charSim_unget hc
    rw [c1] at hU
    have e4 : ¬ (get_nonwhite b).1 = EOF := by rw [c1]; exact he
    simp only [he, e4, if_false, c1] at hT ⊢
    by_cases h125 : (get_nonwhite a).1 = 125
    · simp only [h125, if_true, Option.some.injEq] at hT ⊢
      subst hT
      rw [h125] at hU
      exact Or.inl ⟨_, rfl, rfl, rfl, Or.inl hU⟩
    · simp only [h125, if_false] at hT ⊢
      cases hd : parse_def L n father (unget_char (get_nonwhite a).1 (get_nonwhite a).2) with
      | none => simp only [hd] at hT; cases hT
      | some d =>
        simp only [hd] at hT
        rcases hD father _ _ d hU hd with ⟨d', hd', d1, d2, d3⟩ | ⟨d1, d2⟩
        · simp only [hd', d1, d2]
          by_cases hneg : d.err < 0
          · simp only [hneg, if_true, Option.some.injEq] at hT ⊢
            subst hT
            exact Or.inl ⟨_, rfl, d1, d2, Or.inl d3⟩
          · simp only [hneg, if_false] at hT ⊢
            exact hE d.father d.input d'.input r d3 hT
        · simp only [d1, if_true, Option.some.injEq] at hT
          subst hT
          exact Or.inr ⟨d1, d2⟩

theorem parse_array_defs_sim_step {S : Str} (L : libc_double) (n : Nat)
    (hB : ParseArrayDefsFromSim L S n) : ParseArrayDefsSim L S (n + 1) := by
  intro father a b r hrel hT
  simp only [parse_array_defs] at hT ⊢
  exact hB father a b 0 r hrel hT

theorem parse_array_defs_from_sim_step {S : Str} (L : libc_double) (n : Nat)
    (hA : ParseArrayDefSim L S n) (hB : ParseArrayDefsFromSim L S n) :
    ParseArrayDefsFromSim L S (n + 1) := by
  intro father a b idx r hrel hT
  have hc := get_nonwhite_sim a b hrel
  simp only [parse_array_defs_from] at hT ⊢
  by_cases he : (get_nonwhite a).1 = EOF
  · obtain ⟨_, e3⟩ := charSim_at_end hc he
    simp only [he, if_true, Option.some.injEq] at hT
    subst hT
    exact Or.inr (past_atEnd e3)
  · obtain ⟨c1, c2⟩ := charSim_char hc he
    have hU := charSim_unget hc
    rw [c1] at hU
    have e4 : ¬ (get_nonwhite b).1 = EOF := by rw [c1]; exact he
    simp only [he, e4, if_false, c1] at hT ⊢
    by_cases h93 : (get_nonwhite a).1 = 93
    · simp only [h93, if_true, Option.some.injEq] at hT ⊢
      subst hT
      rw [h93] at hU
      exact Or.inl ⟨_, rfl, rfl, rfl, hU⟩
    · simp only [h93, if_false] at hT ⊢
      cases hd : parse_array_def L n father
          (unget_char (get_nonwhite a).1 (get_nonwhite a).2) idx with
      | none => simp only [hd] at hT; cases hT
      | some d =>
        simp only [hd] at hT
        rcases hA father _ _ idx d hU hd with ⟨d', hd', d1, d2, d3⟩ | ⟨d1, d2⟩
        · simp only [hd', d1, d2]
          by_cases hneg : d.err < 0
          · simp only [hneg, if_true, Option.some.injEq] at hT ⊢
            subst hT
            exact Or.inl ⟨_, rfl, d1, d2, d3⟩
          · simp only [hneg, if_false] at hT ⊢
            exact hB d.father d.input d'.input (idx + 1) r d3 hT
        · simp only [d1, if_true, Option.some.injEq] at hT
          subst hT
          exact Or.inr d2

/-- The body of a compound or of an array and the character behind it are read
alike, unless the text ends there. -/
theorem body_sim {S : Str} (L : libc_double) (n : Nat)
    (hE : ParseDefsSim L S n) (hC : ParseArrayDefsSim L S n) (c : Int) (node : snd_config_t)
    (x x' : input_t) (hx : Sim S x x') (bT : parse_result)
    (hT : (if c = 123 then parse_defs L n node x else parse_array_defs L n node x) = some bT) :
    (∃ bE, (if c = 123 then parse_defs L n node x' else parse_array_defs L n node x')
        = some bE ∧ bE.err = bT.err ∧ bE.father = bT.father ∧
        (get_nonwhite bE.input).1 = (get_nonwhite bT.input).1 ∧
        Sim S (get_nonwhite bT.input).2 (get_nonwhite bE.input).2) ∨
      ((get_nonwhite bT.input).1 = EOF ∧ AtEnd (get_nonwhite bT.input).2) := by
  have hfin : ∀ bE : parse_result, (Sim S bT.input bE.input ∨ Pending S bT.input bE.input) →
      ((get_nonwhite bE.input).1 = (get_nonwhite bT.input).1 ∧
        Sim S (get_nonwhite bT.input).2 (get_nonwhite bE.input).2) ∨
      ((get_nonwhite bT.input).1 = EOF ∧ AtEnd (get_nonwhite bT.input).2) := by
    intro bE hrel
    have hc := get_nonwhite_sim _ _ hrel
    by_cases he : (get_nonwhite bT.input).1 = EOF
    · exact Or.inr ⟨he, past_atEnd (charSim_at_end hc he).2⟩
    · exact Or.inl (charSim_char hc he)
  by_cases h123 : c = 123
  · simp only [h123, if_true] at hT ⊢
    rcases hE node x x' bT (Or.inl hx) hT with ⟨bE, h1, h2, h3, h4 | h4⟩ | ⟨_, h2⟩
    · rcases hfin bE h4 with h5 | h5
      · exact Or.inl ⟨bE, h1, h2, h3, h5.1, h5.2⟩
      · exact Or.inr h5
    · exact Or.inr (get_nonwhite_at_end _
        ⟨h4.2.1, fun hu => by rw [h4.1] at hu; cases hu⟩)
    · exact Or.inr (get_nonwhite_at_end _ h2)
  · simp only [h123, if_false] at hT ⊢
    rcases hC node x x' bT (Or.inl hx) hT with ⟨bE, h1, h2, h3, h4⟩ | h2
    · rcases hfin bE h4 with h5 | h5
      · exact Or.inl ⟨bE, h1, h2, h3, h5.1, h5.2⟩
      · exact Or.inr h5
    · exact Or.inr (get_nonwhite_at_end _ h2)


theorem parse_array_def_sim_step {S : Str} (L : libc_double) (n : Nat)
    (hE : ParseDefsSim L S n) (hC : ParseArrayDefsSim L S n) :
    ParseArrayDefSim L S (n + 1) := by
  intro father a b idx r hrel hT
  have hc := get_nonwhite_sim a b hrel
  have hU := charSim_unget hc
  simp only [parse_array_def] at hT ⊢
  by_cases hb : (get_nonwhite a).1 = 123 ∨ (get_nonwhite a).1 = 91
  · have hne : (get_nonwhite a).1 ≠ EOF := by
      rcases hb with h | h <;> rw [h] <;> decide
    obtain ⟨c1, c2⟩ := charSim_char hc hne
    rw [c1]
    simp only [hb, if_true] at hT ⊢
    cases hbody : (if (get_nonwhite a).1 = 123
        then parse_defs L n (.compound (some (dec_nat idx)) false []) (get_nonwhite a).2
        else parse_array_defs L n (.compound (some (dec_nat idx)) false [])
          (get_nonwhite a).2) with
    | none => simp only [hbody] at hT; cases hT
    | some bT =>
      simp only [hbody] at hT
      rcases body_sim L n hE hC _ _ _ _ c2 bT hbody with ⟨bE, h1, h2, h3, h4, h5⟩ | ⟨h4, h5⟩
      · simp only [h1, h4, h3]
        by_cases hend : (get_nonwhite bT.input).1 ≠
            (if (get_nonwhite a).1 = 123 then (125 : Int) else 93)
        · rw [if_pos hend] at hT ⊢
          simp only [Option.some.injEq] at hT
          subst hT
          exact Or.inl ⟨_, rfl, rfl, rfl, Or.inl (sim_error h5 _ _)⟩
        · rw [if_neg hend] at hT ⊢
          simp only [Option.some.injEq] at hT
          subst hT
          exact Or.inl ⟨_, rfl, rfl, rfl, Or.inl h5⟩
      · have hend : (get_nonwhite bT.input).1 ≠
            (if (get_nonwhite a).1 = 123 then (125 : Int) else 93) := by
          rw [h4]
          split <;> decide
        rw [if_pos hend] at hT
        simp only [Option.some.injEq] at hT
        subst hT
        exact Or.inr ⟨(by decide : -EINVAL < 0), h5⟩
  · have hb' : ¬ ((get_nonwhite b).1 = 123 ∨ (get_nonwhite b).1 = 91) := by
      rcases hc with ⟨_, _, h3, _⟩ | ⟨_, h2, _⟩
      · rw [h3]; exact hb
      · rw [h2]; decide
    simp only [hb, hb', if_false] at hT ⊢
    rcases parse_value_sim L none father (dec_nat idx) _ _ hU with ⟨v1, v2, v3⟩ | ⟨v1, v2⟩
    · rw [v1]
      split at hT
      · rename_i hneg
        simp only [Option.some.injEq] at hT
        subst hT
        simp only [hneg, if_true]
        exact Or.inl ⟨_, rfl, v1, v2, v3⟩
      · rename_i hneg
        simp only [Option.some.injEq] at hT
        subst hT
        simp only [hneg, if_false]
        exact Or.inl ⟨_, rfl, rfl, v2, v3⟩
    · simp only [v1, if_true, Option.some.injEq] at hT
      subst hT
      exact Or.inr ⟨v1, v2⟩

theorem parse_def_sim_step {S : Str} (L : libc_double) (n : Nat)
    (hD : ParseDefSim L S n) (hE : ParseDefsSim L S n) (hC : ParseArrayDefsSim L S n) :
    ParseDefSim L S (n + 1) := by
  intro father a b r hrel hT
  have hc0 := get_nonwhite_sim a b hrel
  have hU := charSim_unget hc0
  simp only [parse_def] at hT ⊢
  rcases get_string_sim true _ _ hU with ⟨g1, g2, g3⟩ | ⟨g1, g2⟩
  swap
  · simp only [g1, if_true, Option.some.injEq] at hT
    subst hT
    exact Or.inr ⟨g1, g2⟩
  rw [g1, g2]
  generalize get_string true (unget_char (get_nonwhite a).1 (get_nonwhite a).2) = gT
    at hT g1 g2 g3 ⊢
  generalize get_string true (unget_char (get_nonwhite b).1 (get_nonwhite b).2) = gE
    at g1 g2 g3 ⊢
  by_cases hg : gT.err < 0
  · simp only [hg, if_true, Option.some.injEq] at hT ⊢
    subst hT
    exact Or.inl ⟨_, rfl, rfl, rfl, g3⟩
  simp only [hg, if_false] at hT ⊢
  have hc1 := get_nonwhite_sim _ _ g3
  by_cases h46 : (get_nonwhite gT.input).1 = 46
  · obtain ⟨c1, c2⟩ := charSim_char hc1 (by rw [h46]; decide)
    rw [c1]
    simp only [h46, if_true] at hT ⊢
    cases hsi : search_index father gT.string with
    | none =>
      simp only [hsi] at hT ⊢
      cases hd : parse_def L n (.compound (some gT.string) true []) (get_nonwhite gT.input).2 with
      | none => simp only [hd] at hT; cases hT
      | some d =>
        simp only [hd, Option.some.injEq] at hT
        subst hT
        rcases hD _ _ _ d (Or.inl c2) hd with ⟨d', hd', d1, d2, d3⟩ | ⟨d1, d2⟩
        · simp only [hd']
          exact Or.inl ⟨_, rfl, d1, by simp only [d2], d3⟩
        · exact Or.inr ⟨d1, d2⟩
    | some k =>
      simp only [hsi] at hT ⊢
      cases hk : (fields father)[k]? with
      | none =>
        simp only [hk, Option.some.injEq] at hT ⊢
        subst hT
        exact Or.inl ⟨_, rfl, rfl, rfl, Or.inl c2⟩
      | some x =>
        cases x with
        | compound i j fs =>
          simp only [hk] at hT ⊢
          cases hd : parse_def L n (.compound i true fs) (get_nonwhite gT.input).2 with
          | none => simp only [hd] at hT; cases hT
          | some d =>
            simp only [hd, Option.some.injEq] at hT
            subst hT
            rcases hD _ _ _ d (Or.inl c2) hd with ⟨d', hd', d1, d2, d3⟩ | ⟨d1, d2⟩
            · simp only [hd']
              exact Or.inl ⟨_, rfl, d1, by simp only [d2], d3⟩
            · exact Or.inr ⟨d1, d2⟩
        | integer i v =>
          simp only [hk, Option.some.injEq] at hT ⊢
          subst hT
          exact Or.inl ⟨_, rfl, rfl, rfl, Or.inl c2⟩
        | real i v =>
          simp only [hk, Option.some.injEq] at hT ⊢
          subst hT
          exact Or.inl ⟨_, rfl, rfl, rfl, Or.inl c2⟩
        | string i v =>
          simp only [hk, Option.some.injEq] at hT ⊢
          subst hT
          exact Or.inl ⟨_, rfl, rfl, rfl, Or.inl c2⟩
  · have h46' : ¬ (get_nonwhite gE.input).1 = 46 := by
      rcases hc1 with ⟨_, _, h3, _⟩ | ⟨_, h2, _⟩
      · rw [h3]; exact h46
      · rw [h2]; decide
    simp only [h46, h46', if_false] at hT ⊢
    have hc2 : CharSim S
        (if (get_nonwhite gT.input).1 = 61 then get_nonwhite (get_nonwhite gT.input).2
          else get_nonwhite gT.input)
        (if (get_nonwhite gE.input).1 = 61 then get_nonwhite (get_nonwhite gE.input).2
          else get_nonwhite gE.input) := by
      rcases hc1 with ⟨h1, h2, h3, h4, h5, h6⟩ | ⟨h1, h2, h3⟩
      · rw [h3]
        split
        · exact get_nonwhite_sim _ _ (Or.inl (sim_consume h6 h4 h5))
        · exact Or.inl ⟨h1, h2, h3, h4, h5, h6⟩
      · have e1 : ¬ (get_nonwhite gT.input).1 = 61 := by rw [h1]; decide
        have e2 : ¬ (get_nonwhite gE.input).1 = 61 := by rw [h2]; decide
        rw [if_neg e1, if_neg e2]
        exact Or.inr ⟨h1, h2, h3⟩
    generalize (if (get_nonwhite gT.input).1 = 61 then get_nonwhite (get_nonwhite gT.input).2
      else get_nonwhite gT.input) = r2 at hT hc2 ⊢
    generalize (if (get_nonwhite gE.input).1 = 61 then get_nonwhite (get_nonwhite gE.input).2
      else get_nonwhite gE.input) = r2' at hc2 ⊢
    have hU2 := charSim_unget hc2
    by_cases hb : r2.1 = 123 ∨ r2.1 = 91
    · have hne : r2.1 ≠ EOF := by
        rcases hb with h | h <;> rw [h] <;> decide
      obtain ⟨c1, c2⟩ := charSim_char hc2 hne
      rw [c1]
      simp only [hb, if_true] at hT ⊢
      cases hsi : search_index father gT.string with
      | none =>
        simp only [hsi] at hT ⊢
        cases hbody : (if r2.1 = 123 then parse_defs L n (.compound (some gT.string) false []) r2.2
            else parse_array_defs L n (.compound (some gT.string) false []) r2.2) with
        | none => simp only [hbody] at hT; cases hT
        | some bT =>
          simp only [hbody] at hT
          rcases body_sim L n hE hC _ _ _ _ c2 bT hbody with
            ⟨bE, h1, h2, h3, h4, h5⟩ | ⟨h4, h5⟩
          · simp only [h1, h4, h3, h2]
            by_cases hend : (get_nonwhite bT.input).1 ≠
                (if r2.1 = 123 then (125 : Int) else 93)
            · rw [if_pos hend] at hT ⊢
              simp only [Option.some.injEq] at hT
              subst hT
              exact Or.inl ⟨_, rfl, rfl, rfl, Or.inl (sim_error h5 _ _)⟩
            · rw [if_neg hend] at hT ⊢
              simp only [Option.some.injEq] at hT
              subst hT
              exact Or.inl ⟨_, rfl, parse_def_end_sim _ _ _ _ (Or.inl h5)⟩
          · have hend : (get_nonwhite bT.input).1 ≠
                (if r2.1 = 123 then (125 : Int) else 93) := by
              rw [h4]
              split <;> decide
            rw [if_pos hend] at hT
            simp only [Option.some.injEq] at hT
            subst hT
            exact Or.inr ⟨(by decide : -EINVAL < 0), h5⟩
      | some k =>
        simp only [hsi] at hT ⊢
        cases hk : (fields father)[k]? with
        | none =>
          simp only [hk, Option.some.injEq] at hT ⊢
          subst hT
          exact Or.inl ⟨_, rfl, rfl, rfl, Or.inl c2⟩
        | some x =>
          cases x with
          | compound i j fs =>
            simp only [hk] at hT ⊢
            cases hbody : (if r2.1 = 123 then parse_defs L n (.compound i j fs) r2.2
                else parse_array_defs L n (.compound i j fs) r2.2) with
            | none => simp only [hbody] at hT; cases hT
            | some bT =>
              simp only [hbody] at hT
              rcases body_sim L n hE hC _ _ _ _ c2 bT hbody with
                ⟨bE, h1, h2, h3, h4, h5⟩ | ⟨h4, h5⟩
              · simp only [h1, h4, h3, h2]
                by_cases hend : (get_nonwhite bT.input).1 ≠
                    (if r2.1 = 123 then (125 : Int) else 93)
                · rw [if_pos hend] at hT ⊢
                  simp only [Option.some.injEq] at hT
                  subst hT
                  exact Or.inl ⟨_, rfl, rfl, rfl, Or.inl (sim_error h5 _ _)⟩
                · rw [if_neg hend] at hT ⊢
                  simp only [Option.some.injEq] at hT
                  subst hT
                  exact Or.inl ⟨_, rfl, parse_def_end_sim _ _ _ _ (Or.inl h5)⟩
              · have hend : (get_nonwhite bT.input).1 ≠
                    (if r2.1 = 123 then (125 : Int) else 93) := by
                  rw [h4]
                  split <;> decide
                rw [if_pos hend] at hT
                simp only [Option.some.injEq] at hT
                subst hT
                exact Or.inr ⟨(by decide : -EINVAL < 0), h5⟩
          | integer i v =>
            simp only [hk, Option.some.injEq] at hT ⊢
            subst hT
            exact Or.inl ⟨_, rfl, rfl, rfl, Or.inl c2⟩
          | real i v =>
            simp only [hk, Option.some.injEq] at hT ⊢
            subst hT
            exact Or.inl ⟨_, rfl, rfl, rfl, Or.inl c2⟩
          | string i v =>
            simp only [hk, Option.some.injEq] at hT ⊢
            subst hT
            exact Or.inl ⟨_, rfl, rfl, rfl, Or.inl c2⟩
    · have hb' : ¬ (r2'.1 = 123 ∨ r2'.1 = 91) := by
        rcases hc2 with ⟨_, _, h3, _⟩ | ⟨_, h2, _⟩
        · rw [h3]; exact hb
        · rw [h2]; decide
      simp only [hb, hb', if_false] at hT ⊢
      rcases parse_value_sim L (search_index father gT.string) father gT.string _ _ hU2 with
        ⟨v1, v2, v3⟩ | ⟨v1, v2⟩
      · rw [v1]
        split at hT
        · rename_i hneg
          simp only [Option.some.injEq] at hT
          subst hT
          simp only [hneg, if_true]
          exact Or.inl ⟨_, rfl, v1, v2, v3⟩
        · rename_i hneg
          simp only [Option.some.injEq] at hT
          subst hT
          simp only [hneg, if_false]
          rw [v2]
          exact Or.inl ⟨_, rfl, parse_def_end_sim _ _ _ _ v3⟩
      · simp only [v1, if_true, Option.some.injEq] at hT
        subst hT
        exact Or.inr ⟨v1, v2⟩

/-- The parser reads the text followed by `}` and `S` as it reads the text
alone, up to the end of the text. -/
theorem parse_sim_all {S : Str} (L : libc_double) : ∀ n : Nat,
    ParseDefSim L S n ∧ ParseDefsSim L S n ∧ ParseArrayDefSim L S n ∧
      ParseArrayDefsFromSim L S n ∧ ParseArrayDefsSim L S n := by
  intro n
  induction n with
  | zero =>
    refine ⟨?_, ?_, ?_, ?_, ?_⟩
    · intro father a b r _ hT; simp [parse_def] at hT
    · intro father a b r _ hT; simp [parse_defs] at hT
    · intro father a b idx r _ hT; simp [parse_array_def] at hT
    · intro father a b idx r _ hT; simp [parse_array_defs_from] at hT
    · intro father a b r _ hT; simp [parse_array_defs] at hT
  | succ n ih =>
    obtain ⟨hD, hE, hA, hB, hC⟩ := ih
    exact ⟨parse_def_sim_step L n hD hE hC, parse_defs_sim_step L n hD hE,
      parse_array_def_sim_step L n hE hC, parse_array_defs_from_sim_step L n hA hB,
      parse_array_defs_sim_step L n hB⟩

/-- Claim C20, amended: a failed load does not restore the destination.  For
every destination tree `config`, every text `T` without `<` that is empty or
ends with a newline and that `snd_config_load` loads into `config` with the
status 0, leaving the tree `F1`, and every text `S`: the load of `T` followed by
`}` and `S`, with the same fuel, returns `-EINVAL` and leaves `F1`, all that
was parsed before the unmatched brace. -/
theorem snd_config_load_failed_keeps (L : libc_double) (fuel : Nat)
    (config F1 : snd_config_t) (T S : Str)
    (hlt : 60 ∉ T) (hnl : T = [] ∨ T.getLast? = some 10)
    (h : snd_config_load L fuel config T = some (0, F1)) :
    snd_config_load L fuel config (T ++ 125 :: S) = some (-EINVAL, F1) := by
  unfold snd_config_load at h ⊢
  have hsim : Sim S ⟨T, false, 0, 0⟩ ⟨T ++ 125 :: S, false, 0, 0⟩ := by
    refine ⟨rfl, rfl, hlt, ?_, fun hu => by cases hu⟩
    rcases hnl with h1 | h1
    · exact Or.inr ⟨h1, fun hu => by cases hu⟩
    · exact Or.inl h1
  cases hp : parse_defs L fuel config ⟨T, false, 0, 0⟩ with
  | none => simp only [hp] at h; cases h
  | some r =>
    simp only [hp] at h
    have hr : r.err = 0 ∧ r.father = F1 ∧ (get_char r.input).1 = EOF := by
      split at h
      · rename_i hneg
        simp only [Option.some.injEq, Prod.mk.injEq] at h
        omega
      · split at h
        · simp only [Option.some.injEq, Prod.mk.injEq] at h
          exact absurd h.1 (by decide)
        · rename_i hne
          simp only [Option.some.injEq, Prod.mk.injEq] at h
          exact ⟨h.1, h.2, by simpa using hne⟩
    obtain ⟨r1, r2, r3⟩ := hr
    rcases (parse_sim_all L fuel).2.1 config _ _ r (Or.inl hsim) hp with
      ⟨r', h1, h2, h3, h4⟩ | ⟨h1, _⟩
    · have hne : (get_char r'.input).1 ≠ EOF := by
        rcases h4 with h4 | h4
        · exact charSim_ne_eof (get_char_sim h4)
        · obtain ⟨_, _, h5, h6, _⟩ := h4
          simp only [get_char, h5, h6, if_true]
          decide
      have hn0 : ¬ r'.err < 0 := by rw [h2, r1]; decide
      simp only [h1, hn0, if_false, hne, ne_eq, not_false_eq_true, if_true, h3, r2]
    · rw [r1] at h1
      exact absurd h1 (by decide)

/-- Witness of C20: the text `a 1`, `b x` is loaded with the status 0; followed
by `}` and a further definition it gives `-EINVAL`, and `a` and `b` stay in the
top node. -/
theorem snd_config_load_failed_keeps_example :
    snd_config_load libc_no_real 8 snd_config_top (cstr "a 1\nb x\n")
      = some (0, .compound none false
          [.integer (some (cstr "a")) 1, .string (some (cstr "b")) (cstr "x")]) ∧
    snd_config_load libc_no_real 8 snd_config_top (cstr "a 1\nb x\n" ++ 125 :: cstr " c 2\n")
      = some (-EINVAL, .compound none false
          [.integer (some (cstr "a")) 1, .string (some (cstr "b")) (cstr "x")]) :=
  ⟨by decide!,
    snd_config_load_failed_keeps libc_no_real 8 snd_config_top _ (cstr "a 1\nb x\n")
      (cstr " c 2\n") (by decide) (by decide) (by decide!)⟩

end Conf
